import Mathlib

/-! # gh-dash: issue / pull-request detail view

A shallow embedding of the detail-view controller of gh-dash
(`internal/tui/components/issueview`, `internal/tui/components/prview`,
`internal/tui/modelEditorComment.go`) and theorems about it.

Conventions of the embedding

* A Go `string` is a list of characters (`GoString`); the strings handled here
  are valid UTF-8, so splitting on the one-byte separators `\n` and `#` is the
  same on bytes and on characters.
* A Go `int` is an `Int`; no operation below leaves the 64-bit range.
* A `time.Time` is the instant it denotes, an `Int`; `Before` is `<`.
* A pointer that may be `nil` is an `Option`.
* A method with a pointer receiver is a function returning the new model.
-/

namespace GhDash

/-- A Go string: a sequence of characters. -/
abbrev GoString := List Char

/-! ## Data (package `data`, fields used by the views) -/

/-- The field `Author struct { Login string }`. -/
structure Actor where
  Login : GoString
  deriving DecidableEq, Repr

/-- The type `data.IssueComment`. -/
structure IssueComment where
  Author : Actor
  Body : GoString
  UpdatedAt : Int
  deriving DecidableEq, Repr

/-- The type `data.Label`. -/
structure Label where
  Name : GoString
  deriving DecidableEq, Repr

/-- The type `data.IssueData`, with `Comments.Nodes`, `Labels.Nodes` and
`Assignees.Nodes` flattened to lists. -/
structure IssueData where
  Number : Int
  RepoNameWithOwner : GoString
  Title : GoString
  Body : GoString
  State : GoString
  Url : GoString
  Author : Actor
  Labels : List Label
  Assignees : List Actor
  Comments : List IssueComment
  deriving DecidableEq, Repr

/-- The fields of `context.ProgramContext` the issue view reads. -/
structure ProgramContext where
  User : GoString
  MainContentHeight : Int
  deriving DecidableEq, Repr

/-- The type `issuerow.Issue`. -/
structure Issue where
  Ctx : ProgramContext
  Data : IssueData
  deriving DecidableEq, Repr

/-- Modelled from the spec: the embedded text-input sub-widget
(`inputbox.Model`, not among the sources). It holds the text, the prompt, the
height of the input area and the focus; `SetValue` stores the text and `Value`
returns it. -/
structure InputBox where
  value : GoString
  prompt : GoString
  height : Int
  focused : Bool
  deriving DecidableEq, Repr

/-- Modelled from the spec: the autocomplete overlay (`autocomplete.Model`,
not among the sources): whether the suggestion panel is shown and the
suggestions it offers. -/
structure Autocomplete where
  visible : Bool
  suggestions : List GoString
  deriving DecidableEq, Repr

/-- The commands (`tea.Cmd`) the issue view returns, as a syntax tree: the
blink of the cursor and the focus of the input, sequences and batches, the
mutating commands (`m.comment`, `m.label`, `m.assign`, `m.unassign`, declared
outside the sources), the fetch of the labels of a repository, and the
commands of the embedded sub-widgets. -/
inductive Cmd where
  | blink
  | focus
  | sequence (cs : List Cmd)
  | batch (cs : List Cmd)
  | comment (body : GoString)
  | label (labels : List GoString)
  | assign (usernames : List GoString)
  | unassign (usernames : List GoString)
  | fetchLabels (repoName : Option GoString)
  | widget (id : Nat)
  deriving Repr

/-- The package constants of `common` and `constants` read by the issue view
(declared outside the sources, taken as a parameter). -/
structure Constants where
  InputBoxHeight : Int
  CommentPrompt : GoString
  deriving DecidableEq, Repr

/-- Modelled from the spec: `inputbox.NewModel` and `autocomplete.NewModel`
(not among the sources) give an empty, unfocused input and a hidden panel. -/
def InputBox.new : InputBox :=
  { value := [], prompt := [], height := 0, focused := false }

/-- Modelled from the spec: the method `inputbox.Model.SetHeight`. -/
def InputBox.SetHeight (b : InputBox) (h : Int) : InputBox :=
  { b with height := h }

/-- Modelled from the spec: the method `inputbox.Model.Reset` clears the text. -/
def InputBox.Reset (b : InputBox) : InputBox :=
  { b with value := [] }

/-- Modelled from the spec: the method `inputbox.Model.SetValue`. -/
def InputBox.SetValue (b : InputBox) (v : GoString) : InputBox :=
  { b with value := v }

/-- Modelled from the spec: the method `inputbox.Model.SetPrompt`. -/
def InputBox.SetPrompt (b : InputBox) (p : GoString) : InputBox :=
  { b with prompt := p }

/-- Modelled from the spec: the method `inputbox.Model.Focus`; the command it
returns is `Cmd.focus`. -/
def InputBox.Focus (b : InputBox) : InputBox :=
  { b with focused := true }

/-- Modelled from the spec: the method `inputbox.Model.Blur`. -/
def InputBox.Blur (b : InputBox) : InputBox :=
  { b with focused := false }

/-! ## The issue view model (`issueview.Model`) -/

/-- The type `issueview.Model`. -/
structure Model where
  ctx : ProgramContext
  issue : Option Issue
  sectionId : Int
  width : Int
  ShowConfirmCancel : Bool
  isCommenting : Bool
  isLabeling : Bool
  isAssigning : Bool
  isUnassigning : Bool
  isCommentNavMode : Bool
  selectedCommentIndex : Int
  inputBox : InputBox
  ac : Autocomplete
  repoLabels : List Label
  deriving DecidableEq, Repr

/-- The function `NewModel`. The field `ctx`, which `NewModel` leaves for the
owner to set (`UpdateProgramContext`; the tests assign it right away), is set
here: the view never runs without it. -/
def NewModel (K : Constants) (ctx : ProgramContext) : Model :=
  { ctx := ctx
    issue := none
    sectionId := 0
    width := 0
    ShowConfirmCancel := false
    isCommenting := false
    isLabeling := false
    isAssigning := false
    isUnassigning := false
    isCommentNavMode := false
    selectedCommentIndex := -1
    inputBox := InputBox.new.SetHeight (K.InputBoxHeight - 5)
    ac := { visible := false, suggestions := [] }
    repoLabels := [] }

/-- The method `GetNumComments`. -/
def GetNumComments (m : Model) : Nat :=
  match m.issue with
  | none => 0
  | some i => i.Data.Comments.length

/-- The method `SetRow`. -/
def SetRow (m : Model) (data : Option IssueData) : Model :=
  let isNewIssue : Bool :=
    match data, m.issue with
    | some d, some i => if i.Data.Url = d.Url then false else true
    | _, _ => true
  let m1 : Model :=
    match data with
    | none => { m with issue := none }
    | some d => { m with issue := some { Ctx := m.ctx, Data := d } }
  if isNewIssue then
    { m1 with selectedCommentIndex := -1, isCommentNavMode := false }
  else m1

/-- Whether `SetRow` sees a new issue: no snapshot, no current issue, or a
different URL. -/
def IsNewIssue (m : Model) (data : Option IssueData) : Prop :=
  ∀ i d, m.issue = some i → data = some d → i.Data.Url ≠ d.Url

/-- The method `EnterCommentNavMode`. -/
def EnterCommentNavMode (m : Model) : Model :=
  if m.issue = none ∨ GetNumComments m = 0 then m
  else
    let m1 := { m with isCommentNavMode := true }
    if m1.selectedCommentIndex < 0 then { m1 with selectedCommentIndex := 0 } else m1

/-- The method `ExitCommentNavMode`. -/
def ExitCommentNavMode (m : Model) : Model :=
  { m with isCommentNavMode := false, selectedCommentIndex := -1 }

/-- The method `SelectNextComment`. -/
def SelectNextComment (m : Model) : Model :=
  let numComments : Int := GetNumComments m
  if numComments = 0 then m
  else if m.selectedCommentIndex < numComments - 1 then
    { m with selectedCommentIndex := m.selectedCommentIndex + 1 }
  else m

/-- The method `SelectPrevComment`. -/
def SelectPrevComment (m : Model) : Model :=
  if m.selectedCommentIndex > 0 then
    { m with selectedCommentIndex := m.selectedCommentIndex - 1 }
  else if m.selectedCommentIndex = -1 ∧ GetNumComments m > 0 then
    { m with selectedCommentIndex := 0 }
  else m

/-- The method `ResetCommentSelection`. -/
def ResetCommentSelection (m : Model) : Model :=
  { m with selectedCommentIndex := -1 }

/-! ## Strings (packages `strings`, `unicode`, `fmt`, `bufio`) -/

/-- The function `unicode.IsSpace`: the Latin-1 white space and the other
code points of the Unicode property White_Space. -/
def IsSpace (c : Char) : Bool :=
  let r := c.toNat
  (0x09 ≤ r && r ≤ 0x0D) || r == 0x20 || r == 0x85 || r == 0xA0 || r == 0x1680 ||
  (0x2000 ≤ r && r ≤ 0x200A) || r == 0x2028 || r == 0x2029 || r == 0x202F ||
  r == 0x205F || r == 0x3000

/-- The function `strings.TrimSpace`: the string without its leading and
trailing white space. -/
def TrimSpace (s : GoString) : GoString :=
  (s.dropWhile IsSpace).rdropWhile IsSpace

/-- The function `strings.HasPrefix`. -/
def HasPrefix (s p : GoString) : Bool :=
  p.isPrefixOf s

/-- The function `strings.Split` for a separator of one character (the only
use in the sources is `strings.Split(body, "\n")`): the pieces between the
separators, at least one. -/
def Split (s : GoString) (sep : Char) : List GoString :=
  match s with
  | [] => [[]]
  | c :: rest =>
    if c = sep then [] :: Split rest sep
    else
      match Split rest sep with
      | [] => [[c]]
      | l :: ls => (c :: l) :: ls

/-- The function `strings.Join`. -/
def Join (elems : List GoString) (sep : GoString) : GoString :=
  match elems with
  | [] => []
  | [a] => a
  | a :: b :: rest => a ++ sep ++ Join (b :: rest) sep

/-- The verb `%d` of `fmt` on an `int`. -/
def formatInt (n : Int) : GoString :=
  if n < 0 then '-' :: Nat.toDigits 10 n.natAbs else Nat.toDigits 10 n.natAbs

/-- The length of a string in bytes (UTF-8). -/
def byteLen (s : GoString) : Nat :=
  (s.map Char.utf8Size).sum

/-- The constant `bufio.MaxScanTokenSize`, the size a `bufio.Scanner` buffer
grows to; the sources never call `Scanner.Buffer`. -/
def MaxScanTokenSize : Nat := 64 * 1024

/-- The function `dropCR` of `bufio`: a line without its trailing `\r`. -/
def dropCR (line : GoString) : GoString :=
  if line.getLast? = some '\r' then line.dropLast else line

/-- The lines `for scanner.Scan() { scanner.Text() }` yields over a
`bufio.NewScanner` (split function `ScanLines`), `cur` being the part of the
current line already read. A line ends at `\n` or at the end of the input, an
empty last line is no line, and a trailing `\r` is dropped. When a line of
`MaxScanTokenSize` bytes or more fills the buffer before its end is seen,
`Scan` fails with `ErrTooLong` and returns false: the loop ends there. -/
def scanLinesFrom (cur : GoString) : GoString → List GoString
  | [] =>
    if cur = [] then []
    else if MaxScanTokenSize ≤ byteLen cur then []
    else [dropCR cur]
  | c :: rest =>
    if c = '\n' then
      if MaxScanTokenSize ≤ byteLen cur then []
      else dropCR cur :: scanLinesFrom [] rest
    else scanLinesFrom (cur ++ [c]) rest

/-- The lines the scanner loop yields over a whole file. -/
def scanLines (content : GoString) : List GoString :=
  scanLinesFrom [] content

/-! ## The external editor workflow (`modelEditorComment.go`) -/

/-- The type `editorCommentFinishedMsg`. -/
structure editorCommentFinishedMsg where
  Body : GoString
  Number : Int
  RepoName : GoString
  IsPR : Bool
  SectionId : Int
  SectionType : GoString
  deriving DecidableEq, Repr

/-- The messages the exit callback of the editor returns. -/
inductive EditorMsg where
  | ErrMsg (text : GoString)
  | Finished (msg : editorCommentFinishedMsg)
  deriving DecidableEq, Repr

/-- The header `openEditorComment` writes to the temp file. -/
def editorHeader (isPR : Bool) (number : Int) (repoName : GoString) : GoString :=
  let kind := if !isPR then "issue".toList else "PR".toList
  "# Comment on ".toList ++ kind ++ " #".toList ++ formatInt number ++ " in ".toList ++
    repoName ++ "\n".toList ++
    "# Lines starting with '#' will be ignored.\n".toList ++
    "# Save and quit to submit. Leave empty to cancel.\n".toList

/-- The lines the exit callback keeps: those the scanner yields that do not
begin with `#`. -/
def keptLines (content : GoString) : List GoString :=
  (scanLines content).filter (fun line => !HasPrefix line "#".toList)

/-- The body the exit callback computes from the content of the temp file. -/
def editorBody (content : GoString) : GoString :=
  TrimSpace (Join (keptLines content) "\n".toList)

/-- The exit callback of `openEditorComment`: `err` is the error of the
editor process, `file` the content of the temp file when it could be opened. -/
def editorExit (number : Int) (repoName : GoString) (isPR : Bool) (sectionId : Int)
    (sectionType : GoString) (err : Option GoString) (file : Option GoString) : EditorMsg :=
  match err with
  | some e => .ErrMsg ("editor exited with error: ".toList ++ e)
  | none =>
    match file with
    | none => .ErrMsg "failed to read temp file".toList
    | some content =>
      .Finished
        { Body := editorBody content
          Number := number
          RepoName := repoName
          IsPR := isPR
          SectionId := sectionId
          SectionType := sectionType }

/-- The lines of a text file as `ScanLines` splits them, whatever their
length: what the scanner loop yields when no line is too long for its
buffer. -/
def fileLinesFrom (cur : GoString) : GoString → List GoString
  | [] => if cur = [] then [] else [dropCR cur]
  | c :: rest =>
    if c = '\n' then dropCR cur :: fileLinesFrom [] rest
    else fileLinesFrom (cur ++ [c]) rest

/-- The lines of a whole text file. -/
def fileLines (content : GoString) : List GoString :=
  fileLinesFrom [] content

/-- The submitted body as the specification words it: the lines that do not
begin with `#`, joined with newlines and trimmed. -/
def specBody (content : GoString) : GoString :=
  TrimSpace (Join ((fileLines content).filter (fun line => !HasPrefix line "#".toList))
    "\n".toList)

/-- The first line of the header. -/
def headerFirstLine (isPR : Bool) (number : Int) (repoName : GoString) : GoString :=
  "# Comment on ".toList ++ (if !isPR then "issue".toList else "PR".toList) ++ " #".toList ++
    formatInt number ++ " in ".toList ++ repoName

/-- The other lines of the header. -/
def headerRest : GoString :=
  "# Lines starting with '#' will be ignored.\n".toList ++
    "# Save and quit to submit. Leave empty to cancel.\n".toList

/-! ## Quote reply (`SetIsQuoteReplying`) -/

/-- The method `expandInputBoxForCommenting`. The height
`int(float64(MainContentHeight) * 0.75)` is the quotient of `3 * h` by 4
truncated toward zero: the product is exact in `float64` for every height
below `2^51` in absolute value. -/
def expandInputBoxForCommenting (K : Constants) (m : Model) : Model :=
  let expandedHeight := (3 * m.ctx.MainContentHeight).tdiv 4
  let expandedHeight := if expandedHeight < K.InputBoxHeight then K.InputBoxHeight
    else expandedHeight
  { m with inputBox := m.inputBox.SetHeight expandedHeight }

/-- The lines `SetIsQuoteReplying` collects in `quotedLines`. -/
def quotedLines (comment : IssueComment) : List GoString :=
  let quotedLines : List GoString := []
  let quotedLines := quotedLines ++ ["> @".toList ++ comment.Author.Login ++ " wrote:".toList]
  let quotedLines := quotedLines ++ [">".toList]
  let bodyLines := Split comment.Body '\n'
  let quotedLines := bodyLines.foldl (fun acc line => acc ++ ["> ".toList ++ line]) quotedLines
  let quotedLines := quotedLines ++ [[]]
  let quotedLines := quotedLines ++ [[]]
  quotedLines

/-- The method `SetIsQuoteReplying`, with the command it returns. -/
def SetIsQuoteReplying (K : Constants) (m : Model) (comment : Option IssueComment) :
    Model × Option Cmd :=
  match m.issue, comment with
  | some _, some c =>
    let m := { m with inputBox := m.inputBox.Reset }
    let m := { m with isCommenting := true }
    let m := expandInputBoxForCommenting K m
    let quotedText := Join (quotedLines c) "\n".toList
    let m := { m with inputBox := m.inputBox.SetValue quotedText }
    let m := { m with inputBox := m.inputBox.SetPrompt "Reply to comment...".toList }
    let m := { m with inputBox := m.inputBox.Focus }
    (m, some (.sequence [.blink, .focus]))
  | _, _ => (m, none)

/-! ## Sorting (`sort.Slice`, package `sort`) -/

/-- The call `data.Less(i, j)` of a `lessSwap` over the slice `d`: the
comparison of the elements at `i` and `j`. -/
def lessAt {α : Type} (less : α → α → Bool) (d : List α) (i j : Nat) : Bool :=
  match d[i]?, d[j]? with
  | some x, some y => less x y
  | _, _ => false

/-- The call `data.Swap(i, j)` of a `lessSwap` over the slice `d`. -/
def swapAt {α : Type} (d : List α) (i j : Nat) : List α :=
  match d[i]?, d[j]? with
  | some x, some y => (d.set i y).set j x
  | _, _ => d

/-- The inner loop of `insertionSort_func`,
`for j := i; j > a && data.Less(j, j-1); j--`, from `j` on. -/
def insertionSortInner {α : Type} (less : α → α → Bool) (a : Nat) : Nat → List α → List α
  | 0, d => d
  | j + 1, d =>
    if a < j + 1 && lessAt less d (j + 1) j then
      insertionSortInner less a j (swapAt d (j + 1) j)
    else d

/-- The outer loop of `insertionSort_func`, `for i := a + 1; i < b; i++`, from
`i` on, with at most `n` rounds. -/
def insertionSortOuter {α : Type} (less : α → α → Bool) (a b : Nat) :
    Nat → Nat → List α → List α
  | 0, _, d => d
  | n + 1, i, d =>
    if i < b then insertionSortOuter less a b n (i + 1) (insertionSortInner less a i d)
    else d

/-- The function `insertionSort_func`: sorts `data[a:b]` by insertion. -/
def insertionSort_func {α : Type} (less : α → α → Bool) (d : List α) (a b : Nat) : List α :=
  insertionSortOuter less a b (b - (a + 1)) (a + 1) d

/-- The loop of `siftDown_func` from `root` on, with at most `n` rounds (the
root grows in every round and stays below `hi`). -/
def siftDownLoop {α : Type} (less : α → α → Bool) (hi first : Nat) :
    Nat → Nat → List α → List α
  | 0, _, d => d
  | n + 1, root, d =>
    let child := 2 * root + 1
    if hi ≤ child then d
    else
      let child :=
        if child + 1 < hi && lessAt less d (first + child) (first + child + 1) then child + 1
        else child
      if !lessAt less d (first + root) (first + child) then d
      else siftDownLoop less hi first n child (swapAt d (first + root) (first + child))

/-- The function `siftDown_func`. -/
def siftDown_func {α : Type} (less : α → α → Bool) (d : List α) (lo hi first : Nat) : List α :=
  siftDownLoop less hi first hi lo d

/-- The first loop of `heapSort_func`, `for i := (hi - 1) / 2; i >= 0; i--`,
with `n = i + 1`. -/
def heapSortBuild {α : Type} (less : α → α → Bool) (hi first : Nat) : Nat → List α → List α
  | 0, d => d
  | i + 1, d => heapSortBuild less hi first i (siftDown_func less d i hi first)

/-- The second loop of `heapSort_func`, `for i := hi - 1; i >= 0; i--`, with
`n = i + 1`. -/
def heapSortPop {α : Type} (less : α → α → Bool) (first : Nat) : Nat → List α → List α
  | 0, d => d
  | i + 1, d =>
    heapSortPop less first i (siftDown_func less (swapAt d first (first + i)) 0 i first)

/-- The function `heapSort_func`. -/
def heapSort_func {α : Type} (less : α → α → Bool) (d : List α) (a b : Nat) : List α :=
  let first := a
  let hi := b - a
  let d := heapSortBuild less hi first ((hi - 1) / 2 + 1) d
  heapSortPop less first hi d

/-- The loop `for i <= j && p(i) { i++ }`, with at most `n` rounds. -/
def scanUp (p : Nat → Bool) : Nat → Nat → Nat → Nat
  | 0, i, _ => i
  | n + 1, i, j => if i ≤ j && p i then scanUp p n (i + 1) j else i

/-- The loop `for i <= j && p(j) { j-- }`, with at most `n` rounds. -/
def scanDown (p : Nat → Bool) : Nat → Nat → Nat → Nat
  | 0, _, j => j
  | n + 1, i, j => if i ≤ j && p j then scanDown p n i (j - 1) else j

/-- The closing loop of `partition_func`, with at most `n` rounds: the slice
and the final `j`. -/
def partitionLoop {α : Type} (less : α → α → Bool) (a b : Nat) :
    Nat → List α → Nat → Nat → List α × Nat
  | 0, d, _, j => (d, j)
  | n + 1, d, i, j =>
    let i := scanUp (fun i => lessAt less d i a) (b - a) i j
    let j := scanDown (fun j => !lessAt less d j a) (b - a) i j
    if j < i then (d, j)
    else partitionLoop less a b n (swapAt d i j) (i + 1) (j - 1)

/-- The function `partition_func`: the slice, the new pivot and whether the
slice was already partitioned. -/
def partition_func {α : Type} (less : α → α → Bool) (d : List α) (a b pivot : Nat) :
    List α × Nat × Bool :=
  let d := swapAt d a pivot
  let i := a + 1
  let j := b - 1
  let i := scanUp (fun i => lessAt less d i a) (b - a) i j
  let j := scanDown (fun j => !lessAt less d j a) (b - a) i j
  if j < i then (swapAt d j a, j, true)
  else
    let d := swapAt d i j
    let r := partitionLoop less a b (b - a) d (i + 1) (j - 1)
    (swapAt r.1 r.2 a, r.2, false)

/-- The loop of `partitionEqual_func`, with at most `n` rounds: the slice and
the final `i`. -/
def partitionEqualLoop {α : Type} (less : α → α → Bool) (a b : Nat) :
    Nat → List α → Nat → Nat → List α × Nat
  | 0, d, i, _ => (d, i)
  | n + 1, d, i, j =>
    let i := scanUp (fun i => !lessAt less d a i) (b - a) i j
    let j := scanDown (fun j => lessAt less d a j) (b - a) i j
    if j < i then (d, i)
    else partitionEqualLoop less a b n (swapAt d i j) (i + 1) (j - 1)

/-- The function `partitionEqual_func`. -/
def partitionEqual_func {α : Type} (less : α → α → Bool) (d : List α) (a b pivot : Nat) :
    List α × Nat :=
  let d := swapAt d a pivot
  partitionEqualLoop less a b (b - a + 1) d (a + 1) (b - 1)

/-- The loop `for j := i - 1; j >= 1; j--` of `partialInsertionSort_func`
that shifts the smaller element to the left, with `n = j`. -/
def shiftLeft {α : Type} (less : α → α → Bool) : Nat → List α → List α
  | 0, d => d
  | j + 1, d =>
    if !lessAt less d (j + 1) j then d
    else shiftLeft less j (swapAt d (j + 1) j)

/-- The loop `for j := i + 1; j < b; j++` of `partialInsertionSort_func` that
shifts the greater element to the right, with at most `n` rounds. -/
def shiftRight {α : Type} (less : α → α → Bool) (b : Nat) : Nat → Nat → List α → List α
  | 0, _, d => d
  | n + 1, j, d =>
    if j < b then
      if !lessAt less d j (j - 1) then d
      else shiftRight less b n (j + 1) (swapAt d j (j - 1))
    else d

/-- The loop `for i < b && p(i) { i++ }`, with at most `n` rounds. -/
def scanWhile (p : Nat → Bool) (b : Nat) : Nat → Nat → Nat
  | 0, i => i
  | n + 1, i => if i < b && p i then scanWhile p b n (i + 1) else i

/-- The loop `for j := 0; j < maxSteps; j++` of `partialInsertionSort_func`,
with `n` steps left. -/
def partialInsertionSortLoop {α : Type} (less : α → α → Bool) (a b : Nat) :
    Nat → Nat → List α → List α × Bool
  | 0, _, d => (d, false)
  | n + 1, i, d =>
    let i := scanWhile (fun i => !lessAt less d i (i - 1)) b (b - a) i
    if i = b then (d, true)
    else if b - a < 50 then (d, false)
    else
      let d := swapAt d i (i - 1)
      let d := if 2 ≤ i - a then shiftLeft less (i - 1) d else d
      let d := if 2 ≤ b - i then shiftRight less b (b - i) (i + 1) d else d
      partialInsertionSortLoop less a b n i d

/-- The function `partialInsertionSort_func`: the slice and whether it is
sorted at the end. -/
def partialInsertionSort_func {α : Type} (less : α → α → Bool) (d : List α) (a b : Nat) :
    List α × Bool :=
  partialInsertionSortLoop less a b 5 (a + 1) d

/-- The function `bits.Len`: the number of bits of `n`, with `n` rounds. -/
def bitsLenLoop : Nat → Nat → Nat
  | 0, _ => 0
  | f + 1, n => if n = 0 then 0 else 1 + bitsLenLoop f (n / 2)

/-- The function `bits.Len` on a 64-bit word. -/
def bitsLen (n : Nat) : Nat :=
  bitsLenLoop 64 n

/-- The method `xorshift.Next` on a 64-bit state. -/
def xorshiftNext (r : Nat) : Nat :=
  let r := (r ^^^ (r <<< 13)) % 2 ^ 64
  let r := r ^^^ (r >>> 7)
  let r := (r ^^^ (r <<< 17)) % 2 ^ 64
  r

/-- The function `nextPowerOfTwo`. -/
def nextPowerOfTwo (length : Nat) : Nat :=
  1 <<< bitsLen length

/-- The loop `for i := 0; i < 3; i++` of `breakPatterns_func`, with `n` rounds
left. -/
def breakPatternsLoop {α : Type} (a length modulus idx : Nat) :
    Nat → Nat → Nat → List α → List α
  | 0, _, _, d => d
  | n + 1, i, random, d =>
    let random := xorshiftNext random
    let other := random &&& (modulus - 1)
    let other := if length ≤ other then other - length else other
    breakPatternsLoop a length modulus idx n (i + 1) random (swapAt d (idx - 1 + i) (a + other))

/-- The function `breakPatterns_func`. -/
def breakPatterns_func {α : Type} (d : List α) (a b : Nat) : List α :=
  let length := b - a
  if 8 ≤ length then
    let random := length
    let modulus := nextPowerOfTwo length
    let idx := a + (length / 4) * 2 - 1
    breakPatternsLoop a length modulus idx 3 0 random d
  else d

/-- The type `sortedHint`. -/
inductive sortedHint where
  | unknownHint
  | increasingHint
  | decreasingHint
  deriving DecidableEq, Repr

/-- The function `order2_func`: the two indices in order, and the count of
swaps. -/
def order2_func {α : Type} (less : α → α → Bool) (d : List α) (a b swaps : Nat) :
    Nat × Nat × Nat :=
  if lessAt less d b a then (b, a, swaps + 1) else (a, b, swaps)

/-- The function `median_func`: the index of the median of three, and the
count of swaps. -/
def median_func {α : Type} (less : α → α → Bool) (d : List α) (a b c swaps : Nat) :
    Nat × Nat :=
  let r1 := order2_func less d a b swaps
  let r2 := order2_func less d r1.2.1 c r1.2.2
  let r3 := order2_func less d r1.1 r2.1 r2.2.2
  (r3.2.1, r3.2.2)

/-- The function `medianAdjacent_func`. -/
def medianAdjacent_func {α : Type} (less : α → α → Bool) (d : List α) (a swaps : Nat) :
    Nat × Nat :=
  median_func less d (a - 1) a (a + 1) swaps

/-- The function `choosePivot_func`. -/
def choosePivot_func {α : Type} (less : α → α → Bool) (d : List α) (a b : Nat) :
    Nat × sortedHint :=
  let l := b - a
  let swaps := 0
  let i := a + l / 4 * 1
  let j := a + l / 4 * 2
  let k := a + l / 4 * 3
  let r : Nat × Nat :=
    if 8 ≤ l then
      let t : Nat × Nat × Nat × Nat :=
        if 50 ≤ l then
          let ri := medianAdjacent_func less d i swaps
          let rj := medianAdjacent_func less d j ri.2
          let rk := medianAdjacent_func less d k rj.2
          (ri.1, rj.1, rk.1, rk.2)
        else (i, j, k, swaps)
      median_func less d t.1 t.2.1 t.2.2.1 t.2.2.2
    else (j, swaps)
  if r.2 = 0 then (r.1, .increasingHint)
  else if r.2 = 4 * 3 then (r.1, .decreasingHint)
  else (r.1, .unknownHint)

/-- The loop of `reverseRange_func`, with at most `n` rounds. -/
def reverseRangeLoop {α : Type} : Nat → Nat → Nat → List α → List α
  | 0, _, _, d => d
  | n + 1, i, j, d => if i < j then reverseRangeLoop n (i + 1) (j - 1) (swapAt d i j) else d

/-- The function `reverseRange_func`. -/
def reverseRange_func {α : Type} (d : List α) (a b : Nat) : List α :=
  reverseRangeLoop (b - a) a (b - 1) d

/-- The first part of a round of the loop of `pdqsort_func`, up to the choice
between the two partitions: `breakPatterns_func` after an unbalanced
partition (the limit goes down by one), the choice of the pivot, the reversal
of a slice that looks descending, and `partialInsertionSort_func` on a slice
that looks sorted. The result is the slice, the limit, the pivot and whether
the slice is now sorted. -/
def pdqsortPivot {α : Type} (less : α → α → Bool) (d : List α) (a b limit : Nat)
    (wasBalanced wasPartitioned : Bool) : List α × Nat × Nat × Bool :=
  let d := if !wasBalanced then breakPatterns_func d a b else d
  let limit := if !wasBalanced then limit - 1 else limit
  let ph := choosePivot_func less d a b
  let d := if ph.2 = .decreasingHint then reverseRange_func d a b else d
  let pivot := if ph.2 = .decreasingHint then (b - 1) - (ph.1 - a) else ph.1
  let hint := if ph.2 = .decreasingHint then sortedHint.increasingHint else ph.2
  let ps : List α × Bool :=
    if wasBalanced && wasPartitioned && hint = .increasingHint then
      partialInsertionSort_func less d a b
    else (d, false)
  (ps.1, limit, pivot, ps.2)

/-- The function `pdqsort_func`: sorts `data[a:b]`. Every round of its loop
and every call of itself is given a strictly shorter range, `fuel` bounds
their number, and `none` is the answer of a run that is out of fuel. The
flags `wasBalanced` and `wasPartitioned` are those of the running loop; a
call of itself starts with both true. -/
def pdqsort_func {α : Type} (less : α → α → Bool) :
    Nat → List α → Nat → Nat → Nat → Bool → Bool → Option (List α)
  | 0, _, _, _, _, _, _ => none
  | fuel + 1, d, a, b, limit, wasBalanced, wasPartitioned =>
    let length := b - a
    if length ≤ 12 then some (insertionSort_func less d a b)
    else if limit = 0 then some (heapSort_func less d a b)
    else
      let s := pdqsortPivot less d a b limit wasBalanced wasPartitioned
      let d := s.1
      let limit := s.2.1
      let pivot := s.2.2.1
      if s.2.2.2 then some d
      else if 0 < a && !lessAt less d (a - 1) pivot then
        let pe := partitionEqual_func less d a b pivot
        pdqsort_func less fuel pe.1 pe.2 b limit wasBalanced wasPartitioned
      else
        let pt := partition_func less d a b pivot
        let d := pt.1
        let mid := pt.2.1
        let wasPartitioned := pt.2.2
        let leftLen := mid - a
        let rightLen := b - mid
        let balanceThreshold := length / 8
        if leftLen < rightLen then
          let wasBalanced := decide (balanceThreshold ≤ leftLen)
          match pdqsort_func less fuel d a mid limit true true with
          | none => none
          | some d => pdqsort_func less fuel d (mid + 1) b limit wasBalanced wasPartitioned
        else
          let wasBalanced := decide (balanceThreshold ≤ rightLen)
          match pdqsort_func less fuel d (mid + 1) b limit true true with
          | none => none
          | some d => pdqsort_func less fuel d a mid limit wasBalanced wasPartitioned

/-- The function `sort.Slice` over a slice `x` whose elements `less` compares:
`pdqsort_func` on the whole slice, with `limit = bits.Len(length)`. -/
def Slice {α : Type} (less : α → α → Bool) (x : List α) : Option (List α) :=
  pdqsort_func less (x.length + 1) x 0 x.length (bitsLen x.length) true true

/-- The routine `sort.Slice` as the views call it: it takes the comparison
of two elements and the slice, and gives the sorted slice back. -/
abbrev SliceSort := (α : Type) → (α → α → Bool) → List α → List α

/-- The routine `sort.Slice` of the Go library, `Slice`; its run never lacks
fuel, and a slice is its own result where it would. -/
def goSlice : SliceSort :=
  fun _ less x => (Slice less x).getD x

/-- What the documentation of `sort.Slice` promises for a comparison by a
key: the result holds the elements of the slice, in ascending order of the
key. It does not promise to be stable. -/
def SortsByKey (sortSlice : SliceSort) : Prop :=
  ∀ (α : Type) (key : α → Int) (x : List α),
    (sortSlice α (fun a b => decide (key a < key b)) x).Perm x ∧
    (sortSlice α (fun a b => decide (key a < key b)) x).Pairwise (fun a b => key a ≤ key b)

/-- Insertion of `a` before the first element that is not smaller. -/
def stableInsert {α : Type} (less : α → α → Bool) (a : α) : List α → List α
  | [] => [a]
  | b :: l => if less b a then b :: stableInsert less a l else a :: b :: l

/-- A stable sort: ascending, elements that compare equal keep their order. -/
def stableSort {α : Type} (less : α → α → Bool) : List α → List α
  | [] => []
  | a :: l => stableInsert less a (stableSort less l)

/-- The stable sort as a `sort.Slice`. -/
def stableSlice : SliceSort :=
  fun _ less x => stableSort less x

/-! ## The selected comment (`GetSelectedComment`) -/

/-- The type `indexedComment` local to `GetSelectedComment`. -/
structure indexedComment where
  index : Nat
  comment : IssueComment
  deriving DecidableEq, Repr

/-- The method `GetSelectedComment`. The outer `none` is a run-time panic
(an index out of range); inside, `none` is the `nil` result. -/
def GetSelectedComment (sortSlice : SliceSort) (m : Model) : Option (Option IssueComment) :=
  match m.issue with
  | none => some none
  | some issue =>
    if m.selectedCommentIndex < 0 then some none
    else
      let comments := issue.Data.Comments
      if (comments.length : Int) ≤ m.selectedCommentIndex then some none
      else
        let sorted := comments.enum.map (fun p => indexedComment.mk p.1 p.2)
        let sorted := sortSlice indexedComment
          (fun x y => decide (x.comment.UpdatedAt < y.comment.UpdatedAt)) sorted
        match sorted[m.selectedCommentIndex.toNat]? with
        | none => none
        | some x => some (some x.comment)

/-! ## The activity feed of a pull request (`prview`) -/

/-- The type `data.ReviewComment`. -/
structure ReviewComment where
  Author : Actor
  Body : GoString
  UpdatedAt : Int
  deriving DecidableEq, Repr

/-- The type of a review thread, `Comments.Nodes` flattened. -/
structure ReviewThread where
  Path : GoString
  Line : Int
  Comments : List ReviewComment
  deriving DecidableEq, Repr

/-- The type `data.Comment`. -/
structure Comment where
  Author : Actor
  Body : GoString
  UpdatedAt : Int
  deriving DecidableEq, Repr

/-- The type `data.Review`. -/
structure Review where
  Author : Actor
  Body : GoString
  State : GoString
  UpdatedAt : Int
  deriving DecidableEq, Repr

/-- The fields of the pull request data that `renderActivity` reads:
`IsEnriched`, `Enriched.ReviewThreads.Nodes`, `Enriched.Comments.Nodes` and
`Primary.Reviews.Nodes`. -/
structure PrData where
  IsEnriched : Bool
  ReviewThreads : List ReviewThread
  Comments : List Comment
  Reviews : List Review
  deriving DecidableEq, Repr

/-- The fields of `prview.Model` that `renderActivity` reads, and the width
`getIndentedContentWidth` gives (a method declared outside the sources). -/
structure PrModel where
  pr : PrData
  contentWidth : Int
  isCommentNavMode : Bool
  selectedCommentIndex : Int
  deriving DecidableEq, Repr

/-- The type `comment` of `prview`. -/
structure comment where
  Author : GoString
  UpdatedAt : Int
  Body : GoString
  Path : Option GoString
  Line : Option Int
  deriving DecidableEq, Repr

/-- The type `prview.RenderedActivity`. -/
structure RenderedActivity where
  UpdatedAt : Int
  RenderedString : GoString
  IsComment : Bool
  deriving DecidableEq, Repr

/-- The collaborators of `renderActivity` outside the sources, taken as a
parameter: the markdown renderer (`none` when `Render` returns an error), the
clean-up of `lineCleanupRegex`, and the layout the styles give to a comment,
a review and the whole feed. -/
structure PrRenderer where
  markdown : Int → GoString → Option GoString
  lineCleanup : GoString → GoString
  commentLayout : Int → comment → Bool → GoString → GoString
  reviewLayout : Int → Review → GoString → GoString
  feedLayout : Nat → List GoString → GoString
  bodyStyle : GoString → GoString
  italic : GoString → GoString

/-- The method `renderComment` of `prview`: `none` when the markdown renderer
fails. -/
def renderComment (R : PrRenderer) (m : PrModel) (c : comment) (isSelected : Bool) :
    Option GoString :=
  let width := m.contentWidth
  match R.markdown width (R.lineCleanup c.Body) with
  | none => none
  | some body => some (R.commentLayout width c isSelected body)

/-- The method `renderReview`: `none` when the markdown renderer fails. -/
def renderReview (R : PrRenderer) (m : PrModel) (review : Review) : Option GoString :=
  let width := m.contentWidth
  match R.markdown width review.Body with
  | none => none
  | some body => some (R.reviewLayout width review body)

/-- The comments `renderActivity` collects: those of every review thread, with
the path and line of the thread, then the top-level comments. -/
def collectComments (pr : PrData) : List comment :=
  let comments : List comment := []
  let comments := pr.ReviewThreads.foldl (fun comments review =>
    review.Comments.foldl (fun comments c =>
      comments ++ [{ Author := c.Author.Login, Body := c.Body, UpdatedAt := c.UpdatedAt,
                     Path := some review.Path, Line := some review.Line }]) comments) comments
  pr.Comments.foldl (fun comments c =>
    comments ++ [{ Author := c.Author.Login, Body := c.Body, UpdatedAt := c.UpdatedAt,
                   Path := none, Line := none }]) comments

/-- The entry the loop over the sorted comments appends for the comment `c`
at index `idx`, if it renders. -/
def commentActivity (R : PrRenderer) (m : PrModel) (idx : Nat) (c : comment) :
    Option RenderedActivity :=
  let isSelected := m.isCommentNavMode && decide ((idx : Int) = m.selectedCommentIndex)
  match renderComment R m c isSelected with
  | none => none
  | some renderedComment =>
    some { UpdatedAt := c.UpdatedAt, RenderedString := renderedComment, IsComment := true }

/-- The entry the loop over the reviews appends for a review, if it
renders. -/
def reviewActivity (R : PrRenderer) (m : PrModel) (review : Review) :
    Option RenderedActivity :=
  match renderReview R m review with
  | none => none
  | some renderedReview =>
    some { UpdatedAt := review.UpdatedAt, RenderedString := renderedReview,
           IsComment := false }

/-- One round of a rendering loop of `renderActivity`: an item that failed
to render is skipped (`continue`), the entry of one that rendered is
appended. -/
def appendRendered (activities : List RenderedActivity) :
    Option RenderedActivity → List RenderedActivity
  | none => activities
  | some a => activities ++ [a]

/-- The slice `activities` of `renderActivity` after its last sort: the
rendered comments and reviews in the order they are displayed. -/
def displayedActivities (sortSlice : SliceSort) (R : PrRenderer) (m : PrModel) :
    List RenderedActivity :=
  let activities : List RenderedActivity := []
  let comments := collectComments m.pr
  let comments := sortSlice comment (fun x y => decide (x.UpdatedAt < y.UpdatedAt)) comments
  let activities := comments.enum.foldl (fun activities p =>
    appendRendered activities (commentActivity R m p.1 p.2)) activities
  let activities := m.pr.Reviews.foldl (fun activities review =>
    appendRendered activities (reviewActivity R m review)) activities
  sortSlice RenderedActivity (fun x y => decide (x.UpdatedAt < y.UpdatedAt)) activities

/-- The function `renderEmptyState`. -/
def renderEmptyState (R : PrRenderer) : GoString :=
  R.italic "No comments...".toList

/-- The method `renderActivity` of `prview`. -/
def renderActivity (sortSlice : SliceSort) (R : PrRenderer) (m : PrModel) : GoString :=
  if !m.pr.IsEnriched then R.bodyStyle "Loading...".toList
  else
    let activities := displayedActivities sortSlice R m
    let body :=
      if activities.length = 0 then renderEmptyState R
      else R.feedLayout activities.length (activities.map (fun a => a.RenderedString))
    R.bodyStyle body

/-- An item of the activity of a pull request: a comment (inline or
top-level) or a whole review. -/
inductive PrItem where
  | comment (c : comment)
  | review (r : Review)
  deriving DecidableEq, Repr

/-- The update time of an item. -/
def PrItem.UpdatedAt : PrItem → Int
  | .comment c => c.UpdatedAt
  | .review r => r.UpdatedAt

/-- All the items of a pull request: the collected comments, then the
reviews. -/
def allItems (pr : PrData) : List PrItem :=
  (collectComments pr).map PrItem.comment ++ pr.Reviews.map PrItem.review

/-- The entry `a` of the feed displays the item: it has its update time and
kind, and its text is the rendering of the item (of a comment, selected or
not). -/
def Displays (R : PrRenderer) (m : PrModel) : PrItem → RenderedActivity → Prop
  | .comment c, a =>
    a.UpdatedAt = c.UpdatedAt ∧ a.IsComment = true ∧
      ∃ isSelected, renderComment R m c isSelected = some a.RenderedString
  | .review r, a =>
    a.UpdatedAt = r.UpdatedAt ∧ a.IsComment = false ∧
      renderReview R m r = some a.RenderedString

/-! ## The test fixture of `issueview_test.go` -/

/-- The comments `newTestModelWithComments` builds, from index `i` on: body
`Comment body` and login `user` followed by the character `'1' + i`, update
time `now` plus `i` hours (in nanoseconds). -/
def testComments (now : Int) : Nat → Nat → List IssueComment
  | _, 0 => []
  | i, n + 1 =>
    { Author := { Login := "user".toList ++ [Char.ofNat ('1'.toNat + i)] }
      Body := "Comment body ".toList ++ [Char.ofNat ('1'.toNat + i)]
      UpdatedAt := now + (i : Int) * 3600000000000 } :: testComments now (i + 1) n

/-- The issue data of the fixture, at a given URL. -/
def testIssueData (url : GoString) (comments : List IssueComment) : IssueData :=
  { Number := 0, RepoNameWithOwner := [], Title := "Test Issue".toList, Body := []
    State := [], Url := url, Author := { Login := [] }, Labels := [], Assignees := []
    Comments := comments }

/-- The context of the fixture. -/
def testCtx : ProgramContext := { User := [], MainContentHeight := 50 }

/-- The constants used with the fixture. -/
def testConstants : Constants :=
  { InputBoxHeight := 8, CommentPrompt := "Leave a comment...".toList }

/-- The helper `newTestModelWithComments` of the tests. -/
def newTestModelWithComments (numComments : Nat) : Model :=
  { NewModel testConstants testCtx with
    issue := some
      { Ctx := testCtx
        Data := testIssueData "https://github.com/test/repo/issues/1".toList
          (testComments 0 0 numComments) } }

/-- Comments with the given update times, the `i`-th by the user `user`
followed by the `i`-th letter. -/
def commentsWithTimes (times : List Int) : List IssueComment :=
  times.enum.map (fun p =>
    { Author := { Login := "user".toList ++ [Char.ofNat ('a'.toNat + p.1)] }
      Body := "Comment body".toList
      UpdatedAt := p.2 })

/-- Thirteen update times, the second and the last equal. -/
def tieTimes : List Int := [2, 3, 1, 4, 5, 6, 7, 8, 9, 10, 11, 12, 3]

/-- The fixture with thirteen comments at the times `tieTimes`, the comment
at index 2 selected. -/
def tieModel : Model :=
  { NewModel testConstants testCtx with
    issue := some
      { Ctx := testCtx
        Data := testIssueData "https://github.com/test/repo/issues/1".toList
          (commentsWithTimes tieTimes) }
    isCommentNavMode := true
    selectedCommentIndex := 2 }

/-- A renderer that shows a comment as the login of its author. -/
def loginRenderer : PrRenderer :=
  { markdown := fun _ body => some body
    lineCleanup := fun body => body
    commentLayout := fun _ c _ _ => c.Author
    reviewLayout := fun _ r _ => r.Author.Login
    feedLayout := fun _ l => Join l "\n".toList
    bodyStyle := fun s => s
    italic := fun s => s }

/-- A pull request with thirteen top-level comments at the times `tieTimes`,
the `i`-th by the user `user` followed by the `i`-th letter. -/
def tiePr : PrModel :=
  { pr :=
      { IsEnriched := true
        ReviewThreads := []
        Comments := (commentsWithTimes tieTimes).map (fun c =>
          { Author := c.Author, Body := c.Body, UpdatedAt := c.UpdatedAt })
        Reviews := [] }
    contentWidth := 80
    isCommentNavMode := false
    selectedCommentIndex := -1 }

/-- A pull request with two review threads (three inline comments), three
top-level comments and three whole reviews, all at different update times,
with the comment at index 2 selected. -/
def mixedPr : PrModel :=
  { pr :=
      { IsEnriched := true
        ReviewThreads :=
          [{ Path := "a.go".toList, Line := 10
             Comments :=
               [{ Author := { Login := "alice".toList }, Body := "inline 1".toList
                  UpdatedAt := 5 },
                { Author := { Login := "bob".toList }, Body := "inline 2".toList
                  UpdatedAt := 1 }] },
           { Path := "b.go".toList, Line := 3
             Comments :=
               [{ Author := { Login := "carol".toList }, Body := "inline 3".toList
                  UpdatedAt := 9 }] }]
        Comments :=
          [{ Author := { Login := "dave".toList }, Body := "top 1".toList, UpdatedAt := 4 },
           { Author := { Login := "erin".toList }, Body := "top 2".toList, UpdatedAt := 2 },
           { Author := { Login := "frank".toList }, Body := "top 3".toList, UpdatedAt := 7 }]
        Reviews :=
          [{ Author := { Login := "gina".toList }, Body := "review 1".toList
             State := "APPROVED".toList, UpdatedAt := 6 },
           { Author := { Login := "hugo".toList }, Body := "review 2".toList
             State := "COMMENTED".toList, UpdatedAt := 3 },
           { Author := { Login := "ivy".toList }, Body := "review 3".toList
             State := "CHANGES_REQUESTED".toList, UpdatedAt := 8 }] }
    contentWidth := 80
    isCommentNavMode := true
    selectedCommentIndex := 2 }

/-! ## Keys (`tea.KeyMsg` of bubbletea, `key.Binding` of bubbles) -/

/-- The key types (`tea.KeyType`) the issue view tells apart; `KeyOther` is any
other key type, with its entry in the table `keyNames` when it has one. -/
inductive KeyType where
  | KeyRunes
  | KeyEsc
  | KeyCtrlC
  | KeyCtrlD
  | KeyTab
  | KeyEnter
  | KeyOther (name : Option GoString)
  deriving DecidableEq, Repr

/-- The type `tea.KeyMsg` (a `tea.Key`); the field `type` is the field `Type`. -/
structure KeyMsg where
  type : KeyType
  Runes : GoString
  Alt : Bool
  Paste : Bool
  deriving DecidableEq, Repr

/-- The table `keyNames` of bubbletea, for the key types that are not runes. -/
def KeyType.name : KeyType → Option GoString
  | .KeyRunes => some "runes".toList
  | .KeyEsc => some "esc".toList
  | .KeyCtrlC => some "ctrl+c".toList
  | .KeyCtrlD => some "ctrl+d".toList
  | .KeyTab => some "tab".toList
  | .KeyEnter => some "enter".toList
  | .KeyOther name => name

/-- The method `Key.String` of bubbletea: `alt+` when Alt is held, then the
runes (in brackets when pasted) or the name of the key; the empty string for a
key type without a name. -/
def KeyMsg.String (k : KeyMsg) : GoString :=
  let buf : GoString := if k.Alt then "alt+".toList else []
  match k.type with
  | .KeyRunes =>
    let buf := if k.Paste then buf ++ ['['] else buf
    let buf := buf ++ k.Runes
    if k.Paste then buf ++ [']'] else buf
  | t =>
    match t.name with
    | some s => buf ++ s
    | none => []

/-- The type `key.Binding` of bubbles: the keys bound and whether the binding
is disabled. -/
structure Binding where
  keys : List GoString
  disabled : Bool
  deriving DecidableEq, Repr

/-- The function `key.Matches` for one binding: the binding is enabled and
one of its keys is the string of the key pressed. -/
def Matches (k : KeyMsg) (b : Binding) : Bool :=
  !b.disabled && b.keys.contains k.String

/-- The bindings `keys.IssueKeys` the issue view reads: a package variable
declared outside the sources, which the configuration and the tests rebind. -/
structure IssueKeyMap where
  Label : Binding
  Assign : Binding
  Unassign : Binding
  Comment : Binding
  Close : Binding
  Reopen : Binding
  EnterCommentNavMode : Binding
  NextComment : Binding
  PrevComment : Binding
  QuoteReply : Binding
  EditorComment : Binding
  deriving DecidableEq, Repr

/-! ## Actions (`action.go`) and messages -/

/-- The type `IssueActionType`. -/
inductive IssueActionType where
  | IssueActionNone
  | IssueActionLabel
  | IssueActionAssign
  | IssueActionUnassign
  | IssueActionComment
  | IssueActionClose
  | IssueActionReopen
  | IssueActionQuoteReply
  | IssueActionNextComment
  | IssueActionPrevComment
  | IssueActionEnterCommentNavMode
  | IssueActionEditorComment
  deriving DecidableEq, Repr

/-- The type `IssueAction`; the field `type` is the field `Type`. -/
structure IssueAction where
  type : IssueActionType
  deriving DecidableEq, Repr

/-- The messages `Update` tells apart: the two results of a label fetch, the
request of the autocomplete for suggestions, a key, the two messages handed to
the autocomplete, and any other message. -/
inductive Msg where
  | RepoLabelsFetchedMsg (Labels : List Label)
  | RepoLabelsFetchFailedMsg (Err : GoString)
  | FetchSuggestionsRequestedMsg (Force : Bool)
  | KeyMsg (k : KeyMsg)
  | TickMsg
  | ClearFetchStatusMsg
  | Other
  deriving DecidableEq, Repr

/-! ## The label cache (package `data`) -/

/-- Modelled from the spec: the process-wide label cache of package `data`
(not among the sources), keyed by repository: the entries, newest first. -/
abbrev LabelCache := List (GoString × List Label)

/-- Modelled from the spec: the function `data.GetCachedRepoLabels`, the entry
of a repository when there is one. -/
def GetCachedRepoLabels (cache : LabelCache) (repoName : GoString) : Option (List Label) :=
  (cache.find? (fun e => decide (e.1 = repoName))).map (fun e => e.2)

/-- Modelled from the spec: the function `data.ClearRepoLabelCache`, which
evicts the entry of a repository. -/
def ClearRepoLabelCache (cache : LabelCache) (repoName : GoString) : LabelCache :=
  cache.filter (fun e => !decide (e.1 = repoName))

/-- Modelled from the spec: the function `data.GetLabelNames`. -/
def GetLabelNames (labels : List Label) : List GoString :=
  labels.map (fun l => l.Name)

/-! ## Commands -/

/-- Whether a command holds a mutating command (comment, label, assign or
unassign). -/
def Cmd.mutating : Cmd → Bool
  | .comment _ => true
  | .label _ => true
  | .assign _ => true
  | .unassign _ => true
  | .sequence cs => anyMutating cs
  | .batch cs => anyMutating cs
  | _ => false
where
  /-- Whether one of the commands of a list holds a mutating command. -/
  anyMutating : List Cmd → Bool
    | [] => false
    | c :: cs => c.mutating || anyMutating cs

/-- The number of label fetches a command holds. -/
def Cmd.fetches : Cmd → Nat
  | .fetchLabels _ => 1
  | .sequence cs => sumFetches cs
  | .batch cs => sumFetches cs
  | _ => 0
where
  /-- The number of label fetches the commands of a list hold. -/
  sumFetches : List Cmd → Nat
    | [] => 0
    | c :: cs => c.fetches + sumFetches cs

/-- The function `tea.Batch`: nil commands are dropped; nil when no command
is left, else the batch of the others. -/
def batchCmds (cmds : List (Option Cmd)) : Option Cmd :=
  match cmds.filterMap id with
  | [] => none
  | cs => some (.batch cs)

/-- The function `tea.Sequence`: nil commands are dropped; nil when no command
is left, else the sequence of the others. -/
def sequenceCmds (cmds : List (Option Cmd)) : Option Cmd :=
  match cmds.filterMap id with
  | [] => none
  | cs => some (.sequence cs)

/-! ## More strings (`strings.Trim`, `strings.Fields`) -/

/-- The function `strings.Trim`: the string without the leading and trailing
characters that are in `cutset`. -/
def Trim (s cutset : GoString) : GoString :=
  (s.dropWhile (fun c => cutset.contains c)).rdropWhile (fun c => cutset.contains c)

/-- The fields of a string from the part `cur` of the current field on. -/
def fieldsFrom (cur : GoString) : GoString → List GoString
  | [] => if cur = [] then [] else [cur]
  | c :: rest =>
    if IsSpace c then
      if cur = [] then fieldsFrom [] rest else cur :: fieldsFrom [] rest
    else fieldsFrom (cur ++ [c]) rest

/-- The function `strings.Fields`: the pieces of a string between runs of
white space. -/
def Fields (s : GoString) : List GoString :=
  fieldsFrom [] s

/-! ## The collaborators of the issue view -/

/-- Modelled from the spec: the method `autocomplete.Model.Hide`. -/
def Autocomplete.Hide (ac : Autocomplete) : Autocomplete :=
  { ac with visible := false }

/-- Modelled from the spec: the method `autocomplete.Model.SetSuggestions`
stores the suggestions. -/
def Autocomplete.SetSuggestions (ac : Autocomplete) (suggestions : List GoString) :
    Autocomplete :=
  { ac with suggestions := suggestions }

/-- Modelled from the spec: the method `autocomplete.Model.Reset` hides the
panel and forgets the suggestions. -/
def Autocomplete.Reset (_ac : Autocomplete) : Autocomplete :=
  { visible := false, suggestions := [] }

/-- The code the issue view calls that is not among the sources, taken as
parameters: the package variables (key bindings, prompts), the update of the
text-input sub-widget, the label text helpers `labelAtCursor` and `allLabels`,
and the fetch status of the autocomplete. A command of a sub-widget is a
number (`Cmd.widget`): the sub-widgets issue no command of the issue view. -/
structure Env where
  /-- The package variable `keys.IssueKeys`. -/
  IssueKeys : IssueKeyMap
  /-- The package variable `autocomplete.RefreshSuggestionsKey`. -/
  RefreshSuggestionsKey : Binding
  /-- The constant `constants.LabelPrompt`. -/
  LabelPrompt : GoString
  /-- The constant `constants.AssignPrompt`. -/
  AssignPrompt : GoString
  /-- The constant `constants.UnassignPrompt`. -/
  UnassignPrompt : GoString
  /-- The text `Discard comment? (y/N)` in the style of the theme. -/
  DiscardPrompt : GoString
  /-- The method `inputbox.Model.Update`, which also reaches the autocomplete
  the input box points to: the new input box, the new autocomplete and the
  command. -/
  inputUpdate : InputBox → Autocomplete → KeyMsg → InputBox × Autocomplete × Option Nat
  /-- The method `inputbox.Model.GetCursorPosition`. -/
  GetCursorPosition : InputBox → Int
  /-- The function `labelAtCursor`. -/
  labelAtCursor : Int → GoString → GoString
  /-- The function `allLabels`. -/
  allLabels : GoString → List GoString
  /-- Whether `autocomplete.Model.Show` shows the panel, given the suggestions,
  the label at the cursor and the labels to leave out. -/
  shows : List GoString → GoString → List GoString → Bool
  /-- The method `autocomplete.Model.SetFetchSuccess`. -/
  SetFetchSuccess : Autocomplete → Autocomplete × Option Nat
  /-- The method `autocomplete.Model.SetFetchError`. -/
  SetFetchError : Autocomplete → GoString → Autocomplete × Option Nat
  /-- The method `autocomplete.Model.SetFetchLoading`. -/
  SetFetchLoading : Autocomplete → Autocomplete × Option Nat
  /-- The method `autocomplete.Model.Update`, on a tick of the spinner (`true`)
  or on the message that clears the fetch status (`false`). -/
  acUpdate : Autocomplete → Bool → Autocomplete × Option Nat

/-- Modelled from the spec: the method `autocomplete.Model.Show` keeps the
suggestions and shows or hides the panel. -/
def Autocomplete.Show (E : Env) (ac : Autocomplete) (currentLabel : GoString)
    (existingLabels : List GoString) : Autocomplete :=
  { ac with visible := E.shows ac.suggestions currentLabel existingLabels }

/-! ## Entering and leaving the text-editing modes -/

/-- The method `IsTextInputBoxFocused`. -/
def IsTextInputBoxFocused (m : Model) : Bool :=
  m.isCommenting || m.isAssigning || m.isUnassigning || m.isLabeling

/-- The method `restoreInputBoxHeight`. -/
def restoreInputBoxHeight (K : Constants) (m : Model) : Model :=
  let linesToAdjust := 5
  { m with inputBox := m.inputBox.SetHeight (K.InputBoxHeight - linesToAdjust) }

/-- The method `shouldCancelComment`: the new model and the result. -/
def shouldCancelComment (E : Env) (K : Constants) (m : Model) : Model × Bool :=
  if !m.ShowConfirmCancel then
    let m := { m with inputBox := m.inputBox.SetPrompt E.DiscardPrompt }
    let m := { m with ShowConfirmCancel := true }
    (m, false)
  else
    let m := { m with inputBox := m.inputBox.Blur }
    let m := { m with isCommenting := false }
    let m := { m with ShowConfirmCancel := false }
    let m := restoreInputBoxHeight K m
    (m, true)

/-- The method `SetIsCommenting`, with the command it returns. -/
def SetIsCommenting (K : Constants) (m : Model) (isCommenting : Bool) : Model × Option Cmd :=
  match m.issue with
  | none => (m, none)
  | some _ =>
    let m :=
      if !m.isCommenting && isCommenting then
        let m := { m with inputBox := m.inputBox.Reset }
        let m := { m with ac := m.ac.Reset }
        expandInputBoxForCommenting K m
      else m
    let m := { m with isCommenting := isCommenting }
    let m := { m with inputBox := m.inputBox.SetPrompt K.CommentPrompt }
    if isCommenting then
      ({ m with inputBox := m.inputBox.Focus }, some (.sequence [.blink, .focus]))
    else (m, none)

/-- The method `userAssignedToIssue`, on the assignees of the issue. -/
def userAssignedToIssue (assignees : List Actor) (login : GoString) : Bool :=
  assignees.any (fun a => decide (login = a.Login))

/-- The method `SetIsAssigning`, with the command it returns. -/
def SetIsAssigning (E : Env) (m : Model) (isAssigning : Bool) : Model × Option Cmd :=
  match m.issue with
  | none => (m, none)
  | some issue =>
    let m :=
      if !m.isAssigning && isAssigning then
        let m := { m with inputBox := m.inputBox.Reset }
        { m with ac := m.ac.Reset }
      else m
    let m := { m with isAssigning := isAssigning }
    let m := { m with inputBox := m.inputBox.SetPrompt E.AssignPrompt }
    let m :=
      if !userAssignedToIssue issue.Data.Assignees m.ctx.User then
        { m with inputBox := m.inputBox.SetValue m.ctx.User }
      else m
    if isAssigning then
      ({ m with inputBox := m.inputBox.Focus }, some (.sequence [.blink, .focus]))
    else (m, none)

/-- The method `issueAssignees`, on the assignees of the issue. -/
def issueAssignees (assignees : List Actor) : List GoString :=
  assignees.foldl (fun acc n => acc ++ [n.Login]) []

/-- The method `SetIsUnassigning`, with the command it returns. -/
def SetIsUnassigning (E : Env) (m : Model) (isUnassigning : Bool) : Model × Option Cmd :=
  match m.issue with
  | none => (m, none)
  | some issue =>
    let m :=
      if !m.isUnassigning && isUnassigning then
        let m := { m with inputBox := m.inputBox.Reset }
        { m with ac := m.ac.Reset }
      else m
    let m := { m with isUnassigning := isUnassigning }
    let m := { m with inputBox := m.inputBox.SetPrompt E.UnassignPrompt }
    let m := { m with inputBox :=
      m.inputBox.SetValue (Join (issueAssignees issue.Data.Assignees) "\n".toList) }
    if isUnassigning then
      ({ m with inputBox := m.inputBox.Focus }, some (.sequence [.blink, .focus]))
    else (m, none)

/-- The method `fetchLabels`: the autocomplete goes to its loading state, and
the command is the batch of the spinner tick and the fetch of the labels of
the repository of the issue (none when there is no issue: the fetch then
fails on the nil issue when it runs). -/
def fetchLabels (E : Env) (m : Model) : Model × Option Cmd :=
  let r := E.SetFetchLoading m.ac
  let spinnerTickCmd := r.2.map Cmd.widget
  let fetchCmd := Cmd.fetchLabels (m.issue.map (fun i => i.Data.RepoNameWithOwner))
  ({ m with ac := r.1 }, batchCmds [spinnerTickCmd, some fetchCmd])

/-- The label names `SetIsLabeling` collects: the names of the labels of the
issue and an empty last one. -/
def labelNamesWithSlot (labels : List Label) : List GoString :=
  let names : List GoString := []
  let names := labels.foldl (fun acc label => acc ++ [label.Name]) names
  names ++ [[]]

/-- The method `SetIsLabeling`, with the command it returns. The cache is read
only. -/
def SetIsLabeling (E : Env) (cache : LabelCache) (m : Model) (isLabeling : Bool) :
    Model × Option Cmd :=
  match m.issue with
  | none => (m, none)
  | some issue =>
    let m :=
      if !m.isLabeling && isLabeling then { m with inputBox := m.inputBox.Reset } else m
    let m := { m with isLabeling := isLabeling }
    let m := { m with inputBox := m.inputBox.SetPrompt E.LabelPrompt }
    let labels := labelNamesWithSlot issue.Data.Labels
    let m := { m with inputBox := m.inputBox.SetValue (Join labels ", ".toList) }
    let m := { m with ac := m.ac.Hide }
    let m := { m with ac := m.ac.SetSuggestions [] }
    if isLabeling then
      let repoName := issue.Data.RepoNameWithOwner
      match GetCachedRepoLabels cache repoName with
      | some labels =>
        let m := { m with repoLabels := labels }
        let m := { m with ac := m.ac.SetSuggestions (GetLabelNames labels) }
        let cursorPos := E.GetCursorPosition m.inputBox
        let currentLabel := E.labelAtCursor cursorPos m.inputBox.value
        let existingLabels := E.allLabels m.inputBox.value
        let m := { m with ac := m.ac.Show E currentLabel existingLabels }
        ({ m with inputBox := m.inputBox.Focus }, some (.sequence [.blink, .focus]))
      | none =>
        let r := fetchLabels E m
        ({ r.1 with inputBox := r.1.inputBox.Focus },
          sequenceCmds [r.2, some .blink, some .focus])
    else (m, none)

/-! ## The update function (`Update`) -/

/-- The interaction modes, in the order `Update` tests the flags of the
model. -/
inductive InteractionMode where
  | Commenting
  | Labeling
  | Assigning
  | Unassigning
  | CommentNavigation
  | Browsing
  deriving DecidableEq, Repr

/-- The mode `Update` handles a key in: the first flag that is set, in the
order of the `if` chain of `Update`. -/
def mode (m : Model) : InteractionMode :=
  if m.isCommenting then .Commenting
  else if m.isLabeling then .Labeling
  else if m.isAssigning then .Assigning
  else if m.isUnassigning then .Unassigning
  else if m.isCommentNavMode then .CommentNavigation
  else .Browsing

/-- What `Update` returns (the model, the command and the action), and the
label cache after it. -/
structure UpdateResult where
  model : Model
  cmd : Option Cmd
  action : Option IssueAction
  cache : LabelCache

/-- The end of the text-editing branches of `Update`: the key goes to the
input box, and the commands collected (`cmds` before, then `cmd`, which is nil
there, and the command of the input box) are batched. -/
def forwardKey (E : Env) (cache : LabelCache) (m : Model) (cmds : List (Option Cmd))
    (k : KeyMsg) : UpdateResult :=
  let r := E.inputUpdate m.inputBox m.ac k
  let m := { m with inputBox := r.1, ac := r.2.1 }
  let taCmd := r.2.2.map Cmd.widget
  { model := m, cmd := batchCmds (cmds ++ [none, taCmd]), action := none, cache := cache }

/-- The branch `if m.isCommenting` of `Update`. -/
def updateCommenting (E : Env) (K : Constants) (cache : LabelCache) (m : Model)
    (k : KeyMsg) : UpdateResult :=
  match k.type with
  | .KeyCtrlD =>
    let cmd :=
      if byteLen (Trim m.inputBox.value " ".toList) ≠ 0 then
        some (Cmd.comment m.inputBox.value)
      else none
    let m := { m with inputBox := m.inputBox.Blur }
    let m := { m with isCommenting := false }
    let m := restoreInputBoxHeight K m
    { model := m, cmd := cmd, action := none, cache := cache }
  | .KeyEsc | .KeyCtrlC =>
    let m := if !m.ShowConfirmCancel then (shouldCancelComment E K m).1 else m
    forwardKey E cache m [] k
  | _ =>
    let yes := decide (k.String = "Y".toList) || decide (k.String = "y".toList)
    let r := if yes then shouldCancelComment E K m else (m, false)
    if yes && r.2 then
      { model := r.1, cmd := none, action := none, cache := cache }
    else
      let m := r.1
      if m.ShowConfirmCancel &&
          (decide (k.String = "N".toList) || decide (k.String = "n".toList)) then
        let m := { m with inputBox := m.inputBox.SetPrompt K.CommentPrompt }
        let m := { m with ShowConfirmCancel := false }
        { model := m, cmd := none, action := none, cache := cache }
      else
        let m := { m with inputBox := m.inputBox.SetPrompt K.CommentPrompt }
        let m := { m with ShowConfirmCancel := false }
        forwardKey E cache m [] k

/-- The branch `else if m.isLabeling` of `Update`. -/
def updateLabeling (E : Env) (cache : LabelCache) (m : Model) (k : KeyMsg) : UpdateResult :=
  match k.type with
  | .KeyCtrlD =>
    let labels := E.allLabels m.inputBox.value
    let cmd := if labels.length > 0 then some (Cmd.label labels) else none
    let m := { m with inputBox := m.inputBox.Blur }
    let m := { m with isLabeling := false }
    let m := { m with ac := m.ac.Hide }
    { model := m, cmd := cmd, action := none, cache := cache }
  | .KeyEsc | .KeyCtrlC =>
    let m := { m with inputBox := m.inputBox.Blur }
    let m := { m with isLabeling := false }
    let m := { m with ac := m.ac.Hide }
    { model := m, cmd := none, action := none, cache := cache }
  | _ =>
    let refresh := Matches k E.RefreshSuggestionsKey
    let cache :=
      if refresh then
        match m.issue with
        | some issue => ClearRepoLabelCache cache issue.Data.RepoNameWithOwner
        | none => cache
      else cache
    let f := if refresh then fetchLabels E m else (m, none)
    let m := f.1
    let cmds : List (Option Cmd) := if refresh then [f.2] else []
    let previousCursorPos := E.GetCursorPosition m.inputBox
    let previousValue := m.inputBox.value
    let previousLabel := E.labelAtCursor previousCursorPos previousValue
    let r := forwardKey E cache m cmds k
    let m := r.model
    let currentCursorPos := E.GetCursorPosition m.inputBox
    let currentValue := m.inputBox.value
    let currentLabel := E.labelAtCursor currentCursorPos currentValue
    let m :=
      if currentLabel ≠ previousLabel then
        let existingLabels := E.allLabels currentValue
        { m with ac := m.ac.Show E currentLabel existingLabels }
      else m
    { r with model := m }

/-- The branch `else if m.isAssigning` of `Update`. -/
def updateAssigning (E : Env) (cache : LabelCache) (m : Model) (k : KeyMsg) : UpdateResult :=
  match k.type with
  | .KeyCtrlD =>
    let usernames := Fields m.inputBox.value
    let cmd := if usernames.length > 0 then some (Cmd.assign usernames) else none
    let m := { m with inputBox := m.inputBox.Blur }
    let m := { m with isAssigning := false }
    { model := m, cmd := cmd, action := none, cache := cache }
  | .KeyEsc | .KeyCtrlC =>
    let m := { m with inputBox := m.inputBox.Blur }
    let m := { m with isAssigning := false }
    { model := m, cmd := none, action := none, cache := cache }
  | _ => forwardKey E cache m [] k

/-- The branch `else if m.isUnassigning` of `Update`. -/
def updateUnassigning (E : Env) (cache : LabelCache) (m : Model) (k : KeyMsg) :
    UpdateResult :=
  match k.type with
  | .KeyCtrlD =>
    let usernames := Fields m.inputBox.value
    let cmd := if usernames.length > 0 then some (Cmd.unassign usernames) else none
    let m := { m with inputBox := m.inputBox.Blur }
    let m := { m with isUnassigning := false }
    { model := m, cmd := cmd, action := none, cache := cache }
  | .KeyEsc | .KeyCtrlC =>
    let m := { m with inputBox := m.inputBox.Blur }
    let m := { m with isUnassigning := false }
    { model := m, cmd := none, action := none, cache := cache }
  | _ => forwardKey E cache m [] k

/-- The branch `else if m.isCommentNavMode` of `Update`. -/
def updateCommentNav (E : Env) (cache : LabelCache) (m : Model) (k : KeyMsg) :
    UpdateResult :=
  if Matches k E.IssueKeys.NextComment then
    { model := SelectNextComment m, cmd := none, action := none, cache := cache }
  else if Matches k E.IssueKeys.PrevComment then
    { model := SelectPrevComment m, cmd := none, action := none, cache := cache }
  else if Matches k E.IssueKeys.QuoteReply then
    { model := m, cmd := none, action := some { type := .IssueActionQuoteReply }
      cache := cache }
  else if decide (k.type = .KeyEsc) || Matches k E.IssueKeys.EnterCommentNavMode then
    { model := ExitCommentNavMode m, cmd := none, action := none, cache := cache }
  else { model := m, cmd := none, action := none, cache := cache }

/-- The last branch of `Update` on a key: no mode is active. -/
def updateBrowsing (E : Env) (cache : LabelCache) (m : Model) (k : KeyMsg) : UpdateResult :=
  let act (t : IssueActionType) : UpdateResult :=
    { model := m, cmd := none, action := some { type := t }, cache := cache }
  if Matches k E.IssueKeys.Label then act .IssueActionLabel
  else if Matches k E.IssueKeys.Assign then act .IssueActionAssign
  else if Matches k E.IssueKeys.Unassign then act .IssueActionUnassign
  else if Matches k E.IssueKeys.Comment then act .IssueActionComment
  else if Matches k E.IssueKeys.Close then act .IssueActionClose
  else if Matches k E.IssueKeys.Reopen then act .IssueActionReopen
  else if Matches k E.IssueKeys.EnterCommentNavMode then act .IssueActionEnterCommentNavMode
  else if Matches k E.IssueKeys.EditorComment then act .IssueActionEditorComment
  else { model := m, cmd := none, action := none, cache := cache }

/-- The method `Update`. The label cache of package `data`, which `Update`
evicts from, is passed in and returned. The autocomplete, which the model
holds by pointer, is a field of the model returned. -/
def Update (E : Env) (K : Constants) (cache : LabelCache) (m : Model) (msg : Msg) :
    UpdateResult :=
  match msg with
  | .RepoLabelsFetchedMsg labels =>
    let r := E.SetFetchSuccess m.ac
    let clearCmd := r.2.map Cmd.widget
    let m := { m with ac := r.1 }
    let m := { m with repoLabels := labels }
    let labelNames := GetLabelNames labels
    let m := { m with ac := m.ac.SetSuggestions labelNames }
    let m :=
      if m.isLabeling then
        let cursorPos := E.GetCursorPosition m.inputBox
        let currentLabel := E.labelAtCursor cursorPos m.inputBox.value
        let existingLabels := E.allLabels m.inputBox.value
        { m with ac := m.ac.Show E currentLabel existingLabels }
      else m
    { model := m, cmd := clearCmd, action := none, cache := cache }
  | .RepoLabelsFetchFailedMsg err =>
    let r := E.SetFetchError m.ac err
    let clearCmd := r.2.map Cmd.widget
    { model := { m with ac := r.1 }, cmd := clearCmd, action := none, cache := cache }
  | .FetchSuggestionsRequestedMsg force =>
    if m.isLabeling then
      let cache :=
        if force then
          match m.issue with
          | some issue => ClearRepoLabelCache cache issue.Data.RepoNameWithOwner
          | none => cache
        else cache
      let r := fetchLabels E m
      { model := r.1, cmd := r.2, action := none, cache := cache }
    else { model := m, cmd := none, action := none, cache := cache }
  | .KeyMsg k =>
    if m.isCommenting then updateCommenting E K cache m k
    else if m.isLabeling then updateLabeling E cache m k
    else if m.isAssigning then updateAssigning E cache m k
    else if m.isUnassigning then updateUnassigning E cache m k
    else if m.isCommentNavMode then updateCommentNav E cache m k
    else updateBrowsing E cache m k
  | .TickMsg =>
    let r := E.acUpdate m.ac true
    { model := { m with ac := r.1 }, cmd := batchCmds [r.2.map Cmd.widget], action := none
      cache := cache }
  | .ClearFetchStatusMsg =>
    let r := E.acUpdate m.ac false
    { model := { m with ac := r.1 }, cmd := batchCmds [r.2.map Cmd.widget], action := none
      cache := cache }
  | .Other => { model := m, cmd := batchCmds [], action := none, cache := cache }

/-! ## Sequences of operations on the model -/

/-- The operations on the model: a message handled by `Update` (with the label
cache at that time) and the public methods that enter or leave a mode. -/
inductive Op where
  | Update (cache : LabelCache) (msg : Msg)
  | SetIsCommenting (isCommenting : Bool)
  | SetIsLabeling (cache : LabelCache) (isLabeling : Bool)
  | SetIsAssigning (isAssigning : Bool)
  | SetIsUnassigning (isUnassigning : Bool)
  | SetIsQuoteReplying (comment : Option IssueComment)
  | EnterCommentNavMode
  | ExitCommentNavMode
  | SetRow (data : Option IssueData)

/-- The model after an operation. -/
def Op.apply (E : Env) (K : Constants) (m : Model) : Op → Model
  | .Update cache msg => (GhDash.Update E K cache m msg).model
  | .SetIsCommenting b => (GhDash.SetIsCommenting K m b).1
  | .SetIsLabeling cache b => (GhDash.SetIsLabeling E cache m b).1
  | .SetIsAssigning b => (GhDash.SetIsAssigning E m b).1
  | .SetIsUnassigning b => (GhDash.SetIsUnassigning E m b).1
  | .SetIsQuoteReplying c => (GhDash.SetIsQuoteReplying K m c).1
  | .EnterCommentNavMode => GhDash.EnterCommentNavMode m
  | .ExitCommentNavMode => GhDash.ExitCommentNavMode m
  | .SetRow data => GhDash.SetRow m data

/-- The model after a sequence of operations on a new model. -/
def run (E : Env) (K : Constants) (ctx : ProgramContext) (ops : List Op) : Model :=
  ops.foldl (Op.apply E K) (NewModel K ctx)

/-- Whether an operation enters a text-editing mode. -/
def Op.entersTextMode : Op → Bool
  | .SetIsCommenting b => b
  | .SetIsLabeling _ b => b
  | .SetIsAssigning b => b
  | .SetIsUnassigning b => b
  | .SetIsQuoteReplying c => c.isSome
  | _ => false

/-- Whether, in a sequence of operations from the model `m` on, every
operation that enters a text-editing mode is called while no text-editing
mode is active. -/
def enteredFromOutside (E : Env) (K : Constants) : Model → List Op → Bool
  | _, [] => true
  | m, op :: ops =>
    (!op.entersTextMode || !IsTextInputBoxFocused m) &&
      enteredFromOutside E K (op.apply E K m) ops

/-- The number of mode flags of the model that are set. -/
def modeFlags (m : Model) : Nat :=
  [m.isCommenting, m.isLabeling, m.isAssigning, m.isUnassigning, m.isCommentNavMode].count true

/-- The number of flags of text-editing modes that are set. -/
def textModeFlags (m : Model) : Nat :=
  [m.isCommenting, m.isLabeling, m.isAssigning, m.isUnassigning].count true

/-! ## The fixture for `Update` -/

/-- A binding of one key, enabled. -/
def bindKey (k : String) : Binding :=
  { keys := [k.toList], disabled := false }

/-- The bindings of the fixture: `tab` and `q` as the tests press them, `j` and
`k` as the comment in `Update` names them; the letters of the other bindings
are those of the fixture. -/
def testKeys : IssueKeyMap :=
  { Label := bindKey "L"
    Assign := bindKey "a"
    Unassign := bindKey "A"
    Comment := bindKey "c"
    Close := bindKey "x"
    Reopen := bindKey "X"
    EnterCommentNavMode := bindKey "tab"
    NextComment := bindKey "j"
    PrevComment := bindKey "k"
    QuoteReply := bindKey "q"
    EditorComment := bindKey "C" }

/-- The labels of a comma-separated text: the pieces between the commas,
trimmed, without the empty ones. -/
def splitLabels (text : GoString) : List GoString :=
  ((Split text ',').map TrimSpace).filter (fun l => !l.isEmpty)

/-- The collaborators of the fixture: the input box appends the runes typed
and returns no command, the label at the cursor is the last piece of the text,
the panel shows when a suggestion is left, and the fetch status is not
kept. -/
def testEnv : Env :=
  { IssueKeys := testKeys
    RefreshSuggestionsKey := bindKey "ctrl+f"
    LabelPrompt := "Add/remove labels...".toList
    AssignPrompt := "Assign users...".toList
    UnassignPrompt := "Unassign users...".toList
    DiscardPrompt := "Discard comment? (y/N)".toList
    inputUpdate := fun box ac k =>
      (if k.type = .KeyRunes then box.SetValue (box.value ++ k.Runes) else box, ac, none)
    GetCursorPosition := fun box => box.value.length
    labelAtCursor := fun _ text => TrimSpace ((Split text ',').getLastD [])
    allLabels := splitLabels
    shows := fun suggestions _ existing => suggestions.any (fun s => !existing.contains s)
    SetFetchSuccess := fun ac => (ac, none)
    SetFetchError := fun ac _ => (ac, none)
    SetFetchLoading := fun ac => (ac, some 0)
    acUpdate := fun ac _ => (ac, none) }

/-- The key of a key type alone, as the tests build it. -/
def keyOf (t : KeyType) : KeyMsg :=
  { type := t, Runes := [], Alt := false, Paste := false }

/-- The key of runes typed, as the tests build it. -/
def runesKey (runes : String) : KeyMsg :=
  { type := .KeyRunes, Runes := runes.toList, Alt := false, Paste := false }

/-- The fixture while a comment is written, with the text `text` in the input
box and the discard confirmation shown or not. -/
def commentingModel (text : String) (confirm : Bool) : Model :=
  { newTestModelWithComments 1 with
    isCommenting := true
    ShowConfirmCancel := confirm
    inputBox := { value := text.toList, prompt := testConstants.CommentPrompt, height := 37
                  focused := true } }

/-- The issue data of the fixture with the labels of the given names, in the
repository `test/repo`. -/
def labeledIssueData (names : List String) : IssueData :=
  { testIssueData "https://github.com/test/repo/issues/1".toList [] with
    RepoNameWithOwner := "test/repo".toList
    Labels := names.map (fun n => { Name := n.toList }) }

/-- The fixture on an issue with the labels of the given names. -/
def labeledModel (names : List String) : Model :=
  { NewModel testConstants testCtx with
    issue := some { Ctx := testCtx, Data := labeledIssueData names } }

/-- A step from the model `m` to the model `r` that sets no mode flag: a flag
set in `r` is set in `m`. -/
def setsNoFlag (m r : Model) : Prop :=
  (r.isCommenting = true → m.isCommenting = true) ∧
  (r.isLabeling = true → m.isLabeling = true) ∧
  (r.isAssigning = true → m.isAssigning = true) ∧
  (r.isUnassigning = true → m.isUnassigning = true) ∧
  (r.isCommentNavMode = true → m.isCommentNavMode = true)

/-! ## The editor command and the submission (`getEditorCmd`, `submitEditorComment`) -/

/-- The function `getEditorCmd`; `getenv` is `os.Getenv`, which gives the
empty string for a variable that is not set. -/
def getEditorCmd (getenv : GoString → GoString) : GoString :=
  let editor := getenv "EDITOR".toList
  if editor ≠ [] then editor
  else
    let visual := getenv "VISUAL".toList
    if visual ≠ [] then visual
    else "vi".toList

/-- The states of a task (`context.TaskStart` and the others). -/
inductive TaskState where
  | TaskStart
  | TaskFinished
  | TaskError
  deriving DecidableEq, Repr

/-- The type `context.Task`. -/
structure Task where
  Id : GoString
  StartText : GoString
  FinishedText : GoString
  State : TaskState
  Error : Option GoString
  deriving DecidableEq, Repr

/-- The message inside a `constants.TaskFinishedMsg` of a comment:
`tasks.UpdatePRMsg` or `issuessection.UpdateIssueMsg`, with the comment
added. -/
inductive CommentUpdate where
  | UpdatePRMsg (PrNumber : Int) (NewComment : Comment)
  | UpdateIssueMsg (IssueNumber : Int) (NewComment : IssueComment)
  deriving DecidableEq, Repr

/-- The type `constants.TaskFinishedMsg`. -/
structure TaskFinishedMsg where
  SectionId : Int
  SectionType : GoString
  TaskId : GoString
  Err : Option GoString
  Msg : CommentUpdate
  deriving DecidableEq, Repr

/-- What `submitEditorComment` does: the task it hands to `m.ctx.StartTask`,
the arguments of the command the second command of its batch runs, and the
message that command returns, given the error of the run (none when it
succeeds) and the time `time.Now()`. -/
structure EditorSubmission where
  task : Task
  command : List GoString
  finished : Option GoString → Int → TaskFinishedMsg

/-- The variable `ghCmd` of `submitEditorComment`. -/
def ghCmd (msg : editorCommentFinishedMsg) : GoString :=
  if !msg.IsPR then "issue".toList else "pr".toList

/-- The variable `kind` of `submitEditorComment`. -/
def commentKind (msg : editorCommentFinishedMsg) : GoString :=
  if !msg.IsPR then "issue".toList else "PR".toList

/-- The variable `taskId` of `submitEditorComment`. -/
def taskId (msg : editorCommentFinishedMsg) : GoString :=
  "editor_".toList ++ ghCmd msg ++ "_comment_".toList ++ formatInt msg.Number

/-- The method `submitEditorComment`; `user` is `m.ctx.User`. -/
def submitEditorComment (user : GoString) (msg : editorCommentFinishedMsg) :
    EditorSubmission :=
  let task : Task :=
    { Id := taskId msg
      StartText := "Commenting on ".toList ++ commentKind msg ++ " #".toList ++
        formatInt msg.Number
      FinishedText := "Commented on ".toList ++ commentKind msg ++ " #".toList ++
        formatInt msg.Number
      State := .TaskStart
      Error := none }
  { task := task
    command := ["gh".toList, ghCmd msg, "comment".toList, formatInt msg.Number, "-R".toList,
      msg.RepoName, "-b".toList, msg.Body]
    finished := fun err now =>
      let innerMsg :=
        if msg.IsPR then
          CommentUpdate.UpdatePRMsg msg.Number
            { Author := { Login := user }, Body := msg.Body, UpdatedAt := now }
        else
          CommentUpdate.UpdateIssueMsg msg.Number
            { Author := { Login := user }, Body := msg.Body, UpdatedAt := now }
      { SectionId := msg.SectionId
        SectionType := msg.SectionType
        TaskId := taskId msg
        Err := err
        Msg := innerMsg } }

/-! ## Sequences of navigation operations -/

/-- The operations on the comment selection: the public methods of the
navigation, `SetRow`, and a message handled by `Update` (with the label cache
at that time). -/
inductive NavOp where
  | EnterCommentNavMode
  | ExitCommentNavMode
  | SelectNextComment
  | SelectPrevComment
  | ResetCommentSelection
  | SetRow (data : Option IssueData)
  | Update (cache : LabelCache) (msg : Msg)

/-- The model after a navigation operation. -/
def NavOp.apply (E : Env) (K : Constants) (m : Model) : NavOp → Model
  | .EnterCommentNavMode => GhDash.EnterCommentNavMode m
  | .ExitCommentNavMode => GhDash.ExitCommentNavMode m
  | .SelectNextComment => GhDash.SelectNextComment m
  | .SelectPrevComment => GhDash.SelectPrevComment m
  | .ResetCommentSelection => GhDash.ResetCommentSelection m
  | .SetRow data => GhDash.SetRow m data
  | .Update cache msg => (GhDash.Update E K cache m msg).model

/-- The model after a sequence of navigation operations on a new model. -/
def runNav (E : Env) (K : Constants) (ctx : ProgramContext) (ops : List NavOp) : Model :=
  ops.foldl (NavOp.apply E K) (NewModel K ctx)

/-- Whether a navigation operation keeps the selection in range on the model
`m`: `ResetCommentSelection` is not called in comment navigation, and a
`SetRow` with the URL of the current issue (which keeps the selected index)
brings more comments than the selected index. -/
def NavOp.keepsSelection (m : Model) : NavOp → Bool
  | .ResetCommentSelection => !m.isCommentNavMode
  | .SetRow (some d) =>
    match m.issue with
    | some i =>
      if i.Data.Url = d.Url then decide (m.selectedCommentIndex < (d.Comments.length : Int))
      else true
    | none => true
  | _ => true

/-- Whether every operation of a sequence, from the model `m` on, keeps the
selection in range. -/
def keepSelection (E : Env) (K : Constants) : Model → List NavOp → Bool
  | _, [] => true
  | m, op :: ops => op.keepsSelection m && keepSelection E K (op.apply E K m) ops

/-- The selected index is a navigation index of the model: the issue is set
and the index is in `[0, N - 1]`. -/
def validSelection (m : Model) : Prop :=
  0 ≤ m.selectedCommentIndex ∧ m.selectedCommentIndex < (GetNumComments m : Int)

/-- The invariant of the selection: the selected index is -1 or a navigation
index, and it is a navigation index in comment navigation. -/
def selectionInv (m : Model) : Prop :=
  (m.selectedCommentIndex = -1 ∨ validSelection m) ∧
  (m.isCommentNavMode = true → validSelection m)

/-- A step from the model `m` to the model `r` that keeps the issue, the
selected index and the comment navigation flag. -/
def sameSelection (m r : Model) : Prop :=
  r.issue = m.issue ∧ r.selectedCommentIndex = m.selectedCommentIndex ∧
  r.isCommentNavMode = m.isCommentNavMode

/-! ## The activity feed of an issue (`issueview/activity.go`) -/

/-- The type `RenderedActivity` of `issueview`. -/
structure issueview.RenderedActivity where
  UpdatedAt : Int
  OriginalIndex : Nat
  RenderedString : GoString
  deriving DecidableEq, Repr

/-- The collaborators of the `renderActivity` of `issueview` outside the
sources, taken as a parameter: the markdown renderer (`none` when `Render`
returns an error), the clean-up of `lineCleanupRegex`, the layout the styles
give to a comment, `lipgloss.JoinVertical`, the title of the activities and
the styles of the body and of the empty state. -/
structure IssueRenderer where
  markdown : Int → GoString → Option GoString
  lineCleanup : GoString → GoString
  commentLayout : Int → IssueComment → Bool → GoString → GoString
  joinVertical : List GoString → GoString
  activitiesTitle : GoString
  bodyStyle : GoString → GoString
  italic : GoString → GoString

/-- The method `renderComment` of `issueview`: `none` when the markdown
renderer fails (the text returned with the error is not used). -/
def issueview.renderComment (R : IssueRenderer) (m : Model) (comment : IssueComment)
    (isSelected : Bool) : Option GoString :=
  let width := (m.width - 6) - 2
  match R.markdown width (R.lineCleanup comment.Body) with
  | none => none
  | some body => some (R.commentLayout width comment isSelected body)

/-- The first pass of `renderActivity`: an entry for every comment, with its
update time and its index. -/
def issueview.collectActivity (comments : List IssueComment) :
    List issueview.RenderedActivity :=
  comments.enum.foldl (fun activity p =>
    activity ++ [{ UpdatedAt := p.2.UpdatedAt, OriginalIndex := p.1, RenderedString := [] }]) []

/-- The slice `activity` of `renderActivity` after the sort. -/
def issueview.sortedActivity (sortSlice : SliceSort) (comments : List IssueComment) :
    List issueview.RenderedActivity :=
  sortSlice issueview.RenderedActivity (fun x y => decide (x.UpdatedAt < y.UpdatedAt))
    (issueview.collectActivity comments)

/-- The arguments of the call of `m.renderComment` in the round `sortedIdx` of
the second pass: the comment at the original index of the entry and whether
it is the selected one; `none` when the index is out of range (a run-time
panic). -/
def issueview.renderCall (m : Model) (comments : List IssueComment) (sortedIdx : Nat)
    (a : issueview.RenderedActivity) : Option (IssueComment × Bool) :=
  let origIdx := a.OriginalIndex
  match comments[origIdx]? with
  | none => none
  | some comment =>
    let isSelected := decide ((sortedIdx : Int) = m.selectedCommentIndex)
    some (comment, isSelected)

/-- The round `sortedIdx` of the second pass: the entry gets the rendered
comment, and stays as it is when the rendering fails (`continue`). -/
def issueview.renderEntry (R : IssueRenderer) (m : Model) (comments : List IssueComment)
    (sortedIdx : Nat) (a : issueview.RenderedActivity) : Option issueview.RenderedActivity :=
  match issueview.renderCall m comments sortedIdx a with
  | none => none
  | some call =>
    match issueview.renderComment R m call.1 call.2 with
    | none => some a
    | some renderedComment => some { a with RenderedString := renderedComment }

/-- The second pass of `renderActivity` from the round `sortedIdx` on. -/
def issueview.renderEntries (R : IssueRenderer) (m : Model) (comments : List IssueComment) :
    Nat → List issueview.RenderedActivity → Option (List issueview.RenderedActivity)
  | _, [] => some []
  | sortedIdx, a :: rest =>
    match issueview.renderEntry R m comments sortedIdx a,
      issueview.renderEntries R m comments (sortedIdx + 1) rest with
    | some a', some rest' => some (a' :: rest')
    | _, _ => none

/-- The slice `activity` of `renderActivity` after the second pass; `none` is
a run-time panic (no issue, or an index out of range). -/
def issueview.renderedActivity (sortSlice : SliceSort) (R : IssueRenderer) (m : Model) :
    Option (List issueview.RenderedActivity) :=
  match m.issue with
  | none => none
  | some issue =>
    issueview.renderEntries R m issue.Data.Comments 0
      (issueview.sortedActivity sortSlice issue.Data.Comments)

/-- The function `renderEmptyState` of `issueview`. -/
def issueview.renderEmptyState (R : IssueRenderer) : GoString :=
  R.italic "No comments...".toList

/-- The texts `renderActivity` of `issueview` joins into the body of the
feed, one for every entry of `activity`. -/
def issueview.renderedActivities (activity : List issueview.RenderedActivity) :
    List GoString :=
  activity.foldl (fun renderedActivities a => renderedActivities ++ [a.RenderedString]) []

/-- The method `renderActivity` of `issueview`. -/
def issueview.renderActivity (sortSlice : SliceSort) (R : IssueRenderer) (m : Model) :
    Option GoString :=
  match issueview.renderedActivity sortSlice R m with
  | none => none
  | some activity =>
    let body :=
      if activity.length = 0 then issueview.renderEmptyState R
      else R.joinVertical (issueview.renderedActivities activity)
    some (R.joinVertical [R.activitiesTitle, R.bodyStyle body])

/-! ## The fixture of a rendering that fails -/

/-- A renderer of the issue view whose markdown fails on the body `bad`; a
comment shows as the login of its author, and texts are joined by
newlines. -/
def pickyRenderer : IssueRenderer :=
  { markdown := fun _ body => if body = "bad".toList then none else some body
    lineCleanup := fun body => body
    commentLayout := fun _ c _ _ => c.Author.Login
    joinVertical := fun l => Join l "\n".toList
    activitiesTitle := " Comments".toList
    bodyStyle := fun s => s
    italic := fun s => s }

/-- A renderer of the pull request view whose markdown fails on the body
`bad`. -/
def pickyPrRenderer : PrRenderer :=
  { loginRenderer with
    markdown := fun _ body => if body = "bad".toList then none else some body }

/-- Two comments: the first, of `usera` at the time 1, has the body `bad`; the
second, of `userb` at the time 2, the body `good`. -/
def badGoodComments : List IssueComment :=
  [{ Author := { Login := "usera".toList }, Body := "bad".toList, UpdatedAt := 1 },
   { Author := { Login := "userb".toList }, Body := "good".toList, UpdatedAt := 2 }]

/-- The fixture of the issue view on an issue with the given comments. -/
def modelWithComments (comments : List IssueComment) : Model :=
  { NewModel testConstants testCtx with
    issue := some
      { Ctx := testCtx
        Data := testIssueData "https://github.com/test/repo/issues/1".toList comments } }

/-- The pull request with the given comments as its top-level comments. -/
def prWithComments (comments : List IssueComment) : PrModel :=
  { pr :=
      { IsEnriched := true
        ReviewThreads := []
        Comments := comments.map (fun c =>
          { Author := c.Author, Body := c.Body, UpdatedAt := c.UpdatedAt })
        Reviews := [] }
    contentWidth := 80
    isCommentNavMode := false
    selectedCommentIndex := -1 }

/-! ## The scroll position of the selected comment (`GetCommentScrollPercent`) -/

/-- The arithmetic of `GetCommentScrollPercent` on the index and the number
of comments. A `float64` is the rational it denotes, and `fl` is the rounding
of `float64`: every conversion and every operation gives the rounding of its
exact result (the constants `0.30` and `0.70` are the roundings of 3/10 and
7/10). The language lets a compiler fuse the product and the sum into one
operation, rounded once: `fused` tells whether it does. -/
def scrollPercent (fl : ℚ → ℚ) (fused : Bool) (index numComments : ℚ) : ℚ :=
  let basePercent := fl (30 / 100)
  let product := fl (70 / 100) * fl (fl index / fl numComments)
  if fused then fl (basePercent + product)
  else
    let commentPercent := fl product
    fl (basePercent + commentPercent)

/-- The method `GetCommentScrollPercent`. -/
def GetCommentScrollPercent (fl : ℚ → ℚ) (fused : Bool) (m : Model) : ℚ :=
  if m.selectedCommentIndex < 0 then -1
  else
    let numComments := GetNumComments m
    if numComments = 0 then -1
    else scrollPercent fl fused (m.selectedCommentIndex : ℚ) (numComments : ℚ)

/-- What the rounding of `float64` (to nearest) keeps of the exact
arithmetic: it is monotone, it is exact on the integers up to `2^53`, and on
a positive number between `2^-64` and `2^64` its relative error is at most
`2^-53`. The exact arithmetic (`fl` the identity) is an instance. -/
def IsFloat64Rounding (fl : ℚ → ℚ) : Prop :=
  (∀ x y : ℚ, x ≤ y → fl x ≤ fl y) ∧
  (∀ n : Int, |n| ≤ 2 ^ 53 → fl (n : ℚ) = (n : ℚ)) ∧
  (∀ x : ℚ, 1 / 2 ^ 64 ≤ x → x ≤ 2 ^ 64 →
    x * (1 - 1 / 2 ^ 53) ≤ fl x ∧ fl x ≤ x * (1 + 1 / 2 ^ 53))

/-- The fixture with the comment at the index `k` selected. -/
def selectedModel (numComments : Nat) (k : Int) : Model :=
  { newTestModelWithComments numComments with
    isCommentNavMode := true
    selectedCommentIndex := k }

/-! ## Predicates on slices of integers, for the correctness of the sort -/

/-- The comparison of two integers. -/
def ltInt : Int → Int → Bool := fun x y => decide (x < y)

/-- The value at index `i` of a slice of integers (0 outside the slice). -/
def valAt (d : List Int) (i : Nat) : Int := d.getD i 0

/-- The slice `d'` holds the elements of `d`, and differs from it only at
the indices from `a` to `b - 1`. -/
def SegPerm (d d' : List Int) (a b : Nat) : Prop :=
  d'.Perm d ∧ ∀ k, k < a ∨ b ≤ k → valAt d' k = valAt d k

/-- The slice is in ascending order from index `a` to `b - 1`. -/
def SortedSeg (d : List Int) (a b : Nat) : Prop :=
  ∀ i j, a ≤ i → i ≤ j → j < b → valAt d i ≤ valAt d j

/-- The part of a slice from index `a` to `b - 1`. -/
def segOf (d : List Int) (a b : Nat) : List Int := (d.drop a).take (b - a)

/-- The state of a partition around `p = data[a]`: everything from `a + 1`
to `i - 1` is smaller than `p`, everything from `j + 1` to `b - 1` is not. -/
def PartInv (d : List Int) (a b i j : Nat) : Prop :=
  b ≤ d.length ∧ a < i ∧ i ≤ j + 1 ∧ j < b ∧
  (∀ k, a < k → k < i → valAt d k < valAt d a) ∧
  (∀ k, j < k → k < b → valAt d a ≤ valAt d k)

/-- The state of the partition of a slice without elements below
`p = data[a]`: everything up to `i - 1` equals `p` (is not above it),
everything from `j + 1` on is above. -/
def PartEqInv (d : List Int) (a b i j : Nat) : Prop :=
  b ≤ d.length ∧ a < i ∧ i ≤ j + 1 ∧ j < b ∧
  (∀ k, a ≤ k → k < b → valAt d a ≤ valAt d k) ∧
  (∀ k, a ≤ k → k < i → valAt d k ≤ valAt d a) ∧
  (∀ k, j < k → k < b → valAt d a < valAt d k)

/-- The element before the range is not above any element of the range. -/
def LowerBd (d : List Int) (a b : Nat) : Prop :=
  0 < a → ∀ k, a ≤ k → k < b → valAt d (a - 1) ≤ valAt d k

/-- In the heap laid out from index `first`, node `i` is not below its
children among the first `hi` nodes. -/
def Dominates (d : List Int) (first hi i : Nat) : Prop :=
  ∀ c, (c = 2 * i + 1 ∨ c = 2 * i + 2) → c < hi →
    valAt d (first + c) ≤ valAt d (first + i)

/-- Every node from `lo` on dominates its children. -/
def HeapFrom (d : List Int) (first lo hi : Nat) : Prop :=
  ∀ i, lo ≤ i → i < hi → Dominates d first hi i

/-! # Theorems -/

/-! ## Comment navigation (`EnterCommentNavMode`, `SelectNextComment`,
`SelectPrevComment`) -/

theorem GetNumComments_eq_zero_of_none {m : Model} (h : m.issue = none) :
    GetNumComments m = 0 := by
  simp [GetNumComments, h]

/-- What `EnterCommentNavMode` does on any model: without comments it changes
nothing; with comments it sets comment-navigation mode and selects index 0
when nothing was selected, else keeps the selection; so it leaves the state
as it was exactly when there is no comment or the model was already
navigating with a selected comment. -/
theorem EnterCommentNavMode_spec (m : Model) :
    (GetNumComments m = 0 → EnterCommentNavMode m = m) ∧
    (0 < GetNumComments m →
      (EnterCommentNavMode m).isCommentNavMode = true ∧
      (EnterCommentNavMode m).selectedCommentIndex =
        (if m.selectedCommentIndex < 0 then 0 else m.selectedCommentIndex)) ∧
    (EnterCommentNavMode m = m ↔
      GetNumComments m = 0 ∨ (m.isCommentNavMode = true ∧ 0 ≤ m.selectedCommentIndex)) := by
  have hnone : m.issue = none → GetNumComments m = 0 := GetNumComments_eq_zero_of_none
  refine ⟨fun h => by simp [EnterCommentNavMode, h], fun h => ?_, ?_⟩
  · have h0 : GetNumComments m ≠ 0 := Nat.pos_iff_ne_zero.mp h
    have hi : m.issue ≠ none := fun hn => h0 (hnone hn)
    by_cases hs : m.selectedCommentIndex < 0 <;> simp [EnterCommentNavMode, h0, hi, hs]
  · by_cases h0 : GetNumComments m = 0
    · simp [EnterCommentNavMode, h0]
    · have hi : m.issue ≠ none := fun hn => h0 (hnone hn)
      by_cases hs : m.selectedCommentIndex < 0
      · have hne : ¬ (0 ≤ m.selectedCommentIndex) := not_le.mpr hs
        simp only [EnterCommentNavMode, h0, hi, hs, or_self, if_false, if_true, false_or]
        constructor
        · intro h
          have h2 := congrArg Model.selectedCommentIndex h
          simp only at h2
          omega
        · intro h
          exact absurd h.2 hne
      · have hge : 0 ≤ m.selectedCommentIndex := not_lt.mp hs
        simp only [EnterCommentNavMode, h0, hi, hs, or_self, if_false, false_or]
        constructor
        · intro h
          have h2 := congrArg Model.isCommentNavMode h
          simp only at h2
          exact ⟨h2.symm, hge⟩
        · intro h
          cases m
          simp_all

/-- C1: on a model that is not in comment navigation (the state in which
`Update` answers the key with the action that enters it),
`EnterCommentNavMode` leaves the state as it was if and only if the issue has
no comments. With comments it changes two fields only: it sets
comment-navigation mode, and the selected index becomes 0 when no comment was
selected (index below 0) and stays as it was otherwise. -/
theorem EnterCommentNavMode_entering (m : Model) (h : m.isCommentNavMode = false) :
    (EnterCommentNavMode m = m ↔ GetNumComments m = 0) ∧
    (0 < GetNumComments m →
      (EnterCommentNavMode m).isCommentNavMode = true ∧
      (m.selectedCommentIndex < 0 → (EnterCommentNavMode m).selectedCommentIndex = 0) ∧
      (0 ≤ m.selectedCommentIndex →
        (EnterCommentNavMode m).selectedCommentIndex = m.selectedCommentIndex) ∧
      EnterCommentNavMode m =
        { m with
          isCommentNavMode := true
          selectedCommentIndex :=
            if m.selectedCommentIndex < 0 then 0 else m.selectedCommentIndex }) := by
  obtain ⟨_, h2, h3⟩ := EnterCommentNavMode_spec m
  refine ⟨?_, fun hN => ?_⟩
  · rw [h3]
    constructor
    · rintro (h0 | ⟨hnav, _⟩)
      · exact h0
      · rw [h] at hnav
        cases hnav
    · exact fun h0 => Or.inl h0
  · obtain ⟨hflag, hidx⟩ := h2 hN
    refine ⟨hflag, fun hs => ?_, fun hs => ?_, ?_⟩
    · rw [hidx, if_pos hs]
    · rw [hidx, if_neg (not_lt.mpr hs)]
    · have h0 : GetNumComments m ≠ 0 := Nat.pos_iff_ne_zero.mp hN
      have hi : m.issue ≠ none := fun hn => h0 (GetNumComments_eq_zero_of_none hn)
      by_cases hs : m.selectedCommentIndex < 0 <;> simp [EnterCommentNavMode, h0, hi, hs]

/-- C1 (witness): the fixture with three comments is not in comment
navigation: `EnterCommentNavMode` changes it, sets the mode and selects the
index 0; with the index 1 selected beforehand the index stays 1; and the
fixture without comments is left as it was. -/
theorem EnterCommentNavMode_entering_witness :
    (newTestModelWithComments 3).isCommentNavMode = false ∧
    EnterCommentNavMode (newTestModelWithComments 3) ≠ newTestModelWithComments 3 ∧
    (EnterCommentNavMode (newTestModelWithComments 3)).isCommentNavMode = true ∧
    (EnterCommentNavMode (newTestModelWithComments 3)).selectedCommentIndex = 0 ∧
    (EnterCommentNavMode
      { newTestModelWithComments 3 with selectedCommentIndex := 1 }).selectedCommentIndex = 1 ∧
    EnterCommentNavMode (newTestModelWithComments 0) = newTestModelWithComments 0 :=
  ⟨rfl,
   fun he => absurd ((EnterCommentNavMode_entering (newTestModelWithComments 3) rfl).1.mp he)
     (by decide),
   ((EnterCommentNavMode_entering (newTestModelWithComments 3) rfl).2 (by decide)).1,
   ((EnterCommentNavMode_entering (newTestModelWithComments 3) rfl).2 (by decide)).2.1
     (by decide),
   ((EnterCommentNavMode_entering
      { newTestModelWithComments 3 with selectedCommentIndex := 1 } rfl).2
        (by decide)).2.2.1 (by decide),
   (EnterCommentNavMode_entering (newTestModelWithComments 0) rfl).1.mpr (by decide)⟩

/-- C2: with `N > 0` comments and a selected index `k` in `[0, N-1]`,
`SelectNextComment` gives `min (k+1) (N-1)` and `SelectPrevComment` gives
`max (k-1) 0`; at `N-1` the former and at `0` the latter change nothing, and
the index stays in `[0, N-1]`. -/
theorem SelectNextPrevComment_clamped (m : Model)
    (hN : 0 < GetNumComments m)
    (hlo : 0 ≤ m.selectedCommentIndex)
    (hhi : m.selectedCommentIndex ≤ (GetNumComments m : Int) - 1) :
    (SelectNextComment m).selectedCommentIndex =
        min (m.selectedCommentIndex + 1) ((GetNumComments m : Int) - 1) ∧
    (SelectPrevComment m).selectedCommentIndex = max (m.selectedCommentIndex - 1) 0 ∧
    (m.selectedCommentIndex = (GetNumComments m : Int) - 1 → SelectNextComment m = m) ∧
    (m.selectedCommentIndex = 0 → SelectPrevComment m = m) ∧
    (0 ≤ (SelectNextComment m).selectedCommentIndex ∧
      (SelectNextComment m).selectedCommentIndex ≤ (GetNumComments m : Int) - 1) ∧
    (0 ≤ (SelectPrevComment m).selectedCommentIndex ∧
      (SelectPrevComment m).selectedCommentIndex ≤ (GetNumComments m : Int) - 1) := by
  have hN0 : ((GetNumComments m : Nat) : Int) ≠ 0 := by omega
  have hnext : (SelectNextComment m).selectedCommentIndex =
      min (m.selectedCommentIndex + 1) ((GetNumComments m : Int) - 1) := by
    by_cases h : m.selectedCommentIndex < (GetNumComments m : Int) - 1
    · simp only [SelectNextComment, hN0, h, if_false, if_true]
      omega
    · simp only [SelectNextComment, hN0, h, if_false]
      omega
  have hprev : (SelectPrevComment m).selectedCommentIndex =
      max (m.selectedCommentIndex - 1) 0 := by
    by_cases h : m.selectedCommentIndex > 0
    · simp only [SelectPrevComment, h, if_true]
      omega
    · have h1 : ¬ (m.selectedCommentIndex = -1 ∧ GetNumComments m > 0) := by omega
      simp only [SelectPrevComment, h, h1, if_false]
      omega
  refine ⟨hnext, hprev, ?_, ?_, ?_, ?_⟩
  · intro h
    have h1 : ¬ (m.selectedCommentIndex < (GetNumComments m : Int) - 1) := by omega
    simp only [SelectNextComment, hN0, h1, if_false]
  · intro h
    have h1 : ¬ (m.selectedCommentIndex > 0) := by omega
    have h2 : ¬ (m.selectedCommentIndex = -1 ∧ GetNumComments m > 0) := by omega
    simp only [SelectPrevComment, h1, h2, if_false]
  · rw [hnext]
    omega
  · rw [hprev]
    omega

/-- C2 (witness): the fixture with three comments, comment 0 selected. -/
theorem SelectNextPrevComment_clamped_witness :
    (SelectNextComment (EnterCommentNavMode (newTestModelWithComments 3))).selectedCommentIndex
        = 1 ∧
    (SelectPrevComment (EnterCommentNavMode (newTestModelWithComments 3))).selectedCommentIndex
        = 0 := by
  have h := SelectNextPrevComment_clamped (EnterCommentNavMode (newTestModelWithComments 3))
    (by decide) (by decide) (by decide)
  exact ⟨h.1.trans (by decide), h.2.1.trans (by decide)⟩

/-! ## Replacing the issue (`SetRow`) -/

/-- C3: replacing the issue by a snapshot with the same URL keeps every mode
flag, the confirmation flag and the selected comment index. -/
theorem SetRow_same_issue_preserves (m : Model) (i : Issue) (d : IssueData)
    (hi : m.issue = some i) (hurl : i.Data.Url = d.Url) :
    (SetRow m (some d)).isCommenting = m.isCommenting ∧
    (SetRow m (some d)).isLabeling = m.isLabeling ∧
    (SetRow m (some d)).isAssigning = m.isAssigning ∧
    (SetRow m (some d)).isUnassigning = m.isUnassigning ∧
    (SetRow m (some d)).isCommentNavMode = m.isCommentNavMode ∧
    (SetRow m (some d)).ShowConfirmCancel = m.ShowConfirmCancel ∧
    (SetRow m (some d)).selectedCommentIndex = m.selectedCommentIndex ∧
    (SetRow m (some d)).issue = some { Ctx := m.ctx, Data := d } := by
  simp [SetRow, hi, hurl]

/-- C3 (witness): the test `TestSetRow_PreservesStateForSameIssue`. -/
theorem SetRow_same_issue_preserves_witness :
    (SetRow (SelectNextComment (EnterCommentNavMode (newTestModelWithComments 3)))
        (some (testIssueData "https://github.com/test/repo/issues/1".toList
          (testComments 0 0 3)))).isCommentNavMode = true ∧
    (SetRow (SelectNextComment (EnterCommentNavMode (newTestModelWithComments 3)))
        (some (testIssueData "https://github.com/test/repo/issues/1".toList
          (testComments 0 0 3)))).selectedCommentIndex = 1 := by
  have h := SetRow_same_issue_preserves
    (SelectNextComment (EnterCommentNavMode (newTestModelWithComments 3)))
    { Ctx := testCtx
      Data := testIssueData "https://github.com/test/repo/issues/1".toList (testComments 0 0 3) }
    (testIssueData "https://github.com/test/repo/issues/1".toList (testComments 0 0 3))
    (by decide) rfl
  exact ⟨h.2.2.2.2.1.trans (by decide), h.2.2.2.2.2.2.1.trans (by decide)⟩

/-- C4 (as amended): replacing the issue by one of a different identity resets
the comment-navigation state, the flag to false and the selected index to -1;
the flags of the text-editing modes and the confirmation flag are kept as they
are. -/
theorem SetRow_new_issue_resets_nav (m : Model) (data : Option IssueData)
    (hnew : IsNewIssue m data) :
    (SetRow m data).isCommentNavMode = false ∧
    (SetRow m data).selectedCommentIndex = -1 ∧
    (SetRow m data).isCommenting = m.isCommenting ∧
    (SetRow m data).isLabeling = m.isLabeling ∧
    (SetRow m data).isAssigning = m.isAssigning ∧
    (SetRow m data).isUnassigning = m.isUnassigning ∧
    (SetRow m data).ShowConfirmCancel = m.ShowConfirmCancel := by
  cases hd : data with
  | none => cases hm : m.issue <;> simp [SetRow, hm]
  | some d =>
    cases hm : m.issue with
    | none => simp [SetRow, hm]
    | some i =>
      have hne : i.Data.Url ≠ d.Url := hnew i d hm hd
      simp [SetRow, hm, hne]

/-- C4 (witness): the test `TestSetRow_ResetsStateForDifferentIssue`. -/
theorem SetRow_new_issue_resets_nav_witness :
    (SetRow (SelectNextComment (EnterCommentNavMode (newTestModelWithComments 3)))
        (some (testIssueData "https://github.com/test/repo/issues/2".toList
          []))).isCommentNavMode = false ∧
    (SetRow (SelectNextComment (EnterCommentNavMode (newTestModelWithComments 3)))
        (some (testIssueData "https://github.com/test/repo/issues/2".toList
          []))).selectedCommentIndex = -1 := by
  have h := SetRow_new_issue_resets_nav
    (SelectNextComment (EnterCommentNavMode (newTestModelWithComments 3)))
    (some (testIssueData "https://github.com/test/repo/issues/2".toList []))
    (by
      intro i d hi hd
      cases hd
      have hi2 : i = Issue.mk testCtx
          (testIssueData "https://github.com/test/repo/issues/1".toList (testComments 0 0 3)) :=
        (Option.some.inj hi).symm
      subst hi2
      decide)
  exact ⟨h.1, h.2.1⟩

/-- C4 (counterexample): a model that is commenting is still commenting after
its issue is replaced by one with a different URL. -/
theorem SetRow_new_issue_keeps_commenting :
    (SetRow { newTestModelWithComments 3 with isCommenting := true }
        (some (testIssueData "https://github.com/test/repo/issues/2".toList
          []))).isCommenting = true ∧
    (testIssueData "https://github.com/test/repo/issues/2".toList []).Url ≠
      "https://github.com/test/repo/issues/1".toList := by
  decide

/-! ## Strings and the editor workflow -/

/-! ## Strings -/

theorem HasPrefix_hash_iff (l : GoString) :
    HasPrefix l "#".toList = true ↔ ∃ t, l = '#' :: t := by
  cases l with
  | nil => simp [HasPrefix, List.isPrefixOf]
  | cons c t =>
    have h : "#".toList = ['#'] := rfl
    simp only [HasPrefix, h, List.isPrefixOf, Bool.and_true, beq_iff_eq, List.cons.injEq]
    constructor
    · intro hc
      exact ⟨t, ⟨hc.symm, rfl⟩⟩
    · rintro ⟨t2, h1, _⟩
      exact h1.symm

theorem scanLinesFrom_append (l rest cur : GoString) (h : '\n' ∉ l) :
    scanLinesFrom cur (l ++ rest) = scanLinesFrom (cur ++ l) rest := by
  induction l generalizing cur with
  | nil => simp
  | cons c t ih =>
    have hc : c ≠ '\n' := fun hc => h (by simp [hc])
    have ht : '\n' ∉ t := fun ht => h (by simp [ht])
    have h1 : scanLinesFrom cur (c :: t ++ rest) = scanLinesFrom (cur ++ [c]) (t ++ rest) := by
      simp only [List.cons_append, scanLinesFrom, hc, if_false]
      rfl
    rw [h1, ih _ ht]
    simp

theorem fileLinesFrom_append (l rest cur : GoString) (h : '\n' ∉ l) :
    fileLinesFrom cur (l ++ rest) = fileLinesFrom (cur ++ l) rest := by
  induction l generalizing cur with
  | nil => simp
  | cons c t ih =>
    have hc : c ≠ '\n' := fun hc => h (by simp [hc])
    have ht : '\n' ∉ t := fun ht => h (by simp [ht])
    have h1 : fileLinesFrom cur (c :: t ++ rest) = fileLinesFrom (cur ++ [c]) (t ++ rest) := by
      simp only [List.cons_append, fileLinesFrom, hc, if_false]
      rfl
    rw [h1, ih _ ht]
    simp

theorem dropCR_sublist (l : GoString) : (dropCR l).Sublist l := by
  unfold dropCR
  split_ifs
  · exact List.dropLast_sublist l
  · exact List.Sublist.refl l

theorem dropCR_cons_cons (a b : Char) (r : GoString) :
    dropCR (a :: b :: r) = a :: dropCR (b :: r) := by
  simp [dropCR, List.getLast?_cons_cons]
  split_ifs <;> simp

theorem keptLines_no_hash (content l : GoString) (h : l ∈ keptLines content) :
    HasPrefix l "#".toList = false := by
  simp only [keptLines, List.mem_filter] at h
  simpa using h.2

theorem scanLinesFrom_no_newline (rest cur : GoString) (hcur : '\n' ∉ cur) :
    ∀ l ∈ scanLinesFrom cur rest, '\n' ∉ l := by
  induction rest generalizing cur with
  | nil =>
    intro l hl
    simp only [scanLinesFrom] at hl
    split_ifs at hl
    · simp at hl
    · simp at hl
    · simp only [List.mem_singleton] at hl
      subst hl
      exact fun hm => hcur ((dropCR_sublist cur).subset hm)
  | cons c t ih =>
    intro l hl
    simp only [scanLinesFrom] at hl
    split_ifs at hl with h1 h2
    · simp at hl
    · simp only [List.mem_cons] at hl
      rcases hl with hl | hl
      · subst hl
        exact fun hm => hcur ((dropCR_sublist cur).subset hm)
      · exact ih [] (by simp) l hl
    · exact ih (cur ++ [c]) (by simp [hcur, Ne.symm h1]) l hl

theorem keptLines_no_newline (content l : GoString) (h : l ∈ keptLines content) :
    '\n' ∉ l := by
  simp only [keptLines, List.mem_filter] at h
  exact scanLinesFrom_no_newline content [] (by simp) l h.1

theorem Split_ne_nil (s : GoString) (sep : Char) : Split s sep ≠ [] := by
  induction s with
  | nil => simp [Split]
  | cons c rest ih =>
    unfold Split
    split_ifs
    · simp
    · cases h : Split rest sep with
      | nil => simp
      | cons l ls => simp

theorem foldl_append_singleton {α β : Type} (f : α → β) (xs : List α) (acc : List β) :
    xs.foldl (fun acc x => acc ++ [f x]) acc = acc ++ xs.map f := by
  induction xs generalizing acc with
  | nil => simp
  | cons x xs ih => simp [ih]

theorem Join_cons_of_ne_nil (a : GoString) (l : List GoString) (sep : GoString) (h : l ≠ []) :
    Join (a :: l) sep = a ++ sep ++ Join l sep := by
  cases l with
  | nil => exact absurd rfl h
  | cons b r => rfl

theorem Join_append_two_empty (l : List GoString) (sep : GoString) (h : l ≠ []) :
    Join (l ++ [[], []]) sep = Join l sep ++ sep ++ sep := by
  induction l with
  | nil => exact absurd rfl h
  | cons a r ih =>
    cases r with
    | nil => simp [Join]
    | cons b r2 =>
      have h1 : (a :: b :: r2) ++ [[], []] = a :: ((b :: r2) ++ [[], []]) := rfl
      rw [h1, Join_cons_of_ne_nil a ((b :: r2) ++ [[], []]) sep (by simp), ih (by simp),
        Join_cons_of_ne_nil a (b :: r2) sep (by simp)]
      simp [List.append_assoc]

theorem quotedText_eq (c : IssueComment) :
    Join (quotedLines c) "\n".toList =
      "> @".toList ++ c.Author.Login ++ " wrote:\n>\n".toList ++
        Join ((Split c.Body '\n').map (fun line => "> ".toList ++ line)) "\n".toList ++
        "\n\n".toList := by
  have hne : (Split c.Body '\n').map (fun line => "> ".toList ++ line) ≠ [] := by
    simpa using Split_ne_nil c.Body '\n'
  simp only [quotedLines, foldl_append_singleton, List.nil_append, List.append_assoc]
  have h1 : ("> @".toList ++ (c.Author.Login ++ " wrote:".toList)) ::
      ([">".toList] ++ ((Split c.Body '\n').map (fun line => "> ".toList ++ line) ++ ([[]] ++ [[]])))
      = ("> @".toList ++ (c.Author.Login ++ " wrote:".toList)) :: ">".toList ::
        ((Split c.Body '\n').map (fun line => "> ".toList ++ line) ++ [[], []]) := rfl
  show Join ([_] ++ _) _ = _
  rw [List.singleton_append, h1, Join_cons_of_ne_nil _ _ _ (by simp),
    Join_cons_of_ne_nil _ _ _ (by simp [hne]), Join_append_two_empty _ _ hne]
  simp [List.append_assoc]

theorem Split_head_hash (s : GoString) (l : GoString) (ls : List GoString)
    (h : Split s '\n' = l :: ls) (hl : HasPrefix l "#".toList = true) :
    ∃ t, s = '#' :: t := by
  cases s with
  | nil =>
    simp only [Split, List.cons.injEq] at h
    rw [← h.1] at hl
    simp [HasPrefix, List.isPrefixOf] at hl
  | cons c rest =>
    unfold Split at h
    split_ifs at h with hc
    · simp only [List.cons.injEq] at h
      rw [← h.1] at hl
      simp [HasPrefix, List.isPrefixOf] at hl
    · cases hr : Split rest '\n' with
      | nil => exact absurd hr (Split_ne_nil rest '\n')
      | cons l0 ls0 =>
        rw [hr] at h
        simp only [List.cons.injEq] at h
        rw [← h.1] at hl
        obtain ⟨t, ht⟩ := (HasPrefix_hash_iff _).mp hl
        simp only [List.cons.injEq] at ht
        exact ⟨rest, by rw [ht.1]⟩

theorem Split_tail_hash (s : GoString) :
    ∀ l ∈ (Split s '\n').tail, HasPrefix l "#".toList = true → ['\n', '#'] <:+: s := by
  induction s with
  | nil => simp [Split]
  | cons c rest ih =>
    intro l hl hh
    unfold Split at hl
    split_ifs at hl with hc
    · simp only [List.tail_cons] at hl
      cases hr : Split rest '\n' with
      | nil => exact absurd hr (Split_ne_nil rest '\n')
      | cons l0 ls0 =>
        rw [hr] at hl
        rcases List.mem_cons.mp hl with h0 | h0
        · subst h0
          obtain ⟨t, ht⟩ := Split_head_hash rest l ls0 hr hh
          subst ht
          subst hc
          exact ⟨[], t, by simp⟩
        · have : l ∈ (Split rest '\n').tail := by rw [hr]; exact h0
          exact (ih l this hh).trans (List.infix_cons (List.infix_refl _))
    · cases hr : Split rest '\n' with
      | nil => exact absurd hr (Split_ne_nil rest '\n')
      | cons l0 ls0 =>
        rw [hr] at hl
        simp only [List.tail_cons] at hl
        have : l ∈ (Split rest '\n').tail := by rw [hr]; exact hl
        exact (ih l this hh).trans (List.infix_cons (List.infix_refl _))

theorem infix_newline_hash_append (a x : GoString) (ha : '\n' ∉ a)
    (h : ['\n', '#'] <:+: a ++ '\n' :: x) :
    (∃ t, x = '#' :: t) ∨ ['\n', '#'] <:+: x := by
  induction a with
  | nil =>
    rcases List.infix_cons_iff.mp h with h1 | h1
    · left
      obtain ⟨t, ht⟩ := h1
      simp only [List.cons_append, List.nil_append, List.cons.injEq, true_and] at ht
      exact ⟨t, ht.symm⟩
    · exact Or.inr h1
  | cons c t ih =>
    have hc : c ≠ '\n' := fun hc => ha (by simp [hc])
    have ht : '\n' ∉ t := fun ht => ha (by simp [ht])
    rcases List.infix_cons_iff.mp h with h1 | h1
    · obtain ⟨u, hu⟩ := h1
      simp only [List.cons_append, List.cons.injEq] at hu
      exact absurd hu.1.symm hc
    · exact ih ht h1

theorem Join_head_hash (b : GoString) (r : List GoString) (t : GoString)
    (h : Join (b :: r) "\n".toList = '#' :: t) : HasPrefix b "#".toList = true := by
  cases b with
  | nil =>
    cases r with
    | nil => simp [Join] at h
    | cons b2 r2 =>
      have h' : "\n".toList = ['\n'] := rfl
      simp [Join, h'] at h
  | cons c b1 =>
    cases r with
    | nil =>
      simp only [Join, List.cons.injEq] at h
      exact (HasPrefix_hash_iff _).mpr ⟨b1, by rw [h.1]⟩
    | cons b2 r2 =>
      simp only [Join, List.cons_append, List.cons.injEq] at h
      exact (HasPrefix_hash_iff _).mpr ⟨b1, by rw [h.1]⟩

theorem Join_no_newline_hash (ls : List GoString)
    (hnl : ∀ l ∈ ls, '\n' ∉ l) (hh : ∀ l ∈ ls, HasPrefix l "#".toList = false) :
    ¬ (['\n', '#'] <:+: Join ls "\n".toList) := by
  induction ls with
  | nil => simp [Join]
  | cons a r ih =>
    cases r with
    | nil =>
      intro h
      simp only [Join] at h
      exact hnl a (by simp) (h.subset (by simp))
    | cons b r2 =>
      intro h
      have h' : "\n".toList = ['\n'] := rfl
      have hJ : Join (a :: b :: r2) "\n".toList = a ++ '\n' :: Join (b :: r2) "\n".toList := by
        simp [Join, h']
      rw [hJ] at h
      rcases infix_newline_hash_append a _ (hnl a (by simp)) h with ⟨t, ht⟩ | h2
      · have := Join_head_hash b r2 t ht
        rw [hh b (by simp)] at this
        exact Bool.noConfusion this
      · exact ih (fun l hl => hnl l (List.mem_cons_of_mem _ hl))
          (fun l hl => hh l (List.mem_cons_of_mem _ hl)) h2

theorem TrimSpace_isInfix (s : GoString) : TrimSpace s <:+: s :=
  (List.rdropWhile_prefix IsSpace _).isInfix.trans (List.dropWhile_suffix IsSpace).isInfix

theorem Split_Join (ls : List GoString) (hne : ls ≠ []) (hnl : ∀ l ∈ ls, '\n' ∉ l) :
    Split (Join ls "\n".toList) '\n' = ls := by
  have hsingle : ∀ a : GoString, '\n' ∉ a → ∀ x : GoString,
      Split (a ++ '\n' :: x) '\n' = a :: Split x '\n' := by
    intro a
    induction a with
    | nil => intro _ x; simp [Split]
    | cons c t ih =>
      intro ha x
      have hc : c ≠ '\n' := fun hc => ha (by simp [hc])
      have ht : '\n' ∉ t := fun ht => ha (by simp [ht])
      have := ih ht x
      simp only [List.cons_append]
      rw [Split.eq_def]
      simp [hc, this]
  have hlast : ∀ a : GoString, '\n' ∉ a → Split a '\n' = [a] := by
    intro a
    induction a with
    | nil => intro _; simp [Split]
    | cons c t ih =>
      intro ha
      have hc : c ≠ '\n' := fun hc => ha (by simp [hc])
      have ht : '\n' ∉ t := fun ht => ha (by simp [ht])
      rw [Split.eq_def]
      simp [hc, ih ht]
  induction ls with
  | nil => exact absurd rfl hne
  | cons a r ih =>
    cases r with
    | nil => simpa [Join] using hlast a (hnl a (by simp))
    | cons b r2 =>
      have h' : "\n".toList = ['\n'] := rfl
      have hJ : Join (a :: b :: r2) "\n".toList = a ++ '\n' :: Join (b :: r2) "\n".toList := by
        simp [Join, h']
      rw [hJ, hsingle a (hnl a (by simp)), ih (by simp) (fun l hl => hnl l (List.mem_cons_of_mem _ hl))]

/-- C8 (as amended): no line of the temp file that begins with `#` is kept;
no line of the joined text before trimming begins with `#`; and in the
submitted body no line after the first begins with `#`. -/
theorem editorBody_lines_no_hash (content : GoString) :
    (∀ l ∈ keptLines content, HasPrefix l "#".toList = false) ∧
    (∀ l ∈ Split (Join (keptLines content) "\n".toList) '\n',
      HasPrefix l "#".toList = false) ∧
    (∀ l ∈ (Split (editorBody content) '\n').tail, HasPrefix l "#".toList = false) := by
  refine ⟨keptLines_no_hash content, ?_, ?_⟩
  · by_cases hne : keptLines content = []
    · rw [hne]
      decide
    · rw [Split_Join _ hne (keptLines_no_newline content)]
      exact keptLines_no_hash content
  · intro l hl
    by_contra hh
    have hh' : HasPrefix l "#".toList = true := by simpa using hh
    have h1 := Split_tail_hash (editorBody content) l hl hh'
    exact Join_no_newline_hash (keptLines content) (keptLines_no_newline content)
      (keptLines_no_hash content) (h1.trans (TrimSpace_isInfix _))

/-- C8 (counterexample): a file whose only line is a `#` after a blank yields
a submitted body whose first line begins with `#`. -/
theorem editorBody_first_line_hash :
    editorBody " # Title".toList = "# Title".toList ∧
    ∃ l ∈ Split (editorBody " # Title".toList) '\n', HasPrefix l "#".toList = true := by
  decide

theorem Split_append_newline (a : GoString) (ha : '\n' ∉ a) (x : GoString) :
    Split (a ++ '\n' :: x) '\n' = a :: Split x '\n' := by
  induction a with
  | nil => simp [Split]
  | cons c t ih =>
    have hc : c ≠ '\n' := fun hc => ha (by simp [hc])
    have ht : '\n' ∉ t := fun ht => ha (by simp [ht])
    have := ih ht
    simp only [List.cons_append]
    rw [Split.eq_def]
    simp [hc, this]

theorem Split_no_newline (a : GoString) (ha : '\n' ∉ a) : Split a '\n' = [a] := by
  induction a with
  | nil => simp [Split]
  | cons c t ih =>
    have hc : c ≠ '\n' := fun hc => ha (by simp [hc])
    have ht : '\n' ∉ t := fun ht => ha (by simp [ht])
    rw [Split.eq_def]
    simp [hc, ih ht]

/-- When no line of the file reaches `MaxScanTokenSize` bytes the scanner
loop yields every line of the file. -/
theorem scanLinesFrom_eq_fileLinesFrom (rest cur : GoString) (hcur : '\n' ∉ cur)
    (hshort : ∀ l ∈ Split (cur ++ rest) '\n', byteLen l < MaxScanTokenSize) :
    scanLinesFrom cur rest = fileLinesFrom cur rest := by
  induction rest generalizing cur with
  | nil =>
    have h1 : byteLen cur < MaxScanTokenSize := by
      apply hshort
      rw [List.append_nil, Split_no_newline cur hcur]
      simp
    simp [scanLinesFrom, fileLinesFrom, not_le.mpr h1]
  | cons c t ih =>
    by_cases hc : c = '\n'
    · subst hc
      rw [Split_append_newline cur hcur] at hshort
      have h1 : byteLen cur < MaxScanTokenSize := hshort cur (by simp)
      have h2 := ih [] (by simp) (fun l hl => hshort l (by simpa using Or.inr hl))
      simp [scanLinesFrom, fileLinesFrom, not_le.mpr h1, h2]
    · have h2 := ih (cur ++ [c]) (by simp [hcur, Ne.symm hc])
        (fun l hl => hshort l (by simpa using hl))
      simp [scanLinesFrom, fileLinesFrom, hc, h2]

/-- When no line of the file reaches `MaxScanTokenSize` bytes the body the
exit callback computes is the body of the specification. -/
theorem editorBody_eq_specBody_of_short_lines (content : GoString)
    (hshort : ∀ l ∈ Split content '\n', byteLen l < MaxScanTokenSize) :
    editorBody content = specBody content := by
  have h := scanLinesFrom_eq_fileLinesFrom content [] (by simp) (by simpa using hshort)
  simp [editorBody, specBody, keptLines, scanLines, fileLines, h]

theorem byteLen_replicate_a (n : Nat) : byteLen (List.replicate n 'a') = n := by
  have h : 'a'.utf8Size = 1 := by decide
  simp [byteLen, List.map_replicate, List.sum_replicate, h]

theorem dropCR_of_getLast (l : GoString) (c : Char) (h : l.getLast? = some c) (hc : c ≠ '\r') :
    dropCR l = l := by
  simp [dropCR, h, hc]

theorem TrimSpace_of_not_space (a b : Char) (s : GoString) (ha : IsSpace a = false)
    (hb : IsSpace b = false) : TrimSpace (a :: s ++ [b]) = a :: s ++ [b] := by
  have h1 : (a :: s ++ [b]).dropWhile IsSpace = a :: s ++ [b] := by
    simp [List.dropWhile, ha]
  have h2 : (a :: s ++ [b]) = (a :: s) ++ [b] := rfl
  rw [TrimSpace, h1, h2, List.rdropWhile_concat_neg _ _ _ (by simp [hb])]

theorem HasPrefix_replicate_a (n : Nat) :
    HasPrefix (List.replicate n 'a') "#".toList = false := by
  cases n with
  | zero => rfl
  | succ k => rfl

theorem long_line_lost (A : GoString) (hA : '\n' ∉ A)
    (hlen : MaxScanTokenSize ≤ byteLen A) (hlastA : A.getLast? = some 'a')
    (hA2 : HasPrefix A "#".toList = false) :
    editorBody ("first\n".toList ++ (A ++ "\nlast".toList)) = "first".toList ∧
    specBody ("first\n".toList ++ (A ++ "\nlast".toList)) =
      "first\n".toList ++ (A ++ "\nlast".toList) := by
  have hin : "first\n".toList ++ (A ++ "\nlast".toList) =
      "first".toList ++ ('\n' :: (A ++ ('\n' :: "last".toList))) := by
    rfl
  constructor
  · have hs : scanLines ("first".toList ++
        ('\n' :: (A ++ ('\n' :: "last".toList)))) = ["first".toList] := by
      rw [scanLines, scanLinesFrom_append _ _ _ (by decide), List.nil_append]
      have h1 : scanLinesFrom "first".toList
          ('\n' :: (A ++ ('\n' :: "last".toList))) =
          dropCR "first".toList ::
            scanLinesFrom [] (A ++ ('\n' :: "last".toList)) := by
        rw [scanLinesFrom]
        have : ¬ (MaxScanTokenSize ≤ byteLen "first".toList) := by decide
        rw [if_pos rfl, if_neg this]
      rw [h1, scanLinesFrom_append _ _ _ hA, List.nil_append]
      have h2 : scanLinesFrom A ('\n' :: "last".toList) = [] := by
        rw [scanLinesFrom]
        simp [hlen]
      rw [h2]
      decide
    rw [hin, editorBody, keptLines, hs]
    decide
  · have hs : fileLines ("first".toList ++
        ('\n' :: (A ++ ('\n' :: "last".toList)))) =
        ["first".toList, A, "last".toList] := by
      rw [fileLines, fileLinesFrom_append _ _ _ (by decide), List.nil_append]
      have h1 : fileLinesFrom "first".toList
          ('\n' :: (A ++ ('\n' :: "last".toList))) =
          dropCR "first".toList ::
            fileLinesFrom [] (A ++ ('\n' :: "last".toList)) := by
        rw [fileLinesFrom]
        simp
      rw [h1, fileLinesFrom_append _ _ _ hA, List.nil_append]
      have h2 : fileLinesFrom A ('\n' :: "last".toList) =
          [dropCR A, "last".toList] := by
        rw [fileLinesFrom]
        simp only [if_true, List.cons.injEq, true_and]
        decide
      rw [h2, dropCR_of_getLast _ 'a' hlastA (by decide)]
      have : dropCR "first".toList = "first".toList := by decide
      rw [this]
    have hf : (["first".toList, A, "last".toList].filter
        (fun line => !HasPrefix line "#".toList)) =
        ["first".toList, A, "last".toList] := by
      have h1 : HasPrefix "first".toList "#".toList = false := by decide
      have h3 : HasPrefix "last".toList "#".toList = false := by decide
      simp only [List.filter, hA2, h1, h3, Bool.not_false]
    rw [hin, specBody, hs, hf]
    have hJ : Join ["first".toList, A, "last".toList] "\n".toList =
        'f' :: ("irst\n".toList ++ (A ++ "\nlas".toList)) ++ ['t'] := by
      simp [Join]
    rw [hJ, TrimSpace_of_not_space _ _ _ (by decide) (by decide)]
    simp

/-- C9 (the code at a failing input): a file with the lines `first`, a line
of 65536 letters and `last` yields the body `first`; the two lines from the
long one on are lost, where the specification keeps all three. -/
theorem editorBody_long_line_lost :
    editorBody ("first\n".toList ++ (List.replicate 65536 'a' ++ "\nlast".toList)) =
      "first".toList ∧
    specBody ("first\n".toList ++ (List.replicate 65536 'a' ++ "\nlast".toList)) =
      "first\n".toList ++ (List.replicate 65536 'a' ++ "\nlast".toList) := by
  apply long_line_lost
  · intro h
    exact absurd (List.eq_of_mem_replicate h) (by decide)
  · rw [byteLen_replicate_a]
    decide
  · rw [List.getLast?_replicate]
    simp
  · rw [HasPrefix_replicate_a]

theorem digitChar_ne_newline (k : Nat) : Nat.digitChar k ≠ '\n' := by
  by_cases h : k < 16
  · interval_cases k <;> decide
  · have hk : Nat.digitChar k = '*' := by
      unfold Nat.digitChar
      repeat rw [if_neg (by omega)]
    rw [hk]
    decide

theorem toDigitsCore_no_newline (b fuel n : Nat) (ds : List Char) (h : '\n' ∉ ds) :
    '\n' ∉ Nat.toDigitsCore b fuel n ds := by
  induction fuel generalizing n ds with
  | zero => simpa [Nat.toDigitsCore] using h
  | succ f ih =>
    have hd : '\n' ∉ Nat.digitChar (n % b) :: ds := by
      simp only [List.mem_cons, not_or]
      exact ⟨(digitChar_ne_newline _).symm, h⟩
    simp only [Nat.toDigitsCore]
    split_ifs
    · exact hd
    · exact ih _ _ hd

theorem formatInt_no_newline (n : Int) : '\n' ∉ formatInt n := by
  have h : ∀ k, '\n' ∉ Nat.toDigits 10 k := fun k =>
    toDigitsCore_no_newline 10 (k + 1) k [] (by simp)
  unfold formatInt
  split_ifs
  · simp only [List.mem_cons, not_or]
    exact ⟨by decide, h _⟩
  · exact h _

theorem editorHeader_eq (isPR : Bool) (number : Int) (repoName : GoString) :
    editorHeader isPR number repoName =
      headerFirstLine isPR number repoName ++ '\n' :: headerRest := by
  simp [editorHeader, headerFirstLine, headerRest]

theorem headerFirstLine_no_newline (isPR : Bool) (number : Int) (repoName : GoString)
    (h : '\n' ∉ repoName) : '\n' ∉ headerFirstLine isPR number repoName := by
  have h1 := formatInt_no_newline number
  have h2 : '\n' ∉ "# Comment on ".toList := by decide
  have h3 : '\n' ∉ " #".toList := by decide
  have h4 : '\n' ∉ " in ".toList := by decide
  have h5 : '\n' ∉ (if !isPR then "issue".toList else "PR".toList) := by
    cases isPR <;> decide
  simp only [headerFirstLine, List.mem_append, not_or]
  exact ⟨⟨⟨⟨⟨h2, h5⟩, h3⟩, h1⟩, h4⟩, h⟩

theorem dropCR_headerFirstLine (isPR : Bool) (number : Int) (repoName : GoString) :
    HasPrefix (dropCR (headerFirstLine isPR number repoName)) "#".toList = true := by
  have : ∃ t, headerFirstLine isPR number repoName = '#' :: ' ' :: t := by
    exact ⟨_, rfl⟩
  obtain ⟨t, ht⟩ := this
  rw [ht, dropCR_cons_cons]
  exact (HasPrefix_hash_iff _).mpr ⟨_, rfl⟩

/-- C10: for a repository name without a line break the header contains the
number and the repository name, each of its lines begins with `#`, and a
file that holds the header alone yields the empty body. -/
theorem editorHeader_spec (isPR : Bool) (number : Int) (repoName : GoString)
    (h : '\n' ∉ repoName) :
    formatInt number <:+: editorHeader isPR number repoName ∧
    repoName <:+: editorHeader isPR number repoName ∧
    (fileLines (editorHeader isPR number repoName)).length = 3 ∧
    (∀ l ∈ fileLines (editorHeader isPR number repoName), HasPrefix l "#".toList = true) ∧
    editorBody (editorHeader isPR number repoName) = [] := by
  have hnl := headerFirstLine_no_newline isPR number repoName h
  have hfirst := dropCR_headerFirstLine isPR number repoName
  have hfile : fileLines (editorHeader isPR number repoName) =
      dropCR (headerFirstLine isPR number repoName) :: fileLines headerRest := by
    rw [editorHeader_eq, fileLines, fileLinesFrom_append _ _ _ hnl, List.nil_append,
      fileLinesFrom]
    simp [fileLines]
  have hrest : ∀ l ∈ fileLines headerRest, HasPrefix l "#".toList = true := by decide
  have hscanrest : ∀ l ∈ scanLines headerRest, HasPrefix l "#".toList = true := by decide
  refine ⟨?_, ?_, ?_, ?_, ?_⟩
  · refine ⟨"# Comment on ".toList ++ (if !isPR then "issue".toList else "PR".toList) ++
      " #".toList, " in ".toList ++ repoName ++ "\n".toList ++
      "# Lines starting with '#' will be ignored.\n".toList ++
      "# Save and quit to submit. Leave empty to cancel.\n".toList, ?_⟩
    simp [editorHeader]
  · refine ⟨"# Comment on ".toList ++ (if !isPR then "issue".toList else "PR".toList) ++
      " #".toList ++ formatInt number ++ " in ".toList, "\n".toList ++
      "# Lines starting with '#' will be ignored.\n".toList ++
      "# Save and quit to submit. Leave empty to cancel.\n".toList, ?_⟩
    simp [editorHeader]
  · rw [hfile]
    have : (fileLines headerRest).length = 2 := by decide
    simp [this]
  · intro l hl
    rw [hfile] at hl
    rcases List.mem_cons.mp hl with h1 | h1
    · rw [h1]; exact hfirst
    · exact hrest l h1
  · have hscan : ∀ l ∈ scanLines (editorHeader isPR number repoName),
        HasPrefix l "#".toList = true := by
      intro l hl
      rw [editorHeader_eq, scanLines, scanLinesFrom_append _ _ _ hnl, List.nil_append,
        scanLinesFrom] at hl
      rw [if_pos rfl] at hl
      split_ifs at hl
      · simp at hl
      · rcases List.mem_cons.mp hl with h1 | h1
        · rw [h1]; exact hfirst
        · exact hscanrest l h1
    have hk : keptLines (editorHeader isPR number repoName) = [] := by
      rw [keptLines, List.filter_eq_nil_iff]
      intro l hl
      rw [hscan l hl]
      decide
    rw [editorBody, hk]
    decide

/-- C10 (witness): issue 42 of the repository `o/r`. -/
theorem editorHeader_spec_witness :
    "42".toList <:+: editorHeader false 42 "o/r".toList ∧
    "o/r".toList <:+: editorHeader false 42 "o/r".toList ∧
    editorBody (editorHeader false 42 "o/r".toList) = [] := by
  have h := editorHeader_spec false 42 "o/r".toList (by decide)
  exact ⟨h.1, h.2.1, h.2.2.2.2⟩

/-- C7: with an issue set, quoting a comment switches to commenting and seeds
the input with the header line, the line `>`, every line of the body after
`> `, and two blank lines. -/
theorem SetIsQuoteReplying_text (K : Constants) (m : Model) (i : Issue) (c : IssueComment)
    (hi : m.issue = some i) :
    (SetIsQuoteReplying K m (some c)).1.isCommenting = true ∧
    quotedLines c =
      ["> @".toList ++ c.Author.Login ++ " wrote:".toList, ">".toList] ++
        (Split c.Body '\n').map (fun line => "> ".toList ++ line) ++ [[], []] ∧
    (SetIsQuoteReplying K m (some c)).1.inputBox.value = Join (quotedLines c) "\n".toList ∧
    (SetIsQuoteReplying K m (some c)).1.inputBox.value =
      "> @".toList ++ c.Author.Login ++ " wrote:\n>\n".toList ++
        Join ((Split c.Body '\n').map (fun line => "> ".toList ++ line)) "\n".toList ++
        "\n\n".toList := by
  have hv : (SetIsQuoteReplying K m (some c)).1.inputBox.value =
      Join (quotedLines c) "\n".toList := by
    simp [SetIsQuoteReplying, hi, expandInputBoxForCommenting, InputBox.SetValue,
      InputBox.SetPrompt, InputBox.Focus, InputBox.SetHeight, InputBox.Reset]
  refine ⟨?_, ?_, hv, ?_⟩
  · simp [SetIsQuoteReplying, hi, expandInputBoxForCommenting]
  · simp [quotedLines, foldl_append_singleton]
  · rw [hv, quotedText_eq]

/-- C7 (witness): quoting a comment of two lines by `user1` in the fixture. -/
theorem SetIsQuoteReplying_text_witness :
    (SetIsQuoteReplying testConstants (newTestModelWithComments 2)
        (some { Author := { Login := "user1".toList }, Body := "one\ntwo".toList,
                UpdatedAt := 0 })).1.inputBox.value =
      "> @user1 wrote:\n>\n> one\n> two\n\n".toList := by
  have h := SetIsQuoteReplying_text testConstants (newTestModelWithComments 2)
    (Issue.mk testCtx (testIssueData "https://github.com/test/repo/issues/1".toList
      (testComments 0 0 2)))
    { Author := { Login := "user1".toList }, Body := "one\ntwo".toList, UpdatedAt := 0 } rfl
  exact h.2.2.2.trans (by decide)

/-! ## The sort of the Go library (`Slice`) -/

/-! ### Swaps and permutations -/

theorem swapAt_length {α : Type} (d : List α) (i j : Nat) :
    (swapAt d i j).length = d.length := by
  unfold swapAt
  split <;> simp

theorem swapAt_perm {α : Type} (d : List α) (i j : Nat) : (swapAt d i j).Perm d := by
  classical
  unfold swapAt
  split
  · rename_i x y hx hy
    obtain ⟨hi, hxi⟩ := List.getElem?_eq_some_iff.mp hx
    obtain ⟨hj, hyj⟩ := List.getElem?_eq_some_iff.mp hy
    rw [List.perm_iff_count]
    intro a
    rw [List.count_set _ _ _ _ (by simpa using hj), List.count_set _ _ _ _ hi]
    by_cases hij : i = j
    · subst hij
      have hxy : x = y := by rw [← hxi, ← hyj]
      subst hxy
      simp only [List.getElem_set_self, hxi]
      have := List.count_pos_iff.mpr (List.getElem?_mem hx)
      by_cases hxa : x = a
      · subst hxa; simp; omega
      · simp [hxa]
    · rw [List.getElem_set_ne hij]
      simp only [hxi, hyj, beq_iff_eq]
      have hcx := List.count_pos_iff.mpr (List.getElem?_mem hx)
      have hcy := List.count_pos_iff.mpr (List.getElem?_mem hy)
      by_cases hxa : x = a <;> by_cases hya : y = a
      · subst hxa; subst hya; simp; omega
      · subst hxa; simp [hya]; omega
      · subst hya; simp [hxa]
      · simp [hxa, hya]
  · exact List.Perm.refl d

/-! ### Every routine of the sort permutes the slice -/

theorem insertionSortInner_perm {α : Type} (less : α → α → Bool) (a j : Nat) (d : List α) :
    (insertionSortInner less a j d).Perm d := by
  induction j generalizing d with
  | zero => exact List.Perm.refl _
  | succ j ih =>
    unfold insertionSortInner
    split_ifs
    · exact (ih _).trans (swapAt_perm _ _ _)
    · exact List.Perm.refl _

theorem insertionSortOuter_perm {α : Type} (less : α → α → Bool) (a b n i : Nat)
    (d : List α) : (insertionSortOuter less a b n i d).Perm d := by
  induction n generalizing i d with
  | zero => exact List.Perm.refl _
  | succ n ih =>
    unfold insertionSortOuter
    split_ifs
    · exact (ih _ _).trans (insertionSortInner_perm _ _ _ _)
    · exact List.Perm.refl _

theorem insertionSort_func_perm {α : Type} (less : α → α → Bool) (d : List α) (a b : Nat) :
    (insertionSort_func less d a b).Perm d :=
  insertionSortOuter_perm _ _ _ _ _ _

theorem siftDownLoop_perm {α : Type} (less : α → α → Bool) (hi first n root : Nat)
    (d : List α) : (siftDownLoop less hi first n root d).Perm d := by
  induction n generalizing root d with
  | zero => exact List.Perm.refl _
  | succ n ih =>
    unfold siftDownLoop
    simp only
    split_ifs
    all_goals first
      | exact List.Perm.refl _
      | exact (ih _ _).trans (swapAt_perm _ _ _)

theorem siftDown_func_perm {α : Type} (less : α → α → Bool) (d : List α)
    (lo hi first : Nat) : (siftDown_func less d lo hi first).Perm d :=
  siftDownLoop_perm _ _ _ _ _ _

theorem heapSortBuild_perm {α : Type} (less : α → α → Bool) (hi first n : Nat)
    (d : List α) : (heapSortBuild less hi first n d).Perm d := by
  induction n generalizing d with
  | zero => exact List.Perm.refl _
  | succ n ih =>
    unfold heapSortBuild
    exact (ih _).trans (siftDown_func_perm _ _ _ _ _)

theorem heapSortPop_perm {α : Type} (less : α → α → Bool) (first n : Nat)
    (d : List α) : (heapSortPop less first n d).Perm d := by
  induction n generalizing d with
  | zero => exact List.Perm.refl _
  | succ n ih =>
    unfold heapSortPop
    exact (ih _).trans ((siftDown_func_perm _ _ _ _ _).trans (swapAt_perm _ _ _))

theorem heapSort_func_perm {α : Type} (less : α → α → Bool) (d : List α) (a b : Nat) :
    (heapSort_func less d a b).Perm d :=
  (heapSortPop_perm _ _ _ _).trans (heapSortBuild_perm _ _ _ _ _)

theorem partitionLoop_perm {α : Type} (less : α → α → Bool) (a b n : Nat) (d : List α)
    (i j : Nat) : (partitionLoop less a b n d i j).1.Perm d := by
  induction n generalizing d i j with
  | zero => exact List.Perm.refl _
  | succ n ih =>
    unfold partitionLoop
    simp only
    split_ifs
    · exact List.Perm.refl _
    · exact (ih _ _ _).trans (swapAt_perm _ _ _)

theorem partition_func_perm {α : Type} (less : α → α → Bool) (d : List α)
    (a b pivot : Nat) : (partition_func less d a b pivot).1.Perm d := by
  unfold partition_func
  simp only
  split_ifs
  · exact (swapAt_perm _ _ _).trans (swapAt_perm _ _ _)
  · exact (swapAt_perm _ _ _).trans ((partitionLoop_perm _ _ _ _ _ _ _).trans
      ((swapAt_perm _ _ _).trans (swapAt_perm _ _ _)))

theorem partitionEqualLoop_perm {α : Type} (less : α → α → Bool) (a b n : Nat) (d : List α)
    (i j : Nat) : (partitionEqualLoop less a b n d i j).1.Perm d := by
  induction n generalizing d i j with
  | zero => exact List.Perm.refl _
  | succ n ih =>
    unfold partitionEqualLoop
    simp only
    split_ifs
    · exact List.Perm.refl _
    · exact (ih _ _ _).trans (swapAt_perm _ _ _)

theorem partitionEqual_func_perm {α : Type} (less : α → α → Bool) (d : List α)
    (a b pivot : Nat) : (partitionEqual_func less d a b pivot).1.Perm d :=
  (partitionEqualLoop_perm _ _ _ _ _ _ _).trans (swapAt_perm _ _ _)

theorem shiftLeft_perm {α : Type} (less : α → α → Bool) (j : Nat) (d : List α) :
    (shiftLeft less j d).Perm d := by
  induction j generalizing d with
  | zero => exact List.Perm.refl _
  | succ j ih =>
    unfold shiftLeft
    split_ifs
    · exact List.Perm.refl _
    · exact (ih _).trans (swapAt_perm _ _ _)

theorem shiftRight_perm {α : Type} (less : α → α → Bool) (b n j : Nat) (d : List α) :
    (shiftRight less b n j d).Perm d := by
  induction n generalizing j d with
  | zero => exact List.Perm.refl _
  | succ n ih =>
    unfold shiftRight
    split_ifs
    · exact List.Perm.refl _
    · exact (ih _ _).trans (swapAt_perm _ _ _)
    · exact List.Perm.refl _

theorem partialInsertionSortLoop_perm {α : Type} (less : α → α → Bool) (a b n i : Nat)
    (d : List α) : (partialInsertionSortLoop less a b n i d).1.Perm d := by
  induction n generalizing i d with
  | zero => exact List.Perm.refl _
  | succ n ih =>
    unfold partialInsertionSortLoop
    simp only
    split_ifs
    all_goals first
      | exact List.Perm.refl _
      | exact (ih _ _).trans (swapAt_perm _ _ _)
      | exact (ih _ _).trans ((shiftLeft_perm _ _ _).trans (swapAt_perm _ _ _))
      | exact (ih _ _).trans ((shiftRight_perm _ _ _ _ _).trans (swapAt_perm _ _ _))
      | exact (ih _ _).trans ((shiftRight_perm _ _ _ _ _).trans
          ((shiftLeft_perm _ _ _).trans (swapAt_perm _ _ _)))

theorem partialInsertionSort_func_perm {α : Type} (less : α → α → Bool) (d : List α)
    (a b : Nat) : (partialInsertionSort_func less d a b).1.Perm d :=
  partialInsertionSortLoop_perm _ _ _ _ _ _

theorem breakPatternsLoop_perm {α : Type} (a length modulus idx n i random : Nat)
    (d : List α) : (breakPatternsLoop a length modulus idx n i random d).Perm d := by
  induction n generalizing i random d with
  | zero => exact List.Perm.refl _
  | succ n ih =>
    unfold breakPatternsLoop
    exact (ih _ _ _).trans (swapAt_perm _ _ _)

theorem breakPatterns_func_perm {α : Type} (d : List α) (a b : Nat) :
    (breakPatterns_func d a b).Perm d := by
  unfold breakPatterns_func
  simp only
  split_ifs
  · exact breakPatternsLoop_perm _ _ _ _ _ _ _ _
  · exact List.Perm.refl _

theorem reverseRangeLoop_perm {α : Type} (n i j : Nat) (d : List α) :
    (reverseRangeLoop n i j d).Perm d := by
  induction n generalizing i j d with
  | zero => exact List.Perm.refl _
  | succ n ih =>
    unfold reverseRangeLoop
    split_ifs
    · exact (ih _ _ _).trans (swapAt_perm _ _ _)
    · exact List.Perm.refl _

theorem reverseRange_func_perm {α : Type} (d : List α) (a b : Nat) :
    (reverseRange_func d a b).Perm d :=
  reverseRangeLoop_perm _ _ _ _

theorem pdqsortPivot_perm {α : Type} (less : α → α → Bool) (d : List α) (a b limit : Nat)
    (wb wp : Bool) : (pdqsortPivot less d a b limit wb wp).1.Perm d := by
  have h1 : (if !wb then breakPatterns_func d a b else d).Perm d := by
    split_ifs
    · exact breakPatterns_func_perm _ _ _
    · exact List.Perm.refl _
  unfold pdqsortPivot
  generalize (if !wb then breakPatterns_func d a b else d) = d1 at h1 ⊢
  simp only
  generalize choosePivot_func less d1 a b = ph
  have h2 : (if ph.2 = sortedHint.decreasingHint then reverseRange_func d1 a b else d1).Perm
      d1 := by
    split_ifs
    · exact reverseRange_func_perm _ _ _
    · exact List.Perm.refl _
  generalize (if ph.2 = sortedHint.decreasingHint then reverseRange_func d1 a b else d1) = d2
    at h2 ⊢
  split_ifs
  all_goals first
    | exact (partialInsertionSort_func_perm _ _ _ _).trans (h2.trans h1)
    | exact h2.trans h1

/-- One round of `pdqsort_func`, spelled out. -/
theorem pdqsort_func_succ {α : Type} (less : α → α → Bool) (fuel : Nat) (d : List α)
    (a b limit : Nat) (wb wp : Bool) :
    pdqsort_func less (fuel + 1) d a b limit wb wp =
      if b - a ≤ 12 then some (insertionSort_func less d a b)
      else if limit = 0 then some (heapSort_func less d a b)
      else if (pdqsortPivot less d a b limit wb wp).2.2.2 then
        some (pdqsortPivot less d a b limit wb wp).1
      else if 0 < a && !lessAt less (pdqsortPivot less d a b limit wb wp).1 (a - 1)
          (pdqsortPivot less d a b limit wb wp).2.2.1 then
        pdqsort_func less fuel
          (partitionEqual_func less (pdqsortPivot less d a b limit wb wp).1 a b
            (pdqsortPivot less d a b limit wb wp).2.2.1).1
          (partitionEqual_func less (pdqsortPivot less d a b limit wb wp).1 a b
            (pdqsortPivot less d a b limit wb wp).2.2.1).2
          b (pdqsortPivot less d a b limit wb wp).2.1 wb wp
      else if (partition_func less (pdqsortPivot less d a b limit wb wp).1 a b
            (pdqsortPivot less d a b limit wb wp).2.2.1).2.1 - a <
          b - (partition_func less (pdqsortPivot less d a b limit wb wp).1 a b
            (pdqsortPivot less d a b limit wb wp).2.2.1).2.1 then
        (pdqsort_func less fuel
          (partition_func less (pdqsortPivot less d a b limit wb wp).1 a b
            (pdqsortPivot less d a b limit wb wp).2.2.1).1
          a
          (partition_func less (pdqsortPivot less d a b limit wb wp).1 a b
            (pdqsortPivot less d a b limit wb wp).2.2.1).2.1
          (pdqsortPivot less d a b limit wb wp).2.1 true true).bind
        (fun d' => pdqsort_func less fuel d'
          ((partition_func less (pdqsortPivot less d a b limit wb wp).1 a b
            (pdqsortPivot less d a b limit wb wp).2.2.1).2.1 + 1)
          b (pdqsortPivot less d a b limit wb wp).2.1
          (decide ((b - a) / 8 ≤
            (partition_func less (pdqsortPivot less d a b limit wb wp).1 a b
              (pdqsortPivot less d a b limit wb wp).2.2.1).2.1 - a))
          (partition_func less (pdqsortPivot less d a b limit wb wp).1 a b
            (pdqsortPivot less d a b limit wb wp).2.2.1).2.2)
      else
        (pdqsort_func less fuel
          (partition_func less (pdqsortPivot less d a b limit wb wp).1 a b
            (pdqsortPivot less d a b limit wb wp).2.2.1).1
          ((partition_func less (pdqsortPivot less d a b limit wb wp).1 a b
            (pdqsortPivot less d a b limit wb wp).2.2.1).2.1 + 1)
          b (pdqsortPivot less d a b limit wb wp).2.1 true true).bind
        (fun d' => pdqsort_func less fuel d' a
          (partition_func less (pdqsortPivot less d a b limit wb wp).1 a b
            (pdqsortPivot less d a b limit wb wp).2.2.1).2.1
          (pdqsortPivot less d a b limit wb wp).2.1
          (decide ((b - a) / 8 ≤
            b - (partition_func less (pdqsortPivot less d a b limit wb wp).1 a b
              (pdqsortPivot less d a b limit wb wp).2.2.1).2.1))
          (partition_func less (pdqsortPivot less d a b limit wb wp).1 a b
            (pdqsortPivot less d a b limit wb wp).2.2.1).2.2) := by
  rw [pdqsort_func]
  simp only
  split_ifs <;> first | rfl | (cases pdqsort_func less fuel _ _ _ _ true true <;> rfl)

theorem pdqsort_func_perm {α : Type} (less : α → α → Bool) (fuel : Nat) :
    ∀ (d : List α) (a b limit : Nat) (wb wp : Bool) (r : List α),
      pdqsort_func less fuel d a b limit wb wp = some r → r.Perm d := by
  induction fuel with
  | zero =>
    intro d a b limit wb wp r h
    simp [pdqsort_func] at h
  | succ fuel ih =>
    intro d a b limit wb wp r h
    rw [pdqsort_func_succ] at h
    have hs := pdqsortPivot_perm less d a b limit wb wp
    generalize pdqsortPivot less d a b limit wb wp = s at h hs
    split_ifs at h
    · cases h
      exact insertionSort_func_perm _ _ _ _
    · cases h
      exact heapSort_func_perm _ _ _ _
    · cases h
      exact hs
    · exact (ih _ _ _ _ _ _ _ h).trans ((partitionEqual_func_perm _ _ _ _ _).trans hs)
    · obtain ⟨d', h1, h2⟩ := Option.bind_eq_some.mp h
      exact (ih _ _ _ _ _ _ _ h2).trans ((ih _ _ _ _ _ _ _ h1).trans
        ((partition_func_perm _ _ _ _ _).trans hs))
    · obtain ⟨d', h1, h2⟩ := Option.bind_eq_some.mp h
      exact (ih _ _ _ _ _ _ _ h2).trans ((ih _ _ _ _ _ _ _ h1).trans
        ((partition_func_perm _ _ _ _ _).trans hs))

theorem Slice_perm {α : Type} (less : α → α → Bool) (x r : List α)
    (h : Slice less x = some r) : r.Perm x :=
  pdqsort_func_perm less _ _ _ _ _ _ _ _ h

/-! ### Slices of integers -/

theorem valAt_getElem? (d : List Int) (i : Nat) (h : i < d.length) :
    d[i]? = some (valAt d i) := by
  simp [valAt, List.getElem?_eq_getElem h]

theorem lessAt_ltInt (d : List Int) (i j : Nat) (hi : i < d.length) (hj : j < d.length) :
    lessAt ltInt d i j = decide (valAt d i < valAt d j) := by
  simp [lessAt, valAt_getElem? d i hi, valAt_getElem? d j hj, ltInt]

theorem valAt_swapAt (d : List Int) (i j k : Nat) (hi : i < d.length) (hj : j < d.length) :
    valAt (swapAt d i j) k =
      if k = j then valAt d i else if k = i then valAt d j else valAt d k := by
  simp only [swapAt, valAt_getElem? d i hi, valAt_getElem? d j hj]
  simp only [valAt, List.getD_eq_getElem?_getD, List.getElem?_set]
  by_cases hkj : k = j
  · subst hkj
    simp [hi, hj]
  · by_cases hki : k = i
    · subst hki
      simp [hkj, Ne.symm hkj, hi]
    · simp [hkj, hki, Ne.symm hkj, Ne.symm hki]

theorem SegPerm.refl (d : List Int) (a b : Nat) : SegPerm d d a b :=
  ⟨List.Perm.refl d, fun _ _ => rfl⟩

theorem SegPerm.trans {d d' d'' : List Int} {a b : Nat} (h1 : SegPerm d d' a b)
    (h2 : SegPerm d' d'' a b) : SegPerm d d'' a b :=
  ⟨h2.1.trans h1.1, fun k hk => (h2.2 k hk).trans (h1.2 k hk)⟩

theorem SegPerm.mono {d d' : List Int} {a b a' b' : Nat} (h : SegPerm d d' a b)
    (ha : a' ≤ a) (hb : b ≤ b') : SegPerm d d' a' b' :=
  ⟨h.1, fun k hk => h.2 k (by omega)⟩

theorem SegPerm.length_eq {d d' : List Int} {a b : Nat} (h : SegPerm d d' a b) :
    d'.length = d.length :=
  h.1.length_eq

theorem swapAt_segPerm (d : List Int) (a b i j : Nat) (hi : a ≤ i ∧ i < b)
    (hj : a ≤ j ∧ j < b) : SegPerm d (swapAt d i j) a b := by
  refine ⟨swapAt_perm d i j, fun k hk => ?_⟩
  by_cases h : i < d.length ∧ j < d.length
  · rw [valAt_swapAt d i j k h.1 h.2]
    have h1 : k ≠ j := by omega
    have h2 : k ≠ i := by omega
    simp [h1, h2]
  · have : swapAt d i j = d := by
      unfold swapAt
      split
      · rename_i x y hx hy
        exact absurd ⟨(List.getElem?_eq_some_iff.mp hx).1, (List.getElem?_eq_some_iff.mp hy).1⟩ h
      · rfl
    rw [this]

theorem mem_segOf (d : List Int) (a b : Nat) (x : Int) :
    x ∈ segOf d a b ↔ ∃ i, a ≤ i ∧ i < b ∧ i < d.length ∧ valAt d i = x := by
  simp only [segOf, List.mem_iff_getElem?, List.getElem?_take, List.getElem?_drop]
  constructor
  · rintro ⟨n, hn⟩
    split_ifs at hn with h
    · have hlt : a + n < d.length := by
        by_contra hc
        rw [List.getElem?_eq_none (by omega)] at hn
        exact Option.noConfusion hn
      refine ⟨a + n, by omega, by omega, hlt, ?_⟩
      rw [valAt_getElem? d _ hlt] at hn
      exact Option.some.inj hn
  · rintro ⟨i, h1, h2, h3, h4⟩
    refine ⟨i - a, ?_⟩
    rw [if_pos (by omega)]
    have : a + (i - a) = i := by omega
    rw [this, valAt_getElem? d i h3, h4]

theorem segPerm_segOf {d d' : List Int} {a b : Nat} (h : SegPerm d d' a b) (hab : a ≤ b) :
    (segOf d' a b).Perm (segOf d a b) := by
  have hlen := h.length_eq
  have hget : ∀ k, k < a ∨ b ≤ k → d'[k]? = d[k]? := by
    intro k hk
    by_cases hkl : k < d.length
    · rw [valAt_getElem? d k hkl, valAt_getElem? d' k (by omega), h.2 k hk]
    · rw [List.getElem?_eq_none (by omega), List.getElem?_eq_none (by omega)]
  have htake : d'.take a = d.take a := by
    apply List.ext_getElem?
    intro k
    simp only [List.getElem?_take]
    split_ifs with hk
    · exact hget k (Or.inl hk)
    · rfl
  have hdrop : d'.drop b = d.drop b := by
    apply List.ext_getElem?
    intro k
    simp only [List.getElem?_drop]
    exact hget _ (Or.inr (by omega))
  have hsplit : ∀ l : List Int, l = l.take a ++ (segOf l a b ++ l.drop b) := by
    intro l
    have h1 : (l.drop a).drop (b - a) = l.drop b := by
      rw [List.drop_drop]
      congr 1
      omega
    rw [segOf, ← h1, List.take_append_drop, List.take_append_drop]
  have hp := h.1
  rw [hsplit d', hsplit d, htake, hdrop] at hp
  exact (List.perm_append_right_iff _).mp ((List.perm_append_left_iff _).mp hp)

/-- What holds of every element from `a` to `b - 1` holds of every one after
a permutation of that part. -/
theorem SegPerm.forall_seg {d d' : List Int} {a b : Nat} (h : SegPerm d d' a b)
    (hb : b ≤ d.length) (P : Int → Prop)
    (hP : ∀ i, a ≤ i → i < b → P (valAt d i)) :
    ∀ i, a ≤ i → i < b → P (valAt d' i) := by
  intro i hai hib
  have hmem : valAt d' i ∈ segOf d' a b :=
    (mem_segOf d' a b _).mpr ⟨i, hai, hib, by rw [h.length_eq]; omega, rfl⟩
  obtain ⟨k, hk1, hk2, _, hk4⟩ :=
    (mem_segOf d a b _).mp ((segPerm_segOf h (by omega)).subset hmem)
  rw [← hk4]
  exact hP k hk1 hk2

/-! ### Insertion sort -/

theorem insertionSortInner_spec (a i : Nat) :
    ∀ (j : Nat) (d : List Int), a ≤ j → j ≤ i → i < d.length →
      (∀ p q, a ≤ p → p ≤ q → q ≤ i → p ≠ j → q ≠ j → valAt d p ≤ valAt d q) →
      (∀ q, j < q → q ≤ i → valAt d j ≤ valAt d q) →
      SegPerm d (insertionSortInner ltInt a j d) a (i + 1) ∧
        SortedSeg (insertionSortInner ltInt a j d) a (i + 1) := by
  intro j
  induction j with
  | zero =>
    intro d ha hji hlen h1 h2
    refine ⟨SegPerm.refl _ _ _, ?_⟩
    intro p q hp hpq hq
    simp only [insertionSortInner]
    by_cases hp0 : p = 0
    · by_cases hq0 : q = 0
      · rw [hp0, hq0]
      · rw [hp0]; exact h2 q (by omega) (by omega)
    · exact h1 p q hp hpq (by omega) hp0 (by omega)
  | succ j ih =>
    intro d ha hji hlen h1 h2
    unfold insertionSortInner
    by_cases hg : (decide (a < j + 1) && lessAt ltInt d (j + 1) j) = true
    · rw [if_pos hg]
      simp only [Bool.and_eq_true, decide_eq_true_eq] at hg
      obtain ⟨haj, hless⟩ := hg
      rw [lessAt_ltInt d _ _ (by omega) (by omega)] at hless
      have hlt : valAt d (j + 1) < valAt d j := by simpa using hless
      have hv : ∀ k, valAt (swapAt d (j + 1) j) k =
          if k = j then valAt d (j + 1) else if k = j + 1 then valAt d j else valAt d k :=
        fun k => valAt_swapAt d (j + 1) j k (by omega) (by omega)
      have hsp : SegPerm d (swapAt d (j + 1) j) a (i + 1) :=
        swapAt_segPerm d a (i + 1) (j + 1) j ⟨by omega, by omega⟩ ⟨by omega, by omega⟩
      have := ih (swapAt d (j + 1) j) (by omega) (by omega)
        (by rw [swapAt_length]; exact hlen)
        (by
          intro p q hp hpq hq hpj hqj
          rw [hv p, hv q, if_neg hpj, if_neg hqj]
          by_cases hp1 : p = j + 1
          · by_cases hq1 : q = j + 1
            · rw [if_pos hp1, if_pos hq1]
            · rw [if_pos hp1, if_neg hq1]
              exact h1 j q (by omega) (by omega) hq (by omega) hq1
          · by_cases hq1 : q = j + 1
            · rw [if_neg hp1, if_pos hq1]
              exact h1 p j hp (by omega) (by omega) hp1 (by omega)
            · rw [if_neg hp1, if_neg hq1]
              exact h1 p q hp hpq hq hp1 hq1)
        (by
          intro q hjq hq
          rw [hv j, hv q, if_pos rfl, if_neg (by omega)]
          by_cases hq1 : q = j + 1
          · rw [if_pos hq1]; exact le_of_lt hlt
          · rw [if_neg hq1]; exact h2 q (by omega) hq)
      exact ⟨hsp.trans this.1, this.2⟩
    · rw [if_neg hg]
      refine ⟨SegPerm.refl _ _ _, ?_⟩
      have hcase : a = j + 1 ∨ valAt d j ≤ valAt d (j + 1) := by
        by_cases haj : a < j + 1
        · right
          have : lessAt ltInt d (j + 1) j = false := by
            simpa [haj] using hg
          rw [lessAt_ltInt d _ _ (by omega) (by omega)] at this
          simpa using this
        · left; omega
      intro p q hp hpq hq
      by_cases hp1 : p = j + 1
      · by_cases hq1 : q = j + 1
        · rw [hp1, hq1]
        · rw [hp1]; exact h2 q (by omega) (by omega)
      · by_cases hq1 : q = j + 1
        · rcases hcase with hc | hc
          · omega
          · by_cases hpj : p = j
            · rw [hpj, hq1]; exact hc
            · rw [hq1]
              exact le_trans (h1 p j hp (by omega) (by omega) hp1 (by omega)) hc
        · exact h1 p q hp hpq (by omega) hp1 hq1

theorem insertionSortOuter_spec (a b : Nat) :
    ∀ (n i : Nat) (d : List Int), a < i → i ≤ b → b ≤ d.length → b ≤ i + n →
      SortedSeg d a i →
      SegPerm d (insertionSortOuter ltInt a b n i d) a b ∧
        SortedSeg (insertionSortOuter ltInt a b n i d) a b := by
  intro n
  induction n with
  | zero =>
    intro i d hai hib hb hn hs
    have : i = b := by omega
    subst this
    exact ⟨SegPerm.refl _ _ _, hs⟩
  | succ n ih =>
    intro i d hai hib hb hn hs
    unfold insertionSortOuter
    by_cases hlt : i < b
    · rw [if_pos hlt]
      have hin := insertionSortInner_spec a i i d (by omega) (le_refl _) (by omega)
        (fun p q hp hpq hq hpi hqi => hs p q hp hpq (by omega))
        (fun q hq1 hq2 => by omega)
      have := ih (i + 1) (insertionSortInner ltInt a i d) (by omega) (by omega)
        (by rw [hin.1.length_eq]; exact hb) (by omega) hin.2
      exact ⟨(hin.1.mono (le_refl _) (by omega)).trans this.1, this.2⟩
    · rw [if_neg hlt]
      have : i = b := by omega
      subst this
      exact ⟨SegPerm.refl _ _ _, hs⟩

theorem insertionSort_func_spec (d : List Int) (a b : Nat) (hb : b ≤ d.length) :
    SegPerm d (insertionSort_func ltInt d a b) a b ∧
      SortedSeg (insertionSort_func ltInt d a b) a b := by
  unfold insertionSort_func
  by_cases hab : a + 1 ≤ b
  · exact insertionSortOuter_spec a b _ _ d (by omega) hab hb (by omega)
      (fun i j hi hij hj => by
        have : i = j := by omega
        rw [this])
  · have h0 : b - (a + 1) = 0 := by omega
    rw [h0]
    exact ⟨SegPerm.refl _ _ _, fun i j hi hij hj => by omega⟩

/-! ### The two partitions -/

theorem scanUp_spec (P : Nat → Bool) (j : Nat) :
    ∀ (n i : Nat), i ≤ j + 1 → j + 1 ≤ i + n →
      i ≤ scanUp P n i j ∧ scanUp P n i j ≤ j + 1 ∧
      (∀ k, i ≤ k → k < scanUp P n i j → P k = true) ∧
      (scanUp P n i j ≤ j → P (scanUp P n i j) = false) := by
  intro n
  induction n with
  | zero =>
    intro i h1 h2
    simp only [scanUp]
    exact ⟨le_refl _, h1, fun k hk1 hk2 => by omega, fun h => by omega⟩
  | succ n ih =>
    intro i h1 h2
    unfold scanUp
    by_cases hg : (decide (i ≤ j) && P i) = true
    · rw [if_pos hg]
      simp only [Bool.and_eq_true, decide_eq_true_eq] at hg
      obtain ⟨r1, r2, r3, r4⟩ := ih (i + 1) (by omega) (by omega)
      refine ⟨by omega, r2, ?_, r4⟩
      intro k hk1 hk2
      by_cases hki : k = i
      · rw [hki]; exact hg.2
      · exact r3 k (by omega) hk2
    · rw [if_neg hg]
      refine ⟨le_refl _, h1, fun k hk1 hk2 => by omega, fun h => ?_⟩
      simpa [h] using hg

theorem scanDown_spec (Q : Nat → Bool) (i : Nat) (hi : 1 ≤ i) :
    ∀ (n j : Nat), i ≤ j + 1 → j + 1 ≤ i + n →
      scanDown Q n i j ≤ j ∧ i ≤ scanDown Q n i j + 1 ∧
      (∀ k, scanDown Q n i j < k → k ≤ j → Q k = true) ∧
      (i ≤ scanDown Q n i j → Q (scanDown Q n i j) = false) := by
  intro n
  induction n with
  | zero =>
    intro j h1 h2
    simp only [scanDown]
    exact ⟨le_refl _, h1, fun k hk1 hk2 => by omega, fun h => by omega⟩
  | succ n ih =>
    intro j h1 h2
    unfold scanDown
    by_cases hg : (decide (i ≤ j) && Q j) = true
    · rw [if_pos hg]
      simp only [Bool.and_eq_true, decide_eq_true_eq] at hg
      obtain ⟨r1, r2, r3, r4⟩ := ih (j - 1) (by omega) (by omega)
      refine ⟨by omega, r2, ?_, r4⟩
      intro k hk1 hk2
      by_cases hkj : k = j
      · rw [hkj]; exact hg.2
      · exact r3 k hk1 (by omega)
    · rw [if_neg hg]
      refine ⟨le_refl _, h1, fun k hk1 hk2 => by omega, fun h => ?_⟩
      simpa [h] using hg

theorem partitionLoop_spec (a b : Nat) :
    ∀ (n : Nat) (d : List Int) (i j : Nat), PartInv d a b i j → j + 2 ≤ i + n →
      SegPerm d (partitionLoop ltInt a b n d i j).1 (a + 1) b ∧
      a ≤ (partitionLoop ltInt a b n d i j).2 ∧ (partitionLoop ltInt a b n d i j).2 < b ∧
      (∀ k, a < k → k ≤ (partitionLoop ltInt a b n d i j).2 →
        valAt (partitionLoop ltInt a b n d i j).1 k <
          valAt (partitionLoop ltInt a b n d i j).1 a) ∧
      (∀ k, (partitionLoop ltInt a b n d i j).2 < k → k < b →
        valAt (partitionLoop ltInt a b n d i j).1 a ≤
          valAt (partitionLoop ltInt a b n d i j).1 k) := by
  intro n
  induction n with
  | zero =>
    intro d i j hinv hn
    obtain ⟨_, _, h3, _⟩ := hinv
    omega
  | succ n ih =>
    intro d i j hinv hn
    obtain ⟨hb, hai, hij, hjb, hL, hR⟩ := hinv
    unfold partitionLoop
    simp only
    obtain ⟨u1, u2, u3, u4⟩ := scanUp_spec (fun i => lessAt ltInt d i a) j (b - a) i hij
      (by omega)
    generalize scanUp (fun i => lessAt ltInt d i a) (b - a) i j = i' at u1 u2 u3 u4 ⊢
    obtain ⟨v1, v2, v3, v4⟩ := scanDown_spec (fun j => !lessAt ltInt d j a) i' (by omega)
      (b - a) j u2 (by omega)
    generalize scanDown (fun j => !lessAt ltInt d j a) (b - a) i' j = j' at v1 v2 v3 v4 ⊢
    have hL' : ∀ k, a < k → k < i' → valAt d k < valAt d a := by
      intro k hk1 hk2
      by_cases hki : k < i
      · exact hL k hk1 hki
      · have := u3 k (by omega) hk2
        rw [lessAt_ltInt d _ _ (by omega) (by omega)] at this
        simpa using this
    have hR' : ∀ k, j' < k → k < b → valAt d a ≤ valAt d k := by
      intro k hk1 hk2
      by_cases hkj : j < k
      · exact hR k hkj hk2
      · have := v3 k hk1 (by omega)
        rw [lessAt_ltInt d _ _ (by omega) (by omega)] at this
        simpa using this
    by_cases hlt : j' < i'
    · rw [if_pos hlt]
      refine ⟨SegPerm.refl _ _ _, by omega, by omega, ?_, hR'⟩
      intro k hk1 hk2
      exact hL' k hk1 (by omega)
    · rw [if_neg hlt]
      have hi'j' : i' ≤ j' := by omega
      have hI : valAt d a ≤ valAt d i' := by
        have := u4 (by omega)
        rw [lessAt_ltInt d _ _ (by omega) (by omega)] at this
        simpa using this
      have hJ : valAt d j' < valAt d a := by
        have := v4 hi'j'
        rw [lessAt_ltInt d _ _ (by omega) (by omega)] at this
        simpa using this
      have hne : i' ≠ j' := by
        intro h
        rw [h] at hI
        omega
      have hv : ∀ k, valAt (swapAt d i' j') k =
          if k = j' then valAt d i' else if k = i' then valAt d j' else valAt d k :=
        fun k => valAt_swapAt d i' j' k (by omega) (by omega)
      have hsp : SegPerm d (swapAt d i' j') (a + 1) b :=
        swapAt_segPerm d (a + 1) b i' j' ⟨by omega, by omega⟩ ⟨by omega, by omega⟩
      have hinv2 : PartInv (swapAt d i' j') a b (i' + 1) (j' - 1) := by
        refine ⟨by rw [swapAt_length]; exact hb, by omega, by omega, by omega, ?_, ?_⟩
        · intro k hk1 hk2
          have e1 : k ≠ j' := by omega
          have e2 : a ≠ j' := by omega
          have e3 : a ≠ i' := by omega
          rw [hv k, hv a, if_neg e1, if_neg e2, if_neg e3]
          by_cases hki : k = i'
          · rw [if_pos hki]; exact hJ
          · rw [if_neg hki]; exact hL' k hk1 (by omega)
        · intro k hk1 hk2
          have e2 : a ≠ j' := by omega
          have e3 : a ≠ i' := by omega
          rw [hv k, hv a, if_neg e2, if_neg e3]
          by_cases hkj : k = j'
          · rw [if_pos hkj]; exact hI
          · have e4 : k ≠ i' := by omega
            rw [if_neg hkj, if_neg e4]; exact hR' k (by omega) hk2
      obtain ⟨r1, r2, r3, r4, r5⟩ := ih (swapAt d i' j') (i' + 1) (j' - 1) hinv2 (by omega)
      exact ⟨hsp.trans r1, r2, r3, r4, r5⟩

theorem partition_func_eq_loop {α : Type} (less : α → α → Bool) (d : List α)
    (a b pivot : Nat) :
    (partition_func less d a b pivot).1 =
      swapAt (partitionLoop less a b (b - a + 1) (swapAt d a pivot) (a + 1) (b - 1)).1
        (partitionLoop less a b (b - a + 1) (swapAt d a pivot) (a + 1) (b - 1)).2 a ∧
    (partition_func less d a b pivot).2.1 =
      (partitionLoop less a b (b - a + 1) (swapAt d a pivot) (a + 1) (b - 1)).2 := by
  unfold partition_func
  rw [partitionLoop]
  simp only
  split_ifs <;> exact ⟨rfl, rfl⟩

theorem partition_func_spec (d : List Int) (a b pivot : Nat) (hab : a < b)
    (hb : b ≤ d.length) (hp1 : a ≤ pivot) (hp2 : pivot < b) :
    SegPerm d (partition_func ltInt d a b pivot).1 a b ∧
    a ≤ (partition_func ltInt d a b pivot).2.1 ∧
    (partition_func ltInt d a b pivot).2.1 < b ∧
    (∀ k, a ≤ k → k < (partition_func ltInt d a b pivot).2.1 →
      valAt (partition_func ltInt d a b pivot).1 k <
        valAt (partition_func ltInt d a b pivot).1 (partition_func ltInt d a b pivot).2.1) ∧
    (∀ k, (partition_func ltInt d a b pivot).2.1 < k → k < b →
      valAt (partition_func ltInt d a b pivot).1 (partition_func ltInt d a b pivot).2.1 ≤
        valAt (partition_func ltInt d a b pivot).1 k) := by
  obtain ⟨e1, e2⟩ := partition_func_eq_loop ltInt d a b pivot
  rw [e1, e2]
  have hsp1 : SegPerm d (swapAt d a pivot) a b :=
    swapAt_segPerm d a b a pivot ⟨le_refl _, hab⟩ ⟨hp1, hp2⟩
  have hinv : PartInv (swapAt d a pivot) a b (a + 1) (b - 1) :=
    ⟨by rw [swapAt_length]; exact hb, by omega, by omega, by omega,
      fun k h1 h2 => by omega, fun k h1 h2 => by omega⟩
  obtain ⟨r1, r2, r3, r4, r5⟩ := partitionLoop_spec a b (b - a + 1) (swapAt d a pivot)
    (a + 1) (b - 1) hinv (by omega)
  generalize partitionLoop ltInt a b (b - a + 1) (swapAt d a pivot) (a + 1) (b - 1) = L
    at r1 r2 r3 r4 r5 ⊢
  obtain ⟨d3, m⟩ := L
  simp only at r1 r2 r3 r4 r5 ⊢
  have hlen3 : d3.length = d.length := by rw [r1.length_eq, swapAt_length]
  have hv : ∀ k, valAt (swapAt d3 m a) k =
      if k = a then valAt d3 m else if k = m then valAt d3 a else valAt d3 k :=
    fun k => valAt_swapAt d3 m a k (by omega) (by omega)
  refine ⟨hsp1.trans ((r1.mono (by omega) (le_refl _)).trans
    (swapAt_segPerm d3 a b m a ⟨r2, r3⟩ ⟨le_refl _, hab⟩)), r2, r3, ?_, ?_⟩
  · intro k hk1 hk2
    have hma : m ≠ a := by omega
    rw [hv k, hv m, if_neg hma, if_pos rfl]
    by_cases hka : k = a
    · rw [if_pos hka]; exact r4 m (by omega) (le_refl _)
    · have hkm : k ≠ m := by omega
      rw [if_neg hka, if_neg hkm]; exact r4 k (by omega) (by omega)
  · intro k hk1 hk2
    have hka : k ≠ a := by omega
    have hkm : k ≠ m := by omega
    rw [hv k, hv m, if_neg hka, if_neg hkm]
    by_cases hma : m = a
    · rw [if_pos hma, hma]; exact r5 k (by omega) hk2
    · rw [if_neg hma, if_pos rfl]; exact r5 k hk1 hk2

theorem partitionEqualLoop_spec (a b : Nat) :
    ∀ (n : Nat) (d : List Int) (i j : Nat), PartEqInv d a b i j → j + 2 ≤ i + n →
      SegPerm d (partitionEqualLoop ltInt a b n d i j).1 (a + 1) b ∧
      a < (partitionEqualLoop ltInt a b n d i j).2 ∧
      (partitionEqualLoop ltInt a b n d i j).2 ≤ b ∧
      (∀ k, a ≤ k → k < (partitionEqualLoop ltInt a b n d i j).2 →
        valAt (partitionEqualLoop ltInt a b n d i j).1 k = valAt d a) ∧
      (∀ k, (partitionEqualLoop ltInt a b n d i j).2 ≤ k → k < b →
        valAt d a < valAt (partitionEqualLoop ltInt a b n d i j).1 k) := by
  intro n
  induction n with
  | zero =>
    intro d i j hinv hn
    obtain ⟨_, _, h3, _⟩ := hinv
    omega
  | succ n ih =>
    intro d i j hinv hn
    obtain ⟨hb, hai, hij, hjb, hA, hL, hR⟩ := hinv
    unfold partitionEqualLoop
    simp only
    obtain ⟨u1, u2, u3, u4⟩ := scanUp_spec (fun i => !lessAt ltInt d a i) j (b - a) i hij
      (by omega)
    generalize scanUp (fun i => !lessAt ltInt d a i) (b - a) i j = i' at u1 u2 u3 u4 ⊢
    obtain ⟨v1, v2, v3, v4⟩ := scanDown_spec (fun j => lessAt ltInt d a j) i' (by omega)
      (b - a) j u2 (by omega)
    generalize scanDown (fun j => lessAt ltInt d a j) (b - a) i' j = j' at v1 v2 v3 v4 ⊢
    have hL' : ∀ k, a ≤ k → k < i' → valAt d k ≤ valAt d a := by
      intro k hk1 hk2
      by_cases hki : k < i
      · exact hL k hk1 hki
      · have := u3 k (by omega) hk2
        rw [lessAt_ltInt d _ _ (by omega) (by omega)] at this
        simpa using this
    have hR' : ∀ k, j' < k → k < b → valAt d a < valAt d k := by
      intro k hk1 hk2
      by_cases hkj : j < k
      · exact hR k hkj hk2
      · have := v3 k hk1 (by omega)
        rw [lessAt_ltInt d _ _ (by omega) (by omega)] at this
        simpa using this
    by_cases hlt : j' < i'
    · rw [if_pos hlt]
      refine ⟨SegPerm.refl _ _ _, by omega, by omega, ?_, ?_⟩
      · intro k hk1 hk2
        exact le_antisymm (hL' k hk1 hk2) (hA k hk1 (by omega))
      · intro k hk1 hk2
        exact hR' k (by omega) hk2
    · rw [if_neg hlt]
      have hi'j' : i' ≤ j' := by omega
      have hI : valAt d a < valAt d i' := by
        have := u4 (by omega)
        rw [lessAt_ltInt d _ _ (by omega) (by omega)] at this
        simpa using this
      have hJ : valAt d j' ≤ valAt d a := by
        have := v4 hi'j'
        rw [lessAt_ltInt d _ _ (by omega) (by omega)] at this
        simpa using this
      have hne : i' ≠ j' := by
        intro h
        rw [h] at hI
        omega
      have hv : ∀ k, valAt (swapAt d i' j') k =
          if k = j' then valAt d i' else if k = i' then valAt d j' else valAt d k :=
        fun k => valAt_swapAt d i' j' k (by omega) (by omega)
      have hsp : SegPerm d (swapAt d i' j') (a + 1) b :=
        swapAt_segPerm d (a + 1) b i' j' ⟨by omega, by omega⟩ ⟨by omega, by omega⟩
      have e2 : a ≠ j' := by omega
      have e3 : a ≠ i' := by omega
      have hva : valAt (swapAt d i' j') a = valAt d a := by
        rw [hv a, if_neg e2, if_neg e3]
      have hinv2 : PartEqInv (swapAt d i' j') a b (i' + 1) (j' - 1) := by
        refine ⟨by rw [swapAt_length]; exact hb, by omega, by omega, by omega, ?_, ?_, ?_⟩
        · intro k hk1 hk2
          rw [hva, hv k]
          split_ifs
          · exact hA i' (by omega) (by omega)
          · exact hA j' (by omega) (by omega)
          · exact hA k hk1 hk2
        · intro k hk1 hk2
          have e1 : k ≠ j' := by omega
          rw [hva, hv k, if_neg e1]
          by_cases hki : k = i'
          · rw [if_pos hki]; exact hJ
          · rw [if_neg hki]; exact hL' k hk1 (by omega)
        · intro k hk1 hk2
          rw [hva, hv k]
          by_cases hkj : k = j'
          · rw [if_pos hkj]; exact hI
          · have e4 : k ≠ i' := by omega
            rw [if_neg hkj, if_neg e4]; exact hR' k (by omega) hk2
      obtain ⟨r1, r2, r3, r4, r5⟩ := ih (swapAt d i' j') (i' + 1) (j' - 1) hinv2 (by omega)
      rw [hva] at r4 r5
      exact ⟨hsp.trans r1, r2, r3, r4, r5⟩

theorem partitionEqual_func_spec (d : List Int) (a b pivot : Nat) (hab : a < b)
    (hb : b ≤ d.length) (hp1 : a ≤ pivot) (hp2 : pivot < b)
    (hmin : ∀ k, a ≤ k → k < b → valAt d pivot ≤ valAt d k) :
    SegPerm d (partitionEqual_func ltInt d a b pivot).1 a b ∧
    a < (partitionEqual_func ltInt d a b pivot).2 ∧
    (partitionEqual_func ltInt d a b pivot).2 ≤ b ∧
    (∀ k, a ≤ k → k < (partitionEqual_func ltInt d a b pivot).2 →
      valAt (partitionEqual_func ltInt d a b pivot).1 k = valAt d pivot) ∧
    (∀ k, (partitionEqual_func ltInt d a b pivot).2 ≤ k → k < b →
      valAt d pivot < valAt (partitionEqual_func ltInt d a b pivot).1 k) := by
  unfold partitionEqual_func
  simp only
  have hv : ∀ k, valAt (swapAt d a pivot) k =
      if k = pivot then valAt d a else if k = a then valAt d pivot else valAt d k :=
    fun k => valAt_swapAt d a pivot k (by omega) (by omega)
  have hva : valAt (swapAt d a pivot) a = valAt d pivot := by
    rw [hv a]
    by_cases h : a = pivot
    · rw [if_pos h, h]
    · rw [if_neg h, if_pos rfl]
  have hsp1 : SegPerm d (swapAt d a pivot) a b :=
    swapAt_segPerm d a b a pivot ⟨le_refl _, hab⟩ ⟨hp1, hp2⟩
  have hinv : PartEqInv (swapAt d a pivot) a b (a + 1) (b - 1) := by
    refine ⟨by rw [swapAt_length]; exact hb, by omega, by omega, by omega, ?_, ?_, ?_⟩
    · intro k hk1 hk2
      rw [hva, hv k]
      split_ifs
      · exact hmin a (le_refl _) hab
      · exact le_refl _
      · exact hmin k hk1 hk2
    · intro k hk1 hk2
      have : k = a := by omega
      rw [this]
    · intro k hk1 hk2
      omega
  obtain ⟨r1, r2, r3, r4, r5⟩ := partitionEqualLoop_spec a b (b - a + 1) (swapAt d a pivot)
    (a + 1) (b - 1) hinv (by omega)
  rw [hva] at r4 r5
  exact ⟨hsp1.trans (r1.mono (by omega) (le_refl _)), r2, r3, r4, r5⟩

/-! ### The partial insertion sort -/

theorem LowerBd.segPerm {d d' : List Int} {a b : Nat} (h : LowerBd d a b)
    (hp : SegPerm d d' a b) (hb : b ≤ d.length) : LowerBd d' a b := by
  intro ha k hk1 hk2
  rw [hp.2 (a - 1) (Or.inl (by omega))]
  exact hp.forall_seg hb (fun x => valAt d (a - 1) ≤ x) (h ha) k hk1 hk2

theorem LowerBd.shrink {d : List Int} {a b b' : Nat} (h : LowerBd d a b) (hb : b' ≤ b) :
    LowerBd d a b' :=
  fun ha k hk1 hk2 => h ha k hk1 (by omega)

theorem shiftLeft_eq_inner (a i : Nat) :
    ∀ (j : Nat) (d : List Int), a ≤ j → j ≤ i → i < d.length → LowerBd d a (i + 1) →
      shiftLeft ltInt j d = insertionSortInner ltInt a j d := by
  intro j
  induction j with
  | zero => intro d _ _ _ _; rfl
  | succ j ih =>
    intro d haj hji hlen hlb
    unfold shiftLeft insertionSortInner
    by_cases ha : a < j + 1
    · by_cases hl : lessAt ltInt d (j + 1) j = true
      · have hsp : SegPerm d (swapAt d (j + 1) j) a (i + 1) :=
          swapAt_segPerm d a (i + 1) (j + 1) j ⟨by omega, by omega⟩ ⟨by omega, by omega⟩
        simp only [hl, ha, Bool.not_true, Bool.false_eq_true, if_false, decide_True,
          Bool.and_self, if_true]
        exact ih _ (by omega) (by omega) (by rw [swapAt_length]; exact hlen)
          (hlb.segPerm hsp (by omega))
      · simp only [hl, Bool.not_false, if_true, Bool.and_false, Bool.false_eq_true, if_false]
    · have haeq : a = j + 1 := by omega
      have hl : lessAt ltInt d (j + 1) j = false := by
        rw [lessAt_ltInt d _ _ (by omega) (by omega)]
        have := hlb (by omega) (j + 1) (by omega) (by omega)
        rw [haeq] at this
        simp only [Nat.add_sub_cancel] at this
        simpa using this
      simp [hl, ha]

theorem shiftRight_segPerm (lo b : Nat) :
    ∀ (n j : Nat) (d : List Int), lo < j →
      SegPerm d (shiftRight ltInt b n j d) lo b := by
  intro n
  induction n with
  | zero => intro j d _; exact SegPerm.refl _ _ _
  | succ n ih =>
    intro j d hj
    unfold shiftRight
    split_ifs with h1 h2
    · exact SegPerm.refl _ _ _
    · exact (swapAt_segPerm d lo b j (j - 1) ⟨by omega, h1⟩ ⟨by omega, by omega⟩).trans
        (ih (j + 1) _ (by omega))
    · exact SegPerm.refl _ _ _

theorem scanWhile_spec (P : Nat → Bool) (b : Nat) :
    ∀ (n i : Nat), i ≤ b → b ≤ i + n →
      i ≤ scanWhile P b n i ∧ scanWhile P b n i ≤ b ∧
      (∀ k, i ≤ k → k < scanWhile P b n i → P k = true) ∧
      (scanWhile P b n i < b → P (scanWhile P b n i) = false) := by
  intro n
  induction n with
  | zero =>
    intro i h1 h2
    simp only [scanWhile]
    exact ⟨le_refl _, h1, fun k hk1 hk2 => by omega, fun h => by omega⟩
  | succ n ih =>
    intro i h1 h2
    unfold scanWhile
    by_cases hg : (decide (i < b) && P i) = true
    · rw [if_pos hg]
      simp only [Bool.and_eq_true, decide_eq_true_eq] at hg
      obtain ⟨r1, r2, r3, r4⟩ := ih (i + 1) (by omega) (by omega)
      refine ⟨by omega, r2, ?_, r4⟩
      intro k hk1 hk2
      by_cases hki : k = i
      · rw [hki]; exact hg.2
      · exact r3 k (by omega) hk2
    · rw [if_neg hg]
      refine ⟨le_refl _, h1, fun k hk1 hk2 => by omega, fun h => ?_⟩
      simpa [h] using hg

theorem SortedSeg.extend {d : List Int} {a i i' : Nat} (h : SortedSeg d a i) (_hai : a < i)
    (hadj : ∀ k, i ≤ k → k < i' → valAt d (k - 1) ≤ valAt d k) : SortedSeg d a i' := by
  intro p q hp hpq hq
  induction q with
  | zero =>
    have : p = 0 := by omega
    rw [this]
  | succ q ih =>
    by_cases hpq' : p = q + 1
    · rw [hpq']
    · by_cases hqi : q + 1 < i
      · exact h p (q + 1) hp hpq hqi
      · have h1 := ih (by omega) (by omega)
        have h2 := hadj (q + 1) (by omega) hq
        simp only [Nat.add_sub_cancel] at h2
        exact le_trans h1 h2

theorem SortedSeg.of_same {d d' : List Int} {a b : Nat} (h : SortedSeg d a b)
    (hs : ∀ k, a ≤ k → k < b → valAt d' k = valAt d k) : SortedSeg d' a b := by
  intro p q hp hpq hq
  rw [hs p hp (by omega), hs q (by omega) hq]
  exact h p q hp hpq hq

theorem partialInsertionSortLoop_spec (a b : Nat) :
    ∀ (n i : Nat) (d : List Int), a < i → i ≤ b → b ≤ d.length → SortedSeg d a i →
      LowerBd d a b →
      SegPerm d (partialInsertionSortLoop ltInt a b n i d).1 a b ∧
      ((partialInsertionSortLoop ltInt a b n i d).2 = true →
        SortedSeg (partialInsertionSortLoop ltInt a b n i d).1 a b) := by
  intro n
  induction n with
  | zero =>
    intro i d _ _ _ _ _
    exact ⟨SegPerm.refl _ _ _, fun h => by simp [partialInsertionSortLoop] at h⟩
  | succ n ih =>
    intro i d hai hib hb hs hlb
    unfold partialInsertionSortLoop
    simp only
    obtain ⟨u1, u2, u3, u4⟩ := scanWhile_spec (fun i => !lessAt ltInt d i (i - 1)) b
      (b - a) i hib (by omega)
    generalize scanWhile (fun i => !lessAt ltInt d i (i - 1)) b (b - a) i = i'
      at u1 u2 u3 u4 ⊢
    have hs' : SortedSeg d a i' := by
      apply hs.extend hai
      intro k hk1 hk2
      have := u3 k hk1 hk2
      rw [lessAt_ltInt d _ _ (by omega) (by omega)] at this
      simpa using this
    by_cases hib' : i' = b
    · rw [if_pos hib']
      exact ⟨SegPerm.refl _ _ _, fun _ => hib' ▸ hs'⟩
    · rw [if_neg hib']
      by_cases h50 : b - a < 50
      · rw [if_pos h50]
        exact ⟨SegPerm.refl _ _ _, fun h => by simp at h⟩
      · rw [if_neg h50]
        have hsp1 : SegPerm d (swapAt d i' (i' - 1)) a b :=
          swapAt_segPerm d a b i' (i' - 1) ⟨by omega, by omega⟩ ⟨by omega, by omega⟩
        have hv : ∀ k, valAt (swapAt d i' (i' - 1)) k =
            if k = i' - 1 then valAt d i' else if k = i' then valAt d (i' - 1)
            else valAt d k :=
          fun k => valAt_swapAt d i' (i' - 1) k (by omega) (by omega)
        generalize hd1 : swapAt d i' (i' - 1) = d1 at hsp1 hv ⊢
        have hlen1 : d1.length = d.length := hsp1.length_eq
        have hlb1 : LowerBd d1 a b := hlb.segPerm hsp1 hb
        -- shift the smaller one to the left
        have hleft : SegPerm d1 (if 2 ≤ i' - a then shiftLeft ltInt (i' - 1) d1 else d1) a b ∧
            SortedSeg (if 2 ≤ i' - a then shiftLeft ltInt (i' - 1) d1 else d1) a i' := by
          by_cases h2 : 2 ≤ i' - a
          · rw [if_pos h2, shiftLeft_eq_inner a (i' - 1) (i' - 1) d1 (by omega) (le_refl _)
              (by omega) (hlb1.shrink (by omega))]
            have := insertionSortInner_spec a (i' - 1) (i' - 1) d1 (by omega) (le_refl _)
              (by omega)
              (by
                intro p q hp hpq hq hp1 hq1
                have e1 : p ≠ i' := by omega
                have e2 : q ≠ i' := by omega
                rw [hv p, hv q, if_neg hp1, if_neg hq1, if_neg e1, if_neg e2]
                exact hs' p q hp hpq (by omega))
              (fun q hq1 hq2 => by omega)
            have e : i' - 1 + 1 = i' := by omega
            rw [e] at this
            exact ⟨this.1.mono (le_refl _) (by omega), this.2⟩
          · rw [if_neg h2]
            refine ⟨SegPerm.refl _ _ _, ?_⟩
            intro p q hp hpq hq
            have : p = q := by omega
            rw [this]
        generalize (if 2 ≤ i' - a then shiftLeft ltInt (i' - 1) d1 else d1) = d2 at hleft ⊢
        obtain ⟨hsp2, hs2⟩ := hleft
        have hlen2 : d2.length = d.length := by rw [hsp2.length_eq, hlen1]
        -- shift the greater one to the right
        have hright : SegPerm d2
            (if 2 ≤ b - i' then shiftRight ltInt b (b - i') (i' + 1) d2 else d2) i' b := by
          by_cases h2 : 2 ≤ b - i'
          · rw [if_pos h2]
            exact shiftRight_segPerm i' b _ _ _ (by omega)
          · rw [if_neg h2]
            exact SegPerm.refl _ _ _
        generalize (if 2 ≤ b - i' then shiftRight ltInt b (b - i') (i' + 1) d2 else d2) = d3
          at hright ⊢
        have hsp3 : SegPerm d d3 a b :=
          hsp1.trans (hsp2.trans (hright.mono (by omega) (le_refl _)))
        have hs3 : SortedSeg d3 a i' :=
          hs2.of_same (fun k hk1 hk2 => hright.2 k (Or.inl hk2))
        obtain ⟨r1, r2⟩ := ih i' d3 (by omega) u2 (by rw [hsp3.length_eq]; exact hb) hs3
          (hlb.segPerm hsp3 hb)
        exact ⟨hsp3.trans r1, r2⟩

theorem partialInsertionSort_func_spec (d : List Int) (a b : Nat) (hab : a < b)
    (hb : b ≤ d.length) (hlb : LowerBd d a b) :
    SegPerm d (partialInsertionSort_func ltInt d a b).1 a b ∧
    ((partialInsertionSort_func ltInt d a b).2 = true →
      SortedSeg (partialInsertionSort_func ltInt d a b).1 a b) := by
  unfold partialInsertionSort_func
  exact partialInsertionSortLoop_spec a b 5 (a + 1) d (by omega) (by omega) hb
    (fun p q hp hpq hq => by
      have : p = q := by omega
      rw [this]) hlb

/-! ### Heap sort -/

theorem siftDownLoop_spec (first lo hi : Nat) :
    ∀ (n root : Nat) (d : List Int), first + hi ≤ d.length → lo ≤ root → hi ≤ root + n →
      (∀ i, lo ≤ i → i < hi → i ≠ root → Dominates d first hi i) →
      (∀ par, lo ≤ par → (root = 2 * par + 1 ∨ root = 2 * par + 2) →
        ∀ c, (c = 2 * root + 1 ∨ c = 2 * root + 2) → c < hi →
          valAt d (first + c) ≤ valAt d (first + par)) →
      SegPerm d (siftDownLoop ltInt hi first n root d) (first + lo) (first + hi) ∧
      HeapFrom (siftDownLoop ltInt hi first n root d) first lo hi := by
  intro n
  induction n with
  | zero =>
    intro root d hlen hlo hn hdom hgp
    refine ⟨SegPerm.refl _ _ _, ?_⟩
    intro i hi1 hi2
    exact hdom i hi1 hi2 (by omega)
  | succ n ih =>
    intro root d hlen hlo hn hdom hgp
    unfold siftDownLoop
    simp only
    by_cases hc : hi ≤ 2 * root + 1
    · rw [if_pos hc]
      refine ⟨SegPerm.refl _ _ _, ?_⟩
      intro i hi1 hi2
      by_cases hir : i = root
      · intro c hc1 hc2
        omega
      · exact hdom i hi1 hi2 hir
    · rw [if_neg hc]
      -- the greater child
      have hch : ∃ c, (c = 2 * root + 1 ∨ c = 2 * root + 2) ∧ c < hi ∧
          (if (decide (2 * root + 1 + 1 < hi) &&
              lessAt ltInt d (first + (2 * root + 1)) (first + (2 * root + 1) + 1)) = true
            then 2 * root + 1 + 1 else 2 * root + 1) = c ∧
          ∀ c', (c' = 2 * root + 1 ∨ c' = 2 * root + 2) → c' < hi →
            valAt d (first + c') ≤ valAt d (first + c) := by
        by_cases hg : (decide (2 * root + 1 + 1 < hi) &&
            lessAt ltInt d (first + (2 * root + 1)) (first + (2 * root + 1) + 1)) = true
        · rw [if_pos hg]
          simp only [Bool.and_eq_true, decide_eq_true_eq] at hg
          have hl := hg.2
          rw [lessAt_ltInt d _ _ (by omega) (by omega)] at hl
          have hl' : valAt d (first + (2 * root + 1)) < valAt d (first + (2 * root + 1) + 1) := by
            simpa using hl
          refine ⟨2 * root + 2, Or.inr rfl, by omega, rfl, ?_⟩
          intro c' hc1 hc2
          rcases hc1 with h | h
          · rw [h]; exact le_of_lt hl'
          · rw [h]
        · rw [if_neg hg]
          refine ⟨2 * root + 1, Or.inl rfl, by omega, rfl, ?_⟩
          intro c' hc1 hc2
          rcases hc1 with h | h
          · rw [h]
          · rw [h]
            have hl : lessAt ltInt d (first + (2 * root + 1)) (first + (2 * root + 1) + 1) =
                false := by
              have h2 : 2 * root + 1 + 1 < hi := by omega
              simpa [h2] using hg
            rw [lessAt_ltInt d _ _ (by omega) (by omega)] at hl
            have : valAt d (first + (2 * root + 1) + 1) ≤ valAt d (first + (2 * root + 1)) := by
              simpa using hl
            exact this
      obtain ⟨c, hc1, hc2, hceq, hmax⟩ := hch
      rw [hceq]
      by_cases hl : (!lessAt ltInt d (first + root) (first + c)) = true
      · rw [if_pos hl]
        rw [lessAt_ltInt d _ _ (by omega) (by omega)] at hl
        have hle : valAt d (first + c) ≤ valAt d (first + root) := by simpa using hl
        refine ⟨SegPerm.refl _ _ _, ?_⟩
        intro i hi1 hi2
        by_cases hir : i = root
        · intro c' hc'1 hc'2
          rw [hir] at hc'1 ⊢
          exact le_trans (hmax c' hc'1 hc'2) hle
        · exact hdom i hi1 hi2 hir
      · rw [if_neg hl]
        rw [lessAt_ltInt d _ _ (by omega) (by omega)] at hl
        have hlt : valAt d (first + root) < valAt d (first + c) := by simpa using hl
        have hv : ∀ k, valAt (swapAt d (first + root) (first + c)) k =
            if k = first + c then valAt d (first + root)
            else if k = first + root then valAt d (first + c) else valAt d k :=
          fun k => valAt_swapAt d _ _ k (by omega) (by omega)
        have hsp : SegPerm d (swapAt d (first + root) (first + c)) (first + lo) (first + hi) :=
          swapAt_segPerm d _ _ _ _ ⟨by omega, by omega⟩ ⟨by omega, by omega⟩
        generalize swapAt d (first + root) (first + c) = d2 at hv hsp
        have hvk : ∀ k, k ≠ c → k ≠ root → valAt d2 (first + k) = valAt d (first + k) := by
          intro k h1 h2
          rw [hv, if_neg (by omega), if_neg (by omega)]
        have hvc : valAt d2 (first + c) = valAt d (first + root) := by
          rw [hv, if_pos rfl]
        have hvr : valAt d2 (first + root) = valAt d (first + c) := by
          rw [hv, if_neg (by omega), if_pos rfl]
        obtain ⟨r1, r2⟩ := ih c d2 (by rw [hsp.length_eq]; exact hlen) (by omega) (by omega)
          (by
            intro i hi1 hi2 hic c' hc'1 hc'2
            by_cases hir : i = root
            · rw [hir, hvr]
              rw [hir] at hc'1
              by_cases hcc : c' = c
              · rw [hcc, hvc]; exact le_of_lt hlt
              · rw [hvk c' hcc (by omega)]; exact hmax c' hc'1 hc'2
            · rw [hvk i hic hir]
              by_cases hcr : c' = root
              · rw [hcr, hvr]
                exact hgp i hi1 (by omega) c hc1 hc2
              · rw [hvk c' (by omega) hcr]
                exact hdom i hi1 hi2 hir c' hc'1 hc'2)
          (by
            intro par hpar hpc c' hc'1 hc'2
            have hpr : par = root := by omega
            rw [hpr, hvr, hvk c' (by omega) (by omega)]
            exact hdom c (by omega) hc2 (by omega) c' hc'1 hc'2)
        exact ⟨hsp.trans r1, r2⟩

theorem siftDown_func_spec (d : List Int) (lo hi first : Nat) (hlen : first + hi ≤ d.length)
    (hheap : HeapFrom d first (lo + 1) hi) :
    SegPerm d (siftDown_func ltInt d lo hi first) (first + lo) (first + hi) ∧
    HeapFrom (siftDown_func ltInt d lo hi first) first lo hi := by
  unfold siftDown_func
  exact siftDownLoop_spec first lo hi hi lo d hlen (le_refl _) (by omega)
    (fun i hi1 hi2 hne => hheap i (by omega) hi2)
    (fun par hpar hpc => by omega)

theorem heapSortBuild_spec (first hi : Nat) :
    ∀ (n : Nat) (d : List Int), first + hi ≤ d.length → HeapFrom d first n hi →
      SegPerm d (heapSortBuild ltInt hi first n d) first (first + hi) ∧
      HeapFrom (heapSortBuild ltInt hi first n d) first 0 hi := by
  intro n
  induction n with
  | zero =>
    intro d _ h
    exact ⟨SegPerm.refl _ _ _, h⟩
  | succ n ih =>
    intro d hlen h
    unfold heapSortBuild
    obtain ⟨s1, s2⟩ := siftDown_func_spec d n hi first hlen h
    obtain ⟨r1, r2⟩ := ih _ (by rw [s1.length_eq]; exact hlen) s2
    exact ⟨(s1.mono (by omega) (le_refl _)).trans r1, r2⟩

theorem HeapFrom.root_max {d : List Int} {first hi : Nat} (h : HeapFrom d first 0 hi) :
    ∀ k, k < hi → valAt d (first + k) ≤ valAt d (first + 0) := by
  intro k
  induction k using Nat.strong_induction_on with
  | _ k ih =>
    intro hk
    by_cases hk0 : k = 0
    · rw [hk0]
    · have hpar : k = 2 * ((k - 1) / 2) + 1 ∨ k = 2 * ((k - 1) / 2) + 2 := by omega
      have h1 := h ((k - 1) / 2) (Nat.zero_le _) (by omega) k hpar hk
      exact le_trans h1 (ih ((k - 1) / 2) (by omega) (by omega))

theorem heapSortPop_spec (first hi : Nat) :
    ∀ (n : Nat) (d : List Int), first + hi ≤ d.length → n ≤ hi →
      HeapFrom d first 0 n →
      SortedSeg d (first + n) (first + hi) →
      (∀ k q, k < n → n ≤ q → q < hi → valAt d (first + k) ≤ valAt d (first + q)) →
      SegPerm d (heapSortPop ltInt first n d) first (first + hi) ∧
      SortedSeg (heapSortPop ltInt first n d) first (first + hi) := by
  intro n
  induction n with
  | zero =>
    intro d _ _ _ hs _
    exact ⟨SegPerm.refl _ _ _, by simpa using hs⟩
  | succ i ih =>
    intro d hlen hn hheap hs hle
    unfold heapSortPop
    have hv : ∀ k, valAt (swapAt d first (first + i)) k =
        if k = first + i then valAt d first
        else if k = first then valAt d (first + i) else valAt d k :=
      fun k => valAt_swapAt d _ _ k (by omega) (by omega)
    have hsp1 : SegPerm d (swapAt d first (first + i)) first (first + hi) :=
      swapAt_segPerm d _ _ _ _ ⟨by omega, by omega⟩ ⟨by omega, by omega⟩
    generalize swapAt d first (first + i) = d1 at hv hsp1
    have hlen1 : d1.length = d.length := hsp1.length_eq
    have hmax := hheap.root_max
    simp only [Nat.add_zero] at hmax
    obtain ⟨s1, s2⟩ := siftDown_func_spec d1 0 i first (by omega) (by
      intro j hj1 hj2 c hc1 hc2
      rw [hv, hv, if_neg (by omega), if_neg (by omega), if_neg (by omega),
        if_neg (by omega)]
      exact hheap j (by omega) (by omega) c hc1 (by omega))
    simp only [Nat.add_zero] at s1
    generalize siftDown_func ltInt d1 0 i first = d2 at s1 s2
    have hlen2 : d2.length = d.length := by rw [s1.length_eq, hlen1]
    -- the elements of the heap are below the old maximum and the sorted part
    have hP := s1.forall_seg (by omega)
      (fun x => x ≤ valAt d first ∧ ∀ q, i + 1 ≤ q → q < hi → x ≤ valAt d (first + q))
      (by
        intro k hk1 hk2
        rw [hv, if_neg (by omega)]
        by_cases hkf : k = first
        · rw [if_pos hkf]
          exact ⟨hmax i (by omega), fun q hq1 hq2 => hle i q (by omega) hq1 hq2⟩
        · rw [if_neg hkf]
          have e : k = first + (k - first) := by omega
          rw [e]
          exact ⟨hmax (k - first) (by omega),
            fun q hq1 hq2 => hle (k - first) q (by omega) hq1 hq2⟩)
    have hout : ∀ k, first + i ≤ k → valAt d2 k = valAt d1 k :=
      fun k hk => s1.2 k (Or.inr hk)
    have hd2i : valAt d2 (first + i) = valAt d first := by
      rw [hout _ (le_refl _), hv, if_pos rfl]
    have hd2q : ∀ q, i + 1 ≤ q → valAt d2 (first + q) = valAt d (first + q) := by
      intro q hq
      rw [hout _ (by omega), hv, if_neg (by omega), if_neg (by omega)]
    obtain ⟨r1, r2⟩ := ih d2 (by omega) (by omega) s2
      (by
        intro p q hp hpq hq
        by_cases hpi : p = first + i
        · by_cases hqi : q = first + i
          · rw [hpi, hqi]
          · rw [hpi, hd2i]
            have e : q = first + (q - first) := by omega
            rw [e, hd2q _ (by omega)]
            have := hle 0 (q - first) (by omega) (by omega) (by omega)
            simpa using this
        · have e1 : p = first + (p - first) := by omega
          have e2 : q = first + (q - first) := by omega
          rw [e1, e2, hd2q _ (by omega), hd2q _ (by omega), ← e1, ← e2]
          exact hs p q (by omega) hpq hq)
      (by
        intro k q hk hq1 hq2
        have hk' := hP (first + k) (by omega) (by omega)
        by_cases hqi : q = i
        · rw [hqi, hd2i]; exact hk'.1
        · rw [hd2q q (by omega)]; exact hk'.2 q (by omega) hq2)
    exact ⟨hsp1.trans ((s1.mono (le_refl _) (by omega)).trans r1), r2⟩

theorem heapSort_func_spec (d : List Int) (a b : Nat) (hab : a ≤ b) (hb : b ≤ d.length) :
    SegPerm d (heapSort_func ltInt d a b) a b ∧
      SortedSeg (heapSort_func ltInt d a b) a b := by
  unfold heapSort_func
  simp only
  obtain ⟨s1, s2⟩ := heapSortBuild_spec a (b - a) ((b - a - 1) / 2 + 1) d (by omega) (by
    intro i hi1 hi2 c hc1 hc2
    omega)
  generalize heapSortBuild ltInt (b - a) a ((b - a - 1) / 2 + 1) d = d1 at s1 s2
  obtain ⟨r1, r2⟩ := heapSortPop_spec a (b - a) (b - a) d1
    (by rw [s1.length_eq]; omega) (le_refl _) s2
    (fun p q hp hpq hq => by omega) (fun k q hk hq1 hq2 => by omega)
  have e : a + (b - a) = b := by omega
  rw [e] at s1 r1 r2
  exact ⟨s1.trans r1, r2⟩

/-! ### The choice of the pivot, `breakPatterns_func` and `reverseRange_func` -/

theorem two_pow_bitsLenLoop_le (f : Nat) : ∀ n, 0 < n → 2 ^ bitsLenLoop f n ≤ 2 * n := by
  induction f with
  | zero =>
    intro n hn
    simp only [bitsLenLoop, pow_zero]
    omega
  | succ f ih =>
    intro n hn
    unfold bitsLenLoop
    rw [if_neg (by omega)]
    by_cases h : n / 2 = 0
    · have : bitsLenLoop f (n / 2) = 0 := by
        rw [h]
        cases f <;> simp [bitsLenLoop]
      rw [this]
      simp only [add_zero, pow_one]
      omega
    · have := ih (n / 2) (by omega)
      rw [pow_add, pow_one]
      omega

theorem nextPowerOfTwo_le (n : Nat) (hn : 0 < n) :
    0 < nextPowerOfTwo n ∧ nextPowerOfTwo n ≤ 2 * n := by
  unfold nextPowerOfTwo bitsLen
  rw [Nat.shiftLeft_eq, one_mul]
  exact ⟨Nat.pow_pos (by omega), two_pow_bitsLenLoop_le 64 n hn⟩

theorem breakPatternsLoop_segPerm (a b length modulus idx : Nat) (hb : b = a + length)
    (hm1 : 0 < modulus) (hm2 : modulus ≤ 2 * length) :
    ∀ (n i random : Nat) (d : List Int),
      (∀ i', i ≤ i' → i' < i + n → a ≤ idx - 1 + i' ∧ idx - 1 + i' < b) →
      SegPerm d (breakPatternsLoop a length modulus idx n i random d) a b := by
  intro n
  induction n with
  | zero => intro i random d _; exact SegPerm.refl _ _ _
  | succ n ih =>
    intro i random d hidx
    unfold breakPatternsLoop
    simp only
    have hand : xorshiftNext random &&& (modulus - 1) ≤ modulus - 1 := Nat.and_le_right
    generalize xorshiftNext random &&& (modulus - 1) = other at hand
    have hother : (if length ≤ other then other - length else other) < length := by
      split_ifs <;> omega
    generalize (if length ≤ other then other - length else other) = other' at hother
    exact (swapAt_segPerm d a b _ _ (hidx i (le_refl _) (by omega))
      ⟨by omega, by omega⟩).trans (ih _ _ _ (fun i' h1 h2 => hidx i' (by omega) (by omega)))

theorem breakPatterns_func_segPerm (d : List Int) (a b : Nat) (hab : a ≤ b) :
    SegPerm d (breakPatterns_func d a b) a b := by
  unfold breakPatterns_func
  simp only
  split_ifs with h
  · obtain ⟨m1, m2⟩ := nextPowerOfTwo_le (b - a) (by omega)
    exact breakPatternsLoop_segPerm a b (b - a) _ _ (by omega) m1 m2 3 0 _ d
      (fun i' h1 h2 => by omega)
  · exact SegPerm.refl _ _ _

theorem reverseRangeLoop_segPerm (a b : Nat) :
    ∀ (n i j : Nat) (d : List Int), a ≤ i → j < b →
      SegPerm d (reverseRangeLoop n i j d) a b := by
  intro n
  induction n with
  | zero => intro i j d _ _; exact SegPerm.refl _ _ _
  | succ n ih =>
    intro i j d hi hj
    unfold reverseRangeLoop
    split_ifs with h
    · exact (swapAt_segPerm d a b i j ⟨hi, by omega⟩ ⟨by omega, hj⟩).trans
        (ih _ _ _ (by omega) (by omega))
    · exact SegPerm.refl _ _ _

theorem reverseRange_func_segPerm (d : List Int) (a b : Nat) (hab : a < b) :
    SegPerm d (reverseRange_func d a b) a b :=
  reverseRangeLoop_segPerm a b _ _ _ d (le_refl _) (by omega)

theorem order2_func_mem {α : Type} (less : α → α → Bool) (d : List α) (x y s : Nat) :
    ((order2_func less d x y s).1 = x ∧ (order2_func less d x y s).2.1 = y) ∨
    ((order2_func less d x y s).1 = y ∧ (order2_func less d x y s).2.1 = x) := by
  unfold order2_func
  split_ifs
  · exact Or.inr ⟨rfl, rfl⟩
  · exact Or.inl ⟨rfl, rfl⟩

theorem median_func_mem {α : Type} (less : α → α → Bool) (d : List α) (x y z s : Nat) :
    (median_func less d x y z s).1 = x ∨ (median_func less d x y z s).1 = y ∨
      (median_func less d x y z s).1 = z := by
  unfold median_func
  simp only
  have h1 := order2_func_mem less d x y s
  generalize order2_func less d x y s = r1 at h1 ⊢
  have h2 := order2_func_mem less d r1.2.1 z r1.2.2
  generalize order2_func less d r1.2.1 z r1.2.2 = r2 at h2 ⊢
  have h3 := order2_func_mem less d r1.1 r2.1 r2.2.2
  generalize order2_func less d r1.1 r2.1 r2.2.2 = r3 at h3 ⊢
  rcases h1 with ⟨a1, a2⟩ | ⟨a1, a2⟩ <;> rcases h2 with ⟨b1, b2⟩ | ⟨b1, b2⟩ <;>
    rcases h3 with ⟨c1, c2⟩ | ⟨c1, c2⟩ <;> simp_all

theorem choosePivot_func_range {α : Type} (less : α → α → Bool) (d : List α) (a b : Nat)
    (h : 8 ≤ b - a) :
    a ≤ (choosePivot_func less d a b).1 ∧ (choosePivot_func less d a b).1 < b := by
  have key : ∀ r : Nat × Nat, (a ≤ r.1 ∧ r.1 < b) →
      a ≤ (if r.2 = 0 then (r.1, sortedHint.increasingHint)
        else if r.2 = 4 * 3 then (r.1, sortedHint.decreasingHint)
        else (r.1, sortedHint.unknownHint)).1 ∧
      (if r.2 = 0 then (r.1, sortedHint.increasingHint)
        else if r.2 = 4 * 3 then (r.1, sortedHint.decreasingHint)
        else (r.1, sortedHint.unknownHint)).1 < b := by
    intro r hr
    split_ifs <;> exact hr
  unfold choosePivot_func
  simp only
  apply key
  rw [if_pos h]
  by_cases h50 : 50 ≤ b - a
  · rw [if_pos h50]
    simp only
    have m1 := median_func_mem less d (a + (b - a) / 4 * 1 - 1) (a + (b - a) / 4 * 1)
      (a + (b - a) / 4 * 1 + 1) 0
    unfold medianAdjacent_func
    generalize median_func less d (a + (b - a) / 4 * 1 - 1) (a + (b - a) / 4 * 1)
      (a + (b - a) / 4 * 1 + 1) 0 = ri at m1 ⊢
    have m2 := median_func_mem less d (a + (b - a) / 4 * 2 - 1) (a + (b - a) / 4 * 2)
      (a + (b - a) / 4 * 2 + 1) ri.2
    generalize median_func less d (a + (b - a) / 4 * 2 - 1) (a + (b - a) / 4 * 2)
      (a + (b - a) / 4 * 2 + 1) ri.2 = rj at m2 ⊢
    have m3 := median_func_mem less d (a + (b - a) / 4 * 3 - 1) (a + (b - a) / 4 * 3)
      (a + (b - a) / 4 * 3 + 1) rj.2
    generalize median_func less d (a + (b - a) / 4 * 3 - 1) (a + (b - a) / 4 * 3)
      (a + (b - a) / 4 * 3 + 1) rj.2 = rk at m3 ⊢
    have m4 := median_func_mem less d ri.1 rj.1 rk.1 rk.2
    generalize median_func less d ri.1 rj.1 rk.1 rk.2 = r at m4 ⊢
    omega
  · rw [if_neg h50]
    simp only
    have m4 := median_func_mem less d (a + (b - a) / 4 * 1) (a + (b - a) / 4 * 2)
      (a + (b - a) / 4 * 3) 0
    generalize median_func less d (a + (b - a) / 4 * 1) (a + (b - a) / 4 * 2)
      (a + (b - a) / 4 * 3) 0 = r at m4 ⊢
    omega

/-! ### The sort -/

theorem pdqsortPivot_spec (d : List Int) (a b limit : Nat) (wb wp : Bool)
    (h12 : 12 < b - a) (hb : b ≤ d.length) (hlb : LowerBd d a b) :
    SegPerm d (pdqsortPivot ltInt d a b limit wb wp).1 a b ∧
    a ≤ (pdqsortPivot ltInt d a b limit wb wp).2.2.1 ∧
    (pdqsortPivot ltInt d a b limit wb wp).2.2.1 < b ∧
    ((pdqsortPivot ltInt d a b limit wb wp).2.2.2 = true →
      SortedSeg (pdqsortPivot ltInt d a b limit wb wp).1 a b) := by
  have h1 : SegPerm d (if !wb then breakPatterns_func d a b else d) a b := by
    split_ifs
    · exact breakPatterns_func_segPerm d a b (by omega)
    · exact SegPerm.refl _ _ _
  unfold pdqsortPivot
  generalize (if !wb then breakPatterns_func d a b else d) = d1 at h1 ⊢
  simp only
  have hpr := choosePivot_func_range ltInt d1 a b (by omega)
  generalize choosePivot_func ltInt d1 a b = ph at hpr ⊢
  have h2 : SegPerm d1 (if ph.2 = sortedHint.decreasingHint then reverseRange_func d1 a b
      else d1) a b := by
    split_ifs
    · exact reverseRange_func_segPerm d1 a b (by omega)
    · exact SegPerm.refl _ _ _
  generalize (if ph.2 = sortedHint.decreasingHint then reverseRange_func d1 a b else d1) = d2
    at h2 ⊢
  have h12' : SegPerm d d2 a b := h1.trans h2
  have hpiv : a ≤ (if ph.2 = sortedHint.decreasingHint then b - 1 - (ph.1 - a) else ph.1) ∧
      (if ph.2 = sortedHint.decreasingHint then b - 1 - (ph.1 - a) else ph.1) < b := by
    split_ifs <;> omega
  have hps := partialInsertionSort_func_spec d2 a b (by omega)
    (by rw [h12'.length_eq]; exact hb) (hlb.segPerm h12' hb)
  refine ⟨?_, hpiv.1, hpiv.2, ?_⟩
  · split_ifs
    all_goals first
      | exact h12'.trans hps.1
      | exact h12'
  · split_ifs
    all_goals first
      | exact hps.2
      | (intro h; exact absurd h (by simp))

theorem sortedSeg_of_parts (r : List Int) (a mid b : Nat) (pv : Int)
    (hL : ∀ k, a ≤ k → k < mid → valAt r k ≤ pv) (hM : valAt r mid = pv)
    (hR : ∀ k, mid < k → k < b → pv ≤ valAt r k)
    (hsL : SortedSeg r a mid) (hsR : SortedSeg r (mid + 1) b) : SortedSeg r a b := by
  intro i j hi hij hj
  by_cases h1 : j < mid
  · exact hsL i j hi hij h1
  · by_cases h2 : mid < i
    · exact hsR i j (by omega) hij hj
    · have hi' : valAt r i ≤ pv := by
        by_cases h3 : i = mid
        · rw [h3, hM]
        · exact hL i hi (by omega)
      have hj' : pv ≤ valAt r j := by
        by_cases h3 : j = mid
        · rw [h3, hM]
        · exact hR j (by omega) hj
      exact le_trans hi' hj'

theorem pdqsort_func_spec (fuel : Nat) :
    ∀ (d : List Int) (a b limit : Nat) (wb wp : Bool), a ≤ b → b ≤ d.length →
      b - a < fuel → LowerBd d a b →
      ∃ r, pdqsort_func ltInt fuel d a b limit wb wp = some r ∧ SegPerm d r a b ∧
        SortedSeg r a b := by
  induction fuel with
  | zero => intro d a b limit wb wp _ _ h _; omega
  | succ fuel ih =>
    intro d a b limit wb wp hab hb hfuel hlb
    rw [pdqsort_func_succ]
    by_cases h12 : b - a ≤ 12
    · rw [if_pos h12]
      exact ⟨_, rfl, insertionSort_func_spec d a b hb⟩
    rw [if_neg h12]
    by_cases hlim : limit = 0
    · rw [if_pos hlim]
      exact ⟨_, rfl, heapSort_func_spec d a b hab hb⟩
    rw [if_neg hlim]
    obtain ⟨s1, s2, s3, s4⟩ := pdqsortPivot_spec d a b limit wb wp (by omega) hb hlb
    generalize pdqsortPivot ltInt d a b limit wb wp = s at s1 s2 s3 s4 ⊢
    obtain ⟨d1, limit1, pivot, sorted⟩ := s
    simp only at s1 s2 s3 s4 ⊢
    have hlen1 : d1.length = d.length := s1.length_eq
    have hlb1 : LowerBd d1 a b := hlb.segPerm s1 hb
    by_cases hsorted : sorted = true
    · rw [if_pos hsorted]
      exact ⟨_, rfl, s1, s4 hsorted⟩
    rw [if_neg hsorted]
    by_cases heq : (decide (0 < a) && !lessAt ltInt d1 (a - 1) pivot) = true
    · -- the slice has no element below the pivot
      rw [if_pos heq]
      simp only [Bool.and_eq_true, decide_eq_true_eq] at heq
      obtain ⟨ha, hl⟩ := heq
      rw [lessAt_ltInt d1 _ _ (by omega) (by omega)] at hl
      have hle : valAt d1 pivot ≤ valAt d1 (a - 1) := by simpa using hl
      obtain ⟨e1, e2, e3, e4, e5⟩ := partitionEqual_func_spec d1 a b pivot (by omega)
        (by omega) s2 s3 (fun k hk1 hk2 => le_trans hle (hlb1 ha k hk1 hk2))
      generalize partitionEqual_func ltInt d1 a b pivot = pe at e1 e2 e3 e4 e5 ⊢
      obtain ⟨d2, mid⟩ := pe
      simp only at e1 e2 e3 e4 e5 ⊢
      have hlen2 : d2.length = d.length := by rw [e1.length_eq, hlen1]
      obtain ⟨r, hr, r1, r2⟩ := ih d2 mid b limit1 wb wp e3 (by omega) (by omega)
        (by
          intro _ k hk1 hk2
          rw [e4 (mid - 1) (by omega) (by omega)]
          exact le_of_lt (e5 k hk1 hk2))
      refine ⟨r, hr, s1.trans (e1.trans (r1.mono (by omega) (le_refl _))), ?_⟩
      have hR := r1.forall_seg (by omega) (fun x => valAt d1 pivot < x) e5
      intro i j hi hij hj
      by_cases h1 : j < mid
      · rw [r1.2 i (Or.inl (by omega)), r1.2 j (Or.inl h1), e4 i hi (by omega),
          e4 j (by omega) h1]
      · by_cases h2 : mid ≤ i
        · exact r2 i j h2 hij hj
        · rw [r1.2 i (Or.inl (by omega)), e4 i hi (by omega)]
          exact le_of_lt (hR j (by omega) hj)
    rw [if_neg heq]
    obtain ⟨p1, p2, p3, p4, p5⟩ := partition_func_spec d1 a b pivot (by omega) (by omega)
      s2 s3
    generalize partition_func ltInt d1 a b pivot = pt at p1 p2 p3 p4 p5 ⊢
    obtain ⟨d2, mid, alreadyPartitioned⟩ := pt
    simp only at p1 p2 p3 p4 p5 ⊢
    have hlen2 : d2.length = d.length := by rw [p1.length_eq, hlen1]
    have hlb2 : LowerBd d2 a b := hlb1.segPerm p1 (by omega)
    by_cases hside : mid - a < b - mid
    · rw [if_pos hside]
      obtain ⟨r1, hr1, q1, q2⟩ := ih d2 a mid limit1 true true p2 (by omega) (by omega)
        (hlb2.shrink (by omega))
      rw [hr1]
      simp only [Option.some_bind]
      have hlenr1 : r1.length = d.length := by rw [q1.length_eq, hlen2]
      have hL := q1.forall_seg (by omega) (fun x => x < valAt d2 mid) p4
      obtain ⟨r2, hr2, q3, q4⟩ := ih r1 (mid + 1) b limit1
        (decide ((b - a) / 8 ≤ mid - a)) alreadyPartitioned (by omega) (by omega) (by omega)
        (by
          intro _ k hk1 hk2
          simp only [Nat.add_sub_cancel]
          rw [q1.2 mid (Or.inr (le_refl _)), q1.2 k (Or.inr (by omega))]
          exact p5 k (by omega) hk2)
      refine ⟨r2, hr2, s1.trans (p1.trans ((q1.mono (le_refl _) (by omega)).trans
        (q3.mono (by omega) (le_refl _)))), ?_⟩
      have hR := q3.forall_seg (by omega) (fun x => valAt d2 mid ≤ x)
        (fun k hk1 hk2 => by
          rw [q1.2 k (Or.inr (by omega))]
          exact p5 k (by omega) hk2)
      apply sortedSeg_of_parts r2 a mid b (valAt d2 mid)
      · intro k hk1 hk2
        rw [q3.2 k (Or.inl (by omega))]
        exact le_of_lt (hL k hk1 hk2)
      · rw [q3.2 mid (Or.inl (by omega)), q1.2 mid (Or.inr (le_refl _))]
      · exact hR
      · exact q2.of_same (fun k hk1 hk2 => q3.2 k (Or.inl (by omega)))
      · exact q4
    · rw [if_neg hside]
      obtain ⟨r1, hr1, q1, q2⟩ := ih d2 (mid + 1) b limit1 true true (by omega) (by omega)
        (by omega)
        (by
          intro _ k hk1 hk2
          simp only [Nat.add_sub_cancel]
          exact p5 k (by omega) hk2)
      rw [hr1]
      simp only [Option.some_bind]
      have hlenr1 : r1.length = d.length := by rw [q1.length_eq, hlen2]
      have hR := q1.forall_seg (by omega) (fun x => valAt d2 mid ≤ x)
        (fun k hk1 hk2 => p5 k (by omega) hk2)
      obtain ⟨r2, hr2, q3, q4⟩ := ih r1 a mid limit1
        (decide ((b - a) / 8 ≤ b - mid)) alreadyPartitioned p2 (by omega) (by omega)
        ((hlb2.segPerm (q1.mono (by omega) (le_refl _)) (by omega)).shrink (by omega))
      refine ⟨r2, hr2, s1.trans (p1.trans ((q1.mono (by omega) (le_refl _)).trans
        (q3.mono (le_refl _) (by omega)))), ?_⟩
      have hL := q3.forall_seg (by omega) (fun x => x < valAt d2 mid)
        (fun k hk1 hk2 => by
          rw [q1.2 k (Or.inl (by omega))]
          exact p4 k hk1 hk2)
      apply sortedSeg_of_parts r2 a mid b (valAt d2 mid)
      · intro k hk1 hk2
        exact le_of_lt (hL k hk1 hk2)
      · rw [q3.2 mid (Or.inr (le_refl _)), q1.2 mid (Or.inl (by omega))]
      · intro k hk1 hk2
        rw [q3.2 k (Or.inr (by omega))]
        exact hR k (by omega) hk2
      · exact q4
      · exact q2.of_same (fun k hk1 hk2 => q3.2 k (Or.inr (by omega)))

/-- On a slice of integers, `Slice` never lacks fuel and its result is the
slice in ascending order. -/
theorem Slice_ltInt_spec (x : List Int) :
    ∃ r, Slice ltInt x = some r ∧ r.Perm x ∧ r.Pairwise (fun a b => a ≤ b) := by
  obtain ⟨r, hr, h1, h2⟩ := pdqsort_func_spec (x.length + 1) x 0 x.length (bitsLen x.length)
    true true (Nat.zero_le _) (le_refl _) (by omega) (fun h => by omega)
  refine ⟨r, hr, h1.1, ?_⟩
  rw [List.pairwise_iff_getElem]
  intro i j hi hj hij
  have := h2 i j (Nat.zero_le _) (le_of_lt hij) (by rw [← h1.length_eq]; exact hj)
  simpa [valAt, List.getD_eq_getElem?_getD, List.getElem?_eq_getElem hi,
    List.getElem?_eq_getElem hj] using this

/-! ### The sort acts through the comparison alone: a map `f` that carries the comparison `less` to `less'` carries every step of
the sort on a slice to the same step on the image of the slice. -/

theorem lessAt_map {α β : Type} (f : α → β) (less : α → α → Bool) (less' : β → β → Bool)
    (hf : ∀ x y, less' (f x) (f y) = less x y) (d : List α) (i j : Nat) :
    lessAt less' (d.map f) i j = lessAt less d i j := by
  unfold lessAt
  simp only [List.getElem?_map]
  cases d[i]? <;> cases d[j]? <;> simp [hf]

theorem swapAt_map {α β : Type} (f : α → β) (d : List α) (i j : Nat) :
    swapAt (d.map f) i j = (swapAt d i j).map f := by
  unfold swapAt
  simp only [List.getElem?_map]
  cases d[i]? <;> cases d[j]? <;> simp [List.map_set]

theorem insertionSortInner_map {α β : Type} (f : α → β) (less : α → α → Bool) (less' : β → β → Bool)
    (hf : ∀ x y, less' (f x) (f y) = less x y) (a : Nat) : ∀ (j : Nat) (d : List α),
    insertionSortInner less' a j (d.map f) = (insertionSortInner less a j d).map f := by
  intro j
  induction j with
  | zero => intro d; rfl
  | succ j ih =>
    intro d
    unfold insertionSortInner
    rw [lessAt_map f less less' hf, swapAt_map, ih]
    split_ifs <;> rfl

theorem insertionSortOuter_map {α β : Type} (f : α → β) (less : α → α → Bool) (less' : β → β → Bool)
    (hf : ∀ x y, less' (f x) (f y) = less x y) (a b : Nat) : ∀ (n i : Nat) (d : List α),
    insertionSortOuter less' a b n i (d.map f) =
      (insertionSortOuter less a b n i d).map f := by
  intro n
  induction n with
  | zero => intro i d; rfl
  | succ n ih =>
    intro i d
    unfold insertionSortOuter
    rw [insertionSortInner_map f less less' hf, ih]
    split_ifs <;> rfl

theorem insertionSort_func_map {α β : Type} (f : α → β) (less : α → α → Bool) (less' : β → β → Bool)
    (hf : ∀ x y, less' (f x) (f y) = less x y) (d : List α) (a b : Nat) :
    insertionSort_func less' (d.map f) a b = (insertionSort_func less d a b).map f :=
  insertionSortOuter_map f less less' hf a b _ _ d

theorem siftDownLoop_map {α β : Type} (f : α → β) (less : α → α → Bool) (less' : β → β → Bool)
    (hf : ∀ x y, less' (f x) (f y) = less x y) (hi first : Nat) : ∀ (n root : Nat) (d : List α),
    siftDownLoop less' hi first n root (d.map f) =
      (siftDownLoop less hi first n root d).map f := by
  intro n
  induction n with
  | zero => intro root d; rfl
  | succ n ih =>
    intro root d
    unfold siftDownLoop
    simp only [lessAt_map f less less' hf, swapAt_map, ih]
    split_ifs <;> rfl

theorem siftDown_func_map {α β : Type} (f : α → β) (less : α → α → Bool) (less' : β → β → Bool)
    (hf : ∀ x y, less' (f x) (f y) = less x y) (d : List α) (lo hi first : Nat) :
    siftDown_func less' (d.map f) lo hi first = (siftDown_func less d lo hi first).map f :=
  siftDownLoop_map f less less' hf hi first _ _ d

theorem heapSortBuild_map {α β : Type} (f : α → β) (less : α → α → Bool) (less' : β → β → Bool)
    (hf : ∀ x y, less' (f x) (f y) = less x y) (hi first : Nat) : ∀ (n : Nat) (d : List α),
    heapSortBuild less' hi first n (d.map f) = (heapSortBuild less hi first n d).map f := by
  intro n
  induction n with
  | zero => intro d; rfl
  | succ n ih =>
    intro d
    unfold heapSortBuild
    rw [siftDown_func_map f less less' hf, ih]

theorem heapSortPop_map {α β : Type} (f : α → β) (less : α → α → Bool) (less' : β → β → Bool)
    (hf : ∀ x y, less' (f x) (f y) = less x y) (first : Nat) : ∀ (n : Nat) (d : List α),
    heapSortPop less' first n (d.map f) = (heapSortPop less first n d).map f := by
  intro n
  induction n with
  | zero => intro d; rfl
  | succ n ih =>
    intro d
    unfold heapSortPop
    rw [swapAt_map, siftDown_func_map f less less' hf, ih]

theorem heapSort_func_map {α β : Type} (f : α → β) (less : α → α → Bool) (less' : β → β → Bool)
    (hf : ∀ x y, less' (f x) (f y) = less x y) (d : List α) (a b : Nat) :
    heapSort_func less' (d.map f) a b = (heapSort_func less d a b).map f := by
  unfold heapSort_func
  simp only [heapSortBuild_map f less less' hf, heapSortPop_map f less less' hf]

theorem partitionLoop_map {α β : Type} (f : α → β) (less : α → α → Bool) (less' : β → β → Bool)
    (hf : ∀ x y, less' (f x) (f y) = less x y) (a b : Nat) : ∀ (n : Nat) (d : List α) (i j : Nat),
    partitionLoop less' a b n (d.map f) i j =
      ((partitionLoop less a b n d i j).1.map f, (partitionLoop less a b n d i j).2) := by
  intro n
  induction n with
  | zero => intro d i j; rfl
  | succ n ih =>
    intro d i j
    unfold partitionLoop
    simp only [lessAt_map f less less' hf, swapAt_map, ih]
    split_ifs <;> rfl

theorem partition_func_map {α β : Type} (f : α → β) (less : α → α → Bool) (less' : β → β → Bool)
    (hf : ∀ x y, less' (f x) (f y) = less x y) (d : List α) (a b pivot : Nat) :
    partition_func less' (d.map f) a b pivot =
      ((partition_func less d a b pivot).1.map f, (partition_func less d a b pivot).2) := by
  unfold partition_func
  simp only [swapAt_map, lessAt_map f less less' hf, partitionLoop_map f less less' hf]
  split_ifs <;> rfl

theorem partitionEqualLoop_map {α β : Type} (f : α → β) (less : α → α → Bool) (less' : β → β → Bool)
    (hf : ∀ x y, less' (f x) (f y) = less x y) (a b : Nat) : ∀ (n : Nat) (d : List α) (i j : Nat),
    partitionEqualLoop less' a b n (d.map f) i j =
      ((partitionEqualLoop less a b n d i j).1.map f,
        (partitionEqualLoop less a b n d i j).2) := by
  intro n
  induction n with
  | zero => intro d i j; rfl
  | succ n ih =>
    intro d i j
    unfold partitionEqualLoop
    simp only [lessAt_map f less less' hf, swapAt_map, ih]
    split_ifs <;> rfl

theorem partitionEqual_func_map {α β : Type} (f : α → β) (less : α → α → Bool) (less' : β → β → Bool)
    (hf : ∀ x y, less' (f x) (f y) = less x y) (d : List α) (a b pivot : Nat) :
    partitionEqual_func less' (d.map f) a b pivot =
      ((partitionEqual_func less d a b pivot).1.map f,
        (partitionEqual_func less d a b pivot).2) := by
  unfold partitionEqual_func
  simp only [swapAt_map, partitionEqualLoop_map f less less' hf]

theorem shiftLeft_map {α β : Type} (f : α → β) (less : α → α → Bool) (less' : β → β → Bool)
    (hf : ∀ x y, less' (f x) (f y) = less x y) : ∀ (j : Nat) (d : List α),
    shiftLeft less' j (d.map f) = (shiftLeft less j d).map f := by
  intro j
  induction j with
  | zero => intro d; rfl
  | succ j ih =>
    intro d
    unfold shiftLeft
    rw [lessAt_map f less less' hf, swapAt_map, ih]
    split_ifs <;> rfl

theorem shiftRight_map {α β : Type} (f : α → β) (less : α → α → Bool) (less' : β → β → Bool)
    (hf : ∀ x y, less' (f x) (f y) = less x y) (b : Nat) : ∀ (n j : Nat) (d : List α),
    shiftRight less' b n j (d.map f) = (shiftRight less b n j d).map f := by
  intro n
  induction n with
  | zero => intro j d; rfl
  | succ n ih =>
    intro j d
    unfold shiftRight
    rw [lessAt_map f less less' hf, swapAt_map, ih]
    split_ifs <;> rfl

theorem partialInsertionSortLoop_map {α β : Type} (f : α → β) (less : α → α → Bool) (less' : β → β → Bool)
    (hf : ∀ x y, less' (f x) (f y) = less x y) (a b : Nat) : ∀ (n i : Nat) (d : List α),
    partialInsertionSortLoop less' a b n i (d.map f) =
      ((partialInsertionSortLoop less a b n i d).1.map f,
        (partialInsertionSortLoop less a b n i d).2) := by
  intro n
  induction n with
  | zero => intro i d; rfl
  | succ n ih =>
    intro i d
    unfold partialInsertionSortLoop
    simp only [lessAt_map f less less' hf, swapAt_map]
    split_ifs <;>
      simp only [shiftLeft_map f less less' hf, shiftRight_map f less less' hf, ih]

theorem partialInsertionSort_func_map {α β : Type} (f : α → β) (less : α → α → Bool) (less' : β → β → Bool)
    (hf : ∀ x y, less' (f x) (f y) = less x y) (d : List α) (a b : Nat) :
    partialInsertionSort_func less' (d.map f) a b =
      ((partialInsertionSort_func less d a b).1.map f,
        (partialInsertionSort_func less d a b).2) :=
  partialInsertionSortLoop_map f less less' hf a b _ _ d

theorem breakPatternsLoop_map {α β : Type} (f : α → β) (a length modulus idx : Nat) :
    ∀ (n i random : Nat) (d : List α),
      breakPatternsLoop a length modulus idx n i random (d.map f) =
        (breakPatternsLoop a length modulus idx n i random d).map f := by
  intro n
  induction n with
  | zero => intro i random d; rfl
  | succ n ih =>
    intro i random d
    unfold breakPatternsLoop
    simp only [swapAt_map, ih]

theorem breakPatterns_func_map {α β : Type} (f : α → β) (d : List α) (a b : Nat) :
    breakPatterns_func (d.map f) a b = (breakPatterns_func d a b).map f := by
  unfold breakPatterns_func
  simp only [breakPatternsLoop_map]
  split_ifs <;> rfl

theorem reverseRangeLoop_map {α β : Type} (f : α → β) : ∀ (n i j : Nat) (d : List α),
    reverseRangeLoop n i j (d.map f) = (reverseRangeLoop n i j d).map f := by
  intro n
  induction n with
  | zero => intro i j d; rfl
  | succ n ih =>
    intro i j d
    unfold reverseRangeLoop
    rw [swapAt_map, ih]
    split_ifs <;> rfl

theorem reverseRange_func_map {α β : Type} (f : α → β) (d : List α) (a b : Nat) :
    reverseRange_func (d.map f) a b = (reverseRange_func d a b).map f :=
  reverseRangeLoop_map f _ _ _ d

theorem order2_func_map {α β : Type} (f : α → β) (less : α → α → Bool) (less' : β → β → Bool)
    (hf : ∀ x y, less' (f x) (f y) = less x y) (d : List α) (x y s : Nat) :
    order2_func less' (d.map f) x y s = order2_func less d x y s := by
  unfold order2_func
  rw [lessAt_map f less less' hf]

theorem median_func_map {α β : Type} (f : α → β) (less : α → α → Bool) (less' : β → β → Bool)
    (hf : ∀ x y, less' (f x) (f y) = less x y) (d : List α) (x y z s : Nat) :
    median_func less' (d.map f) x y z s = median_func less d x y z s := by
  unfold median_func
  simp only [order2_func_map f less less' hf]

theorem choosePivot_func_map {α β : Type} (f : α → β) (less : α → α → Bool) (less' : β → β → Bool)
    (hf : ∀ x y, less' (f x) (f y) = less x y) (d : List α) (a b : Nat) :
    choosePivot_func less' (d.map f) a b = choosePivot_func less d a b := by
  unfold choosePivot_func medianAdjacent_func
  simp only [median_func_map f less less' hf]

theorem pdqsortPivot_map {α β : Type} (f : α → β) (less : α → α → Bool) (less' : β → β → Bool)
    (hf : ∀ x y, less' (f x) (f y) = less x y) (d : List α) (a b limit : Nat) (wb wp : Bool) :
    pdqsortPivot less' (d.map f) a b limit wb wp =
      ((pdqsortPivot less d a b limit wb wp).1.map f,
        (pdqsortPivot less d a b limit wb wp).2) := by
  unfold pdqsortPivot
  have h1 : (if (!wb) = true then breakPatterns_func (d.map f) a b else d.map f) =
      (if (!wb) = true then breakPatterns_func d a b else d).map f := by
    split_ifs
    · exact breakPatterns_func_map f d a b
    · rfl
  simp only [h1, choosePivot_func_map f less less' hf]
  generalize (if (!wb) = true then breakPatterns_func d a b else d) = d1
  generalize choosePivot_func less d1 a b = ph
  have h2 : (if ph.2 = sortedHint.decreasingHint then reverseRange_func (d1.map f) a b
      else d1.map f) =
      (if ph.2 = sortedHint.decreasingHint then reverseRange_func d1 a b else d1).map f := by
    split_ifs
    · exact reverseRange_func_map f d1 a b
    · rfl
  simp only [h2, partialInsertionSort_func_map f less less' hf]
  split_ifs <;> rfl

theorem pdqsort_func_map {α β : Type} (f : α → β) (less : α → α → Bool) (less' : β → β → Bool)
    (hf : ∀ x y, less' (f x) (f y) = less x y) (fuel : Nat) :
    ∀ (d : List α) (a b limit : Nat) (wb wp : Bool),
      pdqsort_func less' fuel (d.map f) a b limit wb wp =
        (pdqsort_func less fuel d a b limit wb wp).map (List.map f) := by
  induction fuel with
  | zero => intro d a b limit wb wp; rfl
  | succ fuel ih =>
    intro d a b limit wb wp
    rw [pdqsort_func_succ, pdqsort_func_succ]
    simp only [insertionSort_func_map f less less' hf, heapSort_func_map f less less' hf,
      pdqsortPivot_map f less less' hf, lessAt_map f less less' hf,
      partitionEqual_func_map f less less' hf, partition_func_map f less less' hf, ih]
    split_ifs
    · rfl
    · rfl
    · rfl
    · rfl
    · cases h : pdqsort_func less fuel _ a _ _ true true with
      | none => rfl
      | some r => simp only [Option.map_some', Option.some_bind, ih]
    · cases h : pdqsort_func less fuel _ _ b _ true true with
      | none => rfl
      | some r => simp only [Option.map_some', Option.some_bind, ih]

theorem Slice_map {α β : Type} (f : α → β) (less : α → α → Bool) (less' : β → β → Bool)
    (hf : ∀ x y, less' (f x) (f y) = less x y) (x : List α) :
    Slice less' (x.map f) = (Slice less x).map (List.map f) := by
  unfold Slice
  rw [pdqsort_func_map f less less' hf, List.length_map]

/-- The sort by a key: `Slice` never lacks fuel, and its result holds the
elements of the slice in ascending order of the key. -/
theorem Slice_key_spec {α : Type} (key : α → Int) (x : List α) :
    ∃ r, Slice (fun a b => decide (key a < key b)) x = some r ∧ r.Perm x ∧
      r.Pairwise (fun a b => key a ≤ key b) := by
  obtain ⟨r', hr', _, hs⟩ := Slice_ltInt_spec (x.map key)
  rw [Slice_map key (fun a b => decide (key a < key b)) ltInt (fun _ _ => rfl)] at hr'
  obtain ⟨r, hr, hrr⟩ := Option.map_eq_some'.mp hr'
  refine ⟨r, hr, Slice_perm _ _ _ hr, ?_⟩
  rw [← hrr] at hs
  exact List.pairwise_map.mp hs

/-- The model of `sort.Slice` keeps the promise of its documentation. -/
theorem goSlice_sortsByKey : SortsByKey goSlice := by
  intro α key x
  obtain ⟨r, hr, hp, hs⟩ := Slice_key_spec key x
  simp only [goSlice, hr, Option.getD_some]
  exact ⟨hp, hs⟩

/-! ## Sorting -/

theorem stableInsert_perm {α : Type} (less : α → α → Bool) (a : α) (l : List α) :
    (stableInsert less a l).Perm (a :: l) := by
  induction l with
  | nil => simp [stableInsert]
  | cons b t ih =>
    unfold stableInsert
    split_ifs
    · exact (List.Perm.cons b ih).trans (List.Perm.swap a b t)
    · exact List.Perm.refl _

theorem stableSort_perm {α : Type} (less : α → α → Bool) (l : List α) :
    (stableSort less l).Perm l := by
  induction l with
  | nil => simp [stableSort]
  | cons a t ih =>
    unfold stableSort
    exact (stableInsert_perm less a _).trans (List.Perm.cons a ih)

theorem stableInsert_pairwise {α : Type} (key : α → Int) (a : α) (l : List α)
    (h : l.Pairwise (fun x y => key x ≤ key y)) :
    (stableInsert (fun x y => decide (key x < key y)) a l).Pairwise
      (fun x y => key x ≤ key y) := by
  induction l with
  | nil => simp [stableInsert]
  | cons b t ih =>
    have hb := List.pairwise_cons.mp h
    unfold stableInsert
    split_ifs with hlt
    · have hlt' : key b < key a := by simpa using hlt
      refine List.pairwise_cons.mpr ⟨?_, ih hb.2⟩
      intro x hx
      rcases List.mem_cons.mp ((stableInsert_perm _ a t).subset hx) with h1 | h1
      · rw [h1]; exact le_of_lt hlt'
      · exact hb.1 x h1
    · have hge : key a ≤ key b := by simpa using hlt
      refine List.pairwise_cons.mpr ⟨?_, h⟩
      intro x hx
      rcases List.mem_cons.mp hx with h1 | h1
      · rw [h1]; exact hge
      · exact le_trans hge (hb.1 x h1)

theorem stableSort_pairwise {α : Type} (key : α → Int) (l : List α) :
    (stableSort (fun x y => decide (key x < key y)) l).Pairwise
      (fun x y => key x ≤ key y) := by
  induction l with
  | nil => simp [stableSort]
  | cons a t ih =>
    unfold stableSort
    exact stableInsert_pairwise key a _ ih

theorem stableSlice_sortsByKey : SortsByKey stableSlice :=
  fun _ key x => ⟨stableSort_perm _ x, stableSort_pairwise key x⟩

/-- Two ascending arrangements of the same elements are equal when no two
elements share a key. -/
theorem eq_of_perm_of_sorted_of_nodup {α : Type} (key : α → Int) (l₁ l₂ : List α)
    (hp : l₁.Perm l₂) (h₁ : l₁.Pairwise (fun x y => key x ≤ key y))
    (h₂ : l₂.Pairwise (fun x y => key x ≤ key y)) (hn : (l₂.map key).Nodup) : l₁ = l₂ := by
  have hn₁ : (l₁.map key).Nodup := (hp.map key).nodup_iff.mpr hn
  have strict : ∀ l : List α, l.Pairwise (fun x y => key x ≤ key y) → (l.map key).Nodup →
      l.Pairwise (fun x y => key x < key y) := by
    intro l hl hnd
    have hne : l.Pairwise (fun x y => key x ≠ key y) := by
      rw [List.Nodup, List.pairwise_map] at hnd
      exact hnd
    exact (hl.and hne).imp (fun h => lt_of_le_of_ne h.1 h.2)
  haveI : IsAntisymm α (fun x y => key x < key y) :=
    ⟨fun a b hab hba => absurd hab (not_lt_of_gt hba)⟩
  exact List.eq_of_perm_of_sorted hp (strict l₁ h₁ hn₁) (strict l₂ h₂ hn)

/-! ## The selected comment (`GetSelectedComment`) -/

theorem enum_map_comment (comments : List IssueComment) :
    (comments.enum.map (fun p => indexedComment.mk p.1 p.2)).map (fun x => x.comment) =
      comments := by
  rw [List.map_map]
  have : ((fun x : indexedComment => x.comment) ∘ fun p : Nat × IssueComment =>
      indexedComment.mk p.1 p.2) = Prod.snd := by
    funext p; rfl
  rw [this, List.enum_map_snd]

/-- Under any sort that keeps the promise of `sort.Slice`,
`GetSelectedComment` returns nil when no issue is set or no comment is
selected; and every issue has one arrangement of its comments, the slice
`sorted` of the method, in ascending order of update time, of which
`GetSelectedComment` returns the `k`-th element for every selected index `k`
below the number of comments. -/
theorem GetSelectedComment_of_sortsByKey (sortSlice : SliceSort) (hs : SortsByKey sortSlice) :
    (∀ m : Model, (m.issue = none ∨ m.selectedCommentIndex < 0) →
      GetSelectedComment sortSlice m = some none) ∧
    (∀ issue : Issue,
      ∃ sorted : List IssueComment,
        sorted = (sortSlice indexedComment
          (fun x y => decide (x.comment.UpdatedAt < y.comment.UpdatedAt))
          (issue.Data.Comments.enum.map (fun p => indexedComment.mk p.1 p.2))).map
            (fun x => x.comment) ∧
        sorted.Perm issue.Data.Comments ∧
        sorted.Pairwise (fun a b => a.UpdatedAt ≤ b.UpdatedAt) ∧
        ((issue.Data.Comments.map (fun c => c.UpdatedAt)).Nodup →
          sorted = stableSort (fun a b => decide (a.UpdatedAt < b.UpdatedAt))
            issue.Data.Comments) ∧
        ∀ (m : Model) (k : Nat), m.issue = some issue → m.selectedCommentIndex = (k : Int) →
          k < issue.Data.Comments.length →
          ∃ c, sorted[k]? = some c ∧ GetSelectedComment sortSlice m = some (some c)) := by
  constructor
  · rintro m (h | h)
    · simp [GetSelectedComment, h]
    · cases hi : m.issue <;> simp [GetSelectedComment, hi, h]
  · intro issue
    obtain ⟨hperm, hsorted⟩ := hs indexedComment (fun x => x.comment.UpdatedAt)
      (issue.Data.Comments.enum.map (fun p => indexedComment.mk p.1 p.2))
    have hp : ((sortSlice indexedComment
        (fun x y => decide (x.comment.UpdatedAt < y.comment.UpdatedAt))
        (issue.Data.Comments.enum.map (fun p => indexedComment.mk p.1 p.2))).map
          (fun x => x.comment)).Perm issue.Data.Comments := by
      have := hperm.map (fun x => x.comment)
      rwa [enum_map_comment] at this
    have hpw : ((sortSlice indexedComment
        (fun x y => decide (x.comment.UpdatedAt < y.comment.UpdatedAt))
        (issue.Data.Comments.enum.map (fun p => indexedComment.mk p.1 p.2))).map
          (fun x => x.comment)).Pairwise (fun a b => a.UpdatedAt ≤ b.UpdatedAt) :=
      List.pairwise_map.mpr hsorted
    refine ⟨_, rfl, hp, hpw, ?_, ?_⟩
    · intro hn
      have hn2 : ((stableSort (fun a b : IssueComment => decide (a.UpdatedAt < b.UpdatedAt))
          issue.Data.Comments).map (fun c => c.UpdatedAt)).Nodup :=
        ((stableSort_perm _ issue.Data.Comments).map _).nodup_iff.mpr hn
      exact eq_of_perm_of_sorted_of_nodup (fun c => c.UpdatedAt) _ _
        (hp.trans (stableSort_perm _ _).symm) hpw
        (stableSort_pairwise (fun c : IssueComment => c.UpdatedAt) _) hn2
    · intro m k hi hk hlt
      have hlen : (sortSlice indexedComment
          (fun x y => decide (x.comment.UpdatedAt < y.comment.UpdatedAt))
          (issue.Data.Comments.enum.map (fun p => indexedComment.mk p.1 p.2))).length =
          issue.Data.Comments.length := by
        rw [hperm.length_eq]; simp
      have hk' : k < (sortSlice indexedComment
          (fun x y => decide (x.comment.UpdatedAt < y.comment.UpdatedAt))
          (issue.Data.Comments.enum.map (fun p => indexedComment.mk p.1 p.2))).length := by
        rw [hlen]; exact hlt
      obtain ⟨x, hx⟩ : ∃ x, (sortSlice indexedComment
          (fun x y => decide (x.comment.UpdatedAt < y.comment.UpdatedAt))
          (issue.Data.Comments.enum.map (fun p => indexedComment.mk p.1 p.2)))[k]? = some x :=
        ⟨_, List.getElem?_eq_getElem hk'⟩
      refine ⟨x.comment, ?_, ?_⟩
      · rw [List.getElem?_map, hx]; rfl
      · have h1 : ¬ ((k : Int) < 0) := by omega
        have h2 : ¬ ((issue.Data.Comments.length : Int) ≤ (k : Int)) := by omega
        simp only [GetSelectedComment, hi, hk, h1, h2, if_false, Int.toNat_ofNat, hx]

/-- C5 (as amended): `GetSelectedComment` returns nil when no issue is set or
no comment is selected. Every issue has one arrangement of its comments, the
one `sort.Slice` produces in the method and the same for every selected
index: it holds the comments of the issue in ascending order of update time,
and for every selected index `k` below the number of comments
`GetSelectedComment` returns its `k`-th element. Comments of equal update
times may come in any order in it, and when all update times differ it is the
only ascending order. -/
theorem GetSelectedComment_sorted :
    (∀ m : Model, (m.issue = none ∨ m.selectedCommentIndex < 0) →
      GetSelectedComment goSlice m = some none) ∧
    (∀ issue : Issue,
      ∃ sorted : List IssueComment,
        sorted = (goSlice indexedComment
          (fun x y => decide (x.comment.UpdatedAt < y.comment.UpdatedAt))
          (issue.Data.Comments.enum.map (fun p => indexedComment.mk p.1 p.2))).map
            (fun x => x.comment) ∧
        sorted.Perm issue.Data.Comments ∧
        sorted.Pairwise (fun a b => a.UpdatedAt ≤ b.UpdatedAt) ∧
        ((issue.Data.Comments.map (fun c => c.UpdatedAt)).Nodup →
          sorted = stableSort (fun a b => decide (a.UpdatedAt < b.UpdatedAt))
            issue.Data.Comments) ∧
        ∀ (m : Model) (k : Nat), m.issue = some issue → m.selectedCommentIndex = (k : Int) →
          k < issue.Data.Comments.length →
          ∃ c, sorted[k]? = some c ∧ GetSelectedComment goSlice m = some (some c)) :=
  GetSelectedComment_of_sortsByKey goSlice goSlice_sortsByKey

/-- The test `TestGetSelectedComment`: nothing is selected at first; entering
the navigation selects the comment of `user1`, and the next one is that of
`user2`. -/
theorem GetSelectedComment_test :
    GetSelectedComment goSlice (newTestModelWithComments 2) = some none ∧
    (GetSelectedComment goSlice (EnterCommentNavMode (newTestModelWithComments 2))).map
      (Option.map (fun c => c.Author.Login)) = some (some "user1".toList) ∧
    (GetSelectedComment goSlice
      (SelectNextComment (EnterCommentNavMode (newTestModelWithComments 2)))).map
      (Option.map (fun c => c.Author.Login)) = some (some "user2".toList) := by
  decide

/-- C5 (counterexample): thirteen comments, the second (`userb`) and the last
(`userm`) with the same update time. In ascending order with ties in their
original order, index 2 is the comment of `userb`; `GetSelectedComment`
returns the comment of `userm`. -/
theorem GetSelectedComment_not_stable :
    Slice (fun x y : indexedComment => decide (x.comment.UpdatedAt < y.comment.UpdatedAt))
        ((commentsWithTimes tieTimes).enum.map (fun p => indexedComment.mk p.1 p.2)) ≠ none ∧
    (GetSelectedComment goSlice tieModel).map (Option.map (fun c => c.Author.Login)) =
      some (some "userm".toList) ∧
    ((stableSort (fun a b : IssueComment => decide (a.UpdatedAt < b.UpdatedAt))
        (commentsWithTimes tieTimes))[2]?).map (fun c => c.Author.Login) =
      some "userb".toList := by
  decide

/-! ## The activity feed of a pull request (`renderActivity`) -/

theorem foldl_appendRendered {α : Type} (f : α → Option RenderedActivity) (l : List α)
    (init : List RenderedActivity) :
    l.foldl (fun acc x => appendRendered acc (f x)) init = init ++ l.filterMap f := by
  induction l generalizing init with
  | nil => simp
  | cons x t ih =>
    rw [List.foldl_cons, ih, List.filterMap_cons]
    cases hf : f x with
    | none => simp [appendRendered]
    | some y => simp [appendRendered]

theorem forall₂_filterMap {α β : Type} (f : α → Option β) (r : α → β → Prop) (l : List α)
    (h : ∀ x ∈ l, ∃ y, f x = some y ∧ r x y) : List.Forall₂ r l (l.filterMap f) := by
  induction l with
  | nil => simp
  | cons x t ih =>
    obtain ⟨y, hy, hr⟩ := h x (by simp)
    rw [List.filterMap_cons, hy]
    exact List.Forall₂.cons hr (ih (fun z hz => h z (List.mem_cons_of_mem _ hz)))

theorem forall₂_mem_right {α β : Type} (r : α → β → Prop) {xs : List α} {ys : List β}
    (hf : List.Forall₂ r xs ys) (x : α) (hx : x ∈ xs) : ∃ y ∈ ys, r x y := by
  induction hf with
  | nil => simp at hx
  | @cons x2 y2 xs2 ys2 h2 _ ih =>
    rcases List.mem_cons.mp hx with h | h
    · exact ⟨y2, by simp, h ▸ h2⟩
    · obtain ⟨y, hy, hxy⟩ := ih h
      exact ⟨y, List.mem_cons_of_mem _ hy, hxy⟩

theorem forall₂_pairwise_left {α β : Type} (r : α → β → Prop) (ka : α → Int) (kb : β → Int)
    (h : ∀ x y, r x y → kb y = ka x) {xs : List α} {ys : List β}
    (hf : List.Forall₂ r xs ys) (hs : ys.Pairwise (fun a b => kb a ≤ kb b)) :
    xs.Pairwise (fun a b => ka a ≤ ka b) := by
  induction hf with
  | nil => exact List.Pairwise.nil
  | @cons x y xs2 ys2 hxy hrest ih =>
    have hp := List.pairwise_cons.mp hs
    refine List.pairwise_cons.mpr ⟨?_, ih hp.2⟩
    intro z hz
    obtain ⟨w, hw, hzw⟩ := forall₂_mem_right r hrest z hz
    rw [← h x y hxy, ← h z w hzw]
    exact hp.1 w hw

/-- Under any sort that keeps the promise of `sort.Slice`, the displayed
activity sequence of a pull request whose items all render shows every item
once, in ascending order of update time. -/
theorem displayedActivities_of_sortsByKey (sortSlice : SliceSort)
    (hs : SortsByKey sortSlice) (R : PrRenderer) (m : PrModel)
    (hc : ∀ c ∈ collectComments m.pr,
      (R.markdown m.contentWidth (R.lineCleanup c.Body)).isSome = true)
    (hr : ∀ r ∈ m.pr.Reviews, (R.markdown m.contentWidth r.Body).isSome = true) :
    ∃ items : List PrItem,
      items.Perm (allItems m.pr) ∧
      List.Forall₂ (Displays R m) items (displayedActivities sortSlice R m) ∧
      (displayedActivities sortSlice R m).Pairwise (fun a b => a.UpdatedAt ≤ b.UpdatedAt) ∧
      items.Pairwise (fun x y => x.UpdatedAt ≤ y.UpdatedAt) := by
  obtain ⟨hperm1, -⟩ := hs comment (fun c => c.UpdatedAt) (collectComments m.pr)
  -- the rendered comments, in the order of the first sort
  have hcom : List.Forall₂ (Displays R m)
      ((sortSlice comment (fun x y => decide (x.UpdatedAt < y.UpdatedAt))
        (collectComments m.pr)).map PrItem.comment)
      ((sortSlice comment (fun x y => decide (x.UpdatedAt < y.UpdatedAt))
        (collectComments m.pr)).enum.filterMap
          (fun p => commentActivity R m p.1 p.2)) := by
    have h1 : List.Forall₂ (fun (p : Nat × comment) a => Displays R m (PrItem.comment p.2) a)
        (sortSlice comment (fun x y => decide (x.UpdatedAt < y.UpdatedAt))
          (collectComments m.pr)).enum
        ((sortSlice comment (fun x y => decide (x.UpdatedAt < y.UpdatedAt))
          (collectComments m.pr)).enum.filterMap
            (fun p => commentActivity R m p.1 p.2)) := by
      apply forall₂_filterMap
      intro p hp
      have hmem : p.2 ∈ collectComments m.pr := by
        apply hperm1.subset
        have := List.mem_map_of_mem Prod.snd hp
        rwa [List.enum_map_snd] at this
      obtain ⟨body, hbody⟩ := Option.isSome_iff_exists.mp (hc p.2 hmem)
      have hren : ∀ sel, renderComment R m p.2 sel =
          some (R.commentLayout m.contentWidth p.2 sel body) := by
        intro sel
        simp only [renderComment, hbody]
      refine ⟨{ UpdatedAt := p.2.UpdatedAt
                RenderedString := R.commentLayout m.contentWidth p.2
                  (m.isCommentNavMode && decide ((p.1 : Int) = m.selectedCommentIndex)) body
                IsComment := true }, by simp only [commentActivity, hren], ?_⟩
      exact ⟨rfl, rfl, _, hren _⟩
    have h2 : (sortSlice comment (fun x y => decide (x.UpdatedAt < y.UpdatedAt))
        (collectComments m.pr)).map PrItem.comment =
        (sortSlice comment (fun x y => decide (x.UpdatedAt < y.UpdatedAt))
          (collectComments m.pr)).enum.map (fun p => PrItem.comment p.2) := by
      conv_lhs => rw [← List.enum_map_snd (sortSlice comment
        (fun x y => decide (x.UpdatedAt < y.UpdatedAt)) (collectComments m.pr))]
      rw [List.map_map]
      rfl
    rw [h2]
    exact List.forall₂_map_left_iff.mpr h1
  -- the rendered reviews
  have hrev : List.Forall₂ (Displays R m) (m.pr.Reviews.map PrItem.review)
      (m.pr.Reviews.filterMap (reviewActivity R m)) := by
    apply List.forall₂_map_left_iff.mpr
    apply forall₂_filterMap
    intro r hmem
    obtain ⟨body, hbody⟩ := Option.isSome_iff_exists.mp (hr r hmem)
    have hren : renderReview R m r = some (R.reviewLayout m.contentWidth r body) := by
      simp only [renderReview, hbody]
    refine ⟨{ UpdatedAt := r.UpdatedAt
              RenderedString := R.reviewLayout m.contentWidth r body
              IsComment := false }, by simp only [reviewActivity, hren], ?_⟩
    exact ⟨rfl, rfl, hren⟩
  have hall := List.rel_append hcom hrev
  -- the last sort
  obtain ⟨hperm2, hsorted2⟩ := hs RenderedActivity (fun a => a.UpdatedAt)
    ((sortSlice comment (fun x y => decide (x.UpdatedAt < y.UpdatedAt))
        (collectComments m.pr)).enum.filterMap (fun p => commentActivity R m p.1 p.2) ++
      m.pr.Reviews.filterMap (reviewActivity R m))
  have hdisp : displayedActivities sortSlice R m =
      sortSlice RenderedActivity (fun x y => decide (x.UpdatedAt < y.UpdatedAt))
        ((sortSlice comment (fun x y => decide (x.UpdatedAt < y.UpdatedAt))
          (collectComments m.pr)).enum.filterMap (fun p => commentActivity R m p.1 p.2) ++
        m.pr.Reviews.filterMap (reviewActivity R m)) := by
    have h1 := foldl_appendRendered (fun p : Nat × comment => commentActivity R m p.1 p.2)
      (sortSlice comment (fun x y => decide (x.UpdatedAt < y.UpdatedAt))
        (collectComments m.pr)).enum []
    have h2 := foldl_appendRendered (reviewActivity R m) m.pr.Reviews
      ((sortSlice comment (fun x y => decide (x.UpdatedAt < y.UpdatedAt))
        (collectComments m.pr)).enum.filterMap (fun p => commentActivity R m p.1 p.2))
    simp only [List.nil_append] at h1
    simp only [displayedActivities, h1, h2]
  rw [hdisp]
  have hcomp : Relation.Comp (List.Forall₂ (Displays R m)) List.Perm _ _ :=
    ⟨_, hall, hperm2.symm⟩
  rw [List.forall₂_comp_perm_eq_perm_comp_forall₂] at hcomp
  obtain ⟨items, hitems, hf⟩ := hcomp
  have htime : ∀ (x : PrItem) (a : RenderedActivity), Displays R m x a →
      a.UpdatedAt = x.UpdatedAt := by
    intro x a h
    cases x with
    | comment c => exact h.1
    | review r => exact h.1
  refine ⟨items, ?_, hf, hsorted2, ?_⟩
  · refine hitems.symm.trans ?_
    exact List.Perm.append (hperm1.map _) (List.Perm.refl _)
  · exact forall₂_pairwise_left (Displays R m) PrItem.UpdatedAt (fun a => a.UpdatedAt)
      htime hf hsorted2

/-- C6 (as amended): when every item of an enriched pull request renders, the
displayed activity sequence shows each comment (inline and top-level) and
each whole review once, and is in ascending order of update time. The order
among items of equal update time is the one `sort.Slice` leaves, which need
not be the original one. -/
theorem displayedActivities_sorted_perm (R : PrRenderer) (m : PrModel)
    (hc : ∀ c ∈ collectComments m.pr,
      (R.markdown m.contentWidth (R.lineCleanup c.Body)).isSome = true)
    (hr : ∀ r ∈ m.pr.Reviews, (R.markdown m.contentWidth r.Body).isSome = true) :
    ∃ items : List PrItem,
      items.Perm (allItems m.pr) ∧
      List.Forall₂ (Displays R m) items (displayedActivities goSlice R m) ∧
      (displayedActivities goSlice R m).Pairwise (fun a b => a.UpdatedAt ≤ b.UpdatedAt) ∧
      items.Pairwise (fun x y => x.UpdatedAt ≤ y.UpdatedAt) :=
  displayedActivities_of_sortsByKey goSlice goSlice_sortsByKey R m hc hr

/-- C6 (witness): a pull request with three inline comments in two review
threads, three top-level comments and three whole reviews, which all render.
Its items are nine, six comments and three reviews; the feed has nine
entries in ascending order of update time, the reviews of `hugo`, `gina` and
`ivy` between the comments at the place of their update times. -/
theorem displayedActivities_sorted_perm_witness :
    (collectComments mixedPr.pr).length = 6 ∧
    mixedPr.pr.Reviews.length = 3 ∧
    (displayedActivities goSlice loginRenderer mixedPr).Pairwise
      (fun a b => a.UpdatedAt ≤ b.UpdatedAt) ∧
    (displayedActivities goSlice loginRenderer mixedPr).length = 9 ∧
    (displayedActivities goSlice loginRenderer mixedPr).map
        (fun a => (a.RenderedString, a.IsComment, a.UpdatedAt)) =
      [("bob".toList, true, 1), ("erin".toList, true, 2), ("hugo".toList, false, 3),
       ("dave".toList, true, 4), ("alice".toList, true, 5), ("gina".toList, false, 6),
       ("frank".toList, true, 7), ("ivy".toList, false, 8), ("carol".toList, true, 9)] := by
  obtain ⟨items, hp, hf, hs, _⟩ := displayedActivities_sorted_perm loginRenderer mixedPr
    (by decide) (by decide)
  refine ⟨by decide, by decide, hs, ?_, by decide⟩
  rw [← hf.length_eq, hp.length_eq]
  decide

/-- C6 (counterexample): thirteen top-level comments, the second (`userb`) and
the last (`userm`) with the same update time. The feed displays `userm`
before `userb`, against their original order. -/
theorem displayedActivities_not_stable :
    (displayedActivities goSlice loginRenderer tiePr).map (fun a => a.RenderedString) =
      ["userc", "usera", "userm", "userb", "userd", "usere", "userf", "userg", "userh",
        "useri", "userj", "userk", "userl"].map String.toList ∧
    (stableSort (fun x y : PrItem => decide (x.UpdatedAt < y.UpdatedAt))
        (allItems tiePr.pr)).filterMap (fun x =>
          match x with
          | .comment c => some c.Author
          | .review _ => none) =
      ["userc", "usera", "userb", "userm", "userd", "usere", "userf", "userg", "userh",
        "useri", "userj", "userk", "userl"].map String.toList := by
  decide

/-! ## The update function (`Update`) -/

theorem byteLen_eq_zero_iff (s : GoString) : byteLen s = 0 ↔ s = [] := by
  cases s with
  | nil => simp [byteLen]
  | cons c t =>
    have := Char.utf8Size_pos c
    simp [byteLen]
    omega

theorem Trim_eq_nil_iff (s cutset : GoString) :
    Trim s cutset = [] ↔ ∀ c ∈ s, c ∈ cutset := by
  unfold Trim
  rw [List.rdropWhile_eq_nil_iff]
  constructor
  · intro h
    have hnil : s.dropWhile (fun c => cutset.contains c) = [] := by
      by_contra hne
      have h1 := List.head_dropWhile_not (fun c => cutset.contains c) s hne
      have h2 := h _ (List.head_mem hne)
      rw [h2] at h1
      cases h1
    intro c hc
    have := List.dropWhile_eq_nil_iff.mp hnil c hc
    simpa using this
  · intro h
    have hnil : s.dropWhile (fun c => cutset.contains c) = [] := by
      rw [List.dropWhile_eq_nil_iff]
      intro c hc
      simpa using h c hc
    rw [hnil]
    intro x hx
    simp at hx

theorem TrimSpace_eq_nil_iff (s : GoString) : TrimSpace s = [] ↔ ∀ c ∈ s, IsSpace c = true := by
  unfold TrimSpace
  rw [List.rdropWhile_eq_nil_iff]
  constructor
  · intro h
    have hnil : s.dropWhile IsSpace = [] := by
      by_contra hne
      have h1 := List.head_dropWhile_not IsSpace s hne
      have h2 := h _ (List.head_mem hne)
      rw [h2] at h1
      cases h1
    exact List.dropWhile_eq_nil_iff.mp hnil
  · intro h
    have hnil : s.dropWhile IsSpace = [] := List.dropWhile_eq_nil_iff.mpr h
    rw [hnil]
    intro x hx
    simp at hx

theorem String_of_named (k : KeyMsg) (name : GoString) (hr : k.type ≠ .KeyRunes)
    (hn : k.type.name = some name) :
    k.String = name ∨ k.String = "alt+".toList ++ name := by
  unfold KeyMsg.String
  cases ht : k.type <;> simp_all <;> cases k.Alt <;> simp

theorem type_of_String_letter (k : KeyMsg) (c : Char) (hk : k.String = [c]) :
    k.type ≠ .KeyCtrlD ∧ k.type ≠ .KeyEsc ∧ k.type ≠ .KeyCtrlC := by
  refine ⟨?_, ?_, ?_⟩ <;> intro ht
  · rcases String_of_named k "ctrl+d".toList (by simp [ht]) (by simp [ht, KeyType.name])
      with h | h <;> rw [hk] at h <;> simp at h
  · rcases String_of_named k "esc".toList (by simp [ht]) (by simp [ht, KeyType.name])
      with h | h <;> rw [hk] at h <;> simp at h
  · rcases String_of_named k "ctrl+c".toList (by simp [ht]) (by simp [ht, KeyType.name])
      with h | h <;> rw [hk] at h <;> simp at h

/-! ## The mode flags -/

theorem setsNoFlag_refl (m : Model) : setsNoFlag m m :=
  ⟨id, id, id, id, id⟩

theorem shouldCancelComment_setsNoFlag (E : Env) (K : Constants) (m : Model) :
    setsNoFlag m (shouldCancelComment E K m).1 := by
  unfold shouldCancelComment setsNoFlag
  split_ifs <;> simp [restoreInputBoxHeight]

theorem forwardKey_setsNoFlag (E : Env) (cache : LabelCache) (m : Model)
    (cmds : List (Option Cmd)) (k : KeyMsg) :
    setsNoFlag m (forwardKey E cache m cmds k).model :=
  ⟨id, id, id, id, id⟩

theorem setsNoFlag_trans {a b c : Model} (h1 : setsNoFlag a b) (h2 : setsNoFlag b c) :
    setsNoFlag a c :=
  ⟨fun h => h1.1 (h2.1 h), fun h => h1.2.1 (h2.2.1 h), fun h => h1.2.2.1 (h2.2.2.1 h),
   fun h => h1.2.2.2.1 (h2.2.2.2.1 h), fun h => h1.2.2.2.2 (h2.2.2.2.2 h)⟩

theorem updateCommenting_setsNoFlag (E : Env) (K : Constants) (cache : LabelCache)
    (m : Model) (k : KeyMsg) : setsNoFlag m (updateCommenting E K cache m k).model := by
  have hs := shouldCancelComment_setsNoFlag E K m
  unfold updateCommenting
  split
  · simp [setsNoFlag, restoreInputBoxHeight]
  · split_ifs
    · exact setsNoFlag_trans hs (forwardKey_setsNoFlag _ _ _ _ _)
    · exact forwardKey_setsNoFlag _ _ _ _ _
  · split_ifs
    · exact setsNoFlag_trans hs (forwardKey_setsNoFlag _ _ _ _ _)
    · exact forwardKey_setsNoFlag _ _ _ _ _
  · simp only []
    split_ifs <;> first
      | exact ⟨id, id, id, id, id⟩
      | exact hs

theorem fetchLabels_setsNoFlag (E : Env) (m : Model) : setsNoFlag m (fetchLabels E m).1 :=
  ⟨id, id, id, id, id⟩

theorem updateLabeling_setsNoFlag (E : Env) (cache : LabelCache) (m : Model) (k : KeyMsg) :
    setsNoFlag m (updateLabeling E cache m k).model := by
  unfold updateLabeling
  split
  · simp [setsNoFlag]
  · simp [setsNoFlag]
  · simp [setsNoFlag]
  · simp only []
    split_ifs <;> exact ⟨id, id, id, id, id⟩

theorem updateAssigning_setsNoFlag (E : Env) (cache : LabelCache) (m : Model) (k : KeyMsg) :
    setsNoFlag m (updateAssigning E cache m k).model := by
  unfold updateAssigning
  split
  · simp [setsNoFlag]
  · simp [setsNoFlag]
  · simp [setsNoFlag]
  · exact ⟨id, id, id, id, id⟩

theorem updateUnassigning_setsNoFlag (E : Env) (cache : LabelCache) (m : Model) (k : KeyMsg) :
    setsNoFlag m (updateUnassigning E cache m k).model := by
  unfold updateUnassigning
  split
  · simp [setsNoFlag]
  · simp [setsNoFlag]
  · simp [setsNoFlag]
  · exact ⟨id, id, id, id, id⟩

theorem SelectNextComment_setsNoFlag (m : Model) : setsNoFlag m (SelectNextComment m) := by
  unfold SelectNextComment
  simp only []
  split_ifs <;> exact ⟨id, id, id, id, id⟩

theorem SelectPrevComment_setsNoFlag (m : Model) : setsNoFlag m (SelectPrevComment m) := by
  unfold SelectPrevComment
  split_ifs <;> exact ⟨id, id, id, id, id⟩

theorem updateCommentNav_setsNoFlag (E : Env) (cache : LabelCache) (m : Model) (k : KeyMsg) :
    setsNoFlag m (updateCommentNav E cache m k).model := by
  unfold updateCommentNav
  split_ifs
  · exact SelectNextComment_setsNoFlag m
  · exact SelectPrevComment_setsNoFlag m
  · exact setsNoFlag_refl m
  · simp [setsNoFlag, ExitCommentNavMode]
  · exact setsNoFlag_refl m

theorem updateBrowsing_setsNoFlag (E : Env) (cache : LabelCache) (m : Model) (k : KeyMsg) :
    setsNoFlag m (updateBrowsing E cache m k).model := by
  unfold updateBrowsing
  simp only []
  split_ifs <;> exact setsNoFlag_refl m

/-- The method `Update` sets no mode flag, whatever the message. -/
theorem Update_setsNoFlag (E : Env) (K : Constants) (cache : LabelCache) (m : Model)
    (msg : Msg) : setsNoFlag m (Update E K cache m msg).model := by
  cases msg with
  | RepoLabelsFetchedMsg labels =>
    simp only [Update]
    split_ifs <;> exact ⟨id, id, id, id, id⟩
  | RepoLabelsFetchFailedMsg err => exact ⟨id, id, id, id, id⟩
  | FetchSuggestionsRequestedMsg force =>
    simp only [Update]
    split_ifs <;> exact ⟨id, id, id, id, id⟩
  | TickMsg => exact ⟨id, id, id, id, id⟩
  | ClearFetchStatusMsg => exact ⟨id, id, id, id, id⟩
  | Other => exact ⟨id, id, id, id, id⟩
  | KeyMsg k =>
    simp only [Update]
    split_ifs
    · exact updateCommenting_setsNoFlag E K cache m k
    · exact updateLabeling_setsNoFlag E cache m k
    · exact updateAssigning_setsNoFlag E cache m k
    · exact updateUnassigning_setsNoFlag E cache m k
    · exact updateCommentNav_setsNoFlag E cache m k
    · exact updateBrowsing_setsNoFlag E cache m k

theorem textModeFlags_le_of_setsNoFlag {m r : Model} (h : setsNoFlag m r)
    (hm : textModeFlags m ≤ 1) : textModeFlags r ≤ 1 := by
  obtain ⟨h1, h2, h3, h4, _⟩ := h
  unfold textModeFlags at hm ⊢
  revert h1 h2 h3 h4 hm
  cases m.isCommenting <;> cases m.isLabeling <;> cases m.isAssigning <;>
    cases m.isUnassigning <;> cases r.isCommenting <;> cases r.isLabeling <;>
    cases r.isAssigning <;> cases r.isUnassigning <;> simp

theorem not_focused_iff (m : Model) :
    IsTextInputBoxFocused m = false ↔
      m.isCommenting = false ∧ m.isLabeling = false ∧ m.isAssigning = false ∧
        m.isUnassigning = false := by
  unfold IsTextInputBoxFocused
  cases m.isCommenting <;> cases m.isLabeling <;> cases m.isAssigning <;>
    cases m.isUnassigning <;> simp

theorem SetIsCommenting_flags (K : Constants) (m : Model) (b : Bool) :
    (SetIsCommenting K m b).1.isLabeling = m.isLabeling ∧
    (SetIsCommenting K m b).1.isAssigning = m.isAssigning ∧
    (SetIsCommenting K m b).1.isUnassigning = m.isUnassigning ∧
    ((SetIsCommenting K m b).1.isCommenting = true → b = true ∨ m.isCommenting = true) := by
  unfold SetIsCommenting
  cases m.issue with
  | none => exact ⟨rfl, rfl, rfl, Or.inr⟩
  | some i =>
    simp only []
    cases b <;> cases m.isCommenting <;> simp [expandInputBoxForCommenting]

theorem SetIsLabeling_flags (E : Env) (cache : LabelCache) (m : Model) (b : Bool) :
    (SetIsLabeling E cache m b).1.isCommenting = m.isCommenting ∧
    (SetIsLabeling E cache m b).1.isAssigning = m.isAssigning ∧
    (SetIsLabeling E cache m b).1.isUnassigning = m.isUnassigning ∧
    ((SetIsLabeling E cache m b).1.isLabeling = true → b = true ∨ m.isLabeling = true) := by
  unfold SetIsLabeling
  cases m.issue with
  | none => exact ⟨rfl, rfl, rfl, Or.inr⟩
  | some i =>
    simp only []
    cases b
    · cases m.isLabeling <;> simp
    · cases GetCachedRepoLabels cache i.Data.RepoNameWithOwner <;>
        cases m.isLabeling <;> simp [fetchLabels]

theorem SetIsAssigning_flags (E : Env) (m : Model) (b : Bool) :
    (SetIsAssigning E m b).1.isCommenting = m.isCommenting ∧
    (SetIsAssigning E m b).1.isLabeling = m.isLabeling ∧
    (SetIsAssigning E m b).1.isUnassigning = m.isUnassigning ∧
    ((SetIsAssigning E m b).1.isAssigning = true → b = true ∨ m.isAssigning = true) := by
  unfold SetIsAssigning
  cases m.issue with
  | none => exact ⟨rfl, rfl, rfl, Or.inr⟩
  | some i =>
    simp only []
    cases b <;> cases m.isAssigning <;>
      refine ⟨?_, ?_, ?_, ?_⟩ <;> split_ifs <;> simp

theorem SetIsUnassigning_flags (E : Env) (m : Model) (b : Bool) :
    (SetIsUnassigning E m b).1.isCommenting = m.isCommenting ∧
    (SetIsUnassigning E m b).1.isLabeling = m.isLabeling ∧
    (SetIsUnassigning E m b).1.isAssigning = m.isAssigning ∧
    ((SetIsUnassigning E m b).1.isUnassigning = true → b = true ∨ m.isUnassigning = true) := by
  unfold SetIsUnassigning
  cases m.issue with
  | none => exact ⟨rfl, rfl, rfl, Or.inr⟩
  | some i =>
    simp only []
    cases b <;> cases m.isUnassigning <;> simp

theorem SetIsQuoteReplying_flags (K : Constants) (m : Model) (c : Option IssueComment) :
    (SetIsQuoteReplying K m c).1.isLabeling = m.isLabeling ∧
    (SetIsQuoteReplying K m c).1.isAssigning = m.isAssigning ∧
    (SetIsQuoteReplying K m c).1.isUnassigning = m.isUnassigning ∧
    ((SetIsQuoteReplying K m c).1.isCommenting = true →
      c.isSome = true ∨ m.isCommenting = true) := by
  unfold SetIsQuoteReplying
  cases m.issue with
  | none => exact ⟨rfl, rfl, rfl, Or.inr⟩
  | some i =>
    cases c with
    | none => exact ⟨rfl, rfl, rfl, Or.inr⟩
    | some c => simp [expandInputBoxForCommenting]

theorem SetRow_textFlags (m : Model) (data : Option IssueData) :
    (SetRow m data).isCommenting = m.isCommenting ∧
    (SetRow m data).isLabeling = m.isLabeling ∧
    (SetRow m data).isAssigning = m.isAssigning ∧
    (SetRow m data).isUnassigning = m.isUnassigning := by
  unfold SetRow
  simp only []
  split_ifs <;> cases data <;> simp

theorem EnterCommentNavMode_textFlags (m : Model) :
    (EnterCommentNavMode m).isCommenting = m.isCommenting ∧
    (EnterCommentNavMode m).isLabeling = m.isLabeling ∧
    (EnterCommentNavMode m).isAssigning = m.isAssigning ∧
    (EnterCommentNavMode m).isUnassigning = m.isUnassigning := by
  unfold EnterCommentNavMode
  simp only []
  split_ifs <;> simp

theorem textModeFlags_congr {m r : Model} (h1 : r.isCommenting = m.isCommenting)
    (h2 : r.isLabeling = m.isLabeling) (h3 : r.isAssigning = m.isAssigning)
    (h4 : r.isUnassigning = m.isUnassigning) : textModeFlags r = textModeFlags m := by
  simp [textModeFlags, h1, h2, h3, h4]

theorem count_set_first : ∀ b c l a u r : Bool, (!b || !(c || a || u || l)) = true →
    [c, l, a, u].count true ≤ 1 → (r = true → b = true ∨ c = true) →
    [r, l, a, u].count true ≤ 1 := by
  decide

theorem count_set_second : ∀ b c l a u r : Bool, (!b || !(c || a || u || l)) = true →
    [c, l, a, u].count true ≤ 1 → (r = true → b = true ∨ l = true) →
    [c, r, a, u].count true ≤ 1 := by
  decide

theorem count_set_third : ∀ b c l a u r : Bool, (!b || !(c || a || u || l)) = true →
    [c, l, a, u].count true ≤ 1 → (r = true → b = true ∨ a = true) →
    [c, l, r, u].count true ≤ 1 := by
  decide

theorem count_set_fourth : ∀ b c l a u r : Bool, (!b || !(c || a || u || l)) = true →
    [c, l, a, u].count true ≤ 1 → (r = true → b = true ∨ u = true) →
    [c, l, a, r].count true ≤ 1 := by
  decide

theorem Op_apply_textModeFlags (E : Env) (K : Constants) (m : Model) (op : Op)
    (hgate : (!op.entersTextMode || !IsTextInputBoxFocused m) = true)
    (hm : textModeFlags m ≤ 1) : textModeFlags (op.apply E K m) ≤ 1 := by
  cases op with
  | Update cache msg =>
    exact textModeFlags_le_of_setsNoFlag (Update_setsNoFlag E K cache m msg) hm
  | SetIsCommenting b =>
    obtain ⟨h1, h2, h3, h4⟩ := SetIsCommenting_flags K m b
    simp only [textModeFlags, Op.apply, h1, h2, h3]
    exact count_set_first b _ _ _ _ _ hgate hm h4
  | SetIsLabeling cache b =>
    obtain ⟨h1, h2, h3, h4⟩ := SetIsLabeling_flags E cache m b
    simp only [textModeFlags, Op.apply, h1, h2, h3]
    exact count_set_second b _ _ _ _ _ hgate hm h4
  | SetIsAssigning b =>
    obtain ⟨h1, h2, h3, h4⟩ := SetIsAssigning_flags E m b
    simp only [textModeFlags, Op.apply, h1, h2, h3]
    exact count_set_third b _ _ _ _ _ hgate hm h4
  | SetIsUnassigning b =>
    obtain ⟨h1, h2, h3, h4⟩ := SetIsUnassigning_flags E m b
    simp only [textModeFlags, Op.apply, h1, h2, h3]
    exact count_set_fourth b _ _ _ _ _ hgate hm h4
  | SetIsQuoteReplying c =>
    obtain ⟨h1, h2, h3, h4⟩ := SetIsQuoteReplying_flags K m c
    simp only [textModeFlags, Op.apply, h1, h2, h3]
    exact count_set_first c.isSome _ _ _ _ _ hgate hm h4
  | EnterCommentNavMode =>
    obtain ⟨h1, h2, h3, h4⟩ := EnterCommentNavMode_textFlags m
    exact (textModeFlags_congr h1 h2 h3 h4).le.trans hm
  | ExitCommentNavMode =>
    exact (textModeFlags_congr (m := m) (r := ExitCommentNavMode m) rfl rfl rfl rfl).le.trans hm
  | SetRow data =>
    obtain ⟨h1, h2, h3, h4⟩ := SetRow_textFlags m data
    exact (textModeFlags_congr h1 h2 h3 h4).le.trans hm

theorem foldl_apply_textModeFlags (E : Env) (K : Constants) (ops : List Op) (m : Model)
    (hgate : enteredFromOutside E K m ops = true) (hm : textModeFlags m ≤ 1) :
    textModeFlags (ops.foldl (Op.apply E K) m) ≤ 1 := by
  induction ops generalizing m with
  | nil => exact hm
  | cons op ops ih =>
    simp only [enteredFromOutside, Bool.and_eq_true] at hgate
    rw [List.foldl_cons]
    exact ih _ hgate.2 (Op_apply_textModeFlags E K m op hgate.1 hm)

/-- C11 (as amended): the mode a key is handled in is the first flag set in
the order `Update` tests them, so every state is in one mode; the flags
themselves need not exclude each other. In every state reached from
`NewModel` by `Update` and the public operations, when each operation that
enters a text-editing mode (`SetIsCommenting`, `SetIsLabeling`,
`SetIsAssigning`, `SetIsUnassigning` with true, `SetIsQuoteReplying` with a
comment) is called while no text-editing mode is active, at most one of
`isCommenting`, `isLabeling`, `isAssigning`, `isUnassigning` is set;
`isCommentNavMode` can be set next to one of them. -/
theorem textModeFlags_le_one (E : Env) (K : Constants) (ctx : ProgramContext)
    (ops : List Op) (hgate : enteredFromOutside E K (NewModel K ctx) ops = true) :
    textModeFlags (run E K ctx ops) ≤ 1 :=
  foldl_apply_textModeFlags E K ops (NewModel K ctx) hgate (by simp [textModeFlags, NewModel])

/-- C11 (witness): the issue of the fixture is set, comment navigation is
entered, and the selected comment is quoted: one text-editing flag is set. -/
theorem textModeFlags_le_one_witness :
    textModeFlags (run testEnv testConstants testCtx
      [.SetRow (some (testIssueData "https://github.com/test/repo/issues/1".toList
          (testComments 0 0 1))),
       .EnterCommentNavMode,
       .SetIsQuoteReplying ((testComments 0 0 1).head?)]) ≤ 1 :=
  textModeFlags_le_one testEnv testConstants testCtx _ (by decide)

/-- C11 (counterexample): from `NewModel`, the issue of the fixture (one
comment) is set, comment navigation is entered and the selected comment is
quoted (`SetIsQuoteReplying`, the operation behind the quote key of comment
navigation): `isCommentNavMode` and `isCommenting` are both set. Entering
Labeling then sets a third flag. -/
theorem quote_reply_keeps_nav_flag :
    (run testEnv testConstants testCtx
      [.SetRow (some (testIssueData "https://github.com/test/repo/issues/1".toList
          (testComments 0 0 1))),
       .EnterCommentNavMode,
       .SetIsQuoteReplying ((testComments 0 0 1).head?)]).isCommentNavMode = true ∧
    (run testEnv testConstants testCtx
      [.SetRow (some (testIssueData "https://github.com/test/repo/issues/1".toList
          (testComments 0 0 1))),
       .EnterCommentNavMode,
       .SetIsQuoteReplying ((testComments 0 0 1).head?)]).isCommenting = true ∧
    modeFlags (run testEnv testConstants testCtx
      [.SetRow (some (testIssueData "https://github.com/test/repo/issues/1".toList
          (testComments 0 0 1))),
       .EnterCommentNavMode,
       .SetIsQuoteReplying ((testComments 0 0 1).head?),
       .SetIsLabeling [] true]) = 3 := by
  decide

theorem forwardKey_no_mutating (E : Env) (cache : LabelCache) (m : Model) (k : KeyMsg)
    (c : Cmd) (h : (forwardKey E cache m [] k).cmd = some c) : c.mutating = false := by
  simp only [forwardKey, List.nil_append, batchCmds] at h
  cases hw : (E.inputUpdate m.inputBox m.ac k).2.2 with
  | none => simp [hw] at h
  | some n =>
    simp [hw] at h
    subst h
    simp [Cmd.mutating, Cmd.mutating.anyMutating]

/-- C12 (as amended): in Commenting mode with the discard confirmation shown,
`y` or `Y` leaves the mode: `isCommenting` and the confirmation flag become
false, the input loses the focus, no command and no action are returned, and
the mode is Browsing when no other flag was set. The esc/cancel key (Esc or
Ctrl+C) pressed again does not leave the mode: `isCommenting` and the
confirmation flag stay true, the key goes to the text input, and no action
and no mutating command are returned. -/
theorem Update_commenting_confirm_shown (E : Env) (K : Constants) (cache : LabelCache)
    (m : Model) (k : KeyMsg) (hc : m.isCommenting = true) (hs : m.ShowConfirmCancel = true) :
    ((k.String = "y".toList ∨ k.String = "Y".toList) →
      (Update E K cache m (.KeyMsg k)).model.isCommenting = false ∧
      (Update E K cache m (.KeyMsg k)).model.ShowConfirmCancel = false ∧
      (Update E K cache m (.KeyMsg k)).model.inputBox.focused = false ∧
      (Update E K cache m (.KeyMsg k)).cmd = none ∧
      (Update E K cache m (.KeyMsg k)).action = none ∧
      (modeFlags m = 1 → mode (Update E K cache m (.KeyMsg k)).model = .Browsing)) ∧
    ((k.type = .KeyEsc ∨ k.type = .KeyCtrlC) →
      (Update E K cache m (.KeyMsg k)).model.isCommenting = true ∧
      (Update E K cache m (.KeyMsg k)).model.ShowConfirmCancel = true ∧
      (Update E K cache m (.KeyMsg k)).model.inputBox =
        (E.inputUpdate m.inputBox m.ac k).1 ∧
      (Update E K cache m (.KeyMsg k)).action = none ∧
      ∀ c, (Update E K cache m (.KeyMsg k)).cmd = some c → c.mutating = false) := by
  constructor
  · intro hk
    have hty : k.type ≠ .KeyCtrlD ∧ k.type ≠ .KeyEsc ∧ k.type ≠ .KeyCtrlC := by
      rcases hk with h | h
      · exact type_of_String_letter k 'y' h
      · exact type_of_String_letter k 'Y' h
    have hyes : (decide (k.String = "Y".toList) || decide (k.String = "y".toList)) = true := by
      rcases hk with h | h <;> simp [h]
    have hU : Update E K cache m (.KeyMsg k) =
        { model := (shouldCancelComment E K m).1, cmd := none, action := none
          cache := cache } := by
      simp only [Update, hc, if_true, updateCommenting]
      split
      · exact absurd (by assumption) hty.1
      · exact absurd (by assumption) hty.2.1
      · exact absurd (by assumption) hty.2.2
      · simp only [hyes, if_true, Bool.true_and]
        simp [shouldCancelComment, hs]
    rw [hU]
    simp only [shouldCancelComment, hs, Bool.not_true, Bool.false_eq_true, if_false,
      restoreInputBoxHeight, InputBox.SetHeight, InputBox.Blur, true_and]
    intro hone
    have : m.isLabeling = false ∧ m.isAssigning = false ∧ m.isUnassigning = false ∧
        m.isCommentNavMode = false := by
      simp only [modeFlags, hc] at hone
      revert hone
      cases m.isLabeling <;> cases m.isAssigning <;> cases m.isUnassigning <;>
        cases m.isCommentNavMode <;> simp
    simp [mode, this]
  · intro hk
    have hU : Update E K cache m (.KeyMsg k) = forwardKey E cache m [] k := by
      simp only [Update, hc, if_true, updateCommenting]
      rcases hk with h | h <;> simp [h, hs]
    rw [hU]
    refine ⟨?_, ?_, ?_, ?_, ?_⟩
    · simpa [forwardKey] using hc
    · simpa [forwardKey] using hs
    · simp [forwardKey]
    · simp [forwardKey]
    · intro c h
      exact forwardKey_no_mutating E cache m k c h

/-- C12 (witness): on the fixture with the confirmation shown, `y` leaves
Commenting and Esc does not. -/
theorem Update_commenting_confirm_shown_witness :
    (Update testEnv testConstants [] (commentingModel "draft" true)
      (.KeyMsg (runesKey "y"))).model.isCommenting = false ∧
    (Update testEnv testConstants [] (commentingModel "draft" true)
      (.KeyMsg (keyOf .KeyEsc))).model.isCommenting = true :=
  ⟨((Update_commenting_confirm_shown testEnv testConstants [] (commentingModel "draft" true)
      (runesKey "y") rfl rfl).1 (Or.inl rfl)).1,
   ((Update_commenting_confirm_shown testEnv testConstants [] (commentingModel "draft" true)
      (keyOf .KeyEsc) rfl rfl).2 (Or.inl rfl)).1⟩

/-- C12 (counterexample): on the fixture in Commenting mode with the discard
confirmation shown, the esc/cancel key (Esc, and Ctrl+C alike) pressed again
leaves the controller in Commenting with the confirmation still shown. -/
theorem Update_commenting_second_esc_stays :
    (commentingModel "draft" true).isCommenting = true ∧
    (commentingModel "draft" true).ShowConfirmCancel = true ∧
    (Update testEnv testConstants [] (commentingModel "draft" true)
      (.KeyMsg (keyOf .KeyEsc))).model.isCommenting = true ∧
    (Update testEnv testConstants [] (commentingModel "draft" true)
      (.KeyMsg (keyOf .KeyEsc))).model.ShowConfirmCancel = true ∧
    mode (Update testEnv testConstants [] (commentingModel "draft" true)
      (.KeyMsg (keyOf .KeyEsc))).model = .Commenting ∧
    mode (Update testEnv testConstants [] (commentingModel "draft" true)
      (.KeyMsg (keyOf .KeyCtrlC))).model = .Commenting := by
  decide

/-- C13: in Commenting mode with no discard confirmation shown, the first
press of the esc/cancel key (Esc or Ctrl+C) shows the confirmation and does
not leave the mode: `ShowConfirmCancel` becomes true, `isCommenting` stays
true, no action is returned and the command returned holds no mutating
command. -/
theorem Update_commenting_first_esc (E : Env) (K : Constants) (cache : LabelCache)
    (m : Model) (k : KeyMsg) (hc : m.isCommenting = true) (hs : m.ShowConfirmCancel = false)
    (hk : k.type = .KeyEsc ∨ k.type = .KeyCtrlC) :
    (Update E K cache m (.KeyMsg k)).model.ShowConfirmCancel = true ∧
    (Update E K cache m (.KeyMsg k)).model.isCommenting = true ∧
    (Update E K cache m (.KeyMsg k)).action = none ∧
    (∀ c, (Update E K cache m (.KeyMsg k)).cmd = some c → c.mutating = false) ∧
    (Update E K cache m (.KeyMsg k)).cache = cache := by
  have hU : Update E K cache m (.KeyMsg k) =
      forwardKey E cache (shouldCancelComment E K m).1 [] k := by
    simp only [Update, hc, if_true, updateCommenting]
    rcases hk with h | h <;> simp [h, hs]
  rw [hU]
  refine ⟨?_, ?_, ?_, ?_, ?_⟩
  · simp [forwardKey, shouldCancelComment, hs]
  · simp [forwardKey, shouldCancelComment, hs, hc]
  · simp [forwardKey]
  · intro c h
    exact forwardKey_no_mutating E cache _ k c h
  · simp [forwardKey]

/-- C13 (witness): on the fixture, the first Esc while a comment is written
shows the confirmation. -/
theorem Update_commenting_first_esc_witness :
    (Update testEnv testConstants [] (commentingModel "draft" false)
      (.KeyMsg (keyOf .KeyEsc))).model.ShowConfirmCancel = true ∧
    (Update testEnv testConstants [] (commentingModel "draft" false)
      (.KeyMsg (keyOf .KeyEsc))).model.isCommenting = true :=
  ⟨(Update_commenting_first_esc testEnv testConstants [] (commentingModel "draft" false)
      (keyOf .KeyEsc) rfl rfl (Or.inl rfl)).1,
   (Update_commenting_first_esc testEnv testConstants [] (commentingModel "draft" false)
      (keyOf .KeyEsc) rfl rfl (Or.inl rfl)).2.1⟩

/-- C14: in Commenting mode with the discard confirmation shown, `n` or `N`
dismisses the confirmation: the model returned is the model with the default
prompt and `ShowConfirmCancel` false, so `isCommenting` stays true and the
text of the input is unchanged (the key does not reach the text input); no
command and no action are returned. -/
theorem Update_commenting_dismiss (E : Env) (K : Constants) (cache : LabelCache)
    (m : Model) (k : KeyMsg) (hc : m.isCommenting = true) (hs : m.ShowConfirmCancel = true)
    (hk : k.String = "n".toList ∨ k.String = "N".toList) :
    (Update E K cache m (.KeyMsg k)).model =
      { m with inputBox := m.inputBox.SetPrompt K.CommentPrompt, ShowConfirmCancel := false } ∧
    (Update E K cache m (.KeyMsg k)).model.ShowConfirmCancel = false ∧
    (Update E K cache m (.KeyMsg k)).model.inputBox.prompt = K.CommentPrompt ∧
    (Update E K cache m (.KeyMsg k)).model.isCommenting = true ∧
    (Update E K cache m (.KeyMsg k)).model.inputBox.value = m.inputBox.value ∧
    (Update E K cache m (.KeyMsg k)).cmd = none ∧
    (Update E K cache m (.KeyMsg k)).action = none := by
  have hty : k.type ≠ .KeyCtrlD ∧ k.type ≠ .KeyEsc ∧ k.type ≠ .KeyCtrlC := by
    rcases hk with h | h
    · exact type_of_String_letter k 'n' h
    · exact type_of_String_letter k 'N' h
  have hyes : (decide (k.String = "Y".toList) || decide (k.String = "y".toList)) = false := by
    rcases hk with h | h <;> rw [h] <;> decide
  have hno : (decide (k.String = "N".toList) || decide (k.String = "n".toList)) = true := by
    rcases hk with h | h <;> rw [h] <;> decide
  have hU : Update E K cache m (.KeyMsg k) =
      { model := { m with inputBox := m.inputBox.SetPrompt K.CommentPrompt
                          ShowConfirmCancel := false }
        cmd := none, action := none, cache := cache } := by
    simp only [Update, hc, if_true, updateCommenting]
    split
    · exact absurd (by assumption) hty.1
    · exact absurd (by assumption) hty.2.1
    · exact absurd (by assumption) hty.2.2
    · simp only [hyes, hno, Bool.false_and, Bool.and_true]
      simp [hs, hc]
  rw [hU]
  simp [InputBox.SetPrompt, hc]

/-- C14 (witness): on the fixture with the confirmation shown, `n` dismisses
it and keeps the text `draft`. -/
theorem Update_commenting_dismiss_witness :
    (Update testEnv testConstants [] (commentingModel "draft" true)
      (.KeyMsg (runesKey "n"))).model.ShowConfirmCancel = false ∧
    (Update testEnv testConstants [] (commentingModel "draft" true)
      (.KeyMsg (runesKey "n"))).model.inputBox.value = "draft".toList :=
  ⟨(Update_commenting_dismiss testEnv testConstants [] (commentingModel "draft" true)
      (runesKey "n") rfl rfl (Or.inl rfl)).2.1,
   (Update_commenting_dismiss testEnv testConstants [] (commentingModel "draft" true)
      (runesKey "n") rfl rfl (Or.inl rfl)).2.2.2.2.1⟩

/-- What the submit key does in Commenting mode: for every input text,
Ctrl+D clears `isCommenting` (the mode is Browsing when no other flag was
set), returns no action, and issues the comment command with the text exactly
when the text holds a character other than the space U+0020: only spaces are
trimmed (`strings.Trim(text, " ")`). A text that is not empty after trimming
its white space is therefore submitted. -/
theorem Update_commenting_submit (E : Env) (K : Constants) (cache : LabelCache)
    (m : Model) (k : KeyMsg) (hc : m.isCommenting = true) (hk : k.type = .KeyCtrlD) :
    (Update E K cache m (.KeyMsg k)).model.isCommenting = false ∧
    (modeFlags m = 1 → mode (Update E K cache m (.KeyMsg k)).model = .Browsing) ∧
    (Update E K cache m (.KeyMsg k)).action = none ∧
    ((∃ c ∈ m.inputBox.value, c ≠ ' ') →
      (Update E K cache m (.KeyMsg k)).cmd = some (.comment m.inputBox.value)) ∧
    ((∀ c ∈ m.inputBox.value, c = ' ') → (Update E K cache m (.KeyMsg k)).cmd = none) ∧
    (TrimSpace m.inputBox.value ≠ [] →
      (Update E K cache m (.KeyMsg k)).cmd = some (.comment m.inputBox.value)) := by
  have hT : Trim m.inputBox.value " ".toList = [] ↔ ∀ c ∈ m.inputBox.value, c = ' ' := by
    rw [Trim_eq_nil_iff]
    simp
  have hU : Update E K cache m (.KeyMsg k) =
      { model := restoreInputBoxHeight K
          { m with inputBox := m.inputBox.Blur, isCommenting := false }
        cmd := if byteLen (Trim m.inputBox.value " ".toList) ≠ 0 then
            some (Cmd.comment m.inputBox.value) else none
        action := none, cache := cache } := by
    simp only [Update, hc, if_true, updateCommenting, hk]
  have hyes : (∃ c ∈ m.inputBox.value, c ≠ ' ') →
      (Update E K cache m (.KeyMsg k)).cmd = some (.comment m.inputBox.value) := by
    intro hex
    rw [hU]
    have : byteLen (Trim m.inputBox.value " ".toList) ≠ 0 := by
      rw [Ne, byteLen_eq_zero_iff, hT]
      push_neg
      exact hex
    exact if_pos this
  refine ⟨?_, ?_, ?_, hyes, ?_, ?_⟩
  · rw [hU]; rfl
  · intro hone
    have : m.isLabeling = false ∧ m.isAssigning = false ∧ m.isUnassigning = false ∧
        m.isCommentNavMode = false := by
      simp only [modeFlags, hc] at hone
      revert hone
      cases m.isLabeling <;> cases m.isAssigning <;> cases m.isUnassigning <;>
        cases m.isCommentNavMode <;> simp
    rw [hU]
    simp [mode, this, restoreInputBoxHeight]
  · rw [hU]
  · intro hall
    rw [hU]
    have : ¬ byteLen (Trim m.inputBox.value " ".toList) ≠ 0 := by
      rw [Ne, not_not, byteLen_eq_zero_iff, hT]
      exact hall
    exact if_neg this
  · intro hne
    apply hyes
    by_contra hcon
    push_neg at hcon
    apply hne
    rw [TrimSpace_eq_nil_iff]
    intro c hcm
    rw [hcon c hcm]
    decide

/-- On the fixture, Ctrl+D submits the text `draft` and a text of two spaces
is not submitted. -/
theorem Update_commenting_submit_witness :
    (Update testEnv testConstants [] (commentingModel "draft" false)
      (.KeyMsg (keyOf .KeyCtrlD))).cmd = some (.comment "draft".toList) ∧
    (Update testEnv testConstants [] (commentingModel "  " false)
      (.KeyMsg (keyOf .KeyCtrlD))).cmd = none :=
  ⟨(Update_commenting_submit testEnv testConstants [] (commentingModel "draft" false)
      (keyOf .KeyCtrlD) rfl rfl).2.2.2.1 ⟨'d', by decide, by decide⟩,
   (Update_commenting_submit testEnv testConstants [] (commentingModel "  " false)
      (keyOf .KeyCtrlD) rfl rfl).2.2.2.2.1 (by decide)⟩

/-- C15 (failing input): the input text is one newline, or one tab. Trimmed
of its white space the text is empty, yet Ctrl+D in Commenting mode issues the
comment command with it and leaves the mode; a text of two spaces is not
submitted. -/
theorem Update_commenting_submit_newline :
    (commentingModel "\n" false).isCommenting = true ∧
    TrimSpace (commentingModel "\n" false).inputBox.value = [] ∧
    (Update testEnv testConstants [] (commentingModel "\n" false)
      (.KeyMsg (keyOf .KeyCtrlD))).cmd = some (.comment "\n".toList) ∧
    (Update testEnv testConstants [] (commentingModel "\n" false)
      (.KeyMsg (keyOf .KeyCtrlD))).model.isCommenting = false ∧
    TrimSpace (commentingModel "\t" false).inputBox.value = [] ∧
    (Update testEnv testConstants [] (commentingModel "\t" false)
      (.KeyMsg (keyOf .KeyCtrlD))).cmd = some (.comment "\t".toList) ∧
    TrimSpace (commentingModel "  " false).inputBox.value = [] ∧
    (Update testEnv testConstants [] (commentingModel "  " false)
      (.KeyMsg (keyOf .KeyCtrlD))).cmd = none :=
  ⟨by decide, by decide, rfl, by decide, by decide, rfl, by decide, rfl⟩

/-- C16: in Labeling, Assigning or Unassigning mode, one press of the
esc/cancel key (Esc or Ctrl+C) clears the flag of the mode, whatever the input
text: no command and no action are returned, the confirmation flag and the
text are left as they were, the input loses the focus, and the mode is
Browsing when no other flag was set. -/
theorem Update_cancel_immediately (E : Env) (K : Constants) (cache : LabelCache)
    (m : Model) (k : KeyMsg)
    (hm : mode m = .Labeling ∨ mode m = .Assigning ∨ mode m = .Unassigning)
    (hk : k.type = .KeyEsc ∨ k.type = .KeyCtrlC) :
    (mode m = .Labeling → (Update E K cache m (.KeyMsg k)).model.isLabeling = false) ∧
    (mode m = .Assigning → (Update E K cache m (.KeyMsg k)).model.isAssigning = false) ∧
    (mode m = .Unassigning → (Update E K cache m (.KeyMsg k)).model.isUnassigning = false) ∧
    (Update E K cache m (.KeyMsg k)).cmd = none ∧
    (Update E K cache m (.KeyMsg k)).action = none ∧
    (Update E K cache m (.KeyMsg k)).model.ShowConfirmCancel = m.ShowConfirmCancel ∧
    (Update E K cache m (.KeyMsg k)).model.inputBox.value = m.inputBox.value ∧
    (Update E K cache m (.KeyMsg k)).model.inputBox.focused = false ∧
    (modeFlags m = 1 → mode (Update E K cache m (.KeyMsg k)).model = .Browsing) := by
  have hcases : (m.isCommenting = false ∧ m.isLabeling = true) ∨
      (m.isCommenting = false ∧ m.isLabeling = false ∧ m.isAssigning = true) ∨
      (m.isCommenting = false ∧ m.isLabeling = false ∧ m.isAssigning = false ∧
        m.isUnassigning = true) := by
    revert hm
    unfold mode
    cases m.isCommenting <;> cases m.isLabeling <;> cases m.isAssigning <;>
      cases m.isUnassigning <;> cases m.isCommentNavMode <;> simp
  rcases hcases with ⟨h1, h2⟩ | ⟨h1, h2, h3⟩ | ⟨h1, h2, h3, h4⟩
  · have hU : Update E K cache m (.KeyMsg k) =
        { model := { m with inputBox := m.inputBox.Blur, isLabeling := false, ac := m.ac.Hide }
          cmd := none, action := none, cache := cache } := by
      simp only [Update, h1, h2, Bool.false_eq_true, if_false, if_true, updateLabeling]
      rcases hk with h | h <;> simp only [h]
    rw [hU]
    refine ⟨fun _ => rfl, ?_, ?_, rfl, rfl, rfl, rfl, rfl, ?_⟩
    · intro h; simp [mode, h1, h2] at h
    · intro h; simp [mode, h1, h2] at h
    · intro hone
      have : m.isAssigning = false ∧ m.isUnassigning = false ∧ m.isCommentNavMode = false := by
        simp only [modeFlags, h1, h2] at hone
        revert hone
        cases m.isAssigning <;> cases m.isUnassigning <;> cases m.isCommentNavMode <;> simp
      simp [mode, this, h1]
  · have hU : Update E K cache m (.KeyMsg k) =
        { model := { m with inputBox := m.inputBox.Blur, isAssigning := false }
          cmd := none, action := none, cache := cache } := by
      simp only [Update, h1, h2, h3, Bool.false_eq_true, if_false, if_true, updateAssigning]
      rcases hk with h | h <;> simp only [h]
    rw [hU]
    refine ⟨?_, fun _ => rfl, ?_, rfl, rfl, rfl, rfl, rfl, ?_⟩
    · intro h; simp [mode, h1, h2, h3] at h
    · intro h; simp [mode, h1, h2, h3] at h
    · intro hone
      have : m.isUnassigning = false ∧ m.isCommentNavMode = false := by
        simp only [modeFlags, h1, h2, h3] at hone
        revert hone
        cases m.isUnassigning <;> cases m.isCommentNavMode <;> simp
      simp [mode, this, h1, h2]
  · have hU : Update E K cache m (.KeyMsg k) =
        { model := { m with inputBox := m.inputBox.Blur, isUnassigning := false }
          cmd := none, action := none, cache := cache } := by
      simp only [Update, h1, h2, h3, h4, Bool.false_eq_true, if_false, if_true,
        updateUnassigning]
      rcases hk with h | h <;> simp only [h]
    rw [hU]
    refine ⟨?_, ?_, fun _ => rfl, rfl, rfl, rfl, rfl, rfl, ?_⟩
    · intro h; simp [mode, h1, h2, h3, h4] at h
    · intro h; simp [mode, h1, h2, h3, h4] at h
    · intro hone
      have : m.isCommentNavMode = false := by
        simp only [modeFlags, h1, h2, h3, h4] at hone
        revert hone
        cases m.isCommentNavMode <;> simp
      simp [mode, this, h1, h2, h3]

/-- C16 (witness): the fixture with the labels `bug` and `ui`, in Labeling
mode after `SetIsLabeling(true)`: Esc takes it to Browsing. -/
theorem Update_cancel_immediately_witness :
    mode (SetIsLabeling testEnv [] (labeledModel ["bug", "ui"]) true).1 = .Labeling ∧
    mode (Update testEnv testConstants []
      (SetIsLabeling testEnv [] (labeledModel ["bug", "ui"]) true).1
      (.KeyMsg (keyOf .KeyEsc))).model = .Browsing :=
  ⟨by decide,
   (Update_cancel_immediately testEnv testConstants []
      (SetIsLabeling testEnv [] (labeledModel ["bug", "ui"]) true).1 (keyOf .KeyEsc)
      (Or.inl (by decide)) (Or.inl rfl)).2.2.2.2.2.2.2.2 (by decide)⟩

/-- C17: in CommentNavigation mode, Esc or the key bound to the nav toggle
(when it is not bound to next, previous or quote as well, which `Update` tests
first) leaves comment navigation: the model returned is that of
`ExitCommentNavMode`, in Browsing mode with the selected index -1, and no
command and no action are returned. -/
theorem Update_nav_exit (E : Env) (K : Constants) (cache : LabelCache) (m : Model)
    (k : KeyMsg) (hm : mode m = .CommentNavigation)
    (hk : k.type = .KeyEsc ∨ Matches k E.IssueKeys.EnterCommentNavMode = true)
    (hnext : Matches k E.IssueKeys.NextComment = false)
    (hprev : Matches k E.IssueKeys.PrevComment = false)
    (hquote : Matches k E.IssueKeys.QuoteReply = false) :
    (Update E K cache m (.KeyMsg k)).model = ExitCommentNavMode m ∧
    mode (Update E K cache m (.KeyMsg k)).model = .Browsing ∧
    (Update E K cache m (.KeyMsg k)).model.selectedCommentIndex = -1 ∧
    (Update E K cache m (.KeyMsg k)).action = none ∧
    (Update E K cache m (.KeyMsg k)).cmd = none := by
  have hflags : m.isCommenting = false ∧ m.isLabeling = false ∧ m.isAssigning = false ∧
      m.isUnassigning = false ∧ m.isCommentNavMode = true := by
    revert hm
    unfold mode
    cases m.isCommenting <;> cases m.isLabeling <;> cases m.isAssigning <;>
      cases m.isUnassigning <;> cases m.isCommentNavMode <;> simp
  obtain ⟨h1, h2, h3, h4, h5⟩ := hflags
  have hexit : (decide (k.type = .KeyEsc) || Matches k E.IssueKeys.EnterCommentNavMode) =
      true := by
    rcases hk with h | h <;> simp [h]
  have hU : Update E K cache m (.KeyMsg k) =
      { model := ExitCommentNavMode m, cmd := none, action := none, cache := cache } := by
    simp only [Update, h1, h2, h3, h4, h5, Bool.false_eq_true, if_false, if_true,
      updateCommentNav, hnext, hprev, hquote, hexit]
  rw [hU]
  refine ⟨rfl, ?_, rfl, rfl, rfl⟩
  simp [mode, ExitCommentNavMode, h1, h2, h3, h4]

/-- C17 (witness): the test `TestCommentNavMode_KeysReturnCorrectActions`: in
comment navigation on the fixture with three comments, Tab returns no action
and leaves the mode. -/
theorem Update_nav_exit_witness :
    (Update testEnv testConstants [] (EnterCommentNavMode (newTestModelWithComments 3))
      (.KeyMsg (keyOf .KeyTab))).action = none ∧
    mode (Update testEnv testConstants [] (EnterCommentNavMode (newTestModelWithComments 3))
      (.KeyMsg (keyOf .KeyTab))).model = .Browsing :=
  ⟨(Update_nav_exit testEnv testConstants [] (EnterCommentNavMode (newTestModelWithComments 3))
      (keyOf .KeyTab) (by decide) (Or.inr (by decide)) (by decide) (by decide)
      (by decide)).2.2.2.1,
   (Update_nav_exit testEnv testConstants [] (EnterCommentNavMode (newTestModelWithComments 3))
      (keyOf .KeyTab) (by decide) (Or.inr (by decide)) (by decide) (by decide)
      (by decide)).2.1⟩

theorem updateCommenting_action (E : Env) (K : Constants) (cache : LabelCache) (m : Model)
    (k : KeyMsg) : (updateCommenting E K cache m k).action = none := by
  unfold updateCommenting
  split <;> first | rfl | (simp only []; split_ifs <;> rfl)

theorem updateLabeling_action (E : Env) (cache : LabelCache) (m : Model) (k : KeyMsg) :
    (updateLabeling E cache m k).action = none := by
  unfold updateLabeling
  split <;> rfl

theorem updateAssigning_action (E : Env) (cache : LabelCache) (m : Model) (k : KeyMsg) :
    (updateAssigning E cache m k).action = none := by
  unfold updateAssigning
  split <;> rfl

theorem updateUnassigning_action (E : Env) (cache : LabelCache) (m : Model) (k : KeyMsg) :
    (updateUnassigning E cache m k).action = none := by
  unfold updateUnassigning
  split <;> rfl

theorem updateCommentNav_frame (E : Env) (cache : LabelCache) (m : Model) (k : KeyMsg)
    (a : IssueAction) (h : (updateCommentNav E cache m k).action = some a) :
    (updateCommentNav E cache m k).cmd = none ∧ (updateCommentNav E cache m k).model = m ∧
    (updateCommentNav E cache m k).cache = cache := by
  unfold updateCommentNav at h ⊢
  split_ifs at h ⊢
  exact ⟨rfl, rfl, rfl⟩

theorem updateBrowsing_frame (E : Env) (cache : LabelCache) (m : Model) (k : KeyMsg)
    (a : IssueAction) (h : (updateBrowsing E cache m k).action = some a) :
    (updateBrowsing E cache m k).cmd = none ∧ (updateBrowsing E cache m k).model = m ∧
    (updateBrowsing E cache m k).cache = cache := by
  unfold updateBrowsing at h ⊢
  simp only [] at h ⊢
  split_ifs at h ⊢ <;> exact ⟨rfl, rfl, rfl⟩

/-- The action that enters comment navigation is returned by `Update` only on
a model with no mode flag set: outside comment navigation, and outside the
text-editing modes. In comment navigation the same key leaves the mode. -/
theorem Update_enter_action_outside_nav (E : Env) (K : Constants) (cache : LabelCache)
    (m : Model) (msg : Msg)
    (h : (Update E K cache m msg).action = some { type := .IssueActionEnterCommentNavMode }) :
    m.isCommentNavMode = false ∧ mode m = .Browsing := by
  cases msg with
  | RepoLabelsFetchedMsg labels => simp [Update] at h
  | RepoLabelsFetchFailedMsg err => simp [Update] at h
  | FetchSuggestionsRequestedMsg force =>
    simp only [Update] at h
    split at h <;> simp at h
  | TickMsg => simp [Update] at h
  | ClearFetchStatusMsg => simp [Update] at h
  | Other => simp [Update] at h
  | KeyMsg k =>
    simp only [Update] at h
    cases h1 : m.isCommenting
    case true =>
      simp only [h1, if_true, updateCommenting_action] at h
      cases h
    cases h2 : m.isLabeling
    case true =>
      simp only [h1, h2, if_true, Bool.false_eq_true, if_false, updateLabeling_action] at h
      cases h
    cases h3 : m.isAssigning
    case true =>
      simp only [h1, h2, h3, if_true, Bool.false_eq_true, if_false,
        updateAssigning_action] at h
      cases h
    cases h4 : m.isUnassigning
    case true =>
      simp only [h1, h2, h3, h4, if_true, Bool.false_eq_true, if_false,
        updateUnassigning_action] at h
      cases h
    cases h5 : m.isCommentNavMode
    case true =>
      simp only [h1, h2, h3, h4, h5, if_true, Bool.false_eq_true, if_false] at h
      unfold updateCommentNav at h
      split_ifs at h
      cases h
    exact ⟨rfl, by simp [mode, h1, h2, h3, h4, h5]⟩

/-- C18: for every model, every message (a key or not) and every action, if
`Update` returns the action then no text-editing mode is active, the command
returned is nil, and the model returned is the model given. -/
theorem Update_action_frame (E : Env) (K : Constants) (cache : LabelCache) (m : Model)
    (msg : Msg) (a : IssueAction) (h : (Update E K cache m msg).action = some a) :
    IsTextInputBoxFocused m = false ∧
    (Update E K cache m msg).cmd = none ∧
    (Update E K cache m msg).model = m ∧
    (Update E K cache m msg).cache = cache := by
  cases msg with
  | RepoLabelsFetchedMsg labels => simp [Update] at h
  | RepoLabelsFetchFailedMsg err => simp [Update] at h
  | FetchSuggestionsRequestedMsg force =>
    simp only [Update] at h
    split at h <;> simp at h
  | TickMsg => simp [Update] at h
  | ClearFetchStatusMsg => simp [Update] at h
  | Other => simp [Update] at h
  | KeyMsg k =>
    simp only [Update] at h ⊢
    cases h1 : m.isCommenting
    case true =>
      simp only [h1, if_true, updateCommenting_action] at h
      cases h
    cases h2 : m.isLabeling
    case true =>
      simp only [h1, h2, Bool.false_eq_true, if_true, if_false, updateLabeling_action] at h
      cases h
    cases h3 : m.isAssigning
    case true =>
      simp only [h1, h2, h3, Bool.false_eq_true, if_true, if_false,
        updateAssigning_action] at h
      cases h
    cases h4 : m.isUnassigning
    case true =>
      simp only [h1, h2, h3, h4, Bool.false_eq_true, if_true, if_false,
        updateUnassigning_action] at h
      cases h
    have hfocus : IsTextInputBoxFocused m = false := by
      simp [IsTextInputBoxFocused, h1, h2, h3, h4]
    refine ⟨hfocus, ?_⟩
    simp only [h1, h2, h3, h4, Bool.false_eq_true, if_false] at h ⊢
    cases h5 : m.isCommentNavMode
    case true =>
      simp only [h5, if_true] at h ⊢
      exact updateCommentNav_frame E cache m k a h
    case false =>
      simp only [h5, Bool.false_eq_true, if_false] at h ⊢
      exact updateBrowsing_frame E cache m k a h

/-- C18 (witness): the tests `TestEnterCommentNavMode_Action` and
`TestCommentNavMode_KeysReturnCorrectActions`: Tab outside comment navigation
returns the action EnterCommentNavMode and `q` in comment navigation returns
QuoteReply, with no command and the model as it was. -/
theorem Update_action_frame_witness :
    (Update testEnv testConstants [] (newTestModelWithComments 3)
      (.KeyMsg (keyOf .KeyTab))).action = some { type := .IssueActionEnterCommentNavMode } ∧
    (Update testEnv testConstants [] (newTestModelWithComments 3)
      (.KeyMsg (keyOf .KeyTab))).model = newTestModelWithComments 3 ∧
    (Update testEnv testConstants [] (EnterCommentNavMode (newTestModelWithComments 3))
      (.KeyMsg (runesKey "q"))).action = some { type := .IssueActionQuoteReply } ∧
    (Update testEnv testConstants [] (EnterCommentNavMode (newTestModelWithComments 3))
      (.KeyMsg (runesKey "q"))).model = EnterCommentNavMode (newTestModelWithComments 3) :=
  ⟨by decide,
   (Update_action_frame testEnv testConstants [] (newTestModelWithComments 3)
      (.KeyMsg (keyOf .KeyTab)) { type := .IssueActionEnterCommentNavMode } (by decide)).2.2.1,
   by decide,
   (Update_action_frame testEnv testConstants []
      (EnterCommentNavMode (newTestModelWithComments 3))
      (.KeyMsg (runesKey "q")) { type := .IssueActionQuoteReply } (by decide)).2.2.1⟩

/-! ## Entering Labeling (`SetIsLabeling`) -/

theorem labelNamesWithSlot_eq (labels : List Label) :
    labelNamesWithSlot labels = labels.map (fun l => l.Name) ++ [[]] := by
  unfold labelNamesWithSlot
  simp only []
  rw [foldl_append_singleton]
  simp

theorem SetIsLabeling_value (E : Env) (cache : LabelCache) (m : Model) (issue : Issue)
    (b : Bool) (h : m.issue = some issue) :
    (SetIsLabeling E cache m b).1.inputBox.value =
      Join (labelNamesWithSlot issue.Data.Labels) ", ".toList := by
  unfold SetIsLabeling
  simp only [h]
  cases b
  · rfl
  · simp only [if_true]
    cases GetCachedRepoLabels cache issue.Data.RepoNameWithOwner <;> rfl

/-- C19: for every issue with the labels `l1..ln`, `SetIsLabeling(true)` sets
the input text to the label names and one empty last element joined by `, `;
for an issue without labels the text is empty. -/
theorem SetIsLabeling_text (E : Env) (cache : LabelCache) (m : Model) (issue : Issue)
    (h : m.issue = some issue) :
    (SetIsLabeling E cache m true).1.inputBox.value =
      Join (issue.Data.Labels.map (fun l => l.Name) ++ [[]]) ", ".toList ∧
    (SetIsLabeling E cache m true).1.isLabeling = true ∧
    (issue.Data.Labels = [] → (SetIsLabeling E cache m true).1.inputBox.value = []) := by
  have hv := SetIsLabeling_value E cache m issue true h
  rw [labelNamesWithSlot_eq] at hv
  refine ⟨hv, ?_, ?_⟩
  · unfold SetIsLabeling
    simp only [h, if_true]
    cases GetCachedRepoLabels cache issue.Data.RepoNameWithOwner <;> rfl
  · intro hl
    rw [hv, hl]
    rfl

/-- C19 (witness): an issue with the labels `bug` and `ui`: the input becomes
`bug, ui, `, whether the repository has a cache entry or not. -/
theorem SetIsLabeling_text_witness :
    (SetIsLabeling testEnv [] (labeledModel ["bug", "ui"]) true).1.inputBox.value =
      "bug, ui, ".toList ∧
    (SetIsLabeling testEnv [("test/repo".toList, [])] (labeledModel ["bug", "ui"])
      true).1.inputBox.value = "bug, ui, ".toList ∧
    (SetIsLabeling testEnv [] (labeledModel []) true).1.inputBox.value = [] :=
  ⟨((SetIsLabeling_text testEnv [] (labeledModel ["bug", "ui"]) _ rfl).1).trans (by decide),
   ((SetIsLabeling_text testEnv [("test/repo".toList, [])] (labeledModel ["bug", "ui"]) _
      rfl).1).trans (by decide),
   (SetIsLabeling_text testEnv [] (labeledModel []) _ rfl).2.2 rfl⟩

/-- C20: for every issue whose repository has a cache entry,
`SetIsLabeling(true)` stores the cached labels in the model and their names
as the suggestions of the autocomplete, and the command it returns is the
sequence of the blink and the focus of the input: it holds no label fetch
(the autocomplete is not put in its loading state either). -/
theorem SetIsLabeling_cached (E : Env) (cache : LabelCache) (m : Model) (issue : Issue)
    (labels : List Label) (h : m.issue = some issue)
    (hc : GetCachedRepoLabels cache issue.Data.RepoNameWithOwner = some labels) :
    (SetIsLabeling E cache m true).1.repoLabels = labels ∧
    (SetIsLabeling E cache m true).1.ac.suggestions = GetLabelNames labels ∧
    (SetIsLabeling E cache m true).2 = some (.sequence [.blink, .focus]) ∧
    (∀ c, (SetIsLabeling E cache m true).2 = some c → c.fetches = 0) := by
  have hS : (SetIsLabeling E cache m true).2 = some (.sequence [.blink, .focus]) := by
    unfold SetIsLabeling
    simp only [h, if_true, hc]
  refine ⟨?_, ?_, hS, ?_⟩
  · unfold SetIsLabeling
    simp only [h, if_true, hc]
  · unfold SetIsLabeling
    simp only [h, if_true, hc]
    rfl
  · intro c hcmd
    rw [hS] at hcmd
    cases hcmd
    rfl

/-- C20 (witness): the repository `test/repo` has the labels `bug`, `ui` and
`wip` in the cache: entering Labeling offers them and returns the blink and
the focus only; with an empty cache the command holds the fetch. -/
theorem SetIsLabeling_cached_witness :
    (SetIsLabeling testEnv
      [("test/repo".toList, [⟨"bug".toList⟩, ⟨"ui".toList⟩, ⟨"wip".toList⟩])]
      (labeledModel ["bug", "ui"]) true).1.ac.suggestions =
        ["bug".toList, "ui".toList, "wip".toList] ∧
    (SetIsLabeling testEnv
      [("test/repo".toList, [⟨"bug".toList⟩, ⟨"ui".toList⟩, ⟨"wip".toList⟩])]
      (labeledModel ["bug", "ui"]) true).2 = some (.sequence [.blink, .focus]) ∧
    (SetIsLabeling testEnv [] (labeledModel ["bug", "ui"]) true).2 =
      some (.sequence [.batch [.widget 0, .fetchLabels (some "test/repo".toList)],
        .blink, .focus]) :=
  ⟨(SetIsLabeling_cached testEnv
      [("test/repo".toList, [⟨"bug".toList⟩, ⟨"ui".toList⟩, ⟨"wip".toList⟩])]
      (labeledModel ["bug", "ui"]) { Ctx := testCtx, Data := labeledIssueData ["bug", "ui"] }
      [⟨"bug".toList⟩, ⟨"ui".toList⟩, ⟨"wip".toList⟩] rfl (by decide)).2.1,
   (SetIsLabeling_cached testEnv
      [("test/repo".toList, [⟨"bug".toList⟩, ⟨"ui".toList⟩, ⟨"wip".toList⟩])]
      (labeledModel ["bug", "ui"]) { Ctx := testCtx, Data := labeledIssueData ["bug", "ui"] }
      [⟨"bug".toList⟩, ⟨"ui".toList⟩, ⟨"wip".toList⟩] rfl (by decide)).2.2.1,
   rfl⟩


/-! ## The label cache and the forced refresh -/

theorem GetCachedRepoLabels_clear_self (cache : LabelCache) (repoName : GoString) :
    GetCachedRepoLabels (ClearRepoLabelCache cache repoName) repoName = none := by
  unfold GetCachedRepoLabels ClearRepoLabelCache
  rw [Option.map_eq_none', List.find?_eq_none]
  intro e he
  have := (List.mem_filter.mp he).2
  simpa using this

theorem GetCachedRepoLabels_clear_other (cache : LabelCache) (repoName other : GoString)
    (h : other ≠ repoName) :
    GetCachedRepoLabels (ClearRepoLabelCache cache repoName) other =
      GetCachedRepoLabels cache other := by
  unfold GetCachedRepoLabels ClearRepoLabelCache
  congr 1
  induction cache with
  | nil => rfl
  | cons e t ih =>
    rw [List.filter_cons]
    by_cases he : e.1 = repoName
    · have hne : ¬ e.1 = other := fun h2 => h (h2.symm.trans he)
      have h1 : (!decide (e.1 = repoName)) = false := by simp [he]
      have h2 : decide (e.1 = other) = false := by simp [hne]
      rw [h1, if_neg (by simp), ih, List.find?_cons, h2]
    · have h1 : (!decide (e.1 = repoName)) = true := by simp [he]
      rw [h1, if_pos rfl, List.find?_cons, List.find?_cons, ih]

theorem fetchLabels_fetches (E : Env) (m : Model) :
    ∃ c, (fetchLabels E m).2 = some c ∧ c.fetches = 1 ∧ c.mutating = false := by
  unfold fetchLabels
  cases h : (E.SetFetchLoading m.ac).2 with
  | none =>
    refine ⟨.batch [.fetchLabels (m.issue.map (fun i => i.Data.RepoNameWithOwner))], ?_, rfl,
      rfl⟩
    simp [batchCmds, h]
  | some n =>
    refine ⟨.batch [.widget n, .fetchLabels (m.issue.map (fun i => i.Data.RepoNameWithOwner))],
      ?_, rfl, rfl⟩
    simp [batchCmds, h]

theorem forwardKey_fetches (E : Env) (cache : LabelCache) (m : Model) (k : KeyMsg) (c : Cmd)
    (hc : c.fetches = 1) :
    ∃ c', (forwardKey E cache m [some c] k).cmd = some c' ∧ c'.fetches = 1 := by
  unfold forwardKey
  cases h : (E.inputUpdate m.inputBox m.ac k).2.2 with
  | none =>
    refine ⟨.batch [c], ?_, ?_⟩
    · simp [batchCmds, h]
    · simp [Cmd.fetches, Cmd.fetches.sumFetches, hc]
  | some n =>
    refine ⟨.batch [c, .widget n], ?_, ?_⟩
    · simp [batchCmds, h]
    · simp [Cmd.fetches, Cmd.fetches.sumFetches, hc]

theorem updateLabeling_other (E : Env) (cache : LabelCache) (m : Model) (k : KeyMsg)
    (h1 : k.type ≠ .KeyCtrlD) (h2 : k.type ≠ .KeyEsc) (h3 : k.type ≠ .KeyCtrlC) :
    updateLabeling E cache m k =
      { forwardKey E
          (if Matches k E.RefreshSuggestionsKey then
            match m.issue with
            | some issue => ClearRepoLabelCache cache issue.Data.RepoNameWithOwner
            | none => cache
          else cache)
          (if Matches k E.RefreshSuggestionsKey then fetchLabels E m else (m, none)).1
          (if Matches k E.RefreshSuggestionsKey then
            [(if Matches k E.RefreshSuggestionsKey then fetchLabels E m else (m, none)).2]
          else []) k with
        model :=
          if E.labelAtCursor
              (E.GetCursorPosition (forwardKey E
                (if Matches k E.RefreshSuggestionsKey then
                  match m.issue with
                  | some issue => ClearRepoLabelCache cache issue.Data.RepoNameWithOwner
                  | none => cache
                else cache)
                (if Matches k E.RefreshSuggestionsKey then fetchLabels E m else (m, none)).1
                (if Matches k E.RefreshSuggestionsKey then
                  [(if Matches k E.RefreshSuggestionsKey then fetchLabels E m
                    else (m, none)).2]
                else []) k).model.inputBox)
              (forwardKey E
                (if Matches k E.RefreshSuggestionsKey then
                  match m.issue with
                  | some issue => ClearRepoLabelCache cache issue.Data.RepoNameWithOwner
                  | none => cache
                else cache)
                (if Matches k E.RefreshSuggestionsKey then fetchLabels E m else (m, none)).1
                (if Matches k E.RefreshSuggestionsKey then
                  [(if Matches k E.RefreshSuggestionsKey then fetchLabels E m
                    else (m, none)).2]
                else []) k).model.inputBox.value ≠
            E.labelAtCursor
              (E.GetCursorPosition
                (if Matches k E.RefreshSuggestionsKey then fetchLabels E m
                  else (m, none)).1.inputBox)
              (if Matches k E.RefreshSuggestionsKey then fetchLabels E m
                else (m, none)).1.inputBox.value then
            { (forwardKey E cache
                (if Matches k E.RefreshSuggestionsKey then fetchLabels E m else (m, none)).1
                [] k).model with
              ac := (forwardKey E cache
                (if Matches k E.RefreshSuggestionsKey then fetchLabels E m
                  else (m, none)).1 [] k).model.ac.Show E
                  (E.labelAtCursor
                    (E.GetCursorPosition (forwardKey E cache
                      (if Matches k E.RefreshSuggestionsKey then fetchLabels E m
                        else (m, none)).1 [] k).model.inputBox)
                    (forwardKey E cache
                      (if Matches k E.RefreshSuggestionsKey then fetchLabels E m
                        else (m, none)).1 [] k).model.inputBox.value)
                  (E.allLabels (forwardKey E cache
                      (if Matches k E.RefreshSuggestionsKey then fetchLabels E m
                        else (m, none)).1 [] k).model.inputBox.value) }
          else (forwardKey E cache
            (if Matches k E.RefreshSuggestionsKey then fetchLabels E m else (m, none)).1
            [] k).model } := by
  unfold updateLabeling
  split
  · exact absurd (by assumption) h1
  · exact absurd (by assumption) h2
  · exact absurd (by assumption) h3
  · rfl

/-- C21: for every prior state of the cache, a forced refresh in Labeling
evicts the cache entry of the repository of the issue, leaves the entries of
the other repositories, and returns a command that holds exactly one label
fetch. The forced refresh is the request for suggestions with `Force` set,
handled while `isLabeling` is set, or the refresh key handled in Labeling
mode (a key other than Ctrl+D, Esc and Ctrl+C, which `Update` tests
first). -/
theorem Update_forced_refresh (E : Env) (K : Constants) (cache : LabelCache) (m : Model)
    (issue : Issue) (hi : m.issue = some issue) :
    (m.isLabeling = true →
      GetCachedRepoLabels (Update E K cache m (.FetchSuggestionsRequestedMsg true)).cache
        issue.Data.RepoNameWithOwner = none ∧
      (∀ other, other ≠ issue.Data.RepoNameWithOwner →
        GetCachedRepoLabels (Update E K cache m (.FetchSuggestionsRequestedMsg true)).cache
          other = GetCachedRepoLabels cache other) ∧
      ∃ c, (Update E K cache m (.FetchSuggestionsRequestedMsg true)).cmd = some c ∧
        c.fetches = 1) ∧
    (∀ k : KeyMsg, mode m = .Labeling → Matches k E.RefreshSuggestionsKey = true →
      k.type ≠ .KeyCtrlD → k.type ≠ .KeyEsc → k.type ≠ .KeyCtrlC →
      GetCachedRepoLabels (Update E K cache m (.KeyMsg k)).cache
        issue.Data.RepoNameWithOwner = none ∧
      (∀ other, other ≠ issue.Data.RepoNameWithOwner →
        GetCachedRepoLabels (Update E K cache m (.KeyMsg k)).cache other =
          GetCachedRepoLabels cache other) ∧
      ∃ c, (Update E K cache m (.KeyMsg k)).cmd = some c ∧ c.fetches = 1) := by
  constructor
  · intro hl
    have hU : Update E K cache m (.FetchSuggestionsRequestedMsg true) =
        { model := (fetchLabels E m).1, cmd := (fetchLabels E m).2, action := none
          cache := ClearRepoLabelCache cache issue.Data.RepoNameWithOwner } := by
      simp only [Update, hl, if_true, hi]
    rw [hU]
    refine ⟨GetCachedRepoLabels_clear_self _ _,
      fun other ho => GetCachedRepoLabels_clear_other _ _ _ ho, ?_⟩
    obtain ⟨c, h1, h2, _⟩ := fetchLabels_fetches E m
    exact ⟨c, h1, h2⟩
  · intro k hm hk h1 h2 h3
    have hflags : m.isCommenting = false ∧ m.isLabeling = true := by
      revert hm
      unfold mode
      cases m.isCommenting <;> cases m.isLabeling <;> cases m.isAssigning <;>
        cases m.isUnassigning <;> cases m.isCommentNavMode <;> simp
    obtain ⟨c, hc1, hc2, _⟩ := fetchLabels_fetches E m
    have hU : Update E K cache m (.KeyMsg k) = updateLabeling E cache m k := by
      simp only [Update, hflags.1, hflags.2, Bool.false_eq_true, if_false, if_true]
    have hcache : (Update E K cache m (.KeyMsg k)).cache =
        ClearRepoLabelCache cache issue.Data.RepoNameWithOwner := by
      rw [hU, updateLabeling_other E cache m k h1 h2 h3]
      simp only [hk, if_true, hi]
      rfl
    have hcmd : (Update E K cache m (.KeyMsg k)).cmd =
        (forwardKey E (ClearRepoLabelCache cache issue.Data.RepoNameWithOwner)
          (fetchLabels E m).1 [some c] k).cmd := by
      rw [hU, updateLabeling_other E cache m k h1 h2 h3]
      simp only [hk, if_true, hi, hc1]
    rw [hcache, hcmd]
    exact ⟨GetCachedRepoLabels_clear_self _ _,
      fun other ho => GetCachedRepoLabels_clear_other _ _ _ ho,
      forwardKey_fetches E _ _ k c hc2⟩

/-- C21 (witness): the scenario C of the specification on the fixture: in
Labeling with a cache entry for `test/repo`, the forced request and the
refresh key `ctrl+f` evict the entry. -/
theorem Update_forced_refresh_witness :
    GetCachedRepoLabels [("test/repo".toList, [⟨"bug".toList⟩])] "test/repo".toList =
      some [⟨"bug".toList⟩] ∧
    GetCachedRepoLabels (Update testEnv testConstants [("test/repo".toList, [⟨"bug".toList⟩])]
      (SetIsLabeling testEnv [("test/repo".toList, [⟨"bug".toList⟩])]
        (labeledModel ["bug", "ui"]) true).1
      (.FetchSuggestionsRequestedMsg true)).cache "test/repo".toList = none ∧
    GetCachedRepoLabels (Update testEnv testConstants [("test/repo".toList, [⟨"bug".toList⟩])]
      (SetIsLabeling testEnv [("test/repo".toList, [⟨"bug".toList⟩])]
        (labeledModel ["bug", "ui"]) true).1
      (.KeyMsg (keyOf (.KeyOther (some "ctrl+f".toList))))).cache "test/repo".toList = none :=
  ⟨by decide,
   ((Update_forced_refresh testEnv testConstants [("test/repo".toList, [⟨"bug".toList⟩])]
      (SetIsLabeling testEnv [("test/repo".toList, [⟨"bug".toList⟩])]
        (labeledModel ["bug", "ui"]) true).1
      { Ctx := testCtx, Data := labeledIssueData ["bug", "ui"] } rfl).1 rfl).1,
   ((Update_forced_refresh testEnv testConstants [("test/repo".toList, [⟨"bug".toList⟩])]
      (SetIsLabeling testEnv [("test/repo".toList, [⟨"bug".toList⟩])]
        (labeledModel ["bug", "ui"]) true).1
      { Ctx := testCtx, Data := labeledIssueData ["bug", "ui"] } rfl).2
      (keyOf (.KeyOther (some "ctrl+f".toList))) (by decide) (by decide) (by decide)
      (by decide) (by decide)).1⟩

/-- C22: for every model, every cache and every error, the failure of a label
fetch changes the autocomplete only: the cache and the labels stored in the
model are as before, no mode flag, no confirmation flag and no selected index
changes, no action is returned, and the command holds no fetch and no
mutating command. -/
theorem Update_fetch_failed_frame (E : Env) (K : Constants) (cache : LabelCache) (m : Model)
    (err : GoString) :
    (Update E K cache m (.RepoLabelsFetchFailedMsg err)).cache = cache ∧
    (Update E K cache m (.RepoLabelsFetchFailedMsg err)).model =
      { m with ac := (E.SetFetchError m.ac err).1 } ∧
    (Update E K cache m (.RepoLabelsFetchFailedMsg err)).model.repoLabels = m.repoLabels ∧
    (Update E K cache m (.RepoLabelsFetchFailedMsg err)).model.isCommenting = m.isCommenting ∧
    (Update E K cache m (.RepoLabelsFetchFailedMsg err)).model.isLabeling = m.isLabeling ∧
    (Update E K cache m (.RepoLabelsFetchFailedMsg err)).model.isAssigning = m.isAssigning ∧
    (Update E K cache m (.RepoLabelsFetchFailedMsg err)).model.isUnassigning =
      m.isUnassigning ∧
    (Update E K cache m (.RepoLabelsFetchFailedMsg err)).model.isCommentNavMode =
      m.isCommentNavMode ∧
    (Update E K cache m (.RepoLabelsFetchFailedMsg err)).model.selectedCommentIndex =
      m.selectedCommentIndex ∧
    (Update E K cache m (.RepoLabelsFetchFailedMsg err)).action = none ∧
    (∀ c, (Update E K cache m (.RepoLabelsFetchFailedMsg err)).cmd = some c →
      c.fetches = 0 ∧ c.mutating = false) := by
  refine ⟨rfl, rfl, rfl, rfl, rfl, rfl, rfl, rfl, rfl, rfl, ?_⟩
  intro c hc
  simp only [Update] at hc
  cases h : (E.SetFetchError m.ac err).2 with
  | none => simp [h] at hc
  | some n =>
    simp [h] at hc
    subst hc
    exact ⟨rfl, rfl⟩

/-! ## The editor command and the submission -/

/-- C24: the editor is the value of `EDITOR` when it is not empty, else the
value of `VISUAL` when it is not empty, else `vi`; it is never the empty
string. -/
theorem getEditorCmd_spec (getenv : GoString → GoString) :
    (getenv "EDITOR".toList ≠ [] → getEditorCmd getenv = getenv "EDITOR".toList) ∧
    (getenv "EDITOR".toList = [] → getenv "VISUAL".toList ≠ [] →
      getEditorCmd getenv = getenv "VISUAL".toList) ∧
    (getenv "EDITOR".toList = [] → getenv "VISUAL".toList = [] →
      getEditorCmd getenv = "vi".toList) ∧
    getEditorCmd getenv ≠ [] := by
  unfold getEditorCmd
  refine ⟨?_, ?_, ?_, ?_⟩
  · intro h
    simp only []
    rw [if_pos h]
  · intro h1 h2
    simp only []
    rw [if_neg (not_not.mpr h1), if_pos h2]
  · intro h1 h2
    simp only []
    rw [if_neg (not_not.mpr h1), if_neg (not_not.mpr h2)]
  · simp only []
    split_ifs with h1 h2
    · exact h1
    · exact h2
    · decide


theorem digitChar_ne_minus (k : Nat) : Nat.digitChar k ≠ '-' := by
  by_cases h : k < 16
  · interval_cases k <;> decide
  · have hk : Nat.digitChar k = '*' := by
      unfold Nat.digitChar
      repeat rw [if_neg (by omega)]
    rw [hk]
    decide

theorem digitChar_inj_of_lt (a b : Nat) (ha : a < 10) (hb : b < 10)
    (h : Nat.digitChar a = Nat.digitChar b) : a = b := by
  interval_cases a <;> interval_cases b <;> first | rfl | (exfalso; revert h; decide)

theorem toDigitsCore_append (b fuel n : Nat) (ds : List Char) :
    Nat.toDigitsCore b fuel n ds = Nat.toDigitsCore b fuel n [] ++ ds := by
  induction fuel generalizing n ds with
  | zero => simp [Nat.toDigitsCore]
  | succ f ih =>
    simp only [Nat.toDigitsCore]
    split_ifs
    · simp
    · rw [ih (n / b) (Nat.digitChar (n % b) :: ds), ih (n / b) [Nat.digitChar (n % b)]]
      simp

theorem toDigitsCore_ne_nil (b fuel n : Nat) : Nat.toDigitsCore b (fuel + 1) n [] ≠ [] := by
  simp only [Nat.toDigitsCore]
  split_ifs
  · simp
  · rw [toDigitsCore_append]
    simp

theorem toDigitsCore_head_digit (b fuel n : Nat) (c : Char)
    (h : (Nat.toDigitsCore b (fuel + 1) n []).head? = some c) : ∃ k, c = Nat.digitChar k := by
  induction fuel generalizing n with
  | zero =>
    simp only [Nat.toDigitsCore] at h
    split_ifs at h
    · simp at h
      exact ⟨_, h.symm⟩
    · simp at h
      exact ⟨_, h.symm⟩
  | succ f ih =>
    rw [Nat.toDigitsCore] at h
    split_ifs at h
    · simp at h
      exact ⟨_, h.symm⟩
    · rw [toDigitsCore_append] at h
      have hne := toDigitsCore_ne_nil b f (n / b)
      rw [List.head?_append_of_ne_nil _ hne] at h
      exact ih _ h

theorem toDigitsCore_injective (fuel : Nat) :
    ∀ (fuel' n m : Nat), n < fuel → m < fuel' →
      Nat.toDigitsCore 10 fuel n [] = Nat.toDigitsCore 10 fuel' m [] → n = m := by
  induction fuel with
  | zero => intro _ n m hn; omega
  | succ f ih =>
    intro fuel' n m hn hm h
    obtain ⟨f', rfl⟩ : ∃ f', fuel' = f' + 1 := ⟨fuel' - 1, by omega⟩
    simp only [Nat.toDigitsCore] at h
    by_cases h1 : n / 10 = 0 <;> by_cases h2 : m / 10 = 0
    · simp only [h1, h2, if_true] at h
      have := digitChar_inj_of_lt _ _ (Nat.mod_lt n (by omega)) (Nat.mod_lt m (by omega))
        (List.head_eq_of_cons_eq h)
      omega
    · exfalso
      simp only [h1, h2, if_true, if_false] at h
      rw [toDigitsCore_append] at h
      obtain ⟨g, rfl⟩ : ∃ g, f' = g + 1 := ⟨f' - 1, by omega⟩
      have hne := toDigitsCore_ne_nil 10 g (m / 10)
      have hl := congrArg List.length h
      simp only [List.length_cons, List.length_nil, List.length_append,
        List.length_singleton] at hl
      have : 0 < (Nat.toDigitsCore 10 (g + 1) (m / 10) []).length :=
        List.length_pos.mpr hne
      omega
    · exfalso
      simp only [h1, h2, if_true, if_false] at h
      rw [toDigitsCore_append] at h
      obtain ⟨g, rfl⟩ : ∃ g, f = g + 1 := ⟨f - 1, by omega⟩
      have hne := toDigitsCore_ne_nil 10 g (n / 10)
      have hl := congrArg List.length h
      simp only [List.length_cons, List.length_nil, List.length_append,
        List.length_singleton] at hl
      have : 0 < (Nat.toDigitsCore 10 (g + 1) (n / 10) []).length :=
        List.length_pos.mpr hne
      omega
    · simp only [h1, h2, if_false] at h
      rw [toDigitsCore_append 10 f, toDigitsCore_append 10 f'] at h
      have hlen := congrArg List.length h
      simp only [List.length_append, List.length_singleton] at hlen
      obtain ⟨ha, hb⟩ := List.append_inj h (by omega)
      have hq := ih f' (n / 10) (m / 10) (by omega) (by omega) ha
      have hr := digitChar_inj_of_lt _ _ (Nat.mod_lt n (by omega)) (Nat.mod_lt m (by omega))
        (List.head_eq_of_cons_eq hb)
      omega

theorem toDigits_injective (n m : Nat) (h : Nat.toDigits 10 n = Nat.toDigits 10 m) : n = m :=
  toDigitsCore_injective (n + 1) (m + 1) n m (by omega) (by omega) h

theorem toDigits_head_ne_minus (n : Nat) (t : List Char) : Nat.toDigits 10 n ≠ '-' :: t := by
  intro h
  have hh : (Nat.toDigitsCore 10 (n + 1) n []).head? = some '-' := by
    show (Nat.toDigits 10 n).head? = some '-'
    rw [h]
    rfl
  obtain ⟨k, hk⟩ := toDigitsCore_head_digit 10 n n '-' hh
  exact digitChar_ne_minus k hk.symm

/-- The verb `%d` gives different texts for different numbers. -/
theorem formatInt_injective (a b : Int) (h : formatInt a = formatInt b) : a = b := by
  unfold formatInt at h
  split_ifs at h with ha hb hb
  · have := toDigits_injective _ _ (List.tail_eq_of_cons_eq h)
    omega
  · exact absurd h.symm (toDigits_head_ne_minus _ _)
  · exact absurd h (toDigits_head_ne_minus _ _)
  · have := toDigits_injective _ _ h
    omega

/-- The method `submitEditorComment` tests nothing: for every editor result,
also one with an empty body, it registers a task in the state `TaskStart`
under the task id and its command runs `gh` with the body after `-b`. -/
theorem submitEditorComment_always_submits (user : GoString)
    (msg : editorCommentFinishedMsg) :
    (submitEditorComment user msg).task.Id = taskId msg ∧
    (submitEditorComment user msg).task.State = .TaskStart ∧
    (submitEditorComment user msg).command =
      ["gh".toList, ghCmd msg, "comment".toList, formatInt msg.Number, "-R".toList,
        msg.RepoName, "-b".toList, msg.Body] :=
  ⟨rfl, rfl, rfl⟩

/-- C25 (failing input): the editor is closed with the temp file left as it
was written for the issue 42 of `o/r`, the header alone, or with blank lines
added under the header for the pull request 7. The exit callback gives a
result with the empty body, and `submitEditorComment` on that result
registers the task, in the state `TaskStart`, and runs `gh` with the empty
body after `-b`: the header says `Leave empty to cancel`. -/
theorem submitEditorComment_empty_body :
    editorExit 42 "o/r".toList false 0 [] none (some (editorHeader false 42 "o/r".toList)) =
      .Finished { Body := [], Number := 42, RepoName := "o/r".toList, IsPR := false
                  SectionId := 0, SectionType := [] } ∧
    (submitEditorComment "me".toList
      { Body := [], Number := 42, RepoName := "o/r".toList, IsPR := false
        SectionId := 0, SectionType := [] }).task =
      { Id := "editor_issue_comment_42".toList
        StartText := "Commenting on issue #42".toList
        FinishedText := "Commented on issue #42".toList
        State := .TaskStart
        Error := none } ∧
    (submitEditorComment "me".toList
      { Body := [], Number := 42, RepoName := "o/r".toList, IsPR := false
        SectionId := 0, SectionType := [] }).command =
      ["gh".toList, "issue".toList, "comment".toList, "42".toList, "-R".toList, "o/r".toList,
        "-b".toList, []] ∧
    editorExit 7 "o/r".toList true 0 [] none
        (some (editorHeader true 7 "o/r".toList ++ "\n  \n\t\n".toList)) =
      .Finished { Body := [], Number := 7, RepoName := "o/r".toList, IsPR := true
                  SectionId := 0, SectionType := [] } ∧
    (submitEditorComment "me".toList
      { Body := [], Number := 7, RepoName := "o/r".toList, IsPR := true
        SectionId := 0, SectionType := [] }).task.State = .TaskStart ∧
    (submitEditorComment "me".toList
      { Body := [], Number := 7, RepoName := "o/r".toList, IsPR := true
        SectionId := 0, SectionType := [] }).command =
      ["gh".toList, "pr".toList, "comment".toList, "7".toList, "-R".toList, "o/r".toList,
        "-b".toList, []] := by
  refine ⟨by decide, by decide, by decide, by decide, by decide, by decide⟩

/-- C26: the task id of a submission is the text `editor_`, `pr` or `issue`,
`_comment_` and the number: two submissions have the same task id exactly
when they are of the same kind and on the same number, whatever their body,
repository and section; the task registered and the finished message carry
that id. -/
theorem taskId_spec (user : GoString) (a b : editorCommentFinishedMsg) :
    (taskId a = taskId b ↔ a.IsPR = b.IsPR ∧ a.Number = b.Number) ∧
    (submitEditorComment user a).task.Id = taskId a ∧
    (∀ err now, ((submitEditorComment user a).finished err now).TaskId =
      (submitEditorComment user a).task.Id) := by
  refine ⟨⟨?_, ?_⟩, rfl, fun _ _ => rfl⟩
  · intro h
    unfold taskId ghCmd at h
    cases ha : a.IsPR <;> cases hb : b.IsPR <;>
      simp only [ha, hb, Bool.not_false, Bool.not_true, if_true, Bool.false_eq_true,
        if_false, List.append_assoc] at h
    · have h2 := List.append_cancel_left (List.append_cancel_left (List.append_cancel_left h))
      exact ⟨rfl, formatInt_injective _ _ h2⟩
    · exfalso
      have h2 := List.append_cancel_left h
      have h3 := congrArg List.head? h2
      simp at h3
    · exfalso
      have h2 := List.append_cancel_left h
      have h3 := congrArg List.head? h2
      simp at h3
    · have h2 := List.append_cancel_left (List.append_cancel_left (List.append_cancel_left h))
      exact ⟨rfl, formatInt_injective _ _ h2⟩
  · intro ⟨h1, h2⟩
    unfold taskId ghCmd
    rw [h1, h2]


/-! ## The discard confirmation across comment sessions -/

/-- C29 (failing input): on the fixture, a comment is started, Esc shows the
discard confirmation and Ctrl+D submits: `isCommenting` is false and
`ShowConfirmCancel` is still true. `SetIsCommenting(false)` in place of Ctrl+D
leaves the flag set as well. The next comment session starts with the
confirmation pending: its first key `y` ends the session instead of being
typed. -/
theorem ShowConfirmCancel_survives_submit :
    (run testEnv testConstants testCtx
      [.SetRow (some (testIssueData "https://github.com/test/repo/issues/1".toList [])),
       .SetIsCommenting true,
       .Update [] (.KeyMsg (keyOf .KeyEsc)),
       .Update [] (.KeyMsg (keyOf .KeyCtrlD))]).isCommenting = false ∧
    (run testEnv testConstants testCtx
      [.SetRow (some (testIssueData "https://github.com/test/repo/issues/1".toList [])),
       .SetIsCommenting true,
       .Update [] (.KeyMsg (keyOf .KeyEsc)),
       .Update [] (.KeyMsg (keyOf .KeyCtrlD))]).ShowConfirmCancel = true ∧
    (run testEnv testConstants testCtx
      [.SetRow (some (testIssueData "https://github.com/test/repo/issues/1".toList [])),
       .SetIsCommenting true,
       .Update [] (.KeyMsg (keyOf .KeyEsc)),
       .SetIsCommenting false]).ShowConfirmCancel = true ∧
    (run testEnv testConstants testCtx
      [.SetRow (some (testIssueData "https://github.com/test/repo/issues/1".toList [])),
       .SetIsCommenting true,
       .Update [] (.KeyMsg (keyOf .KeyEsc)),
       .Update [] (.KeyMsg (keyOf .KeyCtrlD)),
       .SetIsCommenting true]).ShowConfirmCancel = true ∧
    (run testEnv testConstants testCtx
      [.SetRow (some (testIssueData "https://github.com/test/repo/issues/1".toList [])),
       .SetIsCommenting true,
       .Update [] (.KeyMsg (keyOf .KeyEsc)),
       .Update [] (.KeyMsg (keyOf .KeyCtrlD)),
       .SetIsCommenting true,
       .Update [] (.KeyMsg (runesKey "y"))]).isCommenting = false ∧
    (run testEnv testConstants testCtx
      [.SetRow (some (testIssueData "https://github.com/test/repo/issues/1".toList [])),
       .SetIsCommenting true,
       .Update [] (.KeyMsg (runesKey "y"))]).isCommenting = true := by
  decide

/-! ## The selected index in comment navigation -/

theorem sameSelection_refl (m : Model) : sameSelection m m :=
  ⟨rfl, rfl, rfl⟩

theorem sameSelection_trans {a b c : Model} (h1 : sameSelection a b) (h2 : sameSelection b c) :
    sameSelection a c :=
  ⟨h2.1.trans h1.1, h2.2.1.trans h1.2.1, h2.2.2.trans h1.2.2⟩

theorem shouldCancelComment_sameSelection (E : Env) (K : Constants) (m : Model) :
    sameSelection m (shouldCancelComment E K m).1 := by
  unfold shouldCancelComment
  split_ifs <;> exact ⟨rfl, rfl, rfl⟩

theorem updateCommenting_sameSelection (E : Env) (K : Constants) (cache : LabelCache)
    (m : Model) (k : KeyMsg) : sameSelection m (updateCommenting E K cache m k).model := by
  have hs := shouldCancelComment_sameSelection E K m
  unfold updateCommenting
  split
  · exact ⟨rfl, rfl, rfl⟩
  · split_ifs
    · exact sameSelection_trans hs ⟨rfl, rfl, rfl⟩
    · exact ⟨rfl, rfl, rfl⟩
  · split_ifs
    · exact sameSelection_trans hs ⟨rfl, rfl, rfl⟩
    · exact ⟨rfl, rfl, rfl⟩
  · simp only []
    split_ifs <;> first
      | exact ⟨rfl, rfl, rfl⟩
      | exact hs

theorem updateLabeling_sameSelection (E : Env) (cache : LabelCache) (m : Model) (k : KeyMsg) :
    sameSelection m (updateLabeling E cache m k).model := by
  unfold updateLabeling
  split
  · exact ⟨rfl, rfl, rfl⟩
  · exact ⟨rfl, rfl, rfl⟩
  · exact ⟨rfl, rfl, rfl⟩
  · simp only []
    split_ifs <;> exact ⟨rfl, rfl, rfl⟩

theorem updateAssigning_sameSelection (E : Env) (cache : LabelCache) (m : Model) (k : KeyMsg) :
    sameSelection m (updateAssigning E cache m k).model := by
  unfold updateAssigning
  split <;> exact ⟨rfl, rfl, rfl⟩

theorem updateUnassigning_sameSelection (E : Env) (cache : LabelCache) (m : Model)
    (k : KeyMsg) : sameSelection m (updateUnassigning E cache m k).model := by
  unfold updateUnassigning
  split <;> exact ⟨rfl, rfl, rfl⟩

theorem updateBrowsing_sameSelection (E : Env) (cache : LabelCache) (m : Model) (k : KeyMsg) :
    sameSelection m (updateBrowsing E cache m k).model := by
  unfold updateBrowsing
  simp only []
  split_ifs <;> exact ⟨rfl, rfl, rfl⟩

/-- What `Update` does to the selection: nothing, or what `SelectNextComment`,
`SelectPrevComment` or `ExitCommentNavMode` does. -/
theorem Update_selection (E : Env) (K : Constants) (cache : LabelCache) (m : Model)
    (msg : Msg) :
    sameSelection m (Update E K cache m msg).model ∨
    (Update E K cache m msg).model = SelectNextComment m ∨
    (Update E K cache m msg).model = SelectPrevComment m ∨
    (Update E K cache m msg).model = ExitCommentNavMode m := by
  cases msg with
  | RepoLabelsFetchedMsg labels =>
    left
    simp only [Update]
    split_ifs <;> exact ⟨rfl, rfl, rfl⟩
  | RepoLabelsFetchFailedMsg err => exact Or.inl ⟨rfl, rfl, rfl⟩
  | FetchSuggestionsRequestedMsg force =>
    left
    simp only [Update]
    split_ifs <;> exact ⟨rfl, rfl, rfl⟩
  | TickMsg => exact Or.inl ⟨rfl, rfl, rfl⟩
  | ClearFetchStatusMsg => exact Or.inl ⟨rfl, rfl, rfl⟩
  | Other => exact Or.inl ⟨rfl, rfl, rfl⟩
  | KeyMsg k =>
    simp only [Update]
    split_ifs
    · exact Or.inl (updateCommenting_sameSelection E K cache m k)
    · exact Or.inl (updateLabeling_sameSelection E cache m k)
    · exact Or.inl (updateAssigning_sameSelection E cache m k)
    · exact Or.inl (updateUnassigning_sameSelection E cache m k)
    · unfold updateCommentNav
      split_ifs
      · exact Or.inr (Or.inl rfl)
      · exact Or.inr (Or.inr (Or.inl rfl))
      · exact Or.inl ⟨rfl, rfl, rfl⟩
      · exact Or.inr (Or.inr (Or.inr rfl))
      · exact Or.inl ⟨rfl, rfl, rfl⟩
    · exact Or.inl (updateBrowsing_sameSelection E cache m k)

theorem selectionInv_of_sameSelection {m r : Model} (h : sameSelection m r)
    (hm : selectionInv m) : selectionInv r := by
  obtain ⟨h1, h2, h3⟩ := h
  unfold selectionInv validSelection GetNumComments at *
  rw [h1, h2, h3]
  exact hm

theorem selectionInv_EnterCommentNavMode (m : Model) (hm : selectionInv m) :
    selectionInv (EnterCommentNavMode m) := by
  unfold EnterCommentNavMode
  simp only []
  split_ifs with h1 h2
  · exact hm
  · -- no comment was selected: the first one is
    have hN : GetNumComments m ≠ 0 := fun h => h1 (Or.inr h)
    have hv : validSelection
        { m with isCommentNavMode := true, selectedCommentIndex := 0 } := by
      unfold validSelection GetNumComments at *
      simp only []
      constructor
      · exact le_refl _
      · cases hi : m.issue with
        | none => simp [hi] at hN
        | some i =>
          simp only [hi] at hN ⊢
          omega
    exact ⟨Or.inr hv, fun _ => hv⟩
  · have hidx : ¬ m.selectedCommentIndex < 0 := h2
    have hv : validSelection m := by
      rcases hm.1 with h | h
      · omega
      · exact h
    have hv' : validSelection { m with isCommentNavMode := true } := hv
    exact ⟨Or.inr hv', fun _ => hv'⟩

theorem selectionInv_ExitCommentNavMode (m : Model) : selectionInv (ExitCommentNavMode m) :=
  ⟨Or.inl rfl, fun h => by simp [ExitCommentNavMode] at h⟩

theorem selectionInv_SelectNextComment (m : Model) (hm : selectionInv m) :
    selectionInv (SelectNextComment m) := by
  unfold SelectNextComment
  simp only []
  split_ifs with h1 h2
  · exact hm
  · have hv : validSelection { m with selectedCommentIndex := m.selectedCommentIndex + 1 } := by
      have hlow : -1 ≤ m.selectedCommentIndex := by
        rcases hm.1 with h | h
        · omega
        · exact le_trans (by decide) h.1
      unfold validSelection GetNumComments at *
      simp only [] at h2 ⊢
      constructor <;> omega
    exact ⟨Or.inr hv, fun _ => hv⟩
  · exact hm

theorem selectionInv_SelectPrevComment (m : Model) (hm : selectionInv m) :
    selectionInv (SelectPrevComment m) := by
  unfold SelectPrevComment
  split_ifs with h1 h2
  · have hv : validSelection { m with selectedCommentIndex := m.selectedCommentIndex - 1 } := by
      have hup : validSelection m := by
        rcases hm.1 with h | h
        · omega
        · exact h
      unfold validSelection GetNumComments at *
      simp only [] at hup ⊢
      constructor <;> omega
    exact ⟨Or.inr hv, fun _ => hv⟩
  · have hv : validSelection { m with selectedCommentIndex := 0 } := by
      unfold validSelection
      simp only []
      have : GetNumComments { m with selectedCommentIndex := 0 } = GetNumComments m := rfl
      rw [this]
      constructor
      · exact le_refl _
      · exact_mod_cast h2.2
    exact ⟨Or.inr hv, fun _ => hv⟩
  · exact hm

theorem selectionInv_SetRow (m : Model) (data : Option IssueData)
    (hk : (NavOp.SetRow data).keepsSelection m = true) (hm : selectionInv m) :
    selectionInv (SetRow m data) := by
  have hreset : ∀ r : Model, r.selectedCommentIndex = -1 → r.isCommentNavMode = false →
      selectionInv r :=
    fun r h1 h2 => ⟨Or.inl h1, fun h => by rw [h2] at h; cases h⟩
  unfold SetRow
  cases data with
  | none => exact hreset _ rfl rfl
  | some d =>
    cases hi : m.issue with
    | none =>
      simp only [hi, if_true]
      exact hreset _ rfl rfl
    | some i =>
      by_cases hu : i.Data.Url = d.Url
      · simp only [hi, hu, if_true, Bool.false_eq_true, if_false]
        simp only [NavOp.keepsSelection, hi, hu, if_true, decide_eq_true_eq] at hk
        have hv : validSelection m → validSelection { m with issue := some ⟨m.ctx, d⟩ } := by
          intro h
          unfold validSelection GetNumComments at *
          simp only []
          exact ⟨h.1, hk⟩
        refine ⟨?_, fun h => hv (hm.2 h)⟩
        rcases hm.1 with h | h
        · exact Or.inl h
        · exact Or.inr (hv h)
      · simp only [hi, hu, if_false, if_true]
        exact hreset _ rfl rfl

/-- One navigation operation that keeps the selection in range keeps the
invariant of the selection. -/
theorem selectionInv_step (E : Env) (K : Constants) (m : Model) (op : NavOp)
    (hk : op.keepsSelection m = true) (hm : selectionInv m) :
    selectionInv (op.apply E K m) := by
  cases op with
  | EnterCommentNavMode => exact selectionInv_EnterCommentNavMode m hm
  | ExitCommentNavMode => exact selectionInv_ExitCommentNavMode m
  | SelectNextComment => exact selectionInv_SelectNextComment m hm
  | SelectPrevComment => exact selectionInv_SelectPrevComment m hm
  | ResetCommentSelection =>
    simp only [NavOp.keepsSelection, Bool.not_eq_true'] at hk
    refine ⟨Or.inl rfl, fun h => ?_⟩
    simp only [NavOp.apply, ResetCommentSelection] at h
    rw [hk] at h
    cases h
  | SetRow data => exact selectionInv_SetRow m data hk hm
  | Update cache msg =>
    rcases Update_selection E K cache m msg with h | h | h | h
    · exact selectionInv_of_sameSelection h hm
    · simp only [NavOp.apply, h]
      exact selectionInv_SelectNextComment m hm
    · simp only [NavOp.apply, h]
      exact selectionInv_SelectPrevComment m hm
    · simp only [NavOp.apply, h]
      exact selectionInv_ExitCommentNavMode m

theorem selectionInv_foldl (E : Env) (K : Constants) (ops : List NavOp) (m : Model)
    (hk : keepSelection E K m ops = true) (hm : selectionInv m) :
    selectionInv (ops.foldl (NavOp.apply E K) m) := by
  induction ops generalizing m with
  | nil => exact hm
  | cons op ops ih =>
    simp only [keepSelection, Bool.and_eq_true] at hk
    rw [List.foldl_cons]
    exact ih _ hk.2 (selectionInv_step E K m op hk.1 hm)

/-- C30 (as amended): in every state reached from `NewModel` by the
navigation methods, `SetRow` and `Update`, when `ResetCommentSelection` is not
called in comment navigation and every `SetRow` with the URL of the current
issue brings more comments than the selected index, comment navigation
implies a valid selection: the issue is set and
`0 <= selectedCommentIndex < N`. Outside comment navigation the index is -1
or valid. -/
theorem nav_selection_valid (E : Env) (K : Constants) (ctx : ProgramContext)
    (ops : List NavOp) (hk : keepSelection E K (NewModel K ctx) ops = true) :
    ((runNav E K ctx ops).isCommentNavMode = true →
      (runNav E K ctx ops).issue ≠ none ∧
      0 ≤ (runNav E K ctx ops).selectedCommentIndex ∧
      (runNav E K ctx ops).selectedCommentIndex < (GetNumComments (runNav E K ctx ops) : Int)) ∧
    ((runNav E K ctx ops).selectedCommentIndex = -1 ∨
      (0 ≤ (runNav E K ctx ops).selectedCommentIndex ∧
       (runNav E K ctx ops).selectedCommentIndex <
        (GetNumComments (runNav E K ctx ops) : Int))) := by
  have hinv : selectionInv (runNav E K ctx ops) :=
    selectionInv_foldl E K ops (NewModel K ctx) hk
      ⟨Or.inl rfl, fun h => by simp [NewModel] at h⟩
  refine ⟨fun h => ?_, hinv.1⟩
  have hv := hinv.2 h
  refine ⟨?_, hv.1, hv.2⟩
  intro hnone
  have h0 : GetNumComments (runNav E K ctx ops) = 0 := by
    unfold GetNumComments
    rw [hnone]
  have := hv.2
  rw [h0] at this
  have := hv.1
  omega

/-- C30 (witness): the scenario A of the specification on the fixture: three
comments, comment navigation, two Next and a third one, then a refresh of the
same issue with its three comments: the index 2 is valid. -/
theorem nav_selection_valid_witness :
    (runNav testEnv testConstants testCtx
      [.SetRow (some (testIssueData "https://github.com/test/repo/issues/1".toList
          (testComments 0 0 3))),
       .EnterCommentNavMode, .SelectNextComment, .SelectNextComment, .SelectNextComment,
       .SetRow (some (testIssueData "https://github.com/test/repo/issues/1".toList
          (testComments 0 0 3)))]).selectedCommentIndex = 2 ∧
    (runNav testEnv testConstants testCtx
      [.SetRow (some (testIssueData "https://github.com/test/repo/issues/1".toList
          (testComments 0 0 3))),
       .EnterCommentNavMode, .SelectNextComment, .SelectNextComment, .SelectNextComment,
       .SetRow (some (testIssueData "https://github.com/test/repo/issues/1".toList
          (testComments 0 0 3)))]).selectedCommentIndex <
      (GetNumComments (runNav testEnv testConstants testCtx
        [.SetRow (some (testIssueData "https://github.com/test/repo/issues/1".toList
            (testComments 0 0 3))),
         .EnterCommentNavMode, .SelectNextComment, .SelectNextComment, .SelectNextComment,
         .SetRow (some (testIssueData "https://github.com/test/repo/issues/1".toList
            (testComments 0 0 3)))]) : Int) :=
  ⟨by decide,
   ((nav_selection_valid testEnv testConstants testCtx _ (by decide)).1 (by decide)).2.2⟩

/-- C30 (counterexample): on the fixture with three comments the last comment
is selected in comment navigation, and the issue is refreshed (same URL) with
one comment: comment navigation is active with the index 2 and one comment.
`ResetCommentSelection` in comment navigation leaves the index -1 with the
mode active. -/
theorem nav_selection_out_of_range :
    (runNav testEnv testConstants testCtx
      [.SetRow (some (testIssueData "https://github.com/test/repo/issues/1".toList
          (testComments 0 0 3))),
       .EnterCommentNavMode, .SelectNextComment, .SelectNextComment,
       .SetRow (some (testIssueData "https://github.com/test/repo/issues/1".toList
          (testComments 0 0 1)))]).isCommentNavMode = true ∧
    (runNav testEnv testConstants testCtx
      [.SetRow (some (testIssueData "https://github.com/test/repo/issues/1".toList
          (testComments 0 0 3))),
       .EnterCommentNavMode, .SelectNextComment, .SelectNextComment,
       .SetRow (some (testIssueData "https://github.com/test/repo/issues/1".toList
          (testComments 0 0 1)))]).selectedCommentIndex = 2 ∧
    GetNumComments (runNav testEnv testConstants testCtx
      [.SetRow (some (testIssueData "https://github.com/test/repo/issues/1".toList
          (testComments 0 0 3))),
       .EnterCommentNavMode, .SelectNextComment, .SelectNextComment,
       .SetRow (some (testIssueData "https://github.com/test/repo/issues/1".toList
          (testComments 0 0 1)))]) = 1 ∧
    (runNav testEnv testConstants testCtx
      [.SetRow (some (testIssueData "https://github.com/test/repo/issues/1".toList
          (testComments 0 0 3))),
       .EnterCommentNavMode, .ResetCommentSelection]).isCommentNavMode = true ∧
    (runNav testEnv testConstants testCtx
      [.SetRow (some (testIssueData "https://github.com/test/repo/issues/1".toList
          (testComments 0 0 3))),
       .EnterCommentNavMode, .ResetCommentSelection]).selectedCommentIndex = -1 := by
  decide


/-! ## The activity feed of an issue -/

theorem collectActivity_eq (comments : List IssueComment) :
    issueview.collectActivity comments =
      (comments.enum.map (fun p => indexedComment.mk p.1 p.2)).map
        (fun x => { UpdatedAt := x.comment.UpdatedAt, OriginalIndex := x.index
                    RenderedString := [] }) := by
  unfold issueview.collectActivity
  rw [foldl_append_singleton
    (fun p : Nat × IssueComment =>
      ({ UpdatedAt := p.2.UpdatedAt, OriginalIndex := p.1, RenderedString := [] } :
        issueview.RenderedActivity)) comments.enum []]
  rw [List.map_map, List.nil_append]
  rfl

/-- The sort of the feed and the sort of `GetSelectedComment` are the same
arrangement: the entries of the feed are those of the sorted comments, in the
same order. -/
theorem sortedActivity_eq (comments : List IssueComment) :
    issueview.sortedActivity goSlice comments =
      (goSlice indexedComment (fun x y => decide (x.comment.UpdatedAt < y.comment.UpdatedAt))
        (comments.enum.map (fun p => indexedComment.mk p.1 p.2))).map
        (fun x => { UpdatedAt := x.comment.UpdatedAt, OriginalIndex := x.index
                    RenderedString := [] }) := by
  unfold issueview.sortedActivity
  rw [collectActivity_eq]
  obtain ⟨r, hr, -, -⟩ := Slice_key_spec (fun x : indexedComment => x.comment.UpdatedAt)
    (comments.enum.map (fun p => indexedComment.mk p.1 p.2))
  have hmap := Slice_map
    (fun x : indexedComment =>
      ({ UpdatedAt := x.comment.UpdatedAt, OriginalIndex := x.index, RenderedString := [] } :
        issueview.RenderedActivity))
    (fun x y => decide (x.comment.UpdatedAt < y.comment.UpdatedAt))
    (fun x y => decide (x.UpdatedAt < y.UpdatedAt)) (fun _ _ => rfl)
    (comments.enum.map (fun p => indexedComment.mk p.1 p.2))
  simp only [goSlice]
  rw [hmap, hr]
  rfl

theorem indexed_mem_getElem? (comments : List IssueComment) (x : indexedComment)
    (h : x ∈ comments.enum.map (fun p => indexedComment.mk p.1 p.2)) :
    comments[x.index]? = some x.comment := by
  obtain ⟨p, hp, rfl⟩ := List.mem_map.mp h
  obtain ⟨i, c⟩ := p
  exact List.mk_mem_enum_iff_getElem?.mp hp

/-- C28: for every issue, with comments of equal update times or not, and
every selected index `k` below the number of comments, `GetSelectedComment`
returns a comment of the issue, and `renderActivity` calls `renderComment` on
that comment with `isSelected` true in its round `k`, and with `isSelected`
false in every other round: the two sorts give the same order. -/
theorem GetSelectedComment_matches_rendering (m : Model) (issue : Issue) (k : Nat)
    (hi : m.issue = some issue) (hk : k < issue.Data.Comments.length)
    (hs : m.selectedCommentIndex = (k : Int)) :
    ∃ c, GetSelectedComment goSlice m = some (some c) ∧
      c ∈ issue.Data.Comments ∧
      (issueview.sortedActivity goSlice issue.Data.Comments).length =
        issue.Data.Comments.length ∧
      (∃ a, (issueview.sortedActivity goSlice issue.Data.Comments)[k]? = some a ∧
        issueview.renderCall m issue.Data.Comments k a = some (c, true)) ∧
      ∀ j a, (issueview.sortedActivity goSlice issue.Data.Comments)[j]? = some a → j ≠ k →
        ∃ cj, issueview.renderCall m issue.Data.Comments j a = some (cj, false) := by
  obtain ⟨hperm, -⟩ := goSlice_sortsByKey indexedComment (fun x => x.comment.UpdatedAt)
    (issue.Data.Comments.enum.map (fun p => indexedComment.mk p.1 p.2))
  rw [sortedActivity_eq]
  generalize hsorted : goSlice indexedComment
    (fun x y => decide (x.comment.UpdatedAt < y.comment.UpdatedAt))
    (issue.Data.Comments.enum.map (fun p => indexedComment.mk p.1 p.2)) = sorted at hperm
  have hlen : sorted.length = issue.Data.Comments.length := by
    rw [hperm.length_eq, List.length_map, List.enum_length]
  have hmem : ∀ x ∈ sorted, issue.Data.Comments[x.index]? = some x.comment :=
    fun x hx => indexed_mem_getElem? _ x (hperm.subset hx)
  have hcall : ∀ j x, sorted[j]? = some x →
      issueview.renderCall m issue.Data.Comments j
        { UpdatedAt := x.comment.UpdatedAt, OriginalIndex := x.index, RenderedString := [] } =
        some (x.comment, decide (j = k)) := by
    intro j x hx
    have := hmem x (List.getElem?_mem hx)
    simp only [issueview.renderCall, this, hs, Nat.cast_inj]
  have hkk : k < sorted.length := by omega
  refine ⟨(sorted[k]).comment, ?_, ?_, ?_, ?_, ?_⟩
  · unfold GetSelectedComment
    simp only [hi, hs]
    rw [if_neg (by omega), if_neg (by omega)]
    simp only [Int.toNat_ofNat, hsorted, List.getElem?_eq_getElem hkk]
  · have := hmem _ (List.getElem_mem hkk)
    exact List.getElem?_mem this
  · rw [List.length_map, hlen]
  · refine ⟨issueview.RenderedActivity.mk (sorted[k]).comment.UpdatedAt (sorted[k]).index [],
      ?_, ?_⟩
    · rw [List.getElem?_map, List.getElem?_eq_getElem hkk]
      rfl
    · rw [hcall k _ (List.getElem?_eq_getElem hkk)]
      simp
  · intro j a ha hjk
    rw [List.getElem?_map] at ha
    obtain ⟨x, hx, rfl⟩ := Option.map_eq_some'.mp ha
    exact ⟨x.comment, by rw [hcall j x hx]; simp [hjk]⟩

/-- C28 (witness): thirteen comments, the second and the last with the same
update time, the index 2 selected: `GetSelectedComment` returns the comment of
`userm`, which the feed renders as selected in its round 2. -/
theorem GetSelectedComment_matches_rendering_witness :
    ∃ c, GetSelectedComment goSlice tieModel = some (some c) ∧
      c.Author.Login = "userm".toList ∧
      ∃ a, (issueview.sortedActivity goSlice (commentsWithTimes tieTimes))[2]? = some a ∧
        issueview.renderCall tieModel (commentsWithTimes tieTimes) 2 a = some (c, true) := by
  obtain ⟨c, h1, _, _, h4, _⟩ := GetSelectedComment_matches_rendering tieModel
    { Ctx := testCtx
      Data := testIssueData "https://github.com/test/repo/issues/1".toList
        (commentsWithTimes tieTimes) } 2 rfl (by decide) rfl
  refine ⟨c, h1, ?_, h4⟩
  have h2 : (GetSelectedComment goSlice tieModel).map
      (Option.map (fun c => c.Author.Login)) = some (some "userm".toList) := by decide
  rw [h1] at h2
  simpa using h2


theorem renderedActivities_eq (activity : List issueview.RenderedActivity) :
    issueview.renderedActivities activity = activity.map (fun a => a.RenderedString) := by
  unfold issueview.renderedActivities
  rw [foldl_append_singleton (fun a : issueview.RenderedActivity => a.RenderedString)
    activity []]
  rfl

theorem renderEntries_spec (R : IssueRenderer) (m : Model) (comments : List IssueComment)
    (l : List issueview.RenderedActivity) (i : Nat)
    (hcall : ∀ a ∈ l, ∀ j, (issueview.renderCall m comments j a).isSome = true) :
    ∃ activity, issueview.renderEntries R m comments i l = some activity ∧
      activity.length = l.length ∧
      ∀ j a, l[j]? = some a → ∀ call, issueview.renderCall m comments (i + j) a = some call →
        (issueview.renderComment R m call.1 call.2 = none → activity[j]? = some a) ∧
        (∀ s, issueview.renderComment R m call.1 call.2 = some s →
          activity[j]? = some { a with RenderedString := s }) := by
  induction l generalizing i with
  | nil => exact ⟨[], rfl, rfl, fun j a h => by simp at h⟩
  | cons a rest ih =>
    obtain ⟨rest', hr1, hr2, hr3⟩ := ih (i + 1)
      (fun b hb j => hcall b (List.mem_cons_of_mem _ hb) j)
    obtain ⟨call, hc⟩ := Option.isSome_iff_exists.mp (hcall a (List.mem_cons_self _ _) i)
    have hstep : ∀ x, issueview.renderEntry R m comments i a = some x →
        issueview.renderEntries R m comments i (a :: rest) = some (x :: rest') := by
      intro x hx
      simp only [issueview.renderEntries, hx, hr1]
    cases hren : issueview.renderComment R m call.1 call.2 with
    | none =>
      have he : issueview.renderEntry R m comments i a = some a := by
        simp only [issueview.renderEntry, hc, hren]
      refine ⟨a :: rest', hstep _ he, by simp [hr2], ?_⟩
      intro j b hb call' hc'
      cases j with
      | zero =>
        simp only [List.getElem?_cons_zero, Option.some.injEq] at hb
        subst hb
        rw [Nat.add_zero, hc] at hc'
        cases hc'
        exact ⟨fun _ => List.getElem?_cons_zero, fun s hs => by rw [hren] at hs; cases hs⟩
      | succ j =>
        simp only [List.getElem?_cons_succ] at hb ⊢
        exact hr3 j b hb call' (by rw [← hc']; congr 1; omega)
    | some s =>
      have he : issueview.renderEntry R m comments i a =
          some { a with RenderedString := s } := by
        simp only [issueview.renderEntry, hc, hren]
      refine ⟨_ :: rest', hstep _ he, by simp [hr2], ?_⟩
      intro j b hb call' hc'
      cases j with
      | zero =>
        simp only [List.getElem?_cons_zero, Option.some.injEq] at hb
        subst hb
        rw [Nat.add_zero, hc] at hc'
        cases hc'
        refine ⟨fun h => ?_, fun s' hs' => ?_⟩
        · rw [hren] at h
          cases h
        · rw [hren] at hs'
          cases hs'
          exact List.getElem?_cons_zero
      | succ j =>
        simp only [List.getElem?_cons_succ] at hb ⊢
        exact hr3 j b hb call' (by rw [← hc']; congr 1; omega)

/-- The feed of the issue view has one text for every comment of the issue,
whether it renders or not: the text of a comment whose rendering fails is the
empty string, that of a comment that renders is its rendering. It never
panics on an issue. -/
theorem issueview_feed_keeps_failed (R : IssueRenderer) (m : Model) (issue : Issue)
    (hi : m.issue = some issue) :
    ∃ activity, issueview.renderedActivity goSlice R m = some activity ∧
      (issueview.renderedActivities activity).length = issue.Data.Comments.length ∧
      ∀ j a, (issueview.sortedActivity goSlice issue.Data.Comments)[j]? = some a →
        ∃ call, issueview.renderCall m issue.Data.Comments j a = some call ∧
          (issueview.renderComment R m call.1 call.2 = none →
            (issueview.renderedActivities activity)[j]? = some []) ∧
          (∀ s, issueview.renderComment R m call.1 call.2 = some s →
            (issueview.renderedActivities activity)[j]? = some s) := by
  obtain ⟨hperm, -⟩ := goSlice_sortsByKey indexedComment (fun x => x.comment.UpdatedAt)
    (issue.Data.Comments.enum.map (fun p => indexedComment.mk p.1 p.2))
  have hsa := sortedActivity_eq issue.Data.Comments
  have hmem : ∀ a ∈ issueview.sortedActivity goSlice issue.Data.Comments,
      a.RenderedString = [] ∧
      ∀ j, (issueview.renderCall m issue.Data.Comments j a).isSome = true := by
    intro a ha
    rw [hsa] at ha
    obtain ⟨x, hx, rfl⟩ := List.mem_map.mp ha
    have := indexed_mem_getElem? _ x (hperm.subset hx)
    refine ⟨rfl, fun j => ?_⟩
    simp only [issueview.renderCall, this, Option.isSome_some]
  obtain ⟨activity, h1, h2, h3⟩ := renderEntries_spec R m issue.Data.Comments
    (issueview.sortedActivity goSlice issue.Data.Comments) 0 (fun a ha => (hmem a ha).2)
  have hlen : (issueview.sortedActivity goSlice issue.Data.Comments).length =
      issue.Data.Comments.length := by
    rw [hsa, List.length_map, hperm.length_eq, List.length_map, List.enum_length]
  refine ⟨activity, ?_, ?_, ?_⟩
  · simp only [issueview.renderedActivity, hi, h1]
  · rw [renderedActivities_eq, List.length_map, h2, hlen]
  · intro j a ha
    obtain ⟨call, hc⟩ := Option.isSome_iff_exists.mp ((hmem a (List.getElem?_mem ha)).2 j)
    have h := h3 j a ha call (by rw [Nat.zero_add]; exact hc)
    refine ⟨call, hc, ?_, ?_⟩
    · intro hn
      rw [renderedActivities_eq, List.getElem?_map, h.1 hn]
      simp [(hmem a (List.getElem?_mem ha)).1]
    · intro s hs
      rw [renderedActivities_eq, List.getElem?_map, h.2 s hs]
      rfl

/-- The feed of the pull request view holds the entries of the items that
rendered and no other: it is an arrangement, in ascending order of update
time, of the entries of the comments and of the reviews, where an item whose
rendering fails has none. -/
theorem prview_feed_omits_failed (R : PrRenderer) (m : PrModel) :
    (displayedActivities goSlice R m).Perm
      ((goSlice comment (fun x y => decide (x.UpdatedAt < y.UpdatedAt))
          (collectComments m.pr)).enum.filterMap (fun p => commentActivity R m p.1 p.2) ++
        m.pr.Reviews.filterMap (reviewActivity R m)) ∧
    (displayedActivities goSlice R m).Pairwise (fun a b => a.UpdatedAt ≤ b.UpdatedAt) := by
  have hdisp : displayedActivities goSlice R m =
      goSlice RenderedActivity (fun x y => decide (x.UpdatedAt < y.UpdatedAt))
        ((goSlice comment (fun x y => decide (x.UpdatedAt < y.UpdatedAt))
          (collectComments m.pr)).enum.filterMap (fun p => commentActivity R m p.1 p.2) ++
        m.pr.Reviews.filterMap (reviewActivity R m)) := by
    have h1 := foldl_appendRendered (fun p : Nat × comment => commentActivity R m p.1 p.2)
      (goSlice comment (fun x y => decide (x.UpdatedAt < y.UpdatedAt))
        (collectComments m.pr)).enum []
    have h2 := foldl_appendRendered (reviewActivity R m) m.pr.Reviews
      ((goSlice comment (fun x y => decide (x.UpdatedAt < y.UpdatedAt))
        (collectComments m.pr)).enum.filterMap (fun p => commentActivity R m p.1 p.2))
    simp only [List.nil_append] at h1
    simp only [displayedActivities, h1, h2]
  rw [hdisp]
  exact goSlice_sortsByKey RenderedActivity (fun a => a.UpdatedAt) _

/-- C23 (failing input): two comments, the first with a body whose rendering
fails. The feed of the pull request view has the entry of the second comment
only; the feed of the issue view has two texts, the first one empty. With the
failing comment alone, the pull request view shows the empty state and the
issue view an empty body under its title. -/
theorem issueview_failed_item_kept :
    (displayedActivities goSlice pickyPrRenderer (prWithComments badGoodComments)).map
      (fun a => a.RenderedString) = ["userb".toList] ∧
    (issueview.renderedActivity goSlice pickyRenderer (modelWithComments badGoodComments)).map
      issueview.renderedActivities = some [[], "userb".toList] ∧
    renderActivity goSlice pickyPrRenderer (prWithComments (badGoodComments.take 1)) =
      "No comments...".toList ∧
    issueview.renderActivity goSlice pickyRenderer
      (modelWithComments (badGoodComments.take 1)) = some " Comments\n".toList ∧
    issueview.renderActivity goSlice pickyRenderer (modelWithComments []) =
      some " Comments\nNo comments...".toList := by
  decide


/-! ## The scroll position of the selected comment -/

theorem isFloat64Rounding_id : IsFloat64Rounding (fun x => x) := by
  refine ⟨fun _ _ h => h, fun _ _ => rfl, fun x h1 _ => ?_⟩
  have hx : 0 ≤ x := le_trans (by positivity) h1
  have hu : (0 : ℚ) ≤ 1 / 2 ^ 53 := by positivity
  constructor
  · have := mul_nonneg hx hu
    linarith
  · have := mul_nonneg hx hu
    linarith

/-- The chain of the roundings, for factors `L` and `U` of the relative
error. -/
theorem scroll_chain (L U c3 c7 a q p s : ℚ) (hL : 0 ≤ L) (hLU : L ≤ U) (ha : 0 ≤ a)
    (hc3 : 3 / 10 * L ≤ c3 ∧ c3 ≤ 3 / 10 * U) (hc7 : 7 / 10 * L ≤ c7 ∧ c7 ≤ 7 / 10 * U)
    (hq : a * L ≤ q ∧ q ≤ a * U) (hp : c7 * q * L ≤ p ∧ p ≤ c7 * q * U)
    (hs : (c3 + p) * L ≤ s ∧ s ≤ (c3 + p) * U) :
    3 / 10 * L ^ 2 + 7 / 10 * a * L ^ 4 ≤ s ∧ s ≤ 3 / 10 * U ^ 2 + 7 / 10 * a * U ^ 4 := by
  have hU : 0 ≤ U := le_trans hL hLU
  have haL : 0 ≤ a * L := mul_nonneg ha hL
  have hc70 : 0 ≤ c7 := le_trans (by positivity) hc7.1
  have hq0 : 0 ≤ q := le_trans haL hq.1
  have h1 : 7 / 10 * L * (a * L) ≤ c7 * q := mul_le_mul hc7.1 hq.1 haL hc70
  have h2 : c7 * q ≤ 7 / 10 * U * (a * U) :=
    mul_le_mul hc7.2 hq.2 hq0 (by positivity)
  have h3 : 7 / 10 * L * (a * L) * L ≤ c7 * q * L := mul_le_mul_of_nonneg_right h1 hL
  have h4 : c7 * q * U ≤ 7 / 10 * U * (a * U) * U := mul_le_mul_of_nonneg_right h2 hU
  have h5 : (3 / 10 * L + 7 / 10 * L * (a * L) * L) * L ≤ (c3 + p) * L :=
    mul_le_mul_of_nonneg_right (by linarith [hc3.1, hp.1]) hL
  have h6 : (c3 + p) * U ≤ (3 / 10 * U + 7 / 10 * U * (a * U) * U) * U :=
    mul_le_mul_of_nonneg_right (by linarith [hc3.2, hp.2]) hU
  constructor
  · calc 3 / 10 * L ^ 2 + 7 / 10 * a * L ^ 4
        = (3 / 10 * L + 7 / 10 * L * (a * L) * L) * L := by ring
      _ ≤ (c3 + p) * L := h5
      _ ≤ s := hs.1
  · calc s ≤ (c3 + p) * U := hs.2
      _ ≤ (3 / 10 * U + 7 / 10 * U * (a * U) * U) * U := h6
      _ = 3 / 10 * U ^ 2 + 7 / 10 * a * U ^ 4 := by ring

/-- The bounds of the scroll position computed in `float64` for the index `k`
of `n` comments. -/
theorem scroll_bounds (fl : ℚ → ℚ) (fused : Bool) (hfl : IsFloat64Rounding fl) (k n : Nat) (hk : k < n)
    (hn : n ≤ 2 ^ 32) :
    3 / 10 * (1 - 1 / 2 ^ 53) ^ 2 + 7 / 10 * ((k : ℚ) / n) * (1 - 1 / 2 ^ 53) ^ 4 ≤
      scrollPercent fl fused ((k : Int) : ℚ) ((n : Nat) : ℚ) ∧
    scrollPercent fl fused ((k : Int) : ℚ) ((n : Nat) : ℚ) ≤
      3 / 10 * (1 + 1 / 2 ^ 53) ^ 2 + 7 / 10 * ((k : ℚ) / n) * (1 + 1 / 2 ^ 53) ^ 4 := by
  obtain ⟨hmono, hint, hrel⟩ := hfl
  have hnpos : (0 : ℚ) < n := by exact_mod_cast (by omega : 0 < n)
  have hnle : (n : ℚ) ≤ 2 ^ 32 := by exact_mod_cast hn
  -- the conversions are exact
  have hfk : fl ((k : Int) : ℚ) = (k : ℚ) := by
    rw [hint k (by
      have : (k : Int) ≤ 2 ^ 32 := by exact_mod_cast (by omega : k ≤ 2 ^ 32)
      rw [abs_of_nonneg (by positivity)]
      omega)]
    simp
  have hfn : fl ((n : Nat) : ℚ) = (n : ℚ) := by
    have := hint (n : Int) (by
      have : (n : Int) ≤ 2 ^ 32 := by exact_mod_cast hn
      rw [abs_of_nonneg (by positivity)]
      omega)
    simpa using this
  have hf0 : fl 0 = 0 := by
    have := hint 0 (by norm_num)
    simpa using this
  unfold scrollPercent
  simp only []
  rw [hfk, hfn]
  -- the factors of the relative error
  have hL1 : (1 / 2 : ℚ) ≤ 1 - 1 / 2 ^ 53 := by norm_num
  have hL2 : (1 - 1 / 2 ^ 53 : ℚ) ≤ 1 := by norm_num
  have hU1 : (1 : ℚ) ≤ 1 + 1 / 2 ^ 53 := by norm_num
  have hU2 : (1 + 1 / 2 ^ 53 : ℚ) ≤ 2 := by norm_num
  have hc3 := hrel (30 / 100) (by norm_num) (by norm_num)
  have hc7 := hrel (70 / 100) (by norm_num) (by norm_num)
  generalize (1 - 1 / 2 ^ 53 : ℚ) = L at *
  generalize (1 + 1 / 2 ^ 53 : ℚ) = U at *
  generalize fl (30 / 100) = c3 at *
  generalize fl (70 / 100) = c7 at *
  have hL0 : 0 ≤ L := by linarith
  have ha0 : (0 : ℚ) ≤ (k : ℚ) / n := by positivity
  have ha1 : (k : ℚ) / n ≤ 1 := by
    rw [div_le_one hnpos]
    exact_mod_cast hk.le
  have hc3' : 3 / 10 * L ≤ c3 ∧ c3 ≤ 3 / 10 * U :=
    ⟨by linarith [hc3.1], by linarith [hc3.2]⟩
  have hc7' : 7 / 10 * L ≤ c7 ∧ c7 ≤ 7 / 10 * U :=
    ⟨by linarith [hc7.1], by linarith [hc7.2]⟩
  have hc30 : 3 / 20 ≤ c3 := by linarith [hc3'.1]
  have hc31 : c3 ≤ 3 / 5 := by linarith [hc3'.2]
  have hc70 : 7 / 20 ≤ c7 := by linarith [hc7'.1]
  have hc71 : c7 ≤ 7 / 5 := by linarith [hc7'.2]
  by_cases hk0 : k = 0
  · -- the first comment: the quotient and the product are 0
    have ha : (k : ℚ) / n = 0 := by simp [hk0]
    rw [ha, hf0, mul_zero c7, hf0, add_zero, ite_self]
    have hs := hrel c3 (le_trans (by norm_num) hc30) (le_trans hc31 (by norm_num))
    have hs' : (c3 + 0) * L ≤ fl c3 ∧ fl c3 ≤ (c3 + 0) * U := by
      rw [add_zero]
      exact hs
    exact scroll_chain L U c3 c7 0 0 0 (fl c3) hL0 (by linarith) (le_refl _) hc3' hc7'
      ⟨by rw [zero_mul], by rw [zero_mul]⟩
      ⟨by rw [mul_zero, zero_mul], by rw [mul_zero, zero_mul]⟩ hs'
  · have hk1 : (1 : ℚ) ≤ k := by exact_mod_cast (by omega : 1 ≤ k)
    have halow : 1 / 2 ^ 32 ≤ (k : ℚ) / n := by
      rw [div_le_div_iff₀ (by positivity) hnpos]
      nlinarith
    generalize (k : ℚ) / n = a at *
    -- the quotient
    have hq := hrel a (le_trans (by norm_num) halow) (le_trans ha1 (by norm_num))
    generalize fl a = q at *
    have hq0 : 1 / 2 ^ 33 ≤ q := by
      have : a * (1 / 2) ≤ a * L := mul_le_mul_of_nonneg_left hL1 ha0
      linarith [hq.1]
    have hq1 : q ≤ 2 := by
      have : a * U ≤ 1 * 2 := mul_le_mul ha1 hU2 (by linarith) (by norm_num)
      linarith [hq.2]
    -- the product
    have hpr0 : 7 / 20 * (1 / 2 ^ 33) ≤ c7 * q :=
      mul_le_mul hc70 hq0 (by positivity) (by linarith)
    have hpr1 : c7 * q ≤ 7 / 5 * 2 := mul_le_mul hc71 hq1 (by linarith) (by norm_num)
    have hprod0 : 0 ≤ c7 * q := le_trans (by norm_num) hpr0
    cases fused
    · -- the product is rounded, then the sum
      simp only [Bool.false_eq_true, if_false]
      have hp := hrel (c7 * q) (le_trans (by norm_num) hpr0) (le_trans hpr1 (by norm_num))
      generalize fl (c7 * q) = p at *
      have hp0 : 0 ≤ p := by
        have : 0 ≤ c7 * q * L := mul_nonneg hprod0 hL0
        linarith [hp.1]
      have hp1 : p ≤ 7 / 5 * 2 * 2 := by
        have : c7 * q * U ≤ 7 / 5 * 2 * 2 := mul_le_mul hpr1 hU2 (by linarith) (by norm_num)
        linarith [hp.2]
      have hs := hrel (c3 + p) (le_trans (by norm_num) (by linarith : 3 / 20 ≤ c3 + p))
        (le_trans (by linarith : c3 + p ≤ 3 / 5 + 7 / 5 * 2 * 2) (by norm_num))
      exact scroll_chain L U c3 c7 a q p _ hL0 (by linarith) ha0 hc3' hc7' hq hp hs
    · -- the product and the sum are fused: the product is exact
      simp only [if_true]
      have hp : c7 * q * L ≤ c7 * q ∧ c7 * q ≤ c7 * q * U := by
        have h1 : c7 * q * L ≤ c7 * q * 1 := mul_le_mul_of_nonneg_left hL2 hprod0
        have h2 : c7 * q * 1 ≤ c7 * q * U := mul_le_mul_of_nonneg_left hU1 hprod0
        rw [mul_one] at h1 h2
        exact ⟨h1, h2⟩
      have hs := hrel (c3 + c7 * q)
        (le_trans (by norm_num) (by linarith : 3 / 20 ≤ c3 + c7 * q))
        (le_trans (by linarith : c3 + c7 * q ≤ 3 / 5 + 7 / 5 * 2) (by norm_num))
      exact scroll_chain L U c3 c7 a q (c7 * q) _ hL0 (by linarith) ha0 hc3' hc7' hq hp hs


theorem scroll_nonneg (fl : ℚ → ℚ) (fused : Bool) (hfl : IsFloat64Rounding fl) (i n : ℚ)
    (hi : 0 ≤ i) (hn : 0 ≤ n) : 0 ≤ scrollPercent fl fused i n := by
  obtain ⟨hmono, hint, -⟩ := hfl
  have hf0 : fl 0 = 0 := by
    have := hint 0 (by norm_num)
    simpa using this
  have pos : ∀ x : ℚ, 0 ≤ x → 0 ≤ fl x := fun x hx => hf0 ▸ hmono 0 x hx
  have hprod : 0 ≤ fl (70 / 100) * fl (fl i / fl n) :=
    mul_nonneg (pos _ (by norm_num)) (pos _ (div_nonneg (pos _ hi) (pos _ hn)))
  unfold scrollPercent
  simp only []
  split_ifs
  · exact pos _ (add_nonneg (pos _ (by norm_num)) hprod)
  · exact pos _ (add_nonneg (pos _ (by norm_num)) (pos _ hprod))

theorem scroll_lt_one (fl : ℚ → ℚ) (fused : Bool) (hfl : IsFloat64Rounding fl) (k n : Nat) (hk : k < n)
    (hn : n ≤ 2 ^ 32) :
    0 < scrollPercent fl fused ((k : Int) : ℚ) ((n : Nat) : ℚ) ∧
    scrollPercent fl fused ((k : Int) : ℚ) ((n : Nat) : ℚ) <
      1 := by
  obtain ⟨h1, h2⟩ := scroll_bounds fl fused hfl k n hk hn
  have hnpos : (0 : ℚ) < n := by exact_mod_cast (by omega : 0 < n)
  have hnle : (n : ℚ) ≤ 2 ^ 32 := by exact_mod_cast hn
  have ha0 : (0 : ℚ) ≤ (k : ℚ) / n := by positivity
  have ha1 : (k : ℚ) / n ≤ 1 - 1 / 2 ^ 32 := by
    have hk1 : (k : ℚ) + 1 ≤ n := by exact_mod_cast hk
    have hd : (1 : ℚ) / 2 ^ 32 ≤ 1 / n := one_div_le_one_div_of_le hnpos hnle
    have : (k : ℚ) / n ≤ 1 - 1 / n := by
      rw [div_le_iff₀ hnpos, sub_mul, one_mul, one_div, inv_mul_cancel₀ hnpos.ne']
      linarith
    linarith
  generalize scrollPercent fl fused ((k : Int) : ℚ) ((n : Nat) : ℚ) = s at *
  generalize (k : ℚ) / n = a at *
  have hL2 : (0 : ℚ) < (1 - 1 / 2 ^ 53) ^ 2 := by norm_num
  have hL4 : (0 : ℚ) ≤ (1 - 1 / 2 ^ 53) ^ 4 := by norm_num
  have hU2 : (1 + 1 / 2 ^ 53 : ℚ) ^ 2 ≤ 1 + 3 / 2 ^ 53 := by norm_num
  have hU4 : (1 + 1 / 2 ^ 53 : ℚ) ^ 4 ≤ 1 + 5 / 2 ^ 53 := by norm_num
  generalize (1 - 1 / 2 ^ 53 : ℚ) ^ 2 = L2 at *
  generalize (1 - 1 / 2 ^ 53 : ℚ) ^ 4 = L4 at *
  generalize (1 + 1 / 2 ^ 53 : ℚ) ^ 2 = U2 at *
  generalize (1 + 1 / 2 ^ 53 : ℚ) ^ 4 = U4 at *
  constructor
  · have : 0 ≤ 7 / 10 * a * L4 := by positivity
    linarith
  · have h3 : 7 / 10 * a * U4 ≤ 7 / 10 * a * (1 + 5 / 2 ^ 53) :=
      mul_le_mul_of_nonneg_left hU4 (by positivity)
    have h4 : 7 / 10 * a * (1 + 5 / 2 ^ 53) ≤
        7 / 10 * (1 - 1 / 2 ^ 32) * (1 + 5 / 2 ^ 53) :=
      mul_le_mul_of_nonneg_right (by linarith) (by norm_num)
    have h5 : (3 / 10 * (1 + 3 / 2 ^ 53) + 7 / 10 * (1 - 1 / 2 ^ 32) * (1 + 5 / 2 ^ 53) : ℚ) <
        1 := by norm_num
    linarith

theorem scroll_strict_mono (fl : ℚ → ℚ) (fused : Bool) (hfl : IsFloat64Rounding fl) (k k' n : Nat)
    (hkk : k < k') (hk : k' < n) (hn : n ≤ 2 ^ 32) :
    scrollPercent fl fused ((k : Int) : ℚ) ((n : Nat) : ℚ) <
    scrollPercent fl fused ((k' : Int) : ℚ) ((n : Nat) : ℚ) := by
  obtain ⟨-, h2⟩ := scroll_bounds fl fused hfl k n (by omega) hn
  obtain ⟨h1, -⟩ := scroll_bounds fl fused hfl k' n hk hn
  have hnpos : (0 : ℚ) < n := by exact_mod_cast (by omega : 0 < n)
  have hnle : (n : ℚ) ≤ 2 ^ 32 := by exact_mod_cast hn
  have ha0 : (0 : ℚ) ≤ (k : ℚ) / n := by positivity
  have ha1 : (k' : ℚ) / n ≤ 1 := by
    rw [div_le_one hnpos]
    exact_mod_cast hk.le
  have hstep : (k : ℚ) / n + 1 / 2 ^ 32 ≤ (k' : ℚ) / n := by
    have hk1 : (k : ℚ) + 1 ≤ k' := by exact_mod_cast hkk
    have hd : (1 : ℚ) / 2 ^ 32 ≤ 1 / n := one_div_le_one_div_of_le hnpos hnle
    have : (k : ℚ) / n + 1 / n ≤ (k' : ℚ) / n := by
      rw [← add_div]
      exact div_le_div_of_nonneg_right hk1 hnpos.le
    linarith
  generalize scrollPercent fl fused ((k : Int) : ℚ) ((n : Nat) : ℚ) = s at *
  generalize scrollPercent fl fused ((k' : Int) : ℚ) ((n : Nat) : ℚ) = s' at *
  generalize (k : ℚ) / n = a at *
  generalize (k' : ℚ) / n = a' at *
  have hL2 : (1 - 2 / 2 ^ 53 : ℚ) ≤ (1 - 1 / 2 ^ 53) ^ 2 := by norm_num
  have hL4 : (1 - 4 / 2 ^ 53 : ℚ) ≤ (1 - 1 / 2 ^ 53) ^ 4 := by norm_num
  have hU2 : (1 + 1 / 2 ^ 53 : ℚ) ^ 2 ≤ 1 + 3 / 2 ^ 53 := by norm_num
  have hU4 : (1 + 1 / 2 ^ 53 : ℚ) ^ 4 ≤ 1 + 5 / 2 ^ 53 := by norm_num
  generalize (1 - 1 / 2 ^ 53 : ℚ) ^ 2 = L2 at *
  generalize (1 - 1 / 2 ^ 53 : ℚ) ^ 4 = L4 at *
  generalize (1 + 1 / 2 ^ 53 : ℚ) ^ 2 = U2 at *
  generalize (1 + 1 / 2 ^ 53 : ℚ) ^ 4 = U4 at *
  have ha'0 : 0 ≤ a' := by linarith [(by norm_num : (0 : ℚ) ≤ 1 / 2 ^ 32)]
  have h3 : 7 / 10 * a * U4 ≤ 7 / 10 * a * (1 + 5 / 2 ^ 53) :=
    mul_le_mul_of_nonneg_left hU4 (by positivity)
  have h4 : 7 / 10 * a' * (1 - 4 / 2 ^ 53) ≤ 7 / 10 * a' * L4 :=
    mul_le_mul_of_nonneg_left hL4 (by positivity)
  -- what is left is linear in `a` and `a'`
  have h5 : 3 / 10 * (1 + 3 / 2 ^ 53) + 7 / 10 * a * (1 + 5 / 2 ^ 53) <
      3 / 10 * (1 - 2 / 2 ^ 53) + 7 / 10 * a' * (1 - 4 / 2 ^ 53) := by
    have ha_1 : a ≤ 1 := by linarith [(by norm_num : (0 : ℚ) ≤ 1 / 2 ^ 32)]
    have e1 : 7 / 10 * a * (1 + 5 / 2 ^ 53) = 7 / 10 * a + 7 / 10 * (5 / 2 ^ 53) * a := by ring
    have e2 : 7 / 10 * a' * (1 - 4 / 2 ^ 53) = 7 / 10 * a' - 7 / 10 * (4 / 2 ^ 53) * a' := by
      ring
    have b1 : 7 / 10 * (5 / 2 ^ 53) * a ≤ 7 / 10 * (5 / 2 ^ 53) * 1 :=
      mul_le_mul_of_nonneg_left ha_1 (by norm_num)
    have b2 : 7 / 10 * (4 / 2 ^ 53) * a' ≤ 7 / 10 * (4 / 2 ^ 53) * 1 :=
      mul_le_mul_of_nonneg_left ha1 (by norm_num)
    have b3 : (3 / 10 * (3 / 2 ^ 53) + 7 / 10 * (5 / 2 ^ 53) * 1 + 3 / 10 * (2 / 2 ^ 53) +
        7 / 10 * (4 / 2 ^ 53) * 1 : ℚ) < 7 / 10 * (1 / 2 ^ 32) := by norm_num
    rw [e1, e2]
    linarith
  linarith


theorem scroll_near_exact (fl : ℚ → ℚ) (fused : Bool) (hfl : IsFloat64Rounding fl) (k n : Nat) (hk : k < n)
    (hn : n ≤ 2 ^ 32) :
    |scrollPercent fl fused ((k : Int) : ℚ) ((n : Nat) : ℚ) -
      (3 / 10 + 7 / 10 * ((k : ℚ) / n))| ≤ 1 / 2 ^ 50 := by
  obtain ⟨h1, h2⟩ := scroll_bounds fl fused hfl k n hk hn
  have hnpos : (0 : ℚ) < n := by exact_mod_cast (by omega : 0 < n)
  have ha0 : (0 : ℚ) ≤ (k : ℚ) / n := by positivity
  have ha1 : (k : ℚ) / n ≤ 1 := by
    rw [div_le_one hnpos]
    exact_mod_cast hk.le
  generalize scrollPercent fl fused ((k : Int) : ℚ) ((n : Nat) : ℚ) = s at *
  generalize (k : ℚ) / n = a at *
  have hL2 : (1 - 2 / 2 ^ 53 : ℚ) ≤ (1 - 1 / 2 ^ 53) ^ 2 := by norm_num
  have hL4 : (1 - 4 / 2 ^ 53 : ℚ) ≤ (1 - 1 / 2 ^ 53) ^ 4 := by norm_num
  have hU2 : (1 + 1 / 2 ^ 53 : ℚ) ^ 2 ≤ 1 + 3 / 2 ^ 53 := by norm_num
  have hU4 : (1 + 1 / 2 ^ 53 : ℚ) ^ 4 ≤ 1 + 5 / 2 ^ 53 := by norm_num
  generalize (1 - 1 / 2 ^ 53 : ℚ) ^ 2 = L2 at *
  generalize (1 - 1 / 2 ^ 53 : ℚ) ^ 4 = L4 at *
  generalize (1 + 1 / 2 ^ 53 : ℚ) ^ 2 = U2 at *
  generalize (1 + 1 / 2 ^ 53 : ℚ) ^ 4 = U4 at *
  have h3 : 7 / 10 * a * U4 ≤ 7 / 10 * a * (1 + 5 / 2 ^ 53) :=
    mul_le_mul_of_nonneg_left hU4 (by positivity)
  have h4 : 7 / 10 * a * (1 - 4 / 2 ^ 53) ≤ 7 / 10 * a * L4 :=
    mul_le_mul_of_nonneg_left hL4 (by positivity)
  have e1 : 7 / 10 * a * (1 + 5 / 2 ^ 53) = 7 / 10 * a + 7 / 10 * (5 / 2 ^ 53) * a := by ring
  have e2 : 7 / 10 * a * (1 - 4 / 2 ^ 53) = 7 / 10 * a - 7 / 10 * (4 / 2 ^ 53) * a := by ring
  have b1 : 7 / 10 * (5 / 2 ^ 53) * a ≤ 7 / 10 * (5 / 2 ^ 53) * 1 :=
    mul_le_mul_of_nonneg_left ha1 (by norm_num)
  have b2 : 7 / 10 * (4 / 2 ^ 53) * a ≤ 7 / 10 * (4 / 2 ^ 53) * 1 :=
    mul_le_mul_of_nonneg_left ha1 (by norm_num)
  have b3 : (3 / 10 * (3 / 2 ^ 53) + 7 / 10 * (5 / 2 ^ 53) * 1 : ℚ) ≤ 1 / 2 ^ 50 := by norm_num
  have b4 : (3 / 10 * (2 / 2 ^ 53) + 7 / 10 * (4 / 2 ^ 53) * 1 : ℚ) ≤ 1 / 2 ^ 50 := by norm_num
  rw [e1] at h3
  rw [e2] at h4
  rw [abs_le]
  constructor <;> linarith

theorem GetCommentScrollPercent_eq (fl : ℚ → ℚ) (fused : Bool) (m : Model) (k : Nat)
    (hs : m.selectedCommentIndex = (k : Int)) (hk : k < GetNumComments m) :
    GetCommentScrollPercent fl fused m =
      scrollPercent fl fused ((k : Int) : ℚ) ((GetNumComments m : Nat) : ℚ) := by
  unfold GetCommentScrollPercent
  rw [if_neg (by rw [hs]; omega)]
  simp only []
  rw [if_neg (by omega), hs]

/-- C27: `GetCommentScrollPercent` returns -1 exactly when no comment is
selected (the index is negative) or the issue has no comments. Otherwise, for
`N` comments (at most `2^32`) and the selected index `k` below `N`, it returns
`0.30 + 0.70 * (k / N)` computed in `float64`: in exact arithmetic it is
`3/10 + 7/10 * (k / N)`, the `float64` value is within `2^-50` of it, lies
strictly between 0 and 1, and is strictly smaller than the value for every
greater index below `N`. -/
theorem GetCommentScrollPercent_spec (fl : ℚ → ℚ) (fused : Bool)
    (hfl : IsFloat64Rounding fl) (m : Model) :
    (GetCommentScrollPercent fl fused m = -1 ↔
      m.selectedCommentIndex < 0 ∨ GetNumComments m = 0) ∧
    (∀ k : Nat, m.selectedCommentIndex = (k : Int) → k < GetNumComments m →
      GetNumComments m ≤ 2 ^ 32 →
      GetCommentScrollPercent (fun x => x) fused m =
        3 / 10 + 7 / 10 * ((k : ℚ) / (GetNumComments m : ℚ)) ∧
      |GetCommentScrollPercent fl fused m -
        (3 / 10 + 7 / 10 * ((k : ℚ) / (GetNumComments m : ℚ)))| ≤ 1 / 2 ^ 50 ∧
      0 < GetCommentScrollPercent fl fused m ∧
      GetCommentScrollPercent fl fused m < 1 ∧
      ∀ (m' : Model) (k' : Nat), GetNumComments m' = GetNumComments m →
        m'.selectedCommentIndex = (k' : Int) → k < k' → k' < GetNumComments m →
        GetCommentScrollPercent fl fused m < GetCommentScrollPercent fl fused m') := by
  constructor
  · constructor
    · intro h
      by_contra hcon
      push_neg at hcon
      obtain ⟨h1, h2⟩ := hcon
      unfold GetCommentScrollPercent at h
      rw [if_neg (by omega)] at h
      simp only [] at h
      rw [if_neg h2] at h
      have := scroll_nonneg fl fused hfl (m.selectedCommentIndex : ℚ) (GetNumComments m : ℚ)
        (by exact_mod_cast h1) (by positivity)
      rw [h] at this
      norm_num at this
    · intro h
      unfold GetCommentScrollPercent
      rcases h with h | h
      · rw [if_pos h]
      · split_ifs
        · rfl
        · simp only [h]
          rfl
  · intro k hs hk hn
    refine ⟨?_, ?_, ?_, ?_, ?_⟩
    · rw [GetCommentScrollPercent_eq _ fused m k hs hk]
      unfold scrollPercent
      cases fused <;> norm_num
    · rw [GetCommentScrollPercent_eq fl fused m k hs hk]
      exact scroll_near_exact fl fused hfl k _ hk hn
    · rw [GetCommentScrollPercent_eq fl fused m k hs hk]
      exact (scroll_lt_one fl fused hfl k _ hk hn).1
    · rw [GetCommentScrollPercent_eq fl fused m k hs hk]
      exact (scroll_lt_one fl fused hfl k _ hk hn).2
    · intro m' k' hN hs' hkk hk'
      rw [GetCommentScrollPercent_eq fl fused m k hs hk,
        GetCommentScrollPercent_eq fl fused m' k' hs' (by omega), hN]
      exact scroll_strict_mono fl fused hfl k k' _ hkk hk' hn

/-- C27 (witness): the test `TestGetCommentScrollPercent` in exact arithmetic:
with four comments, the percent is -1 when none is selected, 3/10 for the
first comment and 19/40 for the second, more than for the first. -/
theorem GetCommentScrollPercent_spec_witness :
    GetCommentScrollPercent (fun x => x) false (newTestModelWithComments 4) = -1 ∧
    GetCommentScrollPercent (fun x => x) false (selectedModel 4 0) = 3 / 10 ∧
    GetCommentScrollPercent (fun x => x) false (selectedModel 4 1) = 19 / 40 ∧
    GetCommentScrollPercent (fun x => x) false (selectedModel 4 0) <
      GetCommentScrollPercent (fun x => x) false (selectedModel 4 1) := by
  have h := GetCommentScrollPercent_spec (fun x => x) false isFloat64Rounding_id
  have h4 : GetNumComments (selectedModel 4 0) = 4 := by decide
  have h4' : GetNumComments (selectedModel 4 1) = 4 := by decide
  have e0 := ((h (selectedModel 4 0)).2 0 rfl (by decide) (by decide)).1
  have e1 := ((h (selectedModel 4 1)).2 1 rfl (by decide) (by decide)).1
  rw [h4] at e0
  rw [h4'] at e1
  refine ⟨((h (newTestModelWithComments 4)).1).mpr (Or.inl (by decide)), ?_, ?_, ?_⟩
  · rw [e0]; norm_num
  · rw [e1]; norm_num
  · exact ((h (selectedModel 4 0)).2 0 rfl (by decide) (by decide)).2.2.2.2
      (selectedModel 4 1) 1 rfl rfl (by decide) (by decide)

/-! ## The totality of `GetSelectedComment` -/

/-- Under any sort that keeps the promise of `sort.Slice`, the sorted slice of
`GetSelectedComment` has the length of the comments, so that the test of the
index against the number of comments keeps the index inside it:
`GetSelectedComment` returns, and its result is nil exactly when no issue is
set or the index is negative or not below the number of comments; a result
that is not nil is a comment of the issue. -/
theorem GetSelectedComment_total_of_sortsByKey (sortSlice : SliceSort)
    (hs : SortsByKey sortSlice) (m : Model) :
    (∀ issue, m.issue = some issue →
      (sortSlice indexedComment (fun x y => decide (x.comment.UpdatedAt < y.comment.UpdatedAt))
        (issue.Data.Comments.enum.map (fun p => indexedComment.mk p.1 p.2))).length =
        GetNumComments m) ∧
    ∃ r, GetSelectedComment sortSlice m = some r ∧
      (r = none ↔ (m.issue = none ∨ m.selectedCommentIndex < 0 ∨
        (GetNumComments m : Int) ≤ m.selectedCommentIndex)) ∧
      ∀ c, r = some c → ∃ issue, m.issue = some issue ∧ c ∈ issue.Data.Comments := by
  have hlen : ∀ issue : Issue,
      (sortSlice indexedComment (fun x y => decide (x.comment.UpdatedAt < y.comment.UpdatedAt))
        (issue.Data.Comments.enum.map (fun p => indexedComment.mk p.1 p.2))).length =
        issue.Data.Comments.length := by
    intro issue
    rw [(hs indexedComment (fun x => x.comment.UpdatedAt) _).1.length_eq, List.length_map,
      List.enum_length]
  constructor
  · intro issue hi
    rw [hlen issue]
    unfold GetNumComments
    rw [hi]
  · cases hi : m.issue with
    | none =>
      refine ⟨none, ?_, ⟨fun _ => Or.inl rfl, fun _ => rfl⟩, fun c hc => by cases hc⟩
      unfold GetSelectedComment
      rw [hi]
    | some issue =>
      have hN : GetNumComments m = issue.Data.Comments.length := by
        unfold GetNumComments
        rw [hi]
      by_cases h1 : m.selectedCommentIndex < 0
      · refine ⟨none, ?_, ⟨fun _ => Or.inr (Or.inl h1), fun _ => rfl⟩, fun c hc => by cases hc⟩
        unfold GetSelectedComment
        rw [hi]
        exact if_pos h1
      · by_cases h2 : (issue.Data.Comments.length : Int) ≤ m.selectedCommentIndex
        · refine ⟨none, ?_, ⟨fun _ => Or.inr (Or.inr (by rw [hN]; exact h2)), fun _ => rfl⟩,
            fun c hc => by cases hc⟩
          unfold GetSelectedComment
          rw [hi]
          simp only []
          rw [if_neg h1, if_pos h2]
        · have hk : m.selectedCommentIndex.toNat <
              (sortSlice indexedComment
                (fun x y => decide (x.comment.UpdatedAt < y.comment.UpdatedAt))
                (issue.Data.Comments.enum.map (fun p => indexedComment.mk p.1 p.2))).length := by
            rw [hlen issue]
            omega
          have hx := List.getElem?_eq_getElem hk
          have hmem := (hs indexedComment (fun x => x.comment.UpdatedAt) _).1.subset
            (List.getElem_mem hk)
          obtain ⟨p, hp, hpe⟩ := List.mem_map.mp hmem
          refine ⟨some ((sortSlice indexedComment
                (fun x y => decide (x.comment.UpdatedAt < y.comment.UpdatedAt))
                (issue.Data.Comments.enum.map
                  (fun p => indexedComment.mk p.1 p.2)))[m.selectedCommentIndex.toNat]).comment,
            ?_, ?_, ?_⟩
          · unfold GetSelectedComment
            rw [hi]
            simp only []
            rw [if_neg h1, if_neg h2, hx]
          · constructor
            · intro h
              cases h
            · rintro (h | h | h)
              · cases h
              · exact absurd h h1
              · rw [hN] at h
                exact absurd h h2
          · intro c hc
            refine ⟨issue, rfl, ?_⟩
            rw [← Option.some.inj hc, ← hpe]
            exact List.getElem?_mem (List.mk_mem_enum_iff_getElem?.mp hp)

/-- C31: `GetSelectedComment` is total. For every model, whatever the selected
index (negative, in range, at or beyond the number of comments) and the issue
(set or not), the sorted slice has as many elements as the issue has comments
and the method returns without an index out of range. Its result is nil
exactly when no issue is set or the index is outside `[0, N-1]`, for `N` the
number of comments; otherwise it is a comment of the current issue. -/
theorem GetSelectedComment_total (m : Model) :
    (∀ issue, m.issue = some issue →
      (goSlice indexedComment (fun x y => decide (x.comment.UpdatedAt < y.comment.UpdatedAt))
        (issue.Data.Comments.enum.map (fun p => indexedComment.mk p.1 p.2))).length =
        GetNumComments m) ∧
    ∃ r, GetSelectedComment goSlice m = some r ∧
      (r = none ↔ (m.issue = none ∨ m.selectedCommentIndex < 0 ∨
        (GetNumComments m : Int) ≤ m.selectedCommentIndex)) ∧
      ∀ c, r = some c → ∃ issue, m.issue = some issue ∧ c ∈ issue.Data.Comments :=
  GetSelectedComment_total_of_sortsByKey goSlice goSlice_sortsByKey m

/-- The cases of the index on the fixture with three comments: the indices
-1, 3 and 7 give nil, the index 2 gives the comment of `user3`; with no
comments the index 0 gives nil, and so does any index when no issue is set. -/
theorem GetSelectedComment_index_cases :
    GetSelectedComment goSlice
      { newTestModelWithComments 3 with selectedCommentIndex := -1 } = some none ∧
    GetSelectedComment goSlice
      { newTestModelWithComments 3 with selectedCommentIndex := 3 } = some none ∧
    GetSelectedComment goSlice
      { newTestModelWithComments 3 with selectedCommentIndex := 7 } = some none ∧
    (GetSelectedComment goSlice
      { newTestModelWithComments 3 with selectedCommentIndex := 2 }).map
        (Option.map (fun c => c.Author.Login)) = some (some "user3".toList) ∧
    GetSelectedComment goSlice
      { newTestModelWithComments 0 with selectedCommentIndex := 0 } = some none ∧
    GetSelectedComment goSlice
      { NewModel testConstants testCtx with selectedCommentIndex := 1 } = some none := by
  decide

end GhDash
